import Mathlib

/-!
# h2incn: a shallow embedding of the scanner and its symbol table

The development follows `src/hashmap.c`, `src/hashmap.h`, `src/h2incn.c` and
`src/h2incn.h`.

Conventions of the embedding.

* A buffer is a `List Nat` of byte values; it stands for a NUL-terminated C
  buffer, so every position at or past the end of the list reads as `0`
  (`byteAt`). A pointer into the buffer is its index.
* `fwrite` to the shared output file appends to `World.out`; `printf` appends
  a line to `World.log`.
* The globals `options`, `pHeadersMap` and `pDefinesMap` are fields of
  `World`, which is threaded through every handler.
* `malloc` is taken to succeed.
* A loop that only walks a cursor to a stop byte is a structural scan
  (`scan`). Every other loop, and the recursion through `#include`, is driven
  by a fuel argument: `none` means that the fuel ran out before the C code
  left the loop, `some r` is the state in which the C function returns.
  A function never pays fuel for testing a loop condition, only for going
  round the loop again.
* The return value `1`/`0` of a handler is the `Bool` `true`/`false`.
-/

namespace H2incn

/-! ## Bytes, buffers, cursor scans -/

/-- The byte values of a string literal. -/
def bytes (s : String) : List Nat := s.toList.map Char.toNat

/-- The byte `*p` for `p = buffer + i`; the terminator and everything after the
end of the list read as `0`. -/
def byteAt : List Nat → Nat → Nat
  | [], _ => 0
  | b :: _, 0 => b
  | _ :: bs, i + 1 => byteAt bs i

/-- The `n` bytes `p[0..n)` for `p = buffer + i`, as `fwrite(p, 1, n, f)` or a
key/value span `(p, n)` reads them. -/
def slice (buf : List Nat) (i : Nat) : Nat → List Nat
  | 0 => []
  | n + 1 => byteAt buf i :: slice buf (i + 1) n

/-- Number of leading bytes of a list that satisfy `p`. -/
def scanList (p : Nat → Bool) : List Nat → Nat
  | [] => 0
  | b :: bs => if p b then scanList p bs + 1 else 0

/-- The loop `while (p(*t)) t++;` started at index `i`: the index at which it
stops. Every `p` used below is false at `0`, so the walk stops at the
terminator. -/
def scan (p : Nat → Bool) (buf : List Nat) (i : Nat) : Nat :=
  i + scanList p (buf.drop i)

/-- Test `!memcmp(p, pat, strlen(pat))` for `p = buffer + i`. -/
def startsWith (buf : List Nat) (i : Nat) (pat : List Nat) : Bool :=
  slice buf i pat.length == pat

/-- Test `(*c == ' ') || (*c == '\t')`. -/
def isBlank (c : Nat) : Bool := c == 32 || c == 9

/-- Test `(*c != 0) && (*c != '\r') && (*c != '\n')`. -/
def notEol (c : Nat) : Bool := c != 0 && c != 13 && c != 10

/-- Test `(*h == '/') && ((*(h+1) == '/') || (*(h+1) == '*'))`. -/
def isCommentOpener (buf : List Nat) (h : Nat) : Bool :=
  byteAt buf h == 47 && (byteAt buf (h + 1) == 47 || byteAt buf (h + 1) == 42)

/-! ## hashmap.c -/

/-- The loop of `hash16`: `sum1` is the `short int` accumulator (it never
exceeds 509, so it does not overflow), `sum2` the 32-bit unsigned one. -/
def hash16_loop : List Nat → Nat → Nat → Nat × Nat
  | [], sum1, sum2 => (sum1, sum2)
  | b :: bs, sum1, sum2 =>
    let sum1 := sum1 + b % 256
    let sum1 := if sum1 ≥ 255 then sum1 - 255 else sum1
    let sum2 := (sum2 + sum1) % 4294967296
    hash16_loop bs sum1 sum2

/-- The function `hash16(buf, len)` on the `len` bytes of the key. -/
def hash16 (key : List Nat) : Nat :=
  let r := hash16_loop key 0 0
  let sum2 := r.2 % 255
  ((sum2 <<< 8) % 4294967296) ||| r.1

/-- A `struct bst_node_t *`: `nil` is the null pointer, `node` a node with its
left subtree, key span, value span and right subtree (the parent link is the
position in the tree). -/
inductive bst_node_t where
  | nil : bst_node_t
  | node (left : bst_node_t) (key : List Nat) (value : List Nat) (right : bst_node_t) : bst_node_t
  deriving DecidableEq

/-- Test `node != 0` on a node pointer. -/
def bst_node_t.isNode : bst_node_t → Bool
  | .nil => false
  | .node _ _ _ _ => true

/-- Modelled from the spec: the key ordering of the bucket trees
(`bintree.asm` is not part of the sources), "byte-wise lexicographic
comparison of key". -/
def key_cmp : List Nat → List Nat → Ordering
  | [], [] => .eq
  | [], _ :: _ => .lt
  | _ :: _, [] => .gt
  | a :: as, b :: bs =>
    if a < b then .lt else if b < a then .gt else key_cmp as bs

/-- Modelled from the spec: `binarytree_alloc_node` of `bintree.asm`, a fresh
node holding the key and value spans, with no children. -/
def binarytree_alloc_node (key value : List Nat) : bst_node_t :=
  .node .nil key value .nil

/-- Modelled from the spec: `binarytree_find_node` of `bintree.asm`, the search
of an ordered binary tree under `key_cmp`; it returns the node found, or null. -/
def binarytree_find_node : bst_node_t → List Nat → bst_node_t
  | .nil, _ => .nil
  | .node l k v r, key =>
    match key_cmp key k with
    | .lt => binarytree_find_node l key
    | .gt => binarytree_find_node r key
    | .eq => .node l k v r

/-- Modelled from the spec: `binarytree_insert_node` of `bintree.asm`. The new
node is linked in as a leaf at its place in the ordering; a key that is already
present is neither rejected nor overwritten (the spec's open question), the
second node goes to the right of the first. Returns the error code `0` and
the new root. -/
def binarytree_insert_node : bst_node_t → List Nat → List Nat → Nat × bst_node_t
  | .nil, key, value => (0, binarytree_alloc_node key value)
  | .node l k v r, key, value =>
    match key_cmp key k with
    | .lt => ((binarytree_insert_node l key value).1, .node (binarytree_insert_node l key value).2 k v r)
    | _ => ((binarytree_insert_node r key value).1, .node l k v (binarytree_insert_node r key value).2)

/-- Leftmost node of a non-empty tree, as key and value, with the tree that
remains once it is unlinked. -/
def bst_take_min : bst_node_t → List Nat → List Nat → bst_node_t → (List Nat × List Nat) × bst_node_t
  | .nil, k, v, r => ((k, v), r)
  | .node ll lk lv lr, k, v, r =>
    ((bst_take_min ll lk lv lr).1, .node (bst_take_min ll lk lv lr).2 k v r)

/-- Modelled from the spec: `binarytree_delete_node` of `bintree.asm`, which
unlinks and releases the node holding the key. A node with two children is
replaced by its in-order successor. Returns `0` and the new root when a node
was removed; for an absent key the tree is unchanged and the code is `1`
(the spec leaves that code open, no caller reads it). -/
def binarytree_delete_node : bst_node_t → List Nat → Nat × bst_node_t
  | .nil, _ => (1, .nil)
  | .node l k v r, key =>
    match key_cmp key k with
    | .lt => ((binarytree_delete_node l key).1, .node (binarytree_delete_node l key).2 k v r)
    | .gt => ((binarytree_delete_node r key).1, .node l k v (binarytree_delete_node r key).2)
    | .eq =>
      match l, r with
      | .nil, _ => (0, r)
      | _, .nil => (0, l)
      | _, .node rl rk rv rr =>
        (0, .node l (bst_take_min rl rk rv rr).1.1 (bst_take_min rl rk rv rr).1.2
              (bst_take_min rl rk rv rr).2)

/-- Modelled from the spec: `binarytree_delete_tree` of `bintree.asm`, which
releases every node of a tree and leaves the root null. -/
def binarytree_delete_tree (_root : bst_node_t) : Nat × bst_node_t := (0, .nil)

/-- The constant `HASH_MAP_MAGIC`. -/
def HASH_MAP_MAGIC : Nat := 0x6d686470

/-- A `struct hash_map_t` together with the bucket slots allocated behind it:
`slots` are the `buckets + 1` root pointers that follow the header. -/
structure hash_map_t where
  magic : Nat
  buckets : Nat
  slots : List bst_node_t
  deriving DecidableEq

/-- The loop `while ((buckets & len) == 0) len = len >> 1;` of `hash_map_alloc`;
`fuel` bounds the 32 positions of `len`. -/
def find_uppermost_bit : Nat → Nat → Nat → Nat
  | 0, _, len => len
  | fuel + 1, buckets, len =>
    if buckets &&& len == 0 then find_uppermost_bit fuel buckets (len >>> 1) else len

/-- The function `hash_map_alloc(buckets)` for a 32-bit `buckets`; `none` is
the null pointer. -/
def hash_map_alloc (buckets : Nat) : Option hash_map_t :=
  if buckets == 0 then none
  else
    let buckets := if buckets > 0x8000 then 0x8000 else buckets
    let len := find_uppermost_bit 32 buckets (1 <<< 31)
    let len := len - 1
    let buckets := len
    some { magic := HASH_MAP_MAGIC, buckets := buckets,
           slots := List.replicate (buckets + 1) bst_node_t.nil }

/-- The bucket index `hash16(key, klen) & pHashMap->buckets`. -/
def bucket_index (m : hash_map_t) (key : List Nat) : Nat := hash16 key &&& m.buckets

/-- The root pointer `*root` of bucket `i`. -/
def bucket_root (m : hash_map_t) (i : Nat) : bst_node_t := m.slots.getD i .nil

/-- The function `hash_map_find(pHashMap, key, klen)`. -/
def hash_map_find (m : hash_map_t) (key : List Nat) : bst_node_t :=
  binarytree_find_node (bucket_root m (bucket_index m key)) key

/-- The store `*root = t` into bucket `i`. -/
def set_bucket (m : hash_map_t) (i : Nat) (t : bst_node_t) : hash_map_t :=
  { m with slots := m.slots.set i t }

/-- The function `hash_map_insert(pHashMap, key, klen, value, vlen)`: the error
code and the map afterwards. -/
def hash_map_insert (m : hash_map_t) (key value : List Nat) : Nat × hash_map_t :=
  let hash := bucket_index m key
  let node := binarytree_alloc_node key value
  match bucket_root m hash with
  | .nil => (0, set_bucket m hash node)
  | root =>
    ((binarytree_insert_node root key value).1,
     set_bucket m hash (binarytree_insert_node root key value).2)

/-- The function `hash_map_delete(pHashMap, key, klen)`: the error code and the
map afterwards. -/
def hash_map_delete (m : hash_map_t) (key : List Nat) : Nat × hash_map_t :=
  let hash := bucket_index m key
  ((binarytree_delete_node (bucket_root m hash) key).1,
   set_bucket m hash (binarytree_delete_node (bucket_root m hash) key).2)

/-! ## h2incn.h: options, parser state, and the state shared by all parsers -/

/-- The flags of `struct options_t` and the input file name; the other string
arguments are not read by the scanner. -/
structure options_t where
  pInFileName : List Nat := []
  fComments : Bool := false
  fCode : Bool := false
  fMacros : Bool := false
  fPreprocess : Bool := false
  fRecurse : Bool := false
  fVerbose : Bool := false
  deriving DecidableEq

/-- A `struct parser_t`: `pLine` and `pNextToken` are indices into
`pFileBuffer`. The link `pPrevParser` is passed to `h2incn_read` as an
argument, and `pOutFile` is `World.out`. -/
structure parser_t where
  pFileName : List Nat
  pFileBuffer : List Nat
  pLine : Nat
  pNextToken : Nat
  iLineNum : Nat
  deriving DecidableEq

/-- One line printed on standard output: the message, and the file name and
line number it is attributed to. -/
structure log_line where
  text : String
  file : List Nat
  line : Nat
  deriving DecidableEq

/-- The state outside any one parser: the global `options`, the two global
maps, the bytes written so far to the output file and the lines printed. -/
structure World where
  options : options_t
  pHeadersMap : hash_map_t
  pDefinesMap : hash_map_t
  out : List Nat
  log : List log_line
  deriving DecidableEq

/-- The call `fwrite(p, 1, n, parser->pOutFile)` with the bytes given. -/
def World.fwrite (w : World) (bs : List Nat) : World := { w with out := w.out ++ bs }

/-- The call `printf("(%s::%d) %s: %s\n", ...)` for a parser. -/
def World.printf (w : World) (p : parser_t) (text : String) : World :=
  { w with log := w.log ++ [{ text := text, file := p.pFileName, line := p.iLineNum }] }

/-- The result of a handler: the value returned, the parser and the shared state. -/
abbrev Result := Bool × parser_t × World

/-- The function `h2incn_print_err`: it cuts the current line with a NUL at its
end and prints the line and the message. -/
def h2incn_print_err (p : parser_t) (w : World) (errmsg : String) : parser_t × World :=
  let tail := scan notEol p.pFileBuffer p.pLine
  let p := { p with pFileBuffer := p.pFileBuffer.set tail 0 }
  (p, w.printf p errmsg)

/-- A handler's `h2incn_print_err(...); return 0;`. -/
def fail_with (p : parser_t) (w : World) (errmsg : String) : Result :=
  (false, (h2incn_print_err p w errmsg).1, (h2incn_print_err p w errmsg).2)

/-! ## h2incn_parse_comment -/

/-- The loop `while (*(tail-1) == '\\')` of the single-line branch of
`h2incn_parse_comment`, on `head`, `tail`, the parser and the shared state. -/
def comment_continuation :
    Nat → Nat → Nat → parser_t → World → Option (Nat × Nat × parser_t × World)
  | fuel, head, tail, p, w =>
    if byteAt p.pFileBuffer (tail - 1) == 92 then
      match fuel with
      | 0 => none
      | fuel + 1 =>
        let w := w.printf p "h2incn_parse_comment: warning: continuation character found in single-line comment"
        let w := if w.options.fComments then
            w.fwrite ([59] ++ slice p.pFileBuffer head (tail - head) ++ [10]) else w
        let tail := if byteAt p.pFileBuffer tail == 13 then tail + 1 else tail
        let p := if byteAt p.pFileBuffer tail == 10 then
            { p with pLine := tail + 1, pNextToken := tail + 1, iLineNum := p.iLineNum + 1 } else p
        let tail := if byteAt p.pFileBuffer tail == 10 then tail + 1 else tail
        let head := tail
        let tail := scan notEol p.pFileBuffer tail
        comment_continuation fuel head tail p w
    else some (head, tail, p, w)

/-- The loop `while (*tail != 0)` of the multi-line branch of
`h2incn_parse_comment`. The first argument is the buffer from `tail` on; the
result is `head`, `tail`, the parser and the shared state when the loop is
left, by its condition or by `break`. -/
def comment_block :
    List Nat → Nat → Nat → parser_t → World → Nat × Nat × parser_t × World
  | [], head, tail, p, w => (head, tail, p, w)
  | c :: rest, head, tail, p, w =>
    if c == 0 then (head, tail, p, w)
    else if c == 10 then
      let tail := tail + 1
      let p := { p with pLine := tail, iLineNum := p.iLineNum + 1 }
      let w := if w.options.fComments then
          w.fwrite ([59] ++ slice p.pFileBuffer head (tail - head)) else w
      comment_block rest tail tail p w
    else if c == 42 then
      if byteAt rest 0 == 47 then (head, tail + 1, p, w)
      else comment_block rest head (tail + 1) p w
    else comment_block rest head (tail + 1) p w

/-- The function `h2incn_parse_comment`. -/
def h2incn_parse_comment (fuel : Nat) (p : parser_t) (w : World) : Option Result :=
  let buf := p.pFileBuffer
  let head := p.pNextToken
  if byteAt buf head != 47 then
    some (fail_with p w "h2incn_parse_comment: comment expected")
  else
    let tail := head + 1
    if byteAt buf tail == 47 then
      /- assert: single-line comment -/
      let tail := scan notEol buf tail
      match comment_continuation fuel head tail p w with
      | none => none
      | some (head, tail, p, w) =>
        let tail := if byteAt buf tail == 13 then tail + 1 else tail
        let p := if byteAt buf tail == 10 then
            { p with iLineNum := p.iLineNum + 1, pLine := tail + 1 } else p
        let tail := if byteAt buf tail == 10 then tail + 1 else tail
        let w := if w.options.fComments then
            w.fwrite ([59] ++ slice buf head (tail - head)) else w
        let tail := scan isBlank buf tail
        some (true, { p with pNextToken := tail }, w)
    else if byteAt buf tail == 42 then
      /- assert: multi-line comment -/
      let tail := tail + 1
      match comment_block (buf.drop tail) head tail p w with
      | (head, tail, p, w) =>
        if byteAt buf tail != 47 then
          some (fail_with p w "h2incn_parse_comment: unterminated comment")
        else
          let tail := tail + 1
          if w.options.fComments then
            let w := w.fwrite ([59] ++ slice buf head (tail - head) ++ [10])
            let tail := scan isBlank buf tail
            some (true, { p with pNextToken := tail }, w)
          else
            let tail := scan isBlank buf tail
            let tail := if byteAt buf tail == 13 then tail + 1 else tail
            let p := if byteAt buf tail == 10 then
                { p with iLineNum := p.iLineNum + 1, pLine := tail + 1 } else p
            let tail := if byteAt buf tail == 10 then tail + 1 else tail
            let tail := scan isBlank buf tail
            some (true, { p with pNextToken := tail }, w)
    else
      some (fail_with p w "h2incn_parse_comment: comment expected")

/-! ## h2incn_parse_define -/

/-- A comment parsed with its output suppressed, as `h2incn_parse_define` does
it: `options.fComments` is saved, cleared for the call of
`h2incn_parse_comment` at `head`, and restored. -/
def parse_comment_silently (fuel : Nat) (head : Nat) (p : parser_t) (w : World) : Option Result :=
  let bComments := w.options.fComments
  let w := { w with options := { w.options with fComments := false } }
  let p := { p with pNextToken := head }
  match h2incn_parse_comment fuel p w with
  | none => none
  | some (bSuccess, p, w) =>
    some (bSuccess, p, { w with options := { w.options with fComments := bComments } })

/-- The first loop of `h2incn_parse_define`, `while (*head != 0)`, which skips
blanks and block comments in front of the name. `Sum.inl` is a `return` from
the handler out of the loop, `Sum.inr` the state when the loop is left. -/
def define_skip_to_name :
    Nat → Nat → parser_t → World → Option (Result ⊕ (Nat × parser_t × World))
  | fuel, head, p, w =>
    if byteAt p.pFileBuffer head != 0 then
      let head := scan isBlank p.pFileBuffer head
      if isCommentOpener p.pFileBuffer head then
        if byteAt p.pFileBuffer head == 47 && byteAt p.pFileBuffer (head + 1) == 47 then
          some (.inl (fail_with p w "h2incn_parse_define: error: define syntax"))
        else
          match parse_comment_silently fuel head p w with
          | none => none
          | some (false, p, w) => some (.inl (false, p, w))
          | some (true, p, w) =>
            match fuel with
            | 0 => none
            | fuel + 1 => define_skip_to_name fuel p.pNextToken p w
      else some (.inr (head, p, w))
    else some (.inr (head, p, w))

/-- The second loop of `h2incn_parse_define`, `while (*vhead != 0)`, which
skips blanks and comments of either kind in front of the value. -/
def define_skip_to_value :
    Nat → Nat → parser_t → World → Option (Result ⊕ (Nat × parser_t × World))
  | fuel, vhead, p, w =>
    if byteAt p.pFileBuffer vhead != 0 then
      let vhead := scan isBlank p.pFileBuffer vhead
      if isCommentOpener p.pFileBuffer vhead then
        match parse_comment_silently fuel vhead p w with
        | none => none
        | some (false, p, w) => some (.inl (false, p, w))
        | some (true, p, w) =>
          match fuel with
          | 0 => none
          | fuel + 1 => define_skip_to_value fuel p.pNextToken p w
      else some (.inr (vhead, p, w))
    else some (.inr (vhead, p, w))

/-- The inner loop `while (*vtail != 0)` of the continuation loop of
`h2incn_parse_define`. It tests `*(vhead+1)`, as the source does. -/
def define_continued_line :
    Nat → Nat → Nat → parser_t → World → Option (Result ⊕ (Nat × parser_t × World))
  | fuel, vhead, vtail, p, w =>
    if byteAt p.pFileBuffer vtail != 0 then
      let vtail := scan (fun c => c != 0 && c != 47 && c != 13 && c != 10) p.pFileBuffer vtail
      if byteAt p.pFileBuffer vtail == 47 &&
          (byteAt p.pFileBuffer (vhead + 1) == 47 || byteAt p.pFileBuffer (vhead + 1) == 42) then
        match parse_comment_silently fuel vtail p w with
        | none => none
        | some (false, p, w) => some (.inl (false, p, w))
        | some (true, p, w) =>
          match fuel with
          | 0 => none
          | fuel + 1 => define_continued_line fuel vhead p.pNextToken p w
      else
        match fuel with
        | 0 => none
        | fuel + 1 => define_continued_line fuel vhead (vtail + 1) p w
    else some (.inr (vtail, p, w))

/-- The loop `while (*(vtail-1) == '\\')` of `h2incn_parse_define`. -/
def define_continuation :
    Nat → Nat → Nat → parser_t → World → Option (Result ⊕ (Nat × parser_t × World))
  | fuel, vhead, vtail, p, w =>
    if byteAt p.pFileBuffer (vtail - 1) == 92 then
      let vtail := if byteAt p.pFileBuffer vtail == 13 then vtail + 1 else vtail
      let p := if byteAt p.pFileBuffer vtail == 10 then
          { p with iLineNum := p.iLineNum + 1 } else p
      let vtail := if byteAt p.pFileBuffer vtail == 10 then vtail + 1 else vtail
      match define_continued_line fuel vhead vtail p w with
      | none => none
      | some (.inl r) => some (.inl r)
      | some (.inr (vtail, p, w)) =>
        match fuel with
        | 0 => none
        | fuel + 1 => define_continuation fuel vhead vtail p w
    else some (.inr (vtail, p, w))

/-- The function `h2incn_parse_define`. -/
def h2incn_parse_define (fuel : Nat) (p : parser_t) (w : World) : Option Result :=
  let head := p.pNextToken
  let w := w.fwrite (bytes "%define ")
  let head := head + 8
  match define_skip_to_name fuel head p w with
  | none => none
  | some (.inl r) => some r
  | some (.inr (head, p, w)) =>
    let buf := p.pFileBuffer
    let tail := scan (fun c => c != 0 && c != 32 && c != 9 && c != 40 && c != 13 && c != 10) buf head
    let w := w.fwrite (slice buf head (tail - head))
    let w := if w.options.fPreprocess &&
        (hash_map_find w.pDefinesMap (slice buf head (tail - head))).isNode then
        w.printf p "h2incn_parse_define: warning: redefinition" else w
    let vhead := tail
    match define_skip_to_value fuel vhead p w with
    | none => none
    | some (.inl r) => some r
    | some (.inr (vhead, p, w)) =>
      let vtail := vhead
      let vtail := scan notEol buf vtail
      match define_continuation fuel vhead vtail p w with
      | none => none
      | some (.inl r) => some r
      | some (.inr (vtail, p, w)) =>
        let w := if vtail > vhead then
            (if byteAt buf vhead != 40 then w.fwrite [32] else w).fwrite
              (slice buf vhead (vtail - vhead))
          else w
        /- add this define to the DefinesMap -/
        let ins := hash_map_insert w.pDefinesMap (slice buf head (tail - head))
          (slice buf vhead (vtail - vhead))
        let w := { w with pDefinesMap := ins.2 }
        some (ins.1 == 0, { p with pNextToken := vtail }, w)

/-! ## The conditional handlers -/

/-- The loop `while ((*head != '\r') && (*head != '\n'))` shared, text for
text, by `h2incn_parse_if`, `h2incn_parse_ifdef`, `h2incn_parse_ifndef` and
`h2incn_parse_elif`. `Sum.inl` is a `return` out of the loop. -/
def conditional_loop :
    Nat → Nat → parser_t → World → Option (Result ⊕ (Nat × parser_t × World))
  | fuel, head, p, w =>
    if byteAt p.pFileBuffer head != 13 && byteAt p.pFileBuffer head != 10 then
      let tail := scan (fun c => c != 0 && c != 47 && c != 13 && c != 10) p.pFileBuffer head
      let w := if tail > head then w.fwrite (slice p.pFileBuffer head (tail - head)) else w
      let head := tail
      if isCommentOpener p.pFileBuffer head then
        /- parse inline comment -/
        let p := { p with pNextToken := head }
        let w := if w.options.fComments then w.fwrite [32] else w
        match h2incn_parse_comment fuel p w with
        | none => none
        | some (false, p, w) => some (.inl (false, p, w))
        | some (true, p, w) =>
          match fuel with
          | 0 => none
          | fuel + 1 => conditional_loop fuel p.pNextToken p w
      else
        match fuel with
        | 0 => none
        | fuel + 1 => conditional_loop fuel head p w
    else some (.inr (head, p, w))

/-- The common body of the four conditional handlers: `keyword` is the text
written first, `skip` the number of source bytes stepped over. -/
def parse_conditional (keyword : List Nat) (skip : Nat) (fuel : Nat) (p : parser_t) (w : World) :
    Option Result :=
  let head := p.pNextToken
  let w := w.fwrite keyword
  let head := head + skip
  let head := scan (fun c => c != 0 && (c == 32 || c == 9)) p.pFileBuffer head
  match conditional_loop fuel head p w with
  | none => none
  | some (.inl r) => some r
  | some (.inr (head, p, w)) => some (true, { p with pNextToken := head }, w)

/-- The function `h2incn_parse_if`. -/
def h2incn_parse_if := parse_conditional (bytes "%if ") 4

/-- The function `h2incn_parse_ifdef`. -/
def h2incn_parse_ifdef := parse_conditional (bytes "%ifdef ") 7

/-- The function `h2incn_parse_ifndef`. -/
def h2incn_parse_ifndef := parse_conditional (bytes "%ifndef ") 8

/-- The function `h2incn_parse_elif`. -/
def h2incn_parse_elif := parse_conditional (bytes "%elif ") 5

/-- The common body of `h2incn_parse_else` and `h2incn_parse_endif`. -/
def parse_else_endif (keyword : List Nat) (skip : Nat) (fuel : Nat) (p : parser_t) (w : World) :
    Option Result :=
  let buf := p.pFileBuffer
  let head := p.pNextToken
  let w := w.fwrite keyword
  let head := head + skip
  let head := scan (fun c => c != 0 && (c == 32 || c == 9)) buf head
  if isCommentOpener buf head then
    /- parse inline comment -/
    let p := { p with pNextToken := head }
    let w := if w.options.fComments then w.fwrite [32] else w
    h2incn_parse_comment fuel p w
  else
    let head := scan notEol buf head
    some (true, { p with pNextToken := head }, w)

/-- The function `h2incn_parse_else`. -/
def h2incn_parse_else := parse_else_endif (bytes "%else") 5

/-- The function `h2incn_parse_endif`. -/
def h2incn_parse_endif := parse_else_endif (bytes "%endif") 6

/-! ## h2incn_parse_undef -/

/-- The function `h2incn_parse_undef`. -/
def h2incn_parse_undef (p : parser_t) (w : World) : Result :=
  let buf := p.pFileBuffer
  let head := p.pNextToken
  let w := w.fwrite (bytes "%undef ")
  let head := head + 7
  let head := scan (fun c => c != 0 && (c == 32 || c == 9)) buf head
  let tail := scan
    (fun c => c != 0 && c != 32 && c != 9 && c != 47 && c != 40 && c != 13 && c != 10) buf head
  let w := w.fwrite (slice buf head (tail - head))
  /- remove this define from the DefinesMap -/
  let w := { w with pDefinesMap := (hash_map_delete w.pDefinesMap (slice buf head (tail - head))).2 }
  /- scan to eol or next token -/
  let tail := scan (fun c => c != 0 && (c == 32 || c == 9)) buf tail
  let w := if byteAt buf tail != 13 && byteAt buf tail != 10 then w.fwrite [32] else w
  (true, { p with pNextToken := tail }, w)

/-! ## h2incn_parse_include, h2incn_parse, h2incn_read, main -/

/-- The tail of `h2incn_parse_include` after the `if (options.fRecurse)`
statement: the rest of the directive line is stepped over. -/
def include_finish (bSuccess : Bool) (tail : Nat) (p : parser_t) (w : World) : Result :=
  let tail := scan (fun c => c != 0 && c != 10) p.pFileBuffer tail
  let p := if byteAt p.pFileBuffer tail == 10 then { p with iLineNum := p.iLineNum + 1 } else p
  let tail := if byteAt p.pFileBuffer tail == 10 then tail + 1 else tail
  (bSuccess, { p with pNextToken := tail }, w)

/-- The function `h2incn_parse_include`. Its first argument stands for the
call `h2incn_read(incparser)` with `incparser->pPrevParser = parser`: it is
given the including parser, the file name and the shared state, and returns
the including parser as well, since a failure to open is reported through it. -/
def h2incn_parse_include
    (read : parser_t → List Nat → World → Option Result)
    (p : parser_t) (w : World) : Option Result :=
  let buf := p.pFileBuffer
  let head := p.pNextToken
  let head := scan (fun c => c != 0 && c != 60 && c != 34 && c != 10) buf head
  if w.options.fRecurse then
    if byteAt buf head != 60 && byteAt buf head != 34 then
      some (fail_with p w "h2incn_parse_include: syntax error")
    else
      let head := head + 1
      let tail := scan (fun c => c != 0 && c != 62 && c != 34 && c != 10) buf head
      if byteAt buf tail != 34 && byteAt buf tail != 62 then
        some (fail_with p w "h2incn_parse_include: syntax error")
      else
        /- have we parsed this include header already? -/
        if (hash_map_find w.pHeadersMap (slice buf head (tail - head))).isNode then
          some (true, p, w)
        else
          /- add this header to the HeadersMap -/
          let w := { w with pHeadersMap :=
            (hash_map_insert w.pHeadersMap (slice buf head (tail - head)) []).2 }
          match read p (slice buf head (tail - head)) w with
          | none => none
          | some (bSuccess, p, w) => some (include_finish bSuccess tail p w)
  else
    some (include_finish true head p w)

/-- The part of `h2incn_read` around its call of `h2incn_parse`. `fs` is the
file system, `fs name = none` when `fopen` fails; `prev` is
`parser->pPrevParser`, the including parser (`none` for the root file), which
is returned as it is left. `parse` stands for `h2incn_parse`. The result is
the value returned, `prev`, and the shared state. When `fopen` fails for the
root file, the source hands `h2incn_print_err` the parser that `main` got from
`malloc` and never initialised (it tests its `pPrevParser` and walks from its
`pLine`): that call has no defined behaviour, and the model gives no result
for it. -/
def h2incn_read_with
    (parse : parser_t → World → Option Result)
    (fs : List Nat → Option (List Nat))
    (prev : Option parser_t) (pFileName : List Nat) (w : World) :
    Option (Bool × Option parser_t × World) :=
  match fs pFileName with
  | none =>
    match prev with
    | some q =>
      some (false, some (h2incn_print_err q w "h2incn_read: error opening file").1,
        (h2incn_print_err q w "h2incn_read: error opening file").2)
    | none => none
  | some content =>
    if content.length < 1 then
      some (false, prev, w.printf ⟨pFileName, [], 0, 0, 0⟩ "no data in file")
    else
      let parser : parser_t :=
        { pFileName := pFileName, pFileBuffer := content, pLine := 0, pNextToken := 0,
          iLineNum := 1 }
      match parse parser w with
      | none => none
      | some (bSuccess, _, w) => some (bSuccess, prev, w)

/-- The call `h2incn_read(incparser)` made by `h2incn_parse_include`, in the
shape that handler takes it. -/
def read_included
    (parse : parser_t → World → Option Result)
    (fs : List Nat → Option (List Nat))
    (p : parser_t) (pFileName : List Nat) (w : World) : Option Result :=
  match h2incn_read_with parse fs (some p) pFileName w with
  | none => none
  | some (bSuccess, prev, w) => some (bSuccess, prev.getD p, w)

/-- An unrecognised `#` line and a code line in `h2incn_parse`: both branches
have the same text. -/
def parse_other_line (head : Nat) (p : parser_t) (w : World) : parser_t × World :=
  let buf := p.pFileBuffer
  let tail := head
  let tail := scan notEol buf tail
  let tail := if byteAt buf tail == 13 then tail + 1 else tail
  let p := if byteAt buf tail == 10 then
      { p with iLineNum := p.iLineNum + 1, pLine := tail + 1 } else p
  let tail := if byteAt buf tail == 10 then tail + 1 else tail
  let w := if w.options.fCode then
      w.fwrite ([59] ++ slice buf head (tail - head)) else w
  ({ p with pNextToken := tail }, w)

/-- The handler call chosen by one round of the loop of `h2incn_parse` once
`head` is at a token: `read` stands for the nested `h2incn_read`. -/
def dispatch
    (read : parser_t → List Nat → World → Option Result)
    (fuel : Nat) (head : Nat) (p : parser_t) (w : World) : Option Result :=
  let buf := p.pFileBuffer
  if byteAt buf head == 35 then
    if startsWith buf head (bytes "#include ") then h2incn_parse_include read p w
    else if startsWith buf head (bytes "#define ") then h2incn_parse_define fuel p w
    else if startsWith buf head (bytes "#undef ") then some (h2incn_parse_undef p w)
    else if startsWith buf head (bytes "#if ") then h2incn_parse_if fuel p w
    else if startsWith buf head (bytes "#ifdef ") then h2incn_parse_ifdef fuel p w
    else if startsWith buf head (bytes "#ifndef ") then h2incn_parse_ifndef fuel p w
    else if startsWith buf head (bytes "#elif") then h2incn_parse_elif fuel p w
    else if startsWith buf head (bytes "#else") then h2incn_parse_else fuel p w
    else if startsWith buf head (bytes "#endif") then h2incn_parse_endif fuel p w
    else some (true, (parse_other_line head p w).1, (parse_other_line head p w).2)
  else if isCommentOpener buf head then
    h2incn_parse_comment fuel p w
  else
    some (true, (parse_other_line head p w).1, (parse_other_line head p w).2)

/-- The loop `while (*parser->pNextToken != 0)` of `h2incn_parse`, with the
`return bSuccess` that follows it. Each round of the loop takes one unit of
fuel, and the handlers and the nested files it runs get what is left. -/
def parse_loop (fs : List Nat → Option (List Nat)) : Nat → parser_t → World → Option Result
  | fuel, p, w =>
    if byteAt p.pFileBuffer p.pNextToken != 0 then
      match fuel with
      | 0 => none
      | fuel + 1 =>
        let buf := p.pFileBuffer
        /- skip leading space -/
        let head := scan isBlank buf p.pNextToken
        /- check for eol -/
        let tail := if byteAt buf head == 13 then head + 1 else head
        if byteAt buf tail == 10 then
          let tail := tail + 1
          let w := w.fwrite (slice buf head (tail - head))
          parse_loop fs fuel
            { p with iLineNum := p.iLineNum + 1, pNextToken := tail, pLine := tail } w
        else
          let p := { p with pNextToken := tail }
          let head := tail
          if byteAt buf head == 0 then some (true, p, w)
          else
            let parse (q : parser_t) (v : World) : Option Result :=
              parse_loop fs fuel q
                (if v.options.fVerbose then v.printf q "processing file" else v)
            match dispatch (read_included parse fs) fuel head p w with
            | none => none
            | some (false, p, w) => some (false, p, w)
            | some (true, p, w) => parse_loop fs fuel p w
    else some (true, p, w)

/-- The function `h2incn_parse`. -/
def h2incn_parse (fs : List Nat → Option (List Nat)) (fuel : Nat) (p : parser_t) (w : World) :
    Option Result :=
  parse_loop fs fuel p (if w.options.fVerbose then w.printf p "processing file" else w)

/-- The function `h2incn_read`. -/
def h2incn_read (fs : List Nat → Option (List Nat)) (fuel : Nat)
    (prev : Option parser_t) (pFileName : List Nat) (w : World) :
    Option (Bool × Option parser_t × World) :=
  h2incn_read_with (h2incn_parse fs fuel) fs prev pFileName w

/-- The function `main` after `parse_cmdln`, the output file open: the exit
status and the shared state at the end. -/
def main (fs : List Nat → Option (List Nat)) (fuel : Nat) (options : options_t) :
    Option (Nat × World) :=
  match hash_map_alloc 0x80, hash_map_alloc 0x8000 with
  | some pHeadersMap, some pDefinesMap =>
    let w : World :=
      { options := options, pHeadersMap := pHeadersMap, pDefinesMap := pDefinesMap,
        out := [], log := [] }
    match h2incn_read fs fuel none options.pInFileName w with
    | none => none
    | some (bSuccess, _, w) => some (if bSuccess == false then 1 else 0, w)
  | _, _ => some (1, ⟨options, ⟨0, 0, []⟩, ⟨0, 0, []⟩, [], []⟩)

/-! ## Specification vocabulary for the symbol table -/

/-- The key and value a node pointer carries, `none` for the null pointer. -/
def bst_node_t.entry : bst_node_t → Option (List Nat × List Nat)
  | .nil => none
  | .node _ k v _ => some (k, v)

/-- The key/value pairs held by a tree, in in-order. -/
def bst_entries : bst_node_t → List (List Nat × List Nat)
  | .nil => []
  | .node l k v r => bst_entries l ++ (k, v) :: bst_entries r

/-- A tree is ordered when its in-order keys strictly increase under
`key_cmp`; an ordered tree holds no key twice. -/
def bst_ordered (t : bst_node_t) : Prop :=
  (bst_entries t).Pairwise (fun e f => key_cmp e.1 f.1 = .lt)

/-- A well-formed table: it has `buckets + 1` slots, every bucket tree is
ordered, and every key sits in the bucket its hash selects. -/
def map_wf (m : hash_map_t) : Prop :=
  m.slots.length = m.buckets + 1 ∧
  ∀ i, i < m.slots.length →
    bst_ordered (bucket_root m i) ∧
    ∀ e ∈ bst_entries (bucket_root m i), bucket_index m e.1 = i

/-- The table holds the pair `key -> value`. -/
def map_has (m : hash_map_t) (key value : List Nat) : Prop :=
  (key, value) ∈ bst_entries (bucket_root m (bucket_index m key))

/-- A run of `hash_map_insert` calls, in list order. -/
def insert_all : hash_map_t → List (List Nat × List Nat) → hash_map_t
  | m, [] => m
  | m, kv :: rest => insert_all (hash_map_insert m kv.1 kv.2).2 rest

/-- A run of `hash_map_delete` calls, in list order. -/
def delete_all : hash_map_t → List (List Nat) → hash_map_t
  | m, [] => m
  | m, k :: rest => delete_all (hash_map_delete m k).2 rest

/-- A run of `binarytree_insert_node` calls on one root, in list order. -/
def tree_insert_all : bst_node_t → List (List Nat × List Nat) → bst_node_t
  | t, [] => t
  | t, kv :: rest => tree_insert_all (binarytree_insert_node t kv.1 kv.2).2 rest

/-- A run of `binarytree_delete_node` calls on one root, in list order. -/
def tree_delete_all : bst_node_t → List (List Nat) → bst_node_t
  | t, [] => t
  | t, k :: rest => tree_delete_all (binarytree_delete_node t k).2 rest

/-! ## The test `binarytree_test` of h2incn.c -/

/-- The loop of `binarytree_test` over `pdelchars`: every key is found,
deleted with code 0, and then no longer found. -/
def binarytree_test_deletes : bst_node_t → List Nat → Bool
  | _, [] => true
  | root, c :: rest =>
    if !(binarytree_find_node root [c]).isNode then false
    else if (binarytree_delete_node root [c]).1 != 0 then false
    else if (binarytree_find_node (binarytree_delete_node root [c]).2 [c]).isNode then false
    else binarytree_test_deletes (binarytree_delete_node root [c]).2 rest

/-- The loop of `binarytree_test` that inserts the one-byte keys of `pchars`
after the first; `none` when an insert reports an error. -/
def binarytree_test_inserts : bst_node_t → List Nat → Option bst_node_t
  | root, [] => some root
  | root, c :: rest =>
    if (binarytree_insert_node root [c] []).1 != 0 then none
    else binarytree_test_inserts (binarytree_insert_node root [c] []).2 rest

/-- The function `binarytree_test` of `h2incn.c` (compiled under
`BINTREE_TEST`), for given `pchars` and `pdelchars`. -/
def binarytree_test_on (pchars pdelchars : List Nat) : Bool :=
  match binarytree_test_inserts (binarytree_alloc_node [byteAt pchars 0] []) (pchars.drop 1) with
  | none => false
  | some root => binarytree_test_deletes root pdelchars

/-- The function `binarytree_test` with the two strings of the source. -/
def binarytree_test : Bool :=
  binarytree_test_on (bytes "JKGHIAROBNEFLCDWXUVSTPQYZ") (bytes "STUVOPQRIJKLWXYHCDEFGNZAB")

/-! ## Specification vocabulary for the scanner -/

/-- A letter or an underscore: the first byte of a C identifier. -/
def isIdentStart (c : Nat) : Bool :=
  (65 ≤ c && c ≤ 90) || (97 ≤ c && c ≤ 122) || c == 95

/-- A byte of a C identifier: a letter, a digit or an underscore. -/
def isIdentChar (c : Nat) : Bool := isIdentStart c || (48 ≤ c && c ≤ 57)

/-- A C identifier: non-empty, starting with a letter or underscore. -/
def isIdentifier : List Nat → Bool
  | [] => false
  | c :: cs => isIdentStart c && cs.all isIdentChar

/-- A plain replacement text: non-empty, on one line (no NUL, CR or LF byte),
not starting with a blank or a comment opener, and not ending in a
backslash. -/
def isPlainValue (value : List Nat) : Bool :=
  value != [] && value.all notEol && !isBlank (byteAt value 0) &&
    !isCommentOpener value 0 && value.getLast? != some 92

/-- A line terminator byte, CR (of CR LF) or LF. -/
def isTerminator (t : Nat) : Bool := t == 13 || t == 10

/-- A map as `hash_map_alloc` returns it for a mask: magic set, all slots null. -/
def empty_map (mask : Nat) : hash_map_t :=
  { magic := HASH_MAP_MAGIC, buckets := mask, slots := List.replicate (mask + 1) .nil }

/-- The shared state in which `main` starts the scan: the two maps as
allocated, nothing written. -/
def initial_world (options : options_t) : World :=
  { options := options, pHeadersMap := empty_map 127, pDefinesMap := empty_map 32767,
    out := [], log := [] }

/-- A parser placed at index `i` of a buffer, on line 1. -/
def parser_at (buf : List Nat) (i : Nat) : parser_t :=
  { pFileName := [], pFileBuffer := buf, pLine := 0, pNextToken := i, iLineNum := 1 }

/-- The text of a `//` comment from its opener to the end of its line: it
starts with `//`, holds no NUL, CR or LF, and does not end in a backslash. -/
def isLineComment (body : List Nat) : Bool :=
  startsWith body 0 [47, 47] && body.all notEol && body.getLast? != some 92

/-- The text of a code line from its first non-blank byte to the end of the
line: non-empty, no NUL, CR or LF, starting with neither a blank, nor `#`, nor
a comment opener. -/
def isCodeLine (body : List Nat) : Bool :=
  body != [] && body.all notEol && !isBlank (byteAt body 0) && byteAt body 0 != 35 &&
    !isCommentOpener body 0

/-- One LF-terminated source line: leading blanks, then the text of a `//`
comment (`comment = true`) or of a code line. -/
structure src_line where
  comment : Bool
  indent : List Nat
  body : List Nat
  deriving DecidableEq

/-- The line is of the kind it says it is. -/
def src_line.ok (l : src_line) : Bool :=
  l.indent.all isBlank && (if l.comment then isLineComment l.body else isCodeLine l.body)

/-- The bytes of the line in the buffer, its line feed included. -/
def src_line.text (l : src_line) : List Nat := l.indent ++ (l.body ++ [10])

/-- What the scan is to write for the line when code is not emitted: `;`, the
comment and its line feed for a comment under comment conversion, nothing
otherwise. -/
def src_line.emitted (fComments : Bool) (l : src_line) : List Nat :=
  if l.comment && fComments then 59 :: (l.body ++ [10]) else []

/-- The buffer made of the lines, in order. -/
def src_text : List src_line → List Nat
  | [] => []
  | l :: ls => l.text ++ src_text ls

/-- The concatenation, in source order, of what each line is to emit. -/
def emitted_text (fComments : Bool) : List src_line → List Nat
  | [] => []
  | l :: ls => l.emitted fComments ++ emitted_text fComments ls

/-- The text `*/` occurs in a NUL-terminated text: some `*` before the first
NUL is followed by `/`. -/
def hasClose : List Nat → Bool
  | [] => false
  | c :: rest =>
    if c == 0 then false
    else if c == 42 && byteAt rest 0 == 47 then true
    else hasClose rest

/-- A file system with a root file that includes `b.h` twice, and `b.h`
holding one definition. -/
def twice_fs (name : List Nat) : Option (List Nat) :=
  if name = bytes "root.h" then some (bytes "#include \"b.h\"\n#include \"b.h\"\n")
  else if name = bytes "b.h" then some (bytes "#define BAR 1\n")
  else none

/-- The defines table once `FOO -> 1` has been inserted in the empty table. -/
def map_defining_foo : hash_map_t :=
  (hash_map_insert (empty_map 32767) (bytes "FOO") (bytes "1")).2

/-- The shared state of `initial_world` with `FOO -> 1` in the defines table,
as `#define FOO 1` leaves it. -/
def world_defining_foo : World :=
  { options := {}, pHeadersMap := empty_map 127, pDefinesMap := map_defining_foo,
    out := [], log := [] }

/-- A file system with a root file that includes `<stdio.h>`, which cannot be
opened. -/
def angle_fs_missing (name : List Nat) : Option (List Nat) :=
  if name = bytes "root.h" then some (bytes "#include <stdio.h>\n") else none

/-- A file system with a root file that includes `<stdio.h>`, and a file
`stdio.h` holding one line of code. -/
def angle_fs_present (name : List Nat) : Option (List Nat) :=
  if name = bytes "root.h" then some (bytes "#include <stdio.h>\n")
  else if name = bytes "stdio.h" then some (bytes "int puts();\n")
  else none

/-- The nine directive prefixes `h2incn_parse` compares a `#` line with, in
the order of its `memcmp` calls. -/
def directive_prefixes : List (List Nat) :=
  [bytes "#include ", bytes "#define ", bytes "#undef ", bytes "#if ", bytes "#ifdef ",
   bytes "#ifndef ", bytes "#elif", bytes "#else", bytes "#endif"]

/-- A file system with two headers that include each other: `a.h` holds
`#include "b.h"` and `b.h` holds `#include "a.h"`. -/
def mutual_fs (name : List Nat) : Option (List Nat) :=
  if name = bytes "a.h" then some (bytes "#include \"b.h\"\n")
  else if name = bytes "b.h" then some (bytes "#include \"a.h\"\n")
  else none

/-- A file system with one header that includes itself. -/
def self_fs (name : List Nat) : Option (List Nat) :=
  if name = bytes "a.h" then some (bytes "#include \"a.h\"\n") else none

/-- A byte allowed in a plain line: not NUL, line feed, carriage return or
backslash. -/
def isPlainByte (c : Nat) : Bool := c != 0 && c != 10 && c != 13 && c != 92

/-- Some index of the text starts a comment opener `//` or `/*`. -/
def hasOpener (L : List Nat) : Bool :=
  (List.range L.length).any (fun i => isCommentOpener L i)

/-- Some index of the text starts the bytes `#include `. -/
def hasInclude (L : List Nat) : Bool :=
  (List.range L.length).any (fun i => startsWith L i (bytes "#include "))

/-- The text of a line, without its terminator, that holds no NUL, no line
terminator byte, no backslash, no comment opener and no `#include `. -/
def isPlainLine (L : List Nat) : Bool :=
  L.all isPlainByte && !hasOpener L && !hasInclude L

/-- A line terminator: LF, or CR LF. -/
def isLineEnd (t : List Nat) : Bool := t == [10] || t == [13, 10]

/-- The text of a sequence of lines, each given as its text and its
terminator. -/
def lines_text : List (List Nat × List Nat) → List Nat
  | [] => []
  | l :: ls => l.1 ++ (l.2 ++ lines_text ls)

/-- A sequence of plain lines, each ended by LF or CR LF. -/
def plain_lines (ls : List (List Nat × List Nat)) : Bool :=
  ls.all (fun l => isPlainLine l.1 && isLineEnd l.2)

/-- From a cursor that stands at the text `T`, whatever follows it, the loop
of `h2incn_parse` spends `K` rounds on `T`: it arrives after `T` with `G`
written, the buffer, the options and the visited set as they were. -/
def scan_runs (o : options_t) (T G : List Nat) (K : Nat) : Prop :=
  ∀ (fs : List Nat → Option (List Nat)) (n : Nat) (p : parser_t) (w : World) (rest : List Nat),
    w.options = o → p.pFileBuffer.drop p.pNextToken = T ++ rest →
    ∃ p' w', parse_loop fs (K + n) p w = parse_loop fs n p' w' ∧
      p'.pFileBuffer = p.pFileBuffer ∧ p'.pNextToken = p.pNextToken + T.length ∧
      w'.out = w.out ++ G ∧ w'.options = o ∧ w'.pHeadersMap = w.pHeadersMap

/-- From a cursor that stands at the text `T`, whatever follows it, the loop
of `h2incn_parse` does not return, however much fuel it is given beyond `K`. -/
def scan_hangs (o : options_t) (T : List Nat) (K : Nat) : Prop :=
  ∀ (fs : List Nat → Option (List Nat)) (n : Nat) (p : parser_t) (w : World) (rest : List Nat),
    w.options = o → p.pFileBuffer.drop p.pNextToken = T ++ rest →
    parse_loop fs (K + n) p w = none

/-- A text without NUL, line terminator byte or backslash, in which no `/` is
followed by `/` or `*`, and which does not hold the bytes `#include `. -/
def plain_text (L : List Nat) : Prop :=
  (∀ c ∈ L, isPlainByte c = true) ∧
  (∀ A B, L = A ++ 47 :: B → byteAt B 0 ≠ 47 ∧ byteAt B 0 ≠ 42) ∧
  (∀ A B, L ≠ A ++ (bytes "#include " ++ B))

/-- The dichotomy a text stands in: scanned from any state with options `o`,
either the scan hangs on it or it runs over it with a fixed output. -/
def hangs_or_runs (o : options_t) (T : List Nat) : Prop :=
  (∃ K, scan_hangs o T K) ∨ (∃ G K, scan_runs o T G K)

/-- Two states that agree on the options and whose outputs are a common text
`x` written after `a` in the one and after `c` in the other. -/
def out_related (a c : List Nat) (w v : World) : Prop :=
  w.options = v.options ∧ ∃ x, w.out = a ++ x ∧ v.out = c ++ x

/-- A handler whose result, when it returns from one state, is matched from
any related state with at least as much fuel. -/
def transfers (a c : List Nat) (f : Nat → parser_t → World → Option Result) : Prop :=
  ∀ (fuel fuel' : Nat) (p : parser_t) (w v : World) (x : Result),
    fuel ≤ fuel' → out_related a c w v → f fuel p w = some x →
    ∃ v', f fuel' p v = some (x.1, x.2.1, v') ∧ out_related a c x.2.2 v' ∧
      x.2.2.options = w.options ∧ (x.1 = true → x.2.1.pFileBuffer = p.pFileBuffer)

/-- Two results of one loop of a handler started in related states: the same
early return or the same exit of the loop, with related states. -/
def sum_related (a c : List Nat) (w : World) (p : parser_t) :
    Result ⊕ (Nat × parser_t × World) → Result ⊕ (Nat × parser_t × World) → Prop
  | .inl x, .inl y => y.1 = x.1 ∧ y.2.1 = x.2.1 ∧ out_related a c x.2.2 y.2.2 ∧
      x.2.2.options = w.options ∧ x.1 = false
  | .inr x, .inr y => y.1 = x.1 ∧ y.2.1 = x.2.1 ∧ out_related a c x.2.2 y.2.2 ∧
      x.2.2.options = w.options ∧ x.2.1.pFileBuffer = p.pFileBuffer
  | _, _ => False

/-- A file system with the one header `f.h`, which holds a `#define` line and
a code line. -/
def splice_fs (name : List Nat) : Option (List Nat) :=
  if name = bytes "f.h" then some (bytes "#define B 2\nint b;\n") else none

/-- The loop `for (i = 0; i < pHashMap->buckets; i++)` of `hash_map_free`,
from index `i` on with `n` rounds left: a bucket whose root is not null is
handed to `binarytree_delete_tree`. -/
def hash_map_free_loop : Nat → Nat → hash_map_t → hash_map_t
  | 0, _, m => m
  | n + 1, i, m =>
    let m := if (bucket_root m i).isNode then
        set_bucket m i (binarytree_delete_tree (bucket_root m i)).2 else m
    hash_map_free_loop n (i + 1) m

/-- The function `hash_map_free(pHashMap)`, `none` being the null pointer:
the value returned, and the header and bucket slots as they are when the
function returns or hands the block to `free`. -/
def hash_map_free (pHashMap : Option hash_map_t) : Nat × Option hash_map_t :=
  match pHashMap with
  | none => (1, none)
  | some m =>
    if m.magic != HASH_MAP_MAGIC then (1, some m)
    else
      (0, some { hash_map_free_loop m.buckets 0 m with magic := 0 })

/-- The first sum of the hash as the specification words it: the sum of the
key bytes modulo 255. -/
def hash16_S1 (key : List Nat) : Nat := key.sum % 255

/-- The second sum of the hash as the specification words it: the sum over
`j = 1..n` of the sum of the first `j` key bytes modulo 255. -/
def hash16_S2 (key : List Nat) : Nat :=
  ((List.range key.length).map (fun j => (key.take (j + 1)).sum % 255)).sum

/-- The hash as the specification words it. -/
def hash16_spec (key : List Nat) : Nat := (hash16_S2 key % 255) * 256 + hash16_S1 key

/-- The headers table as `main` allocates it, once the header name `tt.h`
has been inserted. -/
def headers_with_tt : hash_map_t :=
  (hash_map_insert (empty_map 127) (bytes "tt.h") []).2

/-- The physical lines of a text, cut after each line feed and given without
their line feeds; `cur` is what the first line already holds. -/
def lines_of : List Nat → List Nat → List (List Nat)
  | cur, [] => [cur]
  | cur, c :: cs => if c == 10 then cur :: lines_of [] cs else lines_of (cur ++ [c]) cs

/-- The lines one after the other, each followed by a line feed. -/
def lf_lines : List (List Nat) → List Nat
  | [] => []
  | l :: ls => l ++ 10 :: lf_lines ls

/-- The segments written for lines: for each line a `;`, the line and a line
feed. -/
def marked_lines : List (List Nat) → List Nat
  | [] => []
  | l :: ls => 59 :: (l ++ 10 :: marked_lines ls)

/-- An optional block comment closed on its line and followed by one blank,
given by its body: nothing, or `/*`, the body, `*/` and a blank. -/
def inline_comment : Option (List Nat) → List Nat
  | none => []
  | some body => [47, 42] ++ body ++ [42, 47, 32]

/-- The body of an inline comment holds no NUL, CR or LF, and `*/` does not
occur in it. -/
def isInlineBody : Option (List Nat) → Bool
  | none => true
  | some body => body.all notEol && !hasClose body

/-- The warnings printed for `k` continued lines of a `//` comment that
starts on line `n` of `file`: one for each line from `n` on. -/
def continuation_warnings (file : List Nat) : Nat → Nat → List log_line
  | _, 0 => []
  | n, k + 1 =>
    { text := "h2incn_parse_comment: warning: continuation character found in single-line comment",
      file := file, line := n } :: continuation_warnings file (n + 1) k

/-- The line bookkeeping of a parser is exact: `iLineNum` is 1 plus the number
of line-feed bytes of `pFileBuffer` in front of the cursor `pNextToken`. -/
def line_exact (p : parser_t) : Bool :=
  p.iLineNum == 1 + (p.pFileBuffer.take p.pNextToken).count 10

/-- The shared state in the outcome of one loop of a handler, whether the
loop was left by a `return` or by its condition. -/
def loop_world : Result ⊕ (Nat × parser_t × World) → World
  | .inl r => r.2.2
  | .inr r => r.2.2

/-- The headers table of `w'` continues that of `w`: when the table of `w` is
well formed, so is that of `w'`, and it holds every name the table of `w`
holds. -/
def headers_kept (w w' : World) : Prop :=
  map_wf w.pHeadersMap →
    map_wf w'.pHeadersMap ∧ ∀ k v, map_has w.pHeadersMap k v → map_has w'.pHeadersMap k v

/-- One line of a buffer that is neither blank, nor a comment, nor one of the
nine directives: its leading blanks, its text from the first non-blank byte to
the end of the line, and its line terminator. -/
structure other_line where
  indent : List Nat
  body : List Nat
  term : List Nat
  deriving DecidableEq

/-- The line is of that kind: blanks, then a non-empty text without NUL, CR or
LF whose first byte is no blank and which either starts with `#` without
starting with any of the nine directive prefixes, or starts with a byte other
than `#` that opens no comment, then LF or CR LF. -/
def other_line.ok (l : other_line) : Bool :=
  l.indent.all isBlank && l.body != [] && l.body.all notEol && !isBlank (byteAt l.body 0) &&
    (if byteAt l.body 0 == 35 then directive_prefixes.all (fun pat => !startsWith l.body 0 pat)
     else !isCommentOpener l.body 0) && isLineEnd l.term

/-- The bytes of the line in the buffer. -/
def other_line.text (l : other_line) : List Nat := l.indent ++ (l.body ++ l.term)

/-- What the scan is to write for the line: `;` and the line from its first
non-blank byte through its terminator when code is emitted as comments,
nothing otherwise. -/
def other_line.emitted (fCode : Bool) (l : other_line) : List Nat :=
  if fCode then 59 :: (l.body ++ l.term) else []

/-- The buffer made of the lines, in order. -/
def other_text : List other_line → List Nat
  | [] => []
  | l :: ls => l.text ++ other_text ls

/-- The concatenation, in source order, of what each line is to emit. -/
def other_emitted (fCode : Bool) : List other_line → List Nat
  | [] => []
  | l :: ls => l.emitted fCode ++ other_emitted fCode ls

/-- The text ends at a line end: its last byte is a line feed, or a NUL (which
is what `h2incn_print_err` writes over a line terminator). -/
def line_closed (A : List Nat) : Prop :=
  byteAt A (A.length - 1) = 10 ∨ byteAt A (A.length - 1) = 0

/-- The parser with the text `T` appended to its buffer. -/
def extend_buffer (T : List Nat) (p : parser_t) : parser_t :=
  { p with pFileBuffer := p.pFileBuffer ++ T }

/-- The last line printed is the report of an unterminated comment. -/
def unterminated_reported (w : World) : Bool :=
  w.log.getLast?.map (fun l => l.text) == some "h2incn_parse_comment: unterminated comment"

/-! # Properties of the embedding -/


/-! ## The key ordering -/

theorem key_cmp_refl (a : List Nat) : key_cmp a a = .eq := by
  induction a with
  | nil => rfl
  | cons x xs ih => simp [key_cmp, ih]

theorem key_cmp_eq_iff (a b : List Nat) : key_cmp a b = .eq ↔ a = b := by
  constructor
  · intro h
    induction a generalizing b with
    | nil => cases b with
      | nil => rfl
      | cons y ys => simp [key_cmp] at h
    | cons x xs ih => cases b with
      | nil => simp [key_cmp] at h
      | cons y ys =>
        simp only [key_cmp] at h
        split at h
        · cases h
        · split at h
          · cases h
          · have hxy : x = y := by omega
            rw [hxy, ih ys h]
  · rintro rfl
    exact key_cmp_refl a

theorem key_cmp_gt_iff (a b : List Nat) : key_cmp a b = .gt ↔ key_cmp b a = .lt := by
  induction a generalizing b with
  | nil => cases b <;> simp [key_cmp]
  | cons x xs ih => cases b with
    | nil => simp [key_cmp]
    | cons y ys =>
      simp only [key_cmp]
      by_cases h1 : x < y
      · have h2 : ¬ y < x := by omega
        simp [h1, h2]
      · by_cases h2 : y < x
        · simp [h1, h2]
        · simp [h1, h2, ih ys]

theorem key_cmp_lt_trans (a b c : List Nat) (hab : key_cmp a b = .lt) (hbc : key_cmp b c = .lt) :
    key_cmp a c = .lt := by
  induction a generalizing b c with
  | nil =>
    cases b with
    | nil => simp [key_cmp] at hab
    | cons y ys => cases c with
      | nil => simp [key_cmp] at hbc
      | cons z zs => simp [key_cmp]
  | cons x xs ih =>
    cases b with
    | nil => simp [key_cmp] at hab
    | cons y ys => cases c with
      | nil => simp [key_cmp] at hbc
      | cons z zs =>
        simp only [key_cmp] at hab hbc ⊢
        by_cases h1 : x < y
        · by_cases h2 : y < z
          · have : x < z := by omega
            simp [this]
          · by_cases h3 : z < y
            · simp [h2, h3] at hbc
            · have : x < z := by omega
              simp [this]
        · by_cases h1' : y < x
          · simp [h1, h1'] at hab
          · simp only [h1, h1', if_false] at hab
            have hxy : x = y := by omega
            subst hxy
            by_cases h2 : x < z
            · simp [h2]
            · by_cases h3 : z < x
              · simp [h2, h3] at hbc
              · simp only [h2, h3, if_false] at hbc ⊢
                exact ih ys zs hab hbc

theorem key_cmp_lt_irrefl (a : List Nat) : key_cmp a a ≠ .lt := by
  rw [key_cmp_refl]; decide

/-! ## Ordered trees: find, insert, delete -/

theorem bst_ordered_node_iff (l r : bst_node_t) (k v : List Nat) :
    bst_ordered (.node l k v r) ↔
      bst_ordered l ∧ bst_ordered r ∧
      (∀ e ∈ bst_entries l, key_cmp e.1 k = .lt) ∧
      (∀ e ∈ bst_entries r, key_cmp k e.1 = .lt) ∧
      (∀ e ∈ bst_entries l, ∀ f ∈ bst_entries r, key_cmp e.1 f.1 = .lt) := by
  unfold bst_ordered
  simp only [bst_entries, List.pairwise_append, List.pairwise_cons, List.mem_cons]
  constructor
  · rintro ⟨hl, ⟨hkr, hr⟩, hlr⟩
    exact ⟨hl, hr, fun e he => hlr e he (k, v) (Or.inl rfl), hkr,
      fun e he f hf => hlr e he f (Or.inr hf)⟩
  · rintro ⟨hl, hr, hlk, hkr, hlr⟩
    refine ⟨hl, ⟨hkr, hr⟩, ?_⟩
    intro e he f hf
    rcases hf with rfl | hf
    · exact hlk e he
    · exact hlr e he f hf

theorem entry_eq_none_iff (t : bst_node_t) : t.entry = none ↔ t = .nil := by
  cases t <;> simp [bst_node_t.entry]

theorem entry_eq_some_iff (t : bst_node_t) (k v : List Nat) :
    t.entry = some (k, v) ↔ ∃ l r, t = .node l k v r := by
  cases t with
  | nil => simp [bst_node_t.entry]
  | node l k' v' r =>
    simp only [bst_node_t.entry, Option.some.injEq, Prod.mk.injEq, bst_node_t.node.injEq]
    constructor
    · rintro ⟨rfl, rfl⟩; exact ⟨l, r, rfl, rfl, rfl, rfl⟩
    · rintro ⟨l', r', -, rfl, rfl, -⟩; exact ⟨rfl, rfl⟩

theorem find_entry_mem (t : bst_node_t) (key : List Nat) (e : List Nat × List Nat)
    (h : (binarytree_find_node t key).entry = some e) : e.1 = key ∧ e ∈ bst_entries t := by
  induction t with
  | nil => simp [binarytree_find_node, bst_node_t.entry] at h
  | node l k v r ihl ihr =>
    simp only [binarytree_find_node] at h
    cases hc : key_cmp key k with
    | lt =>
      rw [hc] at h
      have := ihl h
      exact ⟨this.1, by simp [bst_entries, this.2]⟩
    | gt =>
      rw [hc] at h
      have := ihr h
      exact ⟨this.1, by simp [bst_entries, this.2]⟩
    | eq =>
      rw [hc] at h
      simp only [bst_node_t.entry, Option.some.injEq] at h
      subst h
      exact ⟨((key_cmp_eq_iff key k).1 hc).symm, by simp [bst_entries]⟩

theorem find_of_mem (t : bst_node_t) (key value : List Nat) (ho : bst_ordered t)
    (h : (key, value) ∈ bst_entries t) :
    (binarytree_find_node t key).entry = some (key, value) := by
  induction t with
  | nil => simp [bst_entries] at h
  | node l k v r ihl ihr =>
    obtain ⟨hol, hor, hlk, hkr, -⟩ := (bst_ordered_node_iff l r k v).1 ho
    simp only [bst_entries, List.mem_append, List.mem_cons, Prod.mk.injEq] at h
    simp only [binarytree_find_node]
    rcases h with h | ⟨rfl, rfl⟩ | h
    · have hlt := hlk _ h
      simp only at hlt
      rw [hlt]
      exact ihl hol h
    · rw [key_cmp_refl]
      rfl
    · have hlt := hkr _ h
      simp only at hlt
      rw [(key_cmp_gt_iff key k).2 hlt]
      exact ihr hor h

theorem find_nil_of_not_mem (t : bst_node_t) (key : List Nat)
    (h : ∀ v, (key, v) ∉ bst_entries t) : binarytree_find_node t key = .nil := by
  rw [← entry_eq_none_iff]
  cases he : (binarytree_find_node t key).entry with
  | none => rfl
  | some e =>
    obtain ⟨h1, h2⟩ := find_entry_mem t key e he
    obtain ⟨k, v⟩ := e
    simp only at h1
    subst h1
    exact absurd h2 (h v)

theorem insert_node_fst (t : bst_node_t) (key value : List Nat) :
    (binarytree_insert_node t key value).1 = 0 := by
  induction t with
  | nil => rfl
  | node l k v r ihl ihr =>
    simp only [binarytree_insert_node]
    cases key_cmp key k <;> simp [ihl, ihr]

theorem mem_entries_insert (t : bst_node_t) (key value : List Nat) (e : List Nat × List Nat) :
    e ∈ bst_entries (binarytree_insert_node t key value).2 ↔
      e = (key, value) ∨ e ∈ bst_entries t := by
  induction t with
  | nil => simp [binarytree_insert_node, binarytree_alloc_node, bst_entries]
  | node l k v r ihl ihr =>
    simp only [binarytree_insert_node]
    cases key_cmp key k <;>
      simp only [bst_entries, List.mem_append, List.mem_cons, ihl, ihr] <;> tauto

theorem ordered_insert (t : bst_node_t) (key value : List Nat) (ho : bst_ordered t)
    (h : ∀ v, (key, v) ∉ bst_entries t) :
    bst_ordered (binarytree_insert_node t key value).2 := by
  induction t with
  | nil => simp [binarytree_insert_node, binarytree_alloc_node, bst_ordered, bst_entries]
  | node l k v r ihl ihr =>
    obtain ⟨hol, hor, hlk, hkr, hlr⟩ := (bst_ordered_node_iff l r k v).1 ho
    have hl : ∀ v, (key, v) ∉ bst_entries l := fun v' hm =>
      h v' (by simp [bst_entries, hm])
    have hr : ∀ v, (key, v) ∉ bst_entries r := fun v' hm =>
      h v' (by simp [bst_entries, hm])
    have hne : key_cmp key k ≠ .eq := by
      intro hc
      have := (key_cmp_eq_iff key k).1 hc
      subst this
      exact h v (by simp [bst_entries])
    simp only [binarytree_insert_node]
    cases hc : key_cmp key k with
    | lt =>
      simp only
      rw [bst_ordered_node_iff]
      refine ⟨ihl hol hl, hor, ?_, hkr, ?_⟩
      · intro e he
        rcases (mem_entries_insert l key value e).1 he with rfl | he
        · exact hc
        · exact hlk e he
      · intro e he f hf
        rcases (mem_entries_insert l key value e).1 he with rfl | he
        · exact key_cmp_lt_trans _ _ _ hc (hkr f hf)
        · exact hlr e he f hf
    | eq => exact absurd hc hne
    | gt =>
      simp only
      have hkk : key_cmp k key = .lt := (key_cmp_gt_iff key k).1 hc
      rw [bst_ordered_node_iff]
      refine ⟨hol, ihr hor hr, hlk, ?_, ?_⟩
      · intro e he
        rcases (mem_entries_insert r key value e).1 he with rfl | he
        · exact hkk
        · exact hkr e he
      · intro e he f hf
        rcases (mem_entries_insert r key value f).1 hf with rfl | hf
        · exact key_cmp_lt_trans _ _ _ (hlk e he) hkk
        · exact hlr e he f hf

theorem entries_take_min (l : bst_node_t) (k v : List Nat) (r : bst_node_t) :
    bst_entries (.node l k v r) =
      (bst_take_min l k v r).1 :: bst_entries (bst_take_min l k v r).2 := by
  induction l generalizing k v r with
  | nil => simp [bst_take_min, bst_entries]
  | node ll lk lv lr ihl _ =>
    simp only [bst_take_min]
    have := ihl lk lv lr
    simp only [bst_entries] at this ⊢
    rw [this]
    simp

theorem entries_delete_at (l r : bst_node_t) (k v key : List Nat) (hc : key_cmp key k = .eq) :
    bst_entries (binarytree_delete_node (.node l k v r) key).2 =
      bst_entries l ++ bst_entries r := by
  simp only [binarytree_delete_node, hc]
  cases l with
  | nil => simp [bst_entries]
  | node ll lk lv lr =>
    cases r with
    | nil => simp [bst_entries]
    | node rl rk rv rr =>
      simp only
      have := entries_take_min rl rk rv rr
      simp only [bst_entries] at this ⊢
      rw [this]

theorem mem_entries_delete (t : bst_node_t) (key : List Nat) (ho : bst_ordered t)
    (e : List Nat × List Nat) :
    e ∈ bst_entries (binarytree_delete_node t key).2 ↔ e ∈ bst_entries t ∧ e.1 ≠ key := by
  induction t with
  | nil => simp [binarytree_delete_node, bst_entries]
  | node l k v r ihl ihr =>
    obtain ⟨hol, hor, hlk, hkr, hlr⟩ := (bst_ordered_node_iff l r k v).1 ho
    cases hc : key_cmp key k with
    | lt =>
      have hk : k ≠ key := by
        rintro rfl; exact key_cmp_lt_irrefl _ hc
      have hrne : ∀ f ∈ bst_entries r, f.1 ≠ key := by
        intro f hf hfk
        have := key_cmp_lt_trans _ _ _ hc (hkr f hf)
        rw [hfk] at this
        exact key_cmp_lt_irrefl _ this
      simp only [binarytree_delete_node, hc, bst_entries, List.mem_append, List.mem_cons,
        ihl hol]
      constructor
      · rintro (⟨h1, h2⟩ | rfl | h)
        · exact ⟨Or.inl h1, h2⟩
        · exact ⟨Or.inr (Or.inl rfl), hk⟩
        · exact ⟨Or.inr (Or.inr h), hrne e h⟩
      · rintro ⟨h1 | h1 | h1, h2⟩
        · exact Or.inl ⟨h1, h2⟩
        · exact Or.inr (Or.inl h1)
        · exact Or.inr (Or.inr h1)
    | gt =>
      have hkk : key_cmp k key = .lt := (key_cmp_gt_iff key k).1 hc
      have hk : k ≠ key := by
        rintro rfl; exact key_cmp_lt_irrefl _ hkk
      have hlne : ∀ f ∈ bst_entries l, f.1 ≠ key := by
        intro f hf hfk
        have := key_cmp_lt_trans _ _ _ (hlk f hf) hkk
        rw [hfk] at this
        exact key_cmp_lt_irrefl _ this
      simp only [binarytree_delete_node, hc, bst_entries, List.mem_append, List.mem_cons,
        ihr hor]
      constructor
      · rintro (h | rfl | ⟨h1, h2⟩)
        · exact ⟨Or.inl h, hlne e h⟩
        · exact ⟨Or.inr (Or.inl rfl), hk⟩
        · exact ⟨Or.inr (Or.inr h1), h2⟩
      · rintro ⟨h1 | h1 | h1, h2⟩
        · exact Or.inl h1
        · exact Or.inr (Or.inl h1)
        · exact Or.inr (Or.inr ⟨h1, h2⟩)
    | eq =>
      have hkey : key = k := (key_cmp_eq_iff key k).1 hc
      rw [entries_delete_at l r k v key hc]
      subst hkey
      simp only [bst_entries, List.mem_append, List.mem_cons]
      constructor
      · rintro (h | h)
        · refine ⟨Or.inl h, ?_⟩
          intro hek
          have := hlk e h
          rw [hek] at this
          exact key_cmp_lt_irrefl _ this
        · refine ⟨Or.inr (Or.inr h), ?_⟩
          intro hek
          have := hkr e h
          rw [hek] at this
          exact key_cmp_lt_irrefl _ this
      · rintro ⟨h1 | rfl | h1, h2⟩
        · exact Or.inl h1
        · exact absurd rfl h2
        · exact Or.inr h1

theorem entries_delete_sublist (t : bst_node_t) (key : List Nat) :
    (bst_entries (binarytree_delete_node t key).2).Sublist (bst_entries t) := by
  induction t with
  | nil => simp [binarytree_delete_node]
  | node l k v r ihl ihr =>
    cases hc : key_cmp key k with
    | lt =>
      simp only [binarytree_delete_node, hc, bst_entries]
      exact List.Sublist.append ihl (List.Sublist.refl _)
    | gt =>
      simp only [binarytree_delete_node, hc, bst_entries]
      exact List.Sublist.append (List.Sublist.refl _) (List.Sublist.cons₂ _ ihr)
    | eq =>
      rw [entries_delete_at l r k v key hc]
      simp only [bst_entries]
      exact List.Sublist.append (List.Sublist.refl _) (List.sublist_cons_self _ _)

theorem ordered_delete (t : bst_node_t) (key : List Nat) (ho : bst_ordered t) :
    bst_ordered (binarytree_delete_node t key).2 :=
  List.Pairwise.sublist (entries_delete_sublist t key) ho

theorem delete_node_fst (t : bst_node_t) (key value : List Nat) (ho : bst_ordered t)
    (h : (key, value) ∈ bst_entries t) : (binarytree_delete_node t key).1 = 0 := by
  induction t with
  | nil => simp [bst_entries] at h
  | node l k v r ihl ihr =>
    obtain ⟨hol, hor, hlk, hkr, -⟩ := (bst_ordered_node_iff l r k v).1 ho
    simp only [bst_entries, List.mem_append, List.mem_cons, Prod.mk.injEq] at h
    rcases h with h | ⟨rfl, rfl⟩ | h
    · have hlt := hlk _ h
      simp only at hlt
      simp only [binarytree_delete_node, hlt]
      exact ihl hol h
    · simp only [binarytree_delete_node, key_cmp_refl]
      cases l <;> cases r <;> rfl
    · have hlt := hkr _ h
      simp only at hlt
      simp only [binarytree_delete_node, (key_cmp_gt_iff key k).2 hlt]
      exact ihr hor h

/-! ## Well-formed tables -/

theorem getD_set_eq (l : List bst_node_t) (i : Nat) (t d : bst_node_t) (h : i < l.length) :
    (l.set i t).getD i d = t := by
  induction l generalizing i with
  | nil => simp at h
  | cons x xs ih =>
    cases i with
    | zero => simp
    | succ j =>
      simp only [List.set_cons_succ, List.getD_cons_succ]
      exact ih j (by simpa using h)

theorem getD_set_ne (l : List bst_node_t) (i j : Nat) (t d : bst_node_t) (h : i ≠ j) :
    (l.set i t).getD j d = l.getD j d := by
  induction l generalizing i j with
  | nil => simp
  | cons x xs ih =>
    cases i with
    | zero =>
      cases j with
      | zero => exact absurd rfl h
      | succ j => simp
    | succ i =>
      cases j with
      | zero => simp
      | succ j =>
        simp only [List.set_cons_succ, List.getD_cons_succ]
        exact ih i j (by omega)

theorem bucket_index_le (m : hash_map_t) (key : List Nat) : bucket_index m key ≤ m.buckets :=
  Nat.and_le_right

theorem bucket_index_lt (m : hash_map_t) (key : List Nat) (hw : map_wf m) :
    bucket_index m key < m.slots.length := by
  have := bucket_index_le m key
  rw [hw.1]; omega

theorem hash_map_insert_eq (m : hash_map_t) (key value : List Nat) :
    hash_map_insert m key value =
      ((binarytree_insert_node (bucket_root m (bucket_index m key)) key value).1,
       set_bucket m (bucket_index m key)
          (binarytree_insert_node (bucket_root m (bucket_index m key)) key value).2) := by
  simp only [hash_map_insert]
  split
  · next h => rw [h]; rfl
  · rfl

theorem hash_map_insert_fst (m : hash_map_t) (key value : List Nat) :
    (hash_map_insert m key value).1 = 0 := by
  rw [hash_map_insert_eq]; exact insert_node_fst _ _ _

theorem hash_map_insert_buckets (m : hash_map_t) (key value : List Nat) :
    (hash_map_insert m key value).2.buckets = m.buckets := by
  rw [hash_map_insert_eq]; rfl

theorem hash_map_delete_buckets (m : hash_map_t) (key : List Nat) :
    (hash_map_delete m key).2.buckets = m.buckets := rfl

theorem bucket_root_set (m : hash_map_t) (i j : Nat) (t : bst_node_t) (hi : i < m.slots.length) :
    bucket_root (set_bucket m i t) j = if i = j then t else bucket_root m j := by
  unfold bucket_root set_bucket
  by_cases h : i = j
  · subst h
    simp only [if_true]
    exact getD_set_eq _ _ _ _ hi
  · simp only [h, if_false]
    exact getD_set_ne _ _ _ _ _ h

theorem find_iff_has (m : hash_map_t) (hw : map_wf m) (key value : List Nat) :
    (∃ l r, hash_map_find m key = .node l key value r) ↔ map_has m key value := by
  rw [← entry_eq_some_iff]
  unfold hash_map_find map_has
  constructor
  · intro h; exact (find_entry_mem _ _ _ h).2
  · intro h
    exact find_of_mem _ _ _ (hw.2 _ (bucket_index_lt m key hw)).1 h

theorem find_nil_iff (m : hash_map_t) (hw : map_wf m) (key : List Nat) :
    hash_map_find m key = .nil ↔ ∀ v, ¬ map_has m key v := by
  constructor
  · intro h v hv
    obtain ⟨l, r, h2⟩ := (find_iff_has m hw key v).2 hv
    rw [h] at h2
    cases h2
  · intro h
    exact find_nil_of_not_mem _ _ h

theorem map_wf_alloc (b : Nat) (m : hash_map_t) (h : hash_map_alloc b = some m) : map_wf m := by
  unfold hash_map_alloc at h
  split at h
  · cases h
  · simp only [Option.some.injEq] at h
    subst h
    refine ⟨by simp, ?_⟩
    intro i hi
    have hr : ∀ (n j : Nat), (List.replicate n bst_node_t.nil).getD j bst_node_t.nil
        = bst_node_t.nil := by
      intro n
      induction n with
      | zero => intro j; simp
      | succ n ih =>
        intro j
        cases j with
        | zero => simp [List.replicate_succ]
        | succ j => simp [List.replicate_succ]
    simp only [bucket_root, hr]
    exact ⟨by simp [bst_ordered, bst_entries], by simp [bst_entries]⟩

theorem map_has_alloc (b : Nat) (m : hash_map_t) (h : hash_map_alloc b = some m)
    (key value : List Nat) : ¬ map_has m key value := by
  unfold hash_map_alloc at h
  split at h
  · cases h
  · simp only [Option.some.injEq] at h
    subst h
    have hr : ∀ (n j : Nat), (List.replicate n bst_node_t.nil).getD j bst_node_t.nil
        = bst_node_t.nil := by
      intro n
      induction n with
      | zero => intro j; simp
      | succ n ih =>
        intro j
        cases j with
        | zero => simp [List.replicate_succ]
        | succ j => simp [List.replicate_succ]
    simp [map_has, bucket_root, hr, bst_entries]

theorem map_wf_insert (m : hash_map_t) (hw : map_wf m) (key value : List Nat)
    (hn : ∀ v, ¬ map_has m key v) : map_wf (hash_map_insert m key value).2 := by
  have hlt := bucket_index_lt m key hw
  rw [hash_map_insert_eq]
  refine ⟨by simp [set_bucket, hw.1], ?_⟩
  intro i hi
  have hi' : i < m.slots.length := by simpa [set_bucket] using hi
  rw [bucket_root_set m _ i _ hlt]
  by_cases h : bucket_index m key = i
  · simp only [h, if_true]
    subst h
    refine ⟨ordered_insert _ _ _ (hw.2 _ hlt).1 hn, ?_⟩
    intro e he
    rcases (mem_entries_insert _ _ _ e).1 he with rfl | he
    · rfl
    · exact (hw.2 _ hlt).2 e he
  · simp only [h, if_false]
    exact hw.2 i hi'

theorem map_has_insert (m : hash_map_t) (hw : map_wf m) (key value k v : List Nat) :
    map_has (hash_map_insert m key value).2 k v ↔ (k = key ∧ v = value) ∨ map_has m k v := by
  have hlt := bucket_index_lt m key hw
  rw [hash_map_insert_eq]
  unfold map_has
  have hb : ∀ i t, bucket_index (set_bucket m i t) k = bucket_index m k := fun _ _ => rfl
  simp only
  rw [hb, bucket_root_set m _ _ _ hlt]
  by_cases h : bucket_index m key = bucket_index m k
  · simp only [h, if_true, mem_entries_insert, Prod.mk.injEq]
  · simp only [h, if_false]
    constructor
    · intro h1; exact Or.inr h1
    · rintro (⟨rfl, rfl⟩ | h1)
      · exact absurd rfl h
      · exact h1

theorem map_wf_delete (m : hash_map_t) (hw : map_wf m) (key : List Nat) :
    map_wf (hash_map_delete m key).2 := by
  have hlt := bucket_index_lt m key hw
  unfold hash_map_delete
  refine ⟨by simp [set_bucket, hw.1], ?_⟩
  intro i hi
  have hi' : i < m.slots.length := by simpa [set_bucket] using hi
  simp only
  rw [bucket_root_set m _ i _ hlt]
  by_cases h : bucket_index m key = i
  · simp only [h, if_true]
    subst h
    refine ⟨ordered_delete _ _ (hw.2 _ hlt).1, ?_⟩
    intro e he
    exact (hw.2 _ hlt).2 e ((mem_entries_delete _ _ (hw.2 _ hlt).1 e).1 he).1
  · simp only [h, if_false]
    exact hw.2 i hi'

theorem map_has_delete (m : hash_map_t) (hw : map_wf m) (key k v : List Nat) :
    map_has (hash_map_delete m key).2 k v ↔ map_has m k v ∧ k ≠ key := by
  have hlt := bucket_index_lt m key hw
  unfold hash_map_delete map_has
  have hb : ∀ i t, bucket_index (set_bucket m i t) k = bucket_index m k := fun _ _ => rfl
  simp only
  rw [hb, bucket_root_set m _ _ _ hlt]
  by_cases h : bucket_index m key = bucket_index m k
  · simp only [h, if_true]
    rw [← h, mem_entries_delete _ _ (hw.2 _ hlt).1, h]
  · simp only [h, if_false]
    constructor
    · intro h1
      refine ⟨h1, ?_⟩
      rintro rfl
      exact h rfl
    · exact fun h1 => h1.1

theorem hash_map_delete_fst (m : hash_map_t) (hw : map_wf m) (key value : List Nat)
    (h : map_has m key value) : (hash_map_delete m key).1 = 0 :=
  delete_node_fst _ _ _ (hw.2 _ (bucket_index_lt m key hw)).1 h

/-! ## Runs of inserts and deletes -/

theorem insert_all_spec (m : hash_map_t) (hw : map_wf m) (kvs : List (List Nat × List Nat))
    (hd : (kvs.map Prod.fst).Nodup) (hfresh : ∀ kv ∈ kvs, ∀ v, ¬ map_has m kv.1 v) :
    map_wf (insert_all m kvs) ∧
      ∀ k v, map_has (insert_all m kvs) k v ↔ (k, v) ∈ kvs ∨ map_has m k v := by
  induction kvs generalizing m with
  | nil => exact ⟨hw, by simp [insert_all]⟩
  | cons kv rest ih =>
    obtain ⟨key, value⟩ := kv
    simp only [List.map_cons, List.nodup_cons, List.mem_map, not_exists, not_and] at hd
    have hn : ∀ v, ¬ map_has m key v := hfresh (key, value) (by simp)
    have hw' := map_wf_insert m hw key value hn
    have hfresh' : ∀ kv ∈ rest, ∀ v, ¬ map_has (hash_map_insert m key value).2 kv.1 v := by
      intro kv hkv v hv
      rcases (map_has_insert m hw key value kv.1 v).1 hv with ⟨h1, -⟩ | h1
      · exact hd.1 kv hkv h1
      · exact hfresh kv (by simp [hkv]) v h1
    obtain ⟨h1, h2⟩ := ih (hash_map_insert m key value).2 hw' hd.2 hfresh'
    refine ⟨h1, ?_⟩
    intro k v
    simp only [insert_all]
    rw [h2 k v, map_has_insert m hw key value k v]
    simp only [List.mem_cons, Prod.mk.injEq]
    tauto

theorem delete_all_spec (m : hash_map_t) (hw : map_wf m) (ds : List (List Nat)) :
    map_wf (delete_all m ds) ∧
      ∀ k v, map_has (delete_all m ds) k v ↔ map_has m k v ∧ k ∉ ds := by
  induction ds generalizing m with
  | nil => exact ⟨hw, by simp [delete_all]⟩
  | cons d rest ih =>
    obtain ⟨h1, h2⟩ := ih (hash_map_delete m d).2 (map_wf_delete m hw d)
    refine ⟨h1, ?_⟩
    intro k v
    simp only [delete_all]
    rw [h2 k v, map_has_delete m hw d k v]
    simp only [List.mem_cons, not_or]
    tauto

theorem tree_insert_all_spec (t : bst_node_t) (ho : bst_ordered t)
    (kvs : List (List Nat × List Nat))
    (hd : (kvs.map Prod.fst).Nodup) (hfresh : ∀ kv ∈ kvs, ∀ v, (kv.1, v) ∉ bst_entries t) :
    bst_ordered (tree_insert_all t kvs) ∧
      ∀ e, e ∈ bst_entries (tree_insert_all t kvs) ↔ e ∈ kvs ∨ e ∈ bst_entries t := by
  induction kvs generalizing t with
  | nil => exact ⟨ho, by simp [tree_insert_all]⟩
  | cons kv rest ih =>
    obtain ⟨key, value⟩ := kv
    simp only [List.map_cons, List.nodup_cons, List.mem_map, not_exists, not_and] at hd
    have hn : ∀ v, (key, v) ∉ bst_entries t := hfresh (key, value) (by simp)
    have ho' := ordered_insert t key value ho hn
    have hfresh' : ∀ kv ∈ rest, ∀ v,
        (kv.1, v) ∉ bst_entries (binarytree_insert_node t key value).2 := by
      intro kv hkv v hv
      rcases (mem_entries_insert t key value _).1 hv with h1 | h1
      · simp only [Prod.mk.injEq] at h1
        exact hd.1 kv hkv h1.1
      · exact hfresh kv (by simp [hkv]) v h1
    obtain ⟨h1, h2⟩ := ih (binarytree_insert_node t key value).2 ho' hd.2 hfresh'
    refine ⟨h1, ?_⟩
    intro e
    simp only [tree_insert_all]
    rw [h2 e, mem_entries_insert t key value e]
    simp only [List.mem_cons]
    tauto

theorem tree_delete_all_spec (t : bst_node_t) (ho : bst_ordered t) (ds : List (List Nat)) :
    bst_ordered (tree_delete_all t ds) ∧
      ∀ e, e ∈ bst_entries (tree_delete_all t ds) ↔ e ∈ bst_entries t ∧ e.1 ∉ ds := by
  induction ds generalizing t with
  | nil => exact ⟨ho, by simp [tree_delete_all]⟩
  | cons d rest ih =>
    obtain ⟨h1, h2⟩ := ih (binarytree_delete_node t d).2 (ordered_delete t d ho)
    refine ⟨h1, ?_⟩
    intro e
    simp only [tree_delete_all]
    rw [h2 e, mem_entries_delete t d ho e]
    simp only [List.mem_cons, not_or]
    tauto

theorem find_uppermost_bit_cap : find_uppermost_bit 32 0x8000 (1 <<< 31) = 0x8000 := by decide

/-! ## Claims on the symbol table -/

/-- C9: for every capacity request above 32768, `hash_map_alloc` returns a map
whose bucket mask is 0x7FFF and whose 32768 bucket slots are all null, so the
effective bucket count is exactly 32768. -/
theorem hash_map_alloc_capped (b : Nat) (hb : 32768 < b) :
    ∃ m, hash_map_alloc b = some m ∧ m.magic = HASH_MAP_MAGIC ∧ m.buckets = 0x7FFF ∧
      m.buckets + 1 = 32768 ∧ m.slots.length = 32768 ∧ ∀ t ∈ m.slots, t = bst_node_t.nil := by
  have h0 : (b == 0) = false := by
    simp only [beq_eq_false_iff_ne, ne_eq]; omega
  have h1 : b > 0x8000 := hb
  refine ⟨{ magic := HASH_MAP_MAGIC, buckets := 0x7FFF,
            slots := List.replicate 32768 bst_node_t.nil }, ?_, rfl, rfl, rfl,
            List.length_replicate _ _, ?_⟩
  · simp only [hash_map_alloc, h0, h1, if_true, find_uppermost_bit_cap]
    rfl
  · intro t ht
    exact (List.mem_replicate.1 ht).2

theorem hash_map_alloc_capped_witness :
    ∃ m, hash_map_alloc 100000 = some m ∧ m.magic = HASH_MAP_MAGIC ∧ m.buckets = 0x7FFF ∧
      m.buckets + 1 = 32768 ∧ m.slots.length = 32768 ∧ ∀ t ∈ m.slots, t = bst_node_t.nil :=
  hash_map_alloc_capped 100000 (by decide)

/-- C7: in a freshly allocated map, after any run of `hash_map_insert` calls
with pairwise distinct keys (each call returns 0), `hash_map_find` of every
inserted key returns a node carrying that key and the value inserted with it,
and `hash_map_find` of a key never inserted returns null. -/
theorem hash_map_find_after_inserts (b : Nat) (m0 : hash_map_t)
    (h0 : hash_map_alloc b = some m0) (kvs : List (List Nat × List Nat))
    (hd : (kvs.map Prod.fst).Nodup) :
    (∀ m k v, (hash_map_insert m k v).1 = 0) ∧
    (∀ k v, (k, v) ∈ kvs → ∃ l r, hash_map_find (insert_all m0 kvs) k = .node l k v r) ∧
    (∀ k, k ∉ kvs.map Prod.fst → hash_map_find (insert_all m0 kvs) k = .nil) := by
  have hw0 := map_wf_alloc b m0 h0
  obtain ⟨hw, hm⟩ := insert_all_spec m0 hw0 kvs hd
    (fun kv _ v => map_has_alloc b m0 h0 kv.1 v)
  refine ⟨hash_map_insert_fst, ?_, ?_⟩
  · intro k v hkv
    exact (find_iff_has _ hw k v).2 ((hm k v).2 (Or.inl hkv))
  · intro k hk
    rw [find_nil_iff _ hw]
    intro v hv
    rcases (hm k v).1 hv with h | h
    · exact hk (List.mem_map.2 ⟨(k, v), h, rfl⟩)
    · exact map_has_alloc b m0 h0 k v h

theorem hash_map_find_after_inserts_witness :
    (∀ m k v, (hash_map_insert m k v).1 = 0) ∧
    (∀ k v, (k, v) ∈ [(bytes "FOO", bytes "1"), (bytes "BAR", bytes "2"), (bytes "OOF", bytes "3")] →
      ∃ l r, hash_map_find (insert_all ⟨HASH_MAP_MAGIC, 127, List.replicate 128 .nil⟩
        [(bytes "FOO", bytes "1"), (bytes "BAR", bytes "2"), (bytes "OOF", bytes "3")]) k
          = .node l k v r) ∧
    (∀ k, k ∉ [(bytes "FOO", bytes "1"), (bytes "BAR", bytes "2"), (bytes "OOF", bytes "3")].map
        Prod.fst →
      hash_map_find (insert_all ⟨HASH_MAP_MAGIC, 127, List.replicate 128 .nil⟩
        [(bytes "FOO", bytes "1"), (bytes "BAR", bytes "2"), (bytes "OOF", bytes "3")]) k = .nil) :=
  hash_map_find_after_inserts 0x80 ⟨HASH_MAP_MAGIC, 127, List.replicate 128 .nil⟩ (by decide)
    [(bytes "FOO", bytes "1"), (bytes "BAR", bytes "2"), (bytes "OOF", bytes "3")] (by decide)

/-- C8: for a table (and for a single tree) built by inserting pairwise
distinct keys, after any deletions `ds` already made, deleting a key that is
still present returns 0, a find of that key then returns null, and a find of
every other key still present returns the node with that key and its value.
The deletions are an arbitrary list, so the keys can go in any order. -/
theorem delete_then_find (kvs : List (List Nat × List Nat))
    (hd : (kvs.map Prod.fst).Nodup) (ds : List (List Nat)) (k v : List Nat)
    (hk : (k, v) ∈ kvs) (hnd : k ∉ ds) :
    (∀ b m0, hash_map_alloc b = some m0 →
      (hash_map_delete (delete_all (insert_all m0 kvs) ds) k).1 = 0 ∧
      hash_map_find (hash_map_delete (delete_all (insert_all m0 kvs) ds) k).2 k = .nil ∧
      ∀ k' v', (k', v') ∈ kvs → k' ∉ ds → k' ≠ k →
        ∃ l r, hash_map_find (hash_map_delete (delete_all (insert_all m0 kvs) ds) k).2 k'
          = .node l k' v' r) ∧
    ((binarytree_delete_node (tree_delete_all (tree_insert_all .nil kvs) ds) k).1 = 0 ∧
      binarytree_find_node
        (binarytree_delete_node (tree_delete_all (tree_insert_all .nil kvs) ds) k).2 k = .nil ∧
      ∀ k' v', (k', v') ∈ kvs → k' ∉ ds → k' ≠ k →
        ∃ l r, binarytree_find_node
          (binarytree_delete_node (tree_delete_all (tree_insert_all .nil kvs) ds) k).2 k'
            = .node l k' v' r) := by
  constructor
  · intro b m0 h0
    have hw0 := map_wf_alloc b m0 h0
    obtain ⟨hw1, hm1⟩ := insert_all_spec m0 hw0 kvs hd
      (fun kv _ v => map_has_alloc b m0 h0 kv.1 v)
    obtain ⟨hw2, hm2⟩ := delete_all_spec (insert_all m0 kvs) hw1 ds
    have hw3 := map_wf_delete _ hw2 k
    have hin : ∀ k' v', (k', v') ∈ kvs → k' ∉ ds →
        map_has (delete_all (insert_all m0 kvs) ds) k' v' := fun k' v' h1 h2 =>
      (hm2 k' v').2 ⟨(hm1 k' v').2 (Or.inl h1), h2⟩
    refine ⟨hash_map_delete_fst _ hw2 k v (hin k v hk hnd), ?_, ?_⟩
    · rw [find_nil_iff _ hw3]
      intro v' hv'
      exact ((map_has_delete _ hw2 k k v').1 hv').2 rfl
    · intro k' v' h1 h2 h3
      exact (find_iff_has _ hw3 k' v').2
        ((map_has_delete _ hw2 k k' v').2 ⟨hin k' v' h1 h2, h3⟩)
  · have ho0 : bst_ordered .nil := by simp [bst_ordered, bst_entries]
    obtain ⟨ho1, hm1⟩ := tree_insert_all_spec .nil ho0 kvs hd
      (fun kv _ v => by simp [bst_entries])
    obtain ⟨ho2, hm2⟩ := tree_delete_all_spec (tree_insert_all .nil kvs) ho1 ds
    have ho3 := ordered_delete _ k ho2
    have hin : ∀ k' v', (k', v') ∈ kvs → k' ∉ ds →
        (k', v') ∈ bst_entries (tree_delete_all (tree_insert_all .nil kvs) ds) :=
      fun k' v' h1 h2 => (hm2 (k', v')).2 ⟨(hm1 (k', v')).2 (Or.inl h1), h2⟩
    refine ⟨delete_node_fst _ k v ho2 (hin k v hk hnd), ?_, ?_⟩
    · apply find_nil_of_not_mem
      intro v' hv'
      exact ((mem_entries_delete _ k ho2 (k, v')).1 hv').2 rfl
    · intro k' v' h1 h2 h3
      rw [← entry_eq_some_iff]
      exact find_of_mem _ k' v' ho3 ((mem_entries_delete _ k ho2 (k', v')).2 ⟨hin k' v' h1 h2, h3⟩)

theorem delete_then_find_witness :
    (∀ b m0, hash_map_alloc b = some m0 →
      (hash_map_delete (delete_all (insert_all m0
        ((bytes "JKGHIAROBNEFLCDWXUVSTPQYZ").map (fun c => ([c], []))))
        ((bytes "STUVOPQRIJKL").map (fun c => [c]))) [87]).1 = 0 ∧
      hash_map_find (hash_map_delete (delete_all (insert_all m0
        ((bytes "JKGHIAROBNEFLCDWXUVSTPQYZ").map (fun c => ([c], []))))
        ((bytes "STUVOPQRIJKL").map (fun c => [c]))) [87]).2 [87] = .nil ∧
      ∀ k' v', (k', v') ∈ (bytes "JKGHIAROBNEFLCDWXUVSTPQYZ").map (fun c => ([c], [])) →
        k' ∉ (bytes "STUVOPQRIJKL").map (fun c => [c]) → k' ≠ [87] →
        ∃ l r, hash_map_find (hash_map_delete (delete_all (insert_all m0
          ((bytes "JKGHIAROBNEFLCDWXUVSTPQYZ").map (fun c => ([c], []))))
          ((bytes "STUVOPQRIJKL").map (fun c => [c]))) [87]).2 k'
          = .node l k' v' r) ∧
    ((binarytree_delete_node (tree_delete_all (tree_insert_all .nil
        ((bytes "JKGHIAROBNEFLCDWXUVSTPQYZ").map (fun c => ([c], []))))
        ((bytes "STUVOPQRIJKL").map (fun c => [c]))) [87]).1 = 0 ∧
      binarytree_find_node
        (binarytree_delete_node (tree_delete_all (tree_insert_all .nil
          ((bytes "JKGHIAROBNEFLCDWXUVSTPQYZ").map (fun c => ([c], []))))
          ((bytes "STUVOPQRIJKL").map (fun c => [c]))) [87]).2 [87] = .nil ∧
      ∀ k' v', (k', v') ∈ (bytes "JKGHIAROBNEFLCDWXUVSTPQYZ").map (fun c => ([c], [])) →
        k' ∉ (bytes "STUVOPQRIJKL").map (fun c => [c]) → k' ≠ [87] →
        ∃ l r, binarytree_find_node
          (binarytree_delete_node (tree_delete_all (tree_insert_all .nil
            ((bytes "JKGHIAROBNEFLCDWXUVSTPQYZ").map (fun c => ([c], []))))
            ((bytes "STUVOPQRIJKL").map (fun c => [c]))) [87]).2 k'
            = .node l k' v' r) :=
  delete_then_find ((bytes "JKGHIAROBNEFLCDWXUVSTPQYZ").map (fun c => ([c], [])))
    (by decide) ((bytes "STUVOPQRIJKL").map (fun c => [c])) [87] [] (by decide) (by decide)

/-- The test `binarytree_test` of the source passes on the modelled tree: the
25 keys are inserted, and deleted in the order of `pdelchars`, each found
before its deletion and not after. -/
theorem binarytree_test_passes : binarytree_test = true := by decide

/-! ## Reading a buffer at a cursor -/

theorem byteAt_drop (buf : List Nat) (i k : Nat) : byteAt (buf.drop i) k = byteAt buf (i + k) := by
  induction buf generalizing i with
  | nil => simp [byteAt]
  | cons b bs ih =>
    cases i with
    | zero => simp
    | succ i =>
      have : i + 1 + k = (i + k) + 1 := by omega
      simp only [List.drop_succ_cons, this, byteAt]
      exact ih i

theorem byteAt_of_drop {buf S : List Nat} {i : Nat} (h : buf.drop i = S) (k : Nat) :
    byteAt buf (i + k) = byteAt S k := by
  rw [← h, byteAt_drop]

theorem byteAt_of_drop_zero {buf S : List Nat} {i : Nat} (h : buf.drop i = S) :
    byteAt buf i = byteAt S 0 := by
  simpa using byteAt_of_drop h 0

theorem slice_drop (buf : List Nat) (i k n : Nat) :
    slice (buf.drop i) k n = slice buf (i + k) n := by
  induction n generalizing k with
  | zero => rfl
  | succ n ih =>
    simp only [slice, byteAt_drop]
    rw [ih (k + 1)]
    rfl

theorem slice_of_drop {buf S : List Nat} {i : Nat} (h : buf.drop i = S) (n : Nat) :
    slice buf i n = slice S 0 n := by
  rw [← h, slice_drop]; rfl

theorem slice_append_left (M S : List Nat) : slice (M ++ S) 0 M.length = M := by
  induction M with
  | nil => rfl
  | cons x xs ih =>
    simp only [List.cons_append, List.length_cons, slice, byteAt]
    congr 1
    have := slice_drop (x :: (xs ++ S)) 1 0 xs.length
    simp only [List.drop_succ_cons, List.drop_zero] at this
    rw [← this]
    exact ih

theorem scan_of_drop {buf S : List Nat} {i : Nat} (p : Nat → Bool) (h : buf.drop i = S) :
    scan p buf i = i + scanList p S := by
  rw [scan, h]

theorem scanList_append (p : Nat → Bool) (M S : List Nat) (hM : ∀ c ∈ M, p c = true) :
    scanList p (M ++ S) = M.length + scanList p S := by
  induction M with
  | nil => simp
  | cons x xs ih =>
    have hx : p x = true := hM x (by simp)
    have := ih (fun c hc => hM c (by simp [hc]))
    show scanList p (x :: (xs ++ S)) = (x :: xs).length + scanList p S
    rw [scanList, if_pos hx, this, List.length_cons]
    omega

theorem scanList_stop (p : Nat → Bool) (c : Nat) (S : List Nat) (hc : p c = false) :
    scanList p (c :: S) = 0 := by
  simp [scanList, hc]

theorem drop_add_of_drop {buf M S : List Nat} {i : Nat} (h : buf.drop i = M ++ S) :
    buf.drop (i + M.length) = S := by
  rw [← List.drop_drop, h]
  simp

theorem drop_append_length (pre S : List Nat) : (pre ++ S).drop pre.length = S := by
  simp

theorem byteAt_getLast (M S : List Nat) (hM : M ≠ []) :
    some (byteAt (M ++ S) (M.length - 1)) = M.getLast? := by
  induction M with
  | nil => exact absurd rfl hM
  | cons x xs ih =>
    cases xs with
    | nil => simp [byteAt]
    | cons y ys =>
      have := ih (by simp)
      simp only [List.length_cons, Nat.add_sub_cancel, List.cons_append] at this ⊢
      simp only [byteAt]
      rw [List.getLast?_cons_cons]
      exact this

/-! ## The loops of `h2incn_parse_define` when they do not go round -/

theorem define_skip_to_name_stop (fuel head : Nat) (p : parser_t) (w : World)
    (h : isCommentOpener p.pFileBuffer (scan isBlank p.pFileBuffer head) = false) :
    define_skip_to_name fuel head p w =
      some (.inr (if byteAt p.pFileBuffer head != 0 then scan isBlank p.pFileBuffer head else head,
        p, w)) := by
  unfold define_skip_to_name
  by_cases h0 : byteAt p.pFileBuffer head = 0
  · simp [h0]
  · simp [h0, h]

theorem define_skip_to_value_stop (fuel vhead : Nat) (p : parser_t) (w : World)
    (h : isCommentOpener p.pFileBuffer (scan isBlank p.pFileBuffer vhead) = false) :
    define_skip_to_value fuel vhead p w =
      some (.inr (if byteAt p.pFileBuffer vhead != 0 then scan isBlank p.pFileBuffer vhead
        else vhead, p, w)) := by
  unfold define_skip_to_value
  by_cases h0 : byteAt p.pFileBuffer vhead = 0
  · simp [h0]
  · simp [h0, h]

theorem define_continuation_stop (fuel vhead vtail : Nat) (p : parser_t) (w : World)
    (h : byteAt p.pFileBuffer (vtail - 1) ≠ 92) :
    define_continuation fuel vhead vtail p w = some (.inr (vtail, p, w)) := by
  unfold define_continuation
  simp [h]

theorem isCommentOpener_of_drop {buf S : List Nat} {i : Nat} (h : buf.drop i = S) :
    isCommentOpener buf i = isCommentOpener S 0 := by
  unfold isCommentOpener
  rw [byteAt_of_drop_zero h, byteAt_of_drop h 1]

theorem identChar_facts (c : Nat) (h : isIdentChar c = true) :
    c ≠ 0 ∧ c ≠ 9 ∧ c ≠ 10 ∧ c ≠ 13 ∧ c ≠ 32 ∧ c ≠ 40 ∧ c ≠ 47 := by
  simp only [isIdentChar, isIdentStart, Bool.or_eq_true, Bool.and_eq_true, decide_eq_true_eq,
    beq_iff_eq] at h
  omega

theorem identifier_facts (name : List Nat) (h : isIdentifier name = true) :
    name ≠ [] ∧ ∀ c ∈ name, isIdentChar c = true := by
  cases name with
  | nil => simp [isIdentifier] at h
  | cons c cs =>
    simp only [isIdentifier, Bool.and_eq_true, List.all_eq_true] at h
    refine ⟨by simp, ?_⟩
    intro x hx
    rcases List.mem_cons.1 hx with rfl | hx
    · simp [isIdentChar, h.1]
    · exact h.2 x hx

theorem bytes_define_length : (bytes "#define ").length = 8 := by decide

theorem plainValue_facts (value : List Nat) (h : isPlainValue value = true) :
    value ≠ [] ∧ (∀ c ∈ value, notEol c = true) ∧ isBlank (byteAt value 0) = false ∧
      isCommentOpener value 0 = false ∧ value.getLast? ≠ some 92 := by
  simp only [isPlainValue, Bool.and_eq_true, bne_iff_ne, ne_eq, List.all_eq_true,
    Bool.not_eq_true', Bool.not_eq_eq_eq_not, Bool.not_true] at h
  obtain ⟨⟨⟨⟨h1, h2⟩, h3⟩, h4⟩, h5⟩ := h
  exact ⟨h1, h2, h3, h4, h5⟩

theorem isCommentOpener_append (value rest : List Nat) (t : Nat) (hv : value ≠ [])
    (h : isCommentOpener value 0 = false) (ht : isTerminator t = true) :
    isCommentOpener (value ++ t :: rest) 0 = false := by
  have ht' : t = 13 ∨ t = 10 := by
    simpa [isTerminator] using ht
  cases value with
  | nil => exact absurd rfl hv
  | cons a as =>
    cases as with
    | nil =>
      rcases ht' with rfl | rfl <;> simp [isCommentOpener, byteAt]
    | cons b bs =>
      simpa [isCommentOpener, byteAt] using h

/-- The handler on a plain `#define NAME VALUE` line: what it returns, writes
and stores, and what it leaves alone. -/
theorem parse_define_plain_core (fuel : Nat) (p : parser_t) (w : World)
    (pre name value rest : List Nat) (t : Nat)
    (hbuf : p.pFileBuffer = pre ++ (bytes "#define " ++ (name ++ (32 :: (value ++ t :: rest)))))
    (hpos : p.pNextToken = pre.length)
    (hname : isIdentifier name = true) (hvalue : isPlainValue value = true)
    (hparen : byteAt value 0 ≠ 40) (ht : isTerminator t = true) :
    ∃ r, h2incn_parse_define fuel p w = some r ∧
      r.2.2.out = w.out ++ (bytes "%define " ++ name ++ [32] ++ value) ∧
      r.2.2.pDefinesMap = (hash_map_insert w.pDefinesMap name value).2 ∧
      r.1 = ((hash_map_insert w.pDefinesMap name value).1 == 0) ∧
      r.2.1.pNextToken = pre.length + 8 + name.length + 1 + value.length ∧
      byteAt p.pFileBuffer r.2.1.pNextToken = t ∧
      r.2.1.pFileBuffer = p.pFileBuffer ∧ r.2.1.iLineNum = p.iLineNum ∧
      r.2.2.options = w.options ∧ r.2.2.pHeadersMap = w.pHeadersMap := by
  obtain ⟨hn0, hnc⟩ := identifier_facts name hname
  obtain ⟨hv0, hvc, hvb, hvo, hvl⟩ := plainValue_facts value hvalue
  have ht' : t = 13 ∨ t = 10 := by simpa [isTerminator] using ht
  -- the buffer from each cursor position on
  have d0 : p.pFileBuffer.drop pre.length
      = bytes "#define " ++ (name ++ (32 :: (value ++ t :: rest))) := by
    rw [hbuf]; exact drop_append_length _ _
  have d1 : p.pFileBuffer.drop (pre.length + 8) = name ++ (32 :: (value ++ t :: rest)) := by
    have := drop_add_of_drop d0
    rwa [bytes_define_length] at this
  have d2 : p.pFileBuffer.drop (pre.length + 8 + name.length) = 32 :: (value ++ t :: rest) :=
    drop_add_of_drop d1
  have d3 : p.pFileBuffer.drop (pre.length + 8 + name.length + 1) = value ++ t :: rest := by
    have : p.pFileBuffer.drop (pre.length + 8 + name.length) = [32] ++ (value ++ t :: rest) := d2
    exact drop_add_of_drop this
  have d4 : p.pFileBuffer.drop (pre.length + 8 + name.length + 1 + value.length) = t :: rest :=
    drop_add_of_drop d3
  -- the first byte of the name
  obtain ⟨c, cs, rfl⟩ : ∃ c cs, name = c :: cs := by
    cases name with
    | nil => exact absurd rfl hn0
    | cons c cs => exact ⟨c, cs, rfl⟩
  have hc := identChar_facts c (hnc c (by simp))
  obtain ⟨a, as, rfl⟩ : ∃ a as, value = a :: as := by
    cases value with
    | nil => exact absurd rfl hv0
    | cons a as => exact ⟨a, as, rfl⟩
  have ha : notEol a = true := hvc a (by simp)
  -- the scans
  have b1 : byteAt p.pFileBuffer (pre.length + 8) = c := by
    rw [byteAt_of_drop_zero d1]; rfl
  have s1 : scan isBlank p.pFileBuffer (pre.length + 8) = pre.length + 8 := by
    rw [scan_of_drop _ d1]
    have : isBlank c = false := by
      simp only [isBlank, Bool.or_eq_false_iff, beq_eq_false_iff_ne]; omega
    simp [scanList, this]
  have o1 : isCommentOpener p.pFileBuffer (pre.length + 8) = false := by
    rw [isCommentOpener_of_drop d1]
    simp only [isCommentOpener, List.cons_append, byteAt, Bool.and_eq_false_imp, beq_iff_eq]
    intro h; omega
  have s2 : scan (fun c => c != 0 && c != 32 && c != 9 && c != 40 && c != 13 && c != 10)
      p.pFileBuffer (pre.length + 8) = pre.length + 8 + (c :: cs).length := by
    have hM : ∀ x ∈ c :: cs,
        (fun c => c != 0 && c != 32 && c != 9 && c != 40 && c != 13 && c != 10) x = true := by
      intro x hx
      have := identChar_facts x (hnc x hx)
      simp only [Bool.and_eq_true, bne_iff_ne, ne_eq]
      omega
    rw [scan_of_drop _ d1, scanList_append _ _ _ hM, scanList_stop _ _ _ rfl]
    rfl
  have b2 : byteAt p.pFileBuffer (pre.length + 8 + (c :: cs).length) = 32 := by
    rw [byteAt_of_drop_zero d2]; rfl
  have s3 : scan isBlank p.pFileBuffer (pre.length + 8 + (c :: cs).length)
      = pre.length + 8 + (c :: cs).length + 1 := by
    rw [scan_of_drop _ d2]
    have h1 : isBlank 32 = true := rfl
    have h2 : isBlank a = false := by simpa [byteAt] using hvb
    simp [scanList, h1, h2]
  have o2 : isCommentOpener p.pFileBuffer (pre.length + 8 + (c :: cs).length + 1) = false := by
    rw [isCommentOpener_of_drop d3]
    exact isCommentOpener_append _ _ _ hv0 hvo ht
  have s4 : scan notEol p.pFileBuffer (pre.length + 8 + (c :: cs).length + 1)
      = pre.length + 8 + (c :: cs).length + 1 + (a :: as).length := by
    have hstop : notEol t = false := by
      rcases ht' with rfl | rfl <;> rfl
    rw [scan_of_drop _ d3, scanList_append _ _ _ hvc, scanList_stop _ _ _ hstop]
    rfl
  have b3 : byteAt p.pFileBuffer
      (pre.length + 8 + (c :: cs).length + 1 + (a :: as).length - 1) ≠ 92 := by
    have h1 : pre.length + 8 + (c :: cs).length + 1 + (a :: as).length - 1
        = (pre.length + 8 + (c :: cs).length + 1) + ((a :: as).length - 1) := by
      simp only [List.length_cons]; omega
    rw [h1, byteAt_of_drop d3]
    intro h
    apply hvl
    rw [← byteAt_getLast (a :: as) (t :: rest) hv0, h]
  have b4 : byteAt p.pFileBuffer (pre.length + 8 + (c :: cs).length + 1) = a := by
    rw [byteAt_of_drop_zero d3]; rfl
  have b5 : byteAt p.pFileBuffer (pre.length + 8 + (c :: cs).length + 1 + (a :: as).length)
      = t := by
    rw [byteAt_of_drop_zero d4]; rfl
  have l1 : slice p.pFileBuffer (pre.length + 8) (c :: cs).length = c :: cs := by
    rw [slice_of_drop d1]; exact slice_append_left _ _
  have l2 : slice p.pFileBuffer (pre.length + 8 + (c :: cs).length + 1) (a :: as).length
      = a :: as := by
    rw [slice_of_drop d3]; exact slice_append_left _ _
  have hpa : a ≠ 40 := by simpa [byteAt] using hparen
  have n1 : pre.length + 8 + (c :: cs).length - (pre.length + 8) = (c :: cs).length := by omega
  have n2 : pre.length + 8 + (c :: cs).length + 1 + (a :: as).length
      - (pre.length + 8 + (c :: cs).length + 1) = (a :: as).length := by omega
  have n3 : pre.length + 8 + (c :: cs).length + 1 + (a :: as).length
      > pre.length + 8 + (c :: cs).length + 1 := by
    simp only [List.length_cons]; omega
  have sn := define_skip_to_name_stop fuel (pre.length + 8) p (w.fwrite (bytes "%define "))
    (by rw [s1]; exact o1)
  rw [b1, s1] at sn
  simp only [bne_iff_ne, ne_eq, hc.1, not_false_eq_true, if_true] at sn
  have sv : ∀ w', define_skip_to_value fuel (pre.length + 8 + (c :: cs).length) p w'
      = some (.inr (pre.length + 8 + (c :: cs).length + 1, p, w')) := by
    intro w'
    have := define_skip_to_value_stop fuel (pre.length + 8 + (c :: cs).length) p w'
      (by rw [s3]; exact o2)
    rw [this, b2, s3]
    rfl
  have sc : ∀ w', define_continuation fuel (pre.length + 8 + (c :: cs).length + 1)
      (pre.length + 8 + (c :: cs).length + 1 + (a :: as).length) p w'
      = some (.inr (pre.length + 8 + (c :: cs).length + 1 + (a :: as).length, p, w')) :=
    fun w' => define_continuation_stop fuel _ _ p w' b3
  have g1 : (pre.length + 8 + (c :: cs).length + 1 + (a :: as).length
      > pre.length + 8 + (c :: cs).length + 1) = True := eq_true n3
  have g2 : (a != 40) = true := by simpa using hpa
  simp only [h2incn_parse_define, hpos, sn, s2, n1, l1, sv, s4, sc, n2, l2, g1, g2, b4, if_true]
  refine ⟨_, rfl, ?_, ?_, ?_, ?_, ?_, rfl, rfl, ?_, ?_⟩
  · by_cases hp : (w.options.fPreprocess && (hash_map_find w.pDefinesMap (c :: cs)).isNode) = true
      <;> simp [World.fwrite, World.printf, hp]
  · by_cases hp : (w.options.fPreprocess && (hash_map_find w.pDefinesMap (c :: cs)).isNode) = true
      <;> simp [World.fwrite, World.printf, hp]
  · by_cases hp : (w.options.fPreprocess && (hash_map_find w.pDefinesMap (c :: cs)).isNode) = true
      <;> simp [World.fwrite, World.printf, hp]
  · rfl
  · exact b5
  · by_cases hp : (w.options.fPreprocess && (hash_map_find w.pDefinesMap (c :: cs)).isNode) = true
      <;> simp [World.fwrite, World.printf, hp]
  · by_cases hp : (w.options.fPreprocess && (hash_map_find w.pDefinesMap (c :: cs)).isNode) = true
      <;> simp [World.fwrite, World.printf, hp]

/-- Where the replacement text does not start with `(`: for every identifier
NAME and every replacement text VALUE (non-empty, on one line, not starting
with a blank, a comment opener or `(`, not ending in a backslash),
`h2incn_parse_define` applied at `#define NAME VALUE` followed by a line
terminator returns for every fuel, writes exactly `%define NAME VALUE`, calls
`hash_map_insert` on the defines table with the pair NAME, VALUE and returns 1
exactly when that call returns 0, and leaves the cursor on the line
terminator. -/
theorem parse_define_plain (fuel : Nat) (p : parser_t) (w : World)
    (pre name value rest : List Nat) (t : Nat)
    (hbuf : p.pFileBuffer = pre ++ (bytes "#define " ++ (name ++ (32 :: (value ++ t :: rest)))))
    (hpos : p.pNextToken = pre.length)
    (hname : isIdentifier name = true) (hvalue : isPlainValue value = true)
    (hparen : byteAt value 0 ≠ 40) (ht : isTerminator t = true) :
    ∃ r, h2incn_parse_define fuel p w = some r ∧
      r.2.2.out = w.out ++ (bytes "%define " ++ name ++ [32] ++ value) ∧
      r.2.2.pDefinesMap = (hash_map_insert w.pDefinesMap name value).2 ∧
      r.1 = ((hash_map_insert w.pDefinesMap name value).1 == 0) ∧
      r.2.1.pNextToken = pre.length + 8 + name.length + 1 + value.length ∧
      byteAt p.pFileBuffer r.2.1.pNextToken = t := by
  obtain ⟨r, h1, h2, h3, h4, h5, h6, -⟩ :=
    parse_define_plain_core fuel p w pre name value rest t hbuf hpos hname hvalue hparen ht
  exact ⟨r, h1, h2, h3, h4, h5, h6⟩

theorem parse_define_plain_witness :
    ∃ r, h2incn_parse_define 0 (parser_at (bytes "#define FOO 1\nint x;\n") 0)
        (initial_world {}) = some r ∧
      r.2.2.out = (initial_world {}).out ++ (bytes "%define " ++ bytes "FOO" ++ [32] ++ bytes "1") ∧
      r.2.2.pDefinesMap
        = (hash_map_insert (initial_world {}).pDefinesMap (bytes "FOO") (bytes "1")).2 ∧
      r.1 = ((hash_map_insert (initial_world {}).pDefinesMap (bytes "FOO") (bytes "1")).1 == 0) ∧
      r.2.1.pNextToken = ([] : List Nat).length + 8 + (bytes "FOO").length + 1 + (bytes "1").length ∧
      byteAt (parser_at (bytes "#define FOO 1\nint x;\n") 0).pFileBuffer r.2.1.pNextToken = 10 :=
  parse_define_plain 0 (parser_at (bytes "#define FOO 1\nint x;\n") 0) (initial_world {})
    [] (bytes "FOO") (bytes "1") (bytes "int x;\n") 10 (by decide) (by decide) (by decide)
    (by decide) (by decide) (by decide)

/-- C1 (failing input): `FOO` is an identifier and `(1)` a replacement text
of the kind the claim admits, separated from the name by a blank, yet at
`#define FOO (1)` followed by a line feed `h2incn_parse_define` writes
`%define FOO(1)`, with no space between the name and the value, whatever the
fuel: the object-like macro `FOO` comes out in the form of a function-like
one. The test `if ( *vhead != '(' )` in front of the space is made after the
blanks between name and value have been skipped, so it cannot tell
`#define FOO (1)` from `#define F(x) x`. -/
theorem define_paren_value_glued :
    isIdentifier (bytes "FOO") = true ∧ isPlainValue (bytes "(1)") = true ∧
    (∀ fuel, (h2incn_parse_define fuel (parser_at (bytes "#define FOO (1)\n") 0)
        (initial_world {})).map (fun r => r.2.2.out) = some (bytes "%define FOO(1)")) ∧
    bytes "%define FOO(1)" ≠ bytes "%define " ++ bytes "FOO" ++ [32] ++ bytes "(1)" := by
  refine ⟨by decide, by decide, ?_, by decide⟩
  intro fuel
  have h1 := define_skip_to_name_stop fuel 8 (parser_at (bytes "#define FOO (1)\n") 0)
    ((initial_world {}).fwrite (bytes "%define ")) (by decide)
  have h2 : ∀ w', define_skip_to_value fuel 11 (parser_at (bytes "#define FOO (1)\n") 0) w' = _ :=
    fun w' => define_skip_to_value_stop fuel 11 (parser_at (bytes "#define FOO (1)\n") 0) w'
      (by decide)
  have h3 : ∀ w', define_continuation fuel 12 15 (parser_at (bytes "#define FOO (1)\n") 0) w' = _ :=
    fun w' => define_continuation_stop fuel 12 15 (parser_at (bytes "#define FOO (1)\n") 0) w'
      (by decide)
  have e1 : (parser_at (bytes "#define FOO (1)\n") 0).pNextToken + 8 = 8 := rfl
  have e2 : scan (fun c => c != 0 && c != 32 && c != 9 && c != 40 && c != 13 && c != 10)
      (parser_at (bytes "#define FOO (1)\n") 0).pFileBuffer 8 = 11 := by decide
  have e3 : scan notEol (parser_at (bytes "#define FOO (1)\n") 0).pFileBuffer 12 = 15 := by decide
  have e4 : (if byteAt (parser_at (bytes "#define FOO (1)\n") 0).pFileBuffer 8 != 0 then
      scan isBlank (parser_at (bytes "#define FOO (1)\n") 0).pFileBuffer 8 else 8) = 8 := by decide
  have e5 : (if byteAt (parser_at (bytes "#define FOO (1)\n") 0).pFileBuffer 11 != 0 then
      scan isBlank (parser_at (bytes "#define FOO (1)\n") 0).pFileBuffer 11 else 11) = 12 := by
    decide
  rw [e4] at h1
  simp only [e5] at h2
  simp only [h2incn_parse_define, e1, h1, e2, h2, e3, h3, Option.map]
  decide

/-! ## `#undef` -/

theorem delete_of_find_nil (t : bst_node_t) (key : List Nat)
    (h : binarytree_find_node t key = .nil) : (binarytree_delete_node t key).2 = t := by
  induction t with
  | nil => rfl
  | node l k v r ihl ihr =>
    simp only [binarytree_find_node] at h
    cases hc : key_cmp key k with
    | lt =>
      rw [hc] at h
      simp only [binarytree_delete_node, hc, ihl h]
    | gt =>
      rw [hc] at h
      simp only [binarytree_delete_node, hc, ihr h]
    | eq =>
      rw [hc] at h
      cases h

theorem set_getD_self (l : List bst_node_t) (i : Nat) (d : bst_node_t) :
    l.set i (l.getD i d) = l := by
  induction l generalizing i with
  | nil => simp
  | cons x xs ih =>
    cases i with
    | zero => simp
    | succ i =>
      simp only [List.getD_cons_succ, List.set_cons_succ]
      rw [ih i]

theorem hash_map_alloc_defines : hash_map_alloc 0x8000 = some (empty_map 32767) := by
  simp only [hash_map_alloc, find_uppermost_bit_cap]
  rfl

theorem hash_map_alloc_headers : hash_map_alloc 0x80 = some (empty_map 127) := by
  have : find_uppermost_bit 32 0x80 (1 <<< 31) = 0x80 := by decide
  simp only [hash_map_alloc, this]
  rfl

theorem hash_map_delete_absent (m : hash_map_t) (key : List Nat)
    (h : hash_map_find m key = .nil) : (hash_map_delete m key).2 = m := by
  unfold hash_map_find at h
  simp only [hash_map_delete, delete_of_find_nil _ _ h, set_bucket]
  unfold bucket_root
  rw [set_getD_self]

theorem find_entry_delete (m : hash_map_t) (hw : map_wf m) (key k : List Nat) (hk : k ≠ key) :
    (hash_map_find (hash_map_delete m key).2 k).entry = (hash_map_find m k).entry := by
  have hw' := map_wf_delete m hw key
  cases he : (hash_map_find m k).entry with
  | none =>
    rw [entry_eq_none_iff] at he ⊢
    rw [find_nil_iff _ hw] at he
    rw [find_nil_iff _ hw']
    intro v hv
    exact he v ((map_has_delete m hw key k v).1 hv).1
  | some e =>
    obtain ⟨k', v⟩ := e
    obtain ⟨h1, h2⟩ := find_entry_mem _ _ _ he
    simp only at h1
    subst h1
    rw [entry_eq_some_iff]
    exact (find_iff_has _ hw' k' v).2 ((map_has_delete m hw key k' v).2 ⟨h2, hk⟩)

theorem bytes_undef_length : (bytes "#undef ").length = 7 := by decide

/-- On a well-formed defines table (one that holds no name twice): for every
identifier NAME, `h2incn_parse_undef` applied at `#undef NAME` followed by a line terminator
returns 1 whether or not NAME is defined, writes exactly `%undef NAME`, leaves
the cursor on the terminator, and replaces the table by the result of
`hash_map_delete` on NAME: afterwards a find of NAME returns null, a find of
any other key carries the same key and value as before, and when NAME was
not in the table the table is unchanged. -/
theorem parse_undef_spec (p : parser_t) (w : World) (pre name rest : List Nat) (t : Nat)
    (hbuf : p.pFileBuffer = pre ++ (bytes "#undef " ++ (name ++ t :: rest)))
    (hpos : p.pNextToken = pre.length)
    (hname : isIdentifier name = true) (ht : isTerminator t = true)
    (hw : map_wf w.pDefinesMap) :
    (h2incn_parse_undef p w).1 = true ∧
    (h2incn_parse_undef p w).2.2.out = w.out ++ (bytes "%undef " ++ name) ∧
    (h2incn_parse_undef p w).2.1.pNextToken = pre.length + 7 + name.length ∧
    byteAt p.pFileBuffer (h2incn_parse_undef p w).2.1.pNextToken = t ∧
    (h2incn_parse_undef p w).2.2.pDefinesMap = (hash_map_delete w.pDefinesMap name).2 ∧
    hash_map_find (h2incn_parse_undef p w).2.2.pDefinesMap name = .nil ∧
    (∀ k, k ≠ name →
      (hash_map_find (h2incn_parse_undef p w).2.2.pDefinesMap k).entry
        = (hash_map_find w.pDefinesMap k).entry) ∧
    (hash_map_find w.pDefinesMap name = .nil →
      (h2incn_parse_undef p w).2.2.pDefinesMap = w.pDefinesMap) := by
  obtain ⟨hn0, hnc⟩ := identifier_facts name hname
  have ht' : t = 13 ∨ t = 10 := by simpa [isTerminator] using ht
  have d0 : p.pFileBuffer.drop pre.length = bytes "#undef " ++ (name ++ t :: rest) := by
    rw [hbuf]; exact drop_append_length _ _
  have d1 : p.pFileBuffer.drop (pre.length + 7) = name ++ t :: rest := by
    have := drop_add_of_drop d0
    rwa [bytes_undef_length] at this
  have d2 : p.pFileBuffer.drop (pre.length + 7 + name.length) = t :: rest :=
    drop_add_of_drop d1
  obtain ⟨c, cs, rfl⟩ : ∃ c cs, name = c :: cs := by
    cases name with
    | nil => exact absurd rfl hn0
    | cons c cs => exact ⟨c, cs, rfl⟩
  have hc := identChar_facts c (hnc c (by simp))
  have s1 : scan (fun c => c != 0 && (c == 32 || c == 9)) p.pFileBuffer (pre.length + 7)
      = pre.length + 7 := by
    rw [scan_of_drop _ d1]
    have : (c != 0 && (c == 32 || c == 9)) = false := by
      simp only [Bool.and_eq_false_imp, bne_iff_ne, ne_eq, Bool.or_eq_false_iff,
        beq_eq_false_iff_ne]
      omega
    show pre.length + 7 + scanList _ (c :: (cs ++ t :: rest)) = _
    rw [scanList_stop _ _ _ this]
  have s2 : scan (fun c => c != 0 && c != 32 && c != 9 && c != 47 && c != 40 && c != 13 && c != 10)
      p.pFileBuffer (pre.length + 7) = pre.length + 7 + (c :: cs).length := by
    have hM : ∀ x ∈ c :: cs,
        (fun c => c != 0 && c != 32 && c != 9 && c != 47 && c != 40 && c != 13 && c != 10) x
          = true := by
      intro x hx
      have := identChar_facts x (hnc x hx)
      simp only [Bool.and_eq_true, bne_iff_ne, ne_eq]
      omega
    have hstop : (fun c => c != 0 && c != 32 && c != 9 && c != 47 && c != 40 && c != 13 && c != 10)
        t = false := by
      rcases ht' with rfl | rfl <;> rfl
    rw [scan_of_drop _ d1, scanList_append _ _ _ hM, scanList_stop _ _ _ hstop]
    rfl
  have s3 : scan (fun c => c != 0 && (c == 32 || c == 9)) p.pFileBuffer
      (pre.length + 7 + (c :: cs).length) = pre.length + 7 + (c :: cs).length := by
    have hstop : (fun c => c != 0 && (c == 32 || c == 9)) t = false := by
      rcases ht' with rfl | rfl <;> rfl
    rw [scan_of_drop _ d2, scanList_stop _ _ _ hstop]
    rfl
  have b1 : byteAt p.pFileBuffer (pre.length + 7 + (c :: cs).length) = t := by
    rw [byteAt_of_drop_zero d2]; rfl
  have l1 : slice p.pFileBuffer (pre.length + 7) (c :: cs).length = c :: cs := by
    rw [slice_of_drop d1]; exact slice_append_left _ _
  have n1 : pre.length + 7 + (c :: cs).length - (pre.length + 7) = (c :: cs).length := by omega
  have g1 : (byteAt p.pFileBuffer (pre.length + 7 + (c :: cs).length) != 13 &&
      byteAt p.pFileBuffer (pre.length + 7 + (c :: cs).length) != 10) = false := by
    rw [b1]; rcases ht' with rfl | rfl <;> rfl
  have hmap : (h2incn_parse_undef p w).2.2.pDefinesMap
      = (hash_map_delete w.pDefinesMap (c :: cs)).2 := by
    simp only [h2incn_parse_undef, hpos, s1, s2, s3, n1, l1, g1]
    rfl
  refine ⟨rfl, ?_, ?_, ?_, hmap, ?_, ?_, ?_⟩
  · simp only [h2incn_parse_undef, hpos, s1, s2, s3, n1, l1, g1]
    simp [World.fwrite]
  · simp only [h2incn_parse_undef, hpos, s1, s2, s3]
  · simp only [h2incn_parse_undef, hpos, s1, s2, s3]
    exact b1
  · rw [hmap, find_nil_iff _ (map_wf_delete _ hw _)]
    intro v hv
    exact ((map_has_delete _ hw _ _ v).1 hv).2 rfl
  · intro k hk
    rw [hmap]
    exact find_entry_delete _ hw _ k hk
  · intro h
    rw [hmap]
    exact hash_map_delete_absent _ _ h

theorem world_defining_foo_wf : map_wf world_defining_foo.pDefinesMap := by
  simp only [world_defining_foo]
  unfold map_defining_foo
  exact map_wf_insert (empty_map 32767) (map_wf_alloc 0x8000 _ hash_map_alloc_defines)
    (bytes "FOO") (bytes "1") (fun v => map_has_alloc 0x8000 _ hash_map_alloc_defines _ v)

theorem parse_undef_spec_witness :
    (h2incn_parse_undef (parser_at (bytes "#undef FOO\nint x;\n") 0) world_defining_foo).1 = true ∧
    (h2incn_parse_undef (parser_at (bytes "#undef FOO\nint x;\n") 0) world_defining_foo).2.2.out
      = world_defining_foo.out ++ (bytes "%undef " ++ bytes "FOO") ∧
    (h2incn_parse_undef (parser_at (bytes "#undef FOO\nint x;\n") 0)
      world_defining_foo).2.1.pNextToken = ([] : List Nat).length + 7 + (bytes "FOO").length ∧
    byteAt (parser_at (bytes "#undef FOO\nint x;\n") 0).pFileBuffer
      (h2incn_parse_undef (parser_at (bytes "#undef FOO\nint x;\n") 0)
        world_defining_foo).2.1.pNextToken = 10 ∧
    (h2incn_parse_undef (parser_at (bytes "#undef FOO\nint x;\n") 0)
      world_defining_foo).2.2.pDefinesMap
        = (hash_map_delete world_defining_foo.pDefinesMap (bytes "FOO")).2 ∧
    hash_map_find (h2incn_parse_undef (parser_at (bytes "#undef FOO\nint x;\n") 0)
      world_defining_foo).2.2.pDefinesMap (bytes "FOO") = .nil ∧
    (∀ k, k ≠ bytes "FOO" →
      (hash_map_find (h2incn_parse_undef (parser_at (bytes "#undef FOO\nint x;\n") 0)
        world_defining_foo).2.2.pDefinesMap k).entry
        = (hash_map_find world_defining_foo.pDefinesMap k).entry) ∧
    (hash_map_find world_defining_foo.pDefinesMap (bytes "FOO") = .nil →
      (h2incn_parse_undef (parser_at (bytes "#undef FOO\nint x;\n") 0)
        world_defining_foo).2.2.pDefinesMap = world_defining_foo.pDefinesMap) :=
  parse_undef_spec (parser_at (bytes "#undef FOO\nint x;\n") 0) world_defining_foo
    [] (bytes "FOO") (bytes "int x;\n") 10 (by decide) (by decide) (by decide) (by decide)
    world_defining_foo_wf

/-! ## Comment lines and code lines -/

theorem comment_continuation_stop (fuel head tail : Nat) (p : parser_t) (w : World)
    (h : byteAt p.pFileBuffer (tail - 1) ≠ 92) :
    comment_continuation fuel head tail p w = some (head, tail, p, w) := by
  unfold comment_continuation
  cases fuel <;> simp [h]

theorem lineComment_facts (body : List Nat) (h : isLineComment body = true) :
    (∃ b, body = 47 :: 47 :: b) ∧ (∀ c ∈ body, notEol c = true) ∧ body.getLast? ≠ some 92 := by
  simp only [isLineComment, Bool.and_eq_true, List.all_eq_true, bne_iff_ne, ne_eq] at h
  obtain ⟨⟨h1, h2⟩, h3⟩ := h
  refine ⟨?_, h2, h3⟩
  cases body with
  | nil => simp [startsWith, slice, byteAt] at h1
  | cons x xs =>
    cases xs with
    | nil => simp [startsWith, slice, byteAt] at h1
    | cons y ys =>
      simp only [startsWith, List.length_cons, List.length_nil, slice, byteAt, beq_iff_eq,
        List.cons.injEq, and_true] at h1
      obtain ⟨rfl, rfl⟩ := h1
      exact ⟨ys, rfl⟩

theorem codeLine_facts (body : List Nat) (h : isCodeLine body = true) :
    body ≠ [] ∧ (∀ c ∈ body, notEol c = true) ∧ isBlank (byteAt body 0) = false ∧
      byteAt body 0 ≠ 35 ∧ isCommentOpener body 0 = false := by
  simp only [isCodeLine, Bool.and_eq_true, bne_iff_ne, ne_eq, List.all_eq_true,
    Bool.not_eq_true', Bool.not_eq_eq_eq_not, Bool.not_true] at h
  obtain ⟨⟨⟨⟨h1, h2⟩, h3⟩, h4⟩, h5⟩ := h
  exact ⟨h1, h2, h3, h4, h5⟩

/-- A `//` comment that is not continued: `h2incn_parse_comment` consumes it
with its line feed and the blanks that follow, counts one line, and writes
`;`, the comment and the line feed when comments are converted. -/
theorem parse_comment_line (fuel head : Nat) (p : parser_t) (w : World) (body rest : List Nat)
    (hd : p.pFileBuffer.drop head = body ++ 10 :: rest) (hpos : p.pNextToken = head)
    (hbody : isLineComment body = true) :
    h2incn_parse_comment fuel p w =
      some (true,
        { p with iLineNum := p.iLineNum + 1, pLine := head + body.length + 1,
                 pNextToken := scan isBlank p.pFileBuffer (head + body.length + 1) },
        if w.options.fComments then w.fwrite (59 :: (body ++ [10])) else w) := by
  obtain ⟨⟨b, hb⟩, hall, hlast⟩ := lineComment_facts body hbody
  have hne : body ≠ [] := by rw [hb]; simp
  have hlen : body.length = b.length + 2 := by rw [hb]; rfl
  have b0 : byteAt p.pFileBuffer head = 47 := by rw [byteAt_of_drop_zero hd, hb]; rfl
  have b1 : byteAt p.pFileBuffer (head + 1) = 47 := by rw [byteAt_of_drop hd 1, hb]; rfl
  have d1 : p.pFileBuffer.drop (head + 1) = (47 :: b) ++ 10 :: rest := by
    have : p.pFileBuffer.drop head = [47] ++ ((47 :: b) ++ 10 :: rest) := by rw [hd, hb]; rfl
    exact drop_add_of_drop this
  have d2 : p.pFileBuffer.drop (head + body.length) = 10 :: rest :=
    drop_add_of_drop hd
  have s1 : scan notEol p.pFileBuffer (head + 1) = head + body.length := by
    have hM : ∀ c ∈ 47 :: b, notEol c = true := fun c hc => hall c (by rw [hb]; simp [hc])
    rw [scan_of_drop _ d1, scanList_append _ _ _ hM, scanList_stop _ _ _ rfl, hlen]
    simp only [List.length_cons]; omega
  have b2 : byteAt p.pFileBuffer (head + body.length - 1) ≠ 92 := by
    have h1 : head + body.length - 1 = head + (body.length - 1) := by omega
    rw [h1, byteAt_of_drop hd]
    intro h
    apply hlast
    rw [← byteAt_getLast body (10 :: rest) hne, h]
  have b3 : byteAt p.pFileBuffer (head + body.length) = 10 := by
    rw [byteAt_of_drop_zero d2]; rfl
  have l1 : slice p.pFileBuffer head (body.length + 1) = body ++ [10] := by
    have : p.pFileBuffer.drop head = (body ++ [10]) ++ rest := by
      rw [hd]; simp
    rw [slice_of_drop this]
    have := slice_append_left (body ++ [10]) rest
    simpa using this
  have n1 : head + body.length + 1 - head = body.length + 1 := by omega
  have cc := comment_continuation_stop fuel head (head + body.length) p w b2
  simp only [h2incn_parse_comment, hpos, b0, b1, s1, cc, b3, n1, l1]
  by_cases hf : w.options.fComments = true <;> simp [hf, b3, n1, l1]

/-- A code line: `parse_other_line` consumes it with its line feed, counts one
line, and writes nothing when code is not emitted. -/
theorem parse_other_line_code (head : Nat) (p : parser_t) (w : World) (body rest : List Nat)
    (hd : p.pFileBuffer.drop head = body ++ 10 :: rest)
    (hall : ∀ c ∈ body, notEol c = true) (hcode : w.options.fCode = false) :
    parse_other_line head p w =
      ({ p with iLineNum := p.iLineNum + 1, pLine := head + body.length + 1,
                pNextToken := head + body.length + 1 }, w) := by
  have d2 : p.pFileBuffer.drop (head + body.length) = 10 :: rest := drop_add_of_drop hd
  have s1 : scan notEol p.pFileBuffer head = head + body.length := by
    rw [scan_of_drop _ hd, scanList_append _ _ _ hall, scanList_stop _ _ _ rfl]
    rfl
  have b3 : byteAt p.pFileBuffer (head + body.length) = 10 := by
    rw [byteAt_of_drop_zero d2]; rfl
  simp [parse_other_line, s1, b3, hcode]

theorem src_line_body_facts (l : src_line) (h : l.ok = true) :
    (∀ c ∈ l.indent, isBlank c = true) ∧ l.body ≠ [] ∧ (∀ c ∈ l.body, notEol c = true) ∧
      isBlank (byteAt l.body 0) = false ∧
      (if l.comment then isLineComment l.body = true else isCodeLine l.body = true) := by
  simp only [src_line.ok, Bool.and_eq_true, List.all_eq_true] at h
  obtain ⟨h1, h2⟩ := h
  by_cases hc : l.comment = true
  · simp only [hc, if_true] at h2 ⊢
    obtain ⟨⟨b, hb⟩, hall, -⟩ := lineComment_facts _ h2
    refine ⟨h1, by rw [hb]; simp, hall, by rw [hb]; rfl, h2⟩
  · simp only [hc] at h2 ⊢
    obtain ⟨hne, hall, hbl, -, -⟩ := codeLine_facts _ h2
    exact ⟨h1, hne, hall, hbl, h2⟩

theorem scan_blank_indent (buf : List Nat) (i : Nat) (l : src_line) (rest : List Nat)
    (hok : l.ok = true) (hd : buf.drop i = l.text ++ rest) :
    scan isBlank buf i = i + l.indent.length ∧
      buf.drop (i + l.indent.length) = l.body ++ 10 :: rest := by
  obtain ⟨hind, hne, -, hbl, -⟩ := src_line_body_facts l hok
  have hd' : buf.drop i = l.indent ++ (l.body ++ 10 :: rest) := by
    rw [hd]; simp [src_line.text]
  refine ⟨?_, drop_add_of_drop hd'⟩
  rw [scan_of_drop _ hd', scanList_append _ _ _ hind]
  cases hb : l.body with
  | nil => exact absurd hb hne
  | cons c cs =>
    rw [hb] at hbl
    simp only [List.cons_append]
    rw [scanList_stop _ _ _ (by simpa [byteAt] using hbl)]
    rfl

theorem skip_next_indent (buf : List Nat) (i : Nat) (lines : List src_line)
    (hok : ∀ l ∈ lines, l.ok = true) (hd : buf.drop i = src_text lines) :
    ∃ lines', buf.drop (scan isBlank buf i) = src_text lines' ∧
      (∀ l ∈ lines', l.ok = true) ∧ lines'.length = lines.length ∧
      ∀ f, emitted_text f lines' = emitted_text f lines := by
  cases lines with
  | nil =>
    refine ⟨[], ?_, by simp, rfl, fun _ => rfl⟩
    have : scan isBlank buf i = i := by
      rw [scan_of_drop _ hd]; rfl
    rw [this, hd]
  | cons l ls =>
    have hl : l.ok = true := hok l (by simp)
    obtain ⟨h1, h2⟩ := scan_blank_indent buf i l (src_text ls) hl hd
    refine ⟨{ l with indent := [] } :: ls, ?_, ?_, rfl, fun _ => rfl⟩
    · rw [h1, h2]
      simp [src_text, src_line.text]
    · intro x hx
      rcases List.mem_cons.1 hx with rfl | hx
      · simp only [src_line.ok, Bool.and_eq_true] at hl ⊢
        exact ⟨by simp, hl.2⟩
      · exact hok x (by simp [hx])

/-- The scan of a buffer of `//` comment lines and code lines, code not emitted:
with one unit of fuel per line, `parse_loop` returns 1, has written what the
lines are to emit, in order, and has counted the lines. -/
theorem parse_loop_lines (fs : List Nat → Option (List Nat)) (n : Nat) :
    ∀ (lines : List src_line), lines.length = n →
    ∀ (fuel : Nat) (p : parser_t) (w : World), lines.length ≤ fuel →
      (∀ l ∈ lines, l.ok = true) → p.pFileBuffer.drop p.pNextToken = src_text lines →
      w.options.fCode = false →
      ∃ r, parse_loop fs fuel p w = some r ∧ r.1 = true ∧
        r.2.2.out = w.out ++ emitted_text w.options.fComments lines ∧
        r.2.2.options = w.options ∧
        r.2.1.iLineNum = p.iLineNum + lines.length := by
  induction n with
  | zero =>
    intro lines hn fuel p w _ _ hd _
    have hl : lines = [] := List.length_eq_zero.1 hn
    subst hl
    have b0 : byteAt p.pFileBuffer p.pNextToken = 0 := by
      rw [byteAt_of_drop_zero hd]; rfl
    refine ⟨(true, p, w), ?_, rfl, by simp [emitted_text], rfl, by simp⟩
    unfold parse_loop
    cases fuel <;> simp [b0]
  | succ n ih =>
    intro lines hn fuel p w hfuel hok hd hcode
    obtain ⟨l, ls, rfl⟩ : ∃ l ls, lines = l :: ls := by
      cases lines with
      | nil => simp at hn
      | cons l ls => exact ⟨l, ls, rfl⟩
    have hlen : ls.length = n := by simpa using hn
    obtain ⟨fuel, rfl⟩ : ∃ f, fuel = f + 1 := ⟨fuel - 1, by simp at hfuel; omega⟩
    have hfuel' : n ≤ fuel := by simp at hfuel; omega
    have hl : l.ok = true := hok l (by simp)
    have hls : ∀ x ∈ ls, x.ok = true := fun x hx => hok x (by simp [hx])
    obtain ⟨hind, hne, hall, hbl, hkind⟩ := src_line_body_facts l hl
    obtain ⟨s1, d1⟩ := scan_blank_indent p.pFileBuffer p.pNextToken l (src_text ls) hl hd
    obtain ⟨c, cs, hb⟩ : ∃ c cs, l.body = c :: cs := by
      cases hb : l.body with
      | nil => exact absurd hb hne
      | cons c cs => exact ⟨c, cs, rfl⟩
    have hc : notEol c = true := hall c (by rw [hb]; simp)
    have hc' : c ≠ 0 ∧ c ≠ 13 ∧ c ≠ 10 := by
      simp only [notEol, Bool.and_eq_true, bne_iff_ne, ne_eq] at hc
      exact ⟨hc.1.1, hc.1.2, hc.2⟩
    have b1 : byteAt p.pFileBuffer (p.pNextToken + l.indent.length) = c := by
      rw [byteAt_of_drop_zero d1, hb]; rfl
    have b0 : byteAt p.pFileBuffer p.pNextToken ≠ 0 := by
      cases hi : l.indent with
      | nil =>
        have := b1
        rw [hi] at this
        simp only [List.length_nil, Nat.add_zero] at this
        rw [this]; exact hc'.1
      | cons x xs =>
        have hx : isBlank x = true := hind x (by rw [hi]; simp)
        have : byteAt p.pFileBuffer p.pNextToken = x := by
          rw [byteAt_of_drop_zero hd, src_text, src_line.text, hi]; rfl
        rw [this]
        intro h0
        rw [h0] at hx
        exact absurd hx (by decide)
    have d2 : p.pFileBuffer.drop (p.pNextToken + l.indent.length + l.body.length)
        = 10 :: src_text ls := drop_add_of_drop d1
    have d3 : p.pFileBuffer.drop (p.pNextToken + l.indent.length + l.body.length + 1)
        = src_text ls := by
      have : p.pFileBuffer.drop (p.pNextToken + l.indent.length + l.body.length)
          = [10] ++ src_text ls := d2
      exact drop_add_of_drop this
    have g13 : (c == 13) = false := by simpa using hc'.2.1
    have g10 : (c == 10) = false := by simpa using hc'.2.2
    have g0 : (c == 0) = false := by simpa using hc'.1
    unfold parse_loop
    simp only [bne_iff_ne, ne_eq, b0, not_false_eq_true, if_true, s1, b1, g13, g10, g0,
      Bool.false_eq_true, if_false]
    by_cases hcm : l.comment = true
    · -- a comment line
      simp only [hcm, if_true] at hkind
      obtain ⟨⟨b, hb2⟩, -, -⟩ := lineComment_facts _ hkind
      have hc47 : c = 47 := by rw [hb] at hb2; cases hb2; rfl
      have ho : isCommentOpener p.pFileBuffer (p.pNextToken + l.indent.length) = true := by
        rw [isCommentOpener_of_drop d1, hb2]; rfl
      have hpc := parse_comment_line fuel (p.pNextToken + l.indent.length)
        { p with pNextToken := p.pNextToken + l.indent.length } w l.body (src_text ls) d1 rfl hkind
      have g35 : (byteAt p.pFileBuffer (p.pNextToken + l.indent.length) == 35) = false := by
        rw [b1, hc47]; rfl
      simp only [dispatch, g35, Bool.false_eq_true, if_false, ho, if_true, hpc]
      obtain ⟨ls', e1, e2, e3, e4⟩ := skip_next_indent p.pFileBuffer
        (p.pNextToken + l.indent.length + l.body.length + 1) ls hls d3
      obtain ⟨r, hr1, hr2, hr3, hr4, hr5⟩ := ih ls' (by rw [e3, hlen]) fuel
        { p with iLineNum := p.iLineNum + 1,
                 pLine := p.pNextToken + l.indent.length + l.body.length + 1,
                 pNextToken := scan isBlank p.pFileBuffer
                   (p.pNextToken + l.indent.length + l.body.length + 1) }
        (if w.options.fComments then w.fwrite (59 :: (l.body ++ [10])) else w)
        (by rw [e3, hlen]; exact hfuel') e2 e1
        (by by_cases hf : w.options.fComments = true <;> simp [hf, World.fwrite, hcode])
      refine ⟨r, hr1, hr2, ?_, ?_, ?_⟩
      · rw [hr3, e4]
        by_cases hf : w.options.fComments = true <;>
          simp [hf, World.fwrite, emitted_text, src_line.emitted, hcm]
      · rw [hr4]
        by_cases hf : w.options.fComments = true <;> simp [hf, World.fwrite]
      · rw [hr5, e3]
        simp only [List.length_cons]; omega
    · -- a code line
      simp only [hcm, Bool.false_eq_true, if_false] at hkind
      obtain ⟨-, -, -, h35, hno⟩ := codeLine_facts _ hkind
      have g35 : (byteAt p.pFileBuffer (p.pNextToken + l.indent.length) == 35) = false := by
        rw [b1]; rw [hb] at h35; simpa [byteAt] using h35
      have ho : isCommentOpener p.pFileBuffer (p.pNextToken + l.indent.length) = false := by
        rw [isCommentOpener_of_drop d1]
        have : isTerminator 10 = true := rfl
        exact isCommentOpener_append _ _ _ hne hno this
      have hpo := parse_other_line_code (p.pNextToken + l.indent.length)
        { p with pNextToken := p.pNextToken + l.indent.length } w l.body (src_text ls) d1 hall hcode
      simp only [dispatch, g35, Bool.false_eq_true, if_false, ho, hpo]
      obtain ⟨r, hr1, hr2, hr3, hr4, hr5⟩ := ih ls hlen fuel
        { p with iLineNum := p.iLineNum + 1,
                 pLine := p.pNextToken + l.indent.length + l.body.length + 1,
                 pNextToken := p.pNextToken + l.indent.length + l.body.length + 1 }
        w (by rw [hlen]; exact hfuel') hls d3 hcode
      refine ⟨r, hr1, hr2, ?_, hr4, ?_⟩
      · rw [hr3]
        simp [emitted_text, src_line.emitted, hcm]
      · rw [hr5]
        simp only [List.length_cons]; omega

theorem emitted_text_false (lines : List src_line) : emitted_text false lines = [] := by
  induction lines with
  | nil => rfl
  | cons l ls ih => simp [emitted_text, src_line.emitted, ih]

theorem parse_lines (fs : List Nat → Option (List Nat)) (lines : List src_line)
    (fuel : Nat) (p : parser_t) (w : World) (hfuel : lines.length ≤ fuel)
    (hok : ∀ l ∈ lines, l.ok = true) (hbuf : p.pFileBuffer = src_text lines)
    (hpos : p.pNextToken = 0) (hcode : w.options.fCode = false) :
    ∃ r, h2incn_parse fs fuel p w = some r ∧ r.1 = true ∧
      r.2.2.out = w.out ++ emitted_text w.options.fComments lines ∧
      r.2.1.iLineNum = p.iLineNum + lines.length := by
  have hd : p.pFileBuffer.drop p.pNextToken = src_text lines := by
    rw [hpos, hbuf]; rfl
  unfold h2incn_parse
  by_cases hv : w.options.fVerbose = true
  · obtain ⟨r, h1, h2, h3, -, h5⟩ := parse_loop_lines fs lines.length lines rfl fuel p
      (w.printf p "processing file") hfuel hok hd hcode
    exact ⟨r, by simpa [hv] using h1, h2, h3, h5⟩
  · obtain ⟨r, h1, h2, h3, -, h5⟩ := parse_loop_lines fs lines.length lines rfl fuel p
      w hfuel hok hd hcode
    exact ⟨r, by simpa [hv] using h1, h2, h3, h5⟩

/-- C3: with comment conversion and code-as-comments both disabled, for every
buffer made only of LF-terminated lines, each a `//` comment not ending in a
backslash or a code line whose first non-blank byte starts neither `#` nor a
comment, `h2incn_parse` started on line 1 returns 1 once it has a unit of fuel
per line, writes no byte, and ends with the line counter at 1 plus the number
of lines. -/
theorem parse_lines_silent (fs : List Nat → Option (List Nat)) (lines : List src_line)
    (fuel : Nat) (p : parser_t) (w : World) (hfuel : lines.length ≤ fuel)
    (hok : ∀ l ∈ lines, l.ok = true) (hbuf : p.pFileBuffer = src_text lines)
    (hpos : p.pNextToken = 0) (hline : p.iLineNum = 1)
    (hcomments : w.options.fComments = false) (hcode : w.options.fCode = false) :
    ∃ r, h2incn_parse fs fuel p w = some r ∧ r.1 = true ∧ r.2.2.out = w.out ∧
      r.2.1.iLineNum = 1 + lines.length := by
  obtain ⟨r, h1, h2, h3, h4⟩ := parse_lines fs lines fuel p w hfuel hok hbuf hpos hcode
  refine ⟨r, h1, h2, ?_, ?_⟩
  · rw [h3, hcomments, emitted_text_false]; simp
  · rw [h4, hline]

theorem parse_lines_silent_witness :
    ∃ r, h2incn_parse (fun _ => none) 2 (parser_at (bytes "// hello\nint x;\n") 0)
        (initial_world {}) = some r ∧ r.1 = true ∧ r.2.2.out = [] ∧ r.2.1.iLineNum = 1 + 2 :=
  parse_lines_silent (fun _ => none)
    [⟨true, [], bytes "// hello"⟩, ⟨false, [], bytes "int x;"⟩] 2
    (parser_at (bytes "// hello\nint x;\n") 0) (initial_world {})
    (by decide) (by decide) (by decide) (by decide) (by decide) (by decide) (by decide)

/-- C4: with comment conversion enabled and code-as-comments disabled, for
every buffer made only of LF-terminated `//` comment lines (not ending in a
backslash) and code lines, `h2incn_parse` returns 1 once it has a unit of fuel
per line, and what it writes is the concatenation, in source order, of `;`
followed by each comment (from its `//`) with its line feed; code lines
contribute no byte. -/
theorem parse_lines_comments (fs : List Nat → Option (List Nat)) (lines : List src_line)
    (fuel : Nat) (p : parser_t) (w : World) (hfuel : lines.length ≤ fuel)
    (hok : ∀ l ∈ lines, l.ok = true) (hbuf : p.pFileBuffer = src_text lines)
    (hpos : p.pNextToken = 0)
    (hcomments : w.options.fComments = true) (hcode : w.options.fCode = false) :
    ∃ r, h2incn_parse fs fuel p w = some r ∧ r.1 = true ∧
      r.2.2.out = w.out ++ emitted_text true lines := by
  obtain ⟨r, h1, h2, h3, -⟩ := parse_lines fs lines fuel p w hfuel hok hbuf hpos hcode
  exact ⟨r, h1, h2, by rw [h3, hcomments]⟩

theorem parse_lines_comments_witness :
    ∃ r, h2incn_parse (fun _ => none) 2 (parser_at (bytes "// hello\nint x;\n") 0)
        (initial_world { fComments := true }) = some r ∧ r.1 = true ∧
      r.2.2.out = bytes ";// hello\n" :=
  parse_lines_comments (fun _ => none)
    [⟨true, [], bytes "// hello"⟩, ⟨false, [], bytes "int x;"⟩] 2
    (parser_at (bytes "// hello\nint x;\n") 0) (initial_world { fComments := true })
    (by decide) (by decide) (by decide) (by decide) (by decide) (by decide)

/-! ## Block comments -/

theorem hasClose_iff (S : List Nat) :
    hasClose S = true ↔
      ∃ j, byteAt S j = 42 ∧ byteAt S (j + 1) = 47 ∧ ∀ k, k < j → byteAt S k ≠ 0 := by
  induction S with
  | nil => simp [hasClose, byteAt]
  | cons c rest ih =>
    simp only [hasClose]
    by_cases h0 : c = 0
    · subst h0
      simp only [beq_self_eq_true, if_true, Bool.false_eq_true, false_iff, not_exists, not_and,
        not_forall]
      intro j hj _
      cases j with
      | zero => simp [byteAt] at hj
      | succ j => exact ⟨0, by omega, by simp [byteAt]⟩
    · have g0 : (c == 0) = false := by simpa using h0
      simp only [g0, Bool.false_eq_true, if_false]
      by_cases h1 : (c == 42 && byteAt rest 0 == 47) = true
      · simp only [h1, if_true, true_iff]
        simp only [Bool.and_eq_true, beq_iff_eq] at h1
        exact ⟨0, by simp [byteAt, h1.1], by simp [byteAt, h1.2], by intro k hk; omega⟩
      · simp only [h1, Bool.false_eq_true, if_false, ih]
        constructor
        · rintro ⟨j, h2, h3, h4⟩
          refine ⟨j + 1, by simpa [byteAt] using h2, by simpa [byteAt] using h3, ?_⟩
          intro k hk
          cases k with
          | zero => simpa [byteAt] using h0
          | succ k => simpa [byteAt] using h4 k (by omega)
        · rintro ⟨j, h2, h3, h4⟩
          cases j with
          | zero =>
            exfalso
            apply h1
            simp only [byteAt] at h2 h3
            simp [h2, h3]
          | succ j =>
            refine ⟨j, by simpa [byteAt] using h2, by simpa [byteAt] using h3, ?_⟩
            intro k hk
            simpa [byteAt] using h4 (k + 1) (by omega)

theorem comment_block_spec (S : List Nat) :
    ∀ (head tail : Nat) (p : parser_t) (w : World), p.pFileBuffer.drop tail = S →
      (byteAt p.pFileBuffer (comment_block S head tail p w).2.1 = 47 ↔ hasClose S = true) ∧
      (comment_block S head tail p w).2.2.1.pFileBuffer = p.pFileBuffer := by
  induction S with
  | nil =>
    intro head tail p w hd
    simp only [comment_block, hasClose, Bool.false_eq_true, iff_false, and_true]
    rw [byteAt_of_drop_zero hd]
    simp [byteAt]
  | cons c rest ih =>
    intro head tail p w hd
    have hd' : p.pFileBuffer.drop (tail + 1) = rest := by
      have : p.pFileBuffer.drop tail = [c] ++ rest := hd
      exact drop_add_of_drop this
    have bt : byteAt p.pFileBuffer tail = c := by rw [byteAt_of_drop_zero hd]; rfl
    simp only [comment_block, hasClose]
    by_cases h0 : c = 0
    · subst h0
      simp [bt]
    · have g0 : (c == 0) = false := by simpa using h0
      simp only [g0, Bool.false_eq_true, if_false]
      by_cases h10 : c = 10
      · subst h10
        simp only [beq_self_eq_true, if_true]
        have := ih (tail + 1) (tail + 1)
          { p with pLine := tail + 1, iLineNum := p.iLineNum + 1 }
          (if w.options.fComments then
            w.fwrite ([59] ++ slice p.pFileBuffer head (tail + 1 - head)) else w) hd'
        simpa using this
      · have g10 : (c == 10) = false := by simpa using h10
        simp only [g10, Bool.false_eq_true, if_false]
        by_cases h42 : c = 42
        · subst h42
          simp only [beq_self_eq_true, if_true, Bool.true_and]
          by_cases h47 : byteAt rest 0 = 47
          · have : byteAt p.pFileBuffer (tail + 1) = 47 := by
              rw [byteAt_of_drop_zero hd', h47]
            simp [h47, this]
          · have g47 : (byteAt rest 0 == 47) = false := by simpa using h47
            simp only [g47, Bool.false_eq_true, if_false]
            exact ih head (tail + 1) p w hd'
        · have g42 : (c == 42) = false := by simpa using h42
          simp only [g42, Bool.false_eq_true, if_false, Bool.false_and]
          exact ih head (tail + 1) p w hd'

theorem parse_comment_block_result (fuel : Nat) (p : parser_t) (w : World) (S : List Nat)
    (hd : p.pFileBuffer.drop p.pNextToken = 47 :: 42 :: S) :
    ∃ r, h2incn_parse_comment fuel p w = some r ∧ (r.1 = false ↔ hasClose S = false) := by
  have b0 : byteAt p.pFileBuffer p.pNextToken = 47 := by rw [byteAt_of_drop_zero hd]; rfl
  have b1 : byteAt p.pFileBuffer (p.pNextToken + 1) = 42 := by rw [byteAt_of_drop hd 1]; rfl
  have d2 : p.pFileBuffer.drop (p.pNextToken + 1 + 1) = S := by
    have : p.pFileBuffer.drop p.pNextToken = [47, 42] ++ S := hd
    exact drop_add_of_drop this
  obtain ⟨hs1, -⟩ := comment_block_spec S p.pNextToken (p.pNextToken + 1 + 1) p w d2
  simp only [h2incn_parse_comment, b0, b1, d2]
  rcases hcb : comment_block S p.pNextToken (p.pNextToken + 1 + 1) p w with ⟨h', t', p', w'⟩
  rw [hcb] at hs1
  simp only at hs1
  by_cases hc : hasClose S = true
  · have ht : byteAt p.pFileBuffer t' = 47 := hs1.2 hc
    by_cases hf : w'.options.fComments = true <;> simp [ht, hf, hc]
  · have ht : byteAt p.pFileBuffer t' ≠ 47 := fun h => hc (hs1.1 h)
    simp only [Bool.not_eq_true] at hc
    simp [ht, hc, fail_with]

theorem parse_fails_at_open_comment (fs : List Nat → Option (List Nat)) (fuel : Nat)
    (p : parser_t) (w : World) (indent S : List Nat)
    (hind : ∀ c ∈ indent, isBlank c = true)
    (hd : p.pFileBuffer.drop p.pNextToken = indent ++ 47 :: 42 :: S)
    (hc : hasClose S = false) :
    ∃ r, parse_loop fs (fuel + 1) p w = some r ∧ r.1 = false := by
  have s1 : scan isBlank p.pFileBuffer p.pNextToken = p.pNextToken + indent.length := by
    rw [scan_of_drop _ hd, scanList_append _ _ _ hind, scanList_stop _ _ _ rfl]
    rfl
  have d1 : p.pFileBuffer.drop (p.pNextToken + indent.length) = 47 :: 42 :: S :=
    drop_add_of_drop hd
  have b1 : byteAt p.pFileBuffer (p.pNextToken + indent.length) = 47 := by
    rw [byteAt_of_drop_zero d1]; rfl
  have b0 : byteAt p.pFileBuffer p.pNextToken ≠ 0 := by
    cases hi : indent with
    | nil =>
      have := b1
      rw [hi] at this
      simp only [List.length_nil, Nat.add_zero] at this
      rw [this]; decide
    | cons x xs =>
      have hx : isBlank x = true := hind x (by rw [hi]; simp)
      have : byteAt p.pFileBuffer p.pNextToken = x := by
        rw [byteAt_of_drop_zero hd, hi]; rfl
      rw [this]
      intro h0
      rw [h0] at hx
      exact absurd hx (by decide)
  have ho : isCommentOpener p.pFileBuffer (p.pNextToken + indent.length) = true := by
    rw [isCommentOpener_of_drop d1]; rfl
  obtain ⟨r, hr1, hr2⟩ := parse_comment_block_result fuel
    { p with pNextToken := p.pNextToken + indent.length } w S d1
  have hrf : r.1 = false := hr2.2 hc
  obtain ⟨b, p', w'⟩ := r
  simp only at hrf
  subst hrf
  refine ⟨(false, p', w'), ?_, rfl⟩
  unfold parse_loop
  simp only [bne_iff_ne, ne_eq, b0, not_false_eq_true, if_true, s1, b1]
  simp [dispatch, b1, ho, hr1]

theorem main_exit_of_parse (fs : List Nat → Option (List Nat)) (fuel : Nat) (options : options_t)
    (content : List Nat) (r : Result)
    (hfs : fs options.pInFileName = some content) (hlen : 1 ≤ content.length)
    (hparse : h2incn_parse fs fuel ⟨options.pInFileName, content, 0, 0, 1⟩
      (initial_world options) = some r) :
    main fs fuel options = some (if r.1 == false then 1 else 0, r.2.2) := by
  have hl : ¬ content.length < 1 := by omega
  simp only [main, hash_map_alloc_headers, hash_map_alloc_defines, h2incn_read, h2incn_read_with,
    hfs, hl, if_false]
  have : h2incn_parse fs fuel ⟨options.pInFileName, content, 0, 0, 1⟩
      ⟨options, empty_map 127, empty_map 32767, [], []⟩ = some r := hparse
  rw [this]

/-- C6: at a `/*` opener `h2incn_parse_comment` returns, and it returns 0
exactly when no `*/` occurs in the buffer from the byte after the opener on.
In that case `h2incn_parse`, when its cursor stands at that opener (leading
blanks allowed), returns 0 too, and `main` on a root file with that text exits
with status 1. -/
theorem unterminated_comment_fails (fs : List Nat → Option (List Nat)) (fuel : Nat)
    (p : parser_t) (w : World) (indent S : List Nat)
    (hind : ∀ c ∈ indent, isBlank c = true)
    (hd : p.pFileBuffer.drop p.pNextToken = indent ++ 47 :: 42 :: S) :
    (∃ r, h2incn_parse_comment fuel { p with pNextToken := p.pNextToken + indent.length } w
        = some r ∧ (r.1 = false ↔ hasClose S = false)) ∧
    (hasClose S = false → ∃ r, h2incn_parse fs (fuel + 1) p w = some r ∧ r.1 = false) ∧
    (hasClose S = false → ∀ options : options_t,
      fs options.pInFileName = some (indent ++ 47 :: 42 :: S) →
      ∃ w', main fs (fuel + 1) options = some (1, w')) := by
  refine ⟨parse_comment_block_result fuel _ w S (drop_add_of_drop hd), ?_, ?_⟩
  · intro hc
    exact parse_fails_at_open_comment fs fuel p _ indent S hind hd hc
  · intro hc options hfs
    obtain ⟨r, hr1, hr2⟩ := parse_fails_at_open_comment fs fuel
      ⟨options.pInFileName, indent ++ 47 :: 42 :: S, 0, 0, 1⟩
      (if (initial_world options).options.fVerbose then
        (initial_world options).printf ⟨options.pInFileName, indent ++ 47 :: 42 :: S, 0, 0, 1⟩
          "processing file" else initial_world options) indent S hind rfl hc
    have hm := main_exit_of_parse fs (fuel + 1) options (indent ++ 47 :: 42 :: S) r hfs
      (by simp only [List.length_append, List.length_cons]; omega) hr1
    rw [hr2] at hm
    exact ⟨r.2.2, hm⟩

theorem unterminated_comment_fails_witness :
    (∃ r, h2incn_parse_comment 0
        { parser_at (bytes " /* never closed\nint x;\n") 0 with pNextToken := 0 + [32].length }
        (initial_world {}) = some r ∧
        (r.1 = false ↔ hasClose (bytes " never closed\nint x;\n") = false)) ∧
    (hasClose (bytes " never closed\nint x;\n") = false →
      ∃ r, h2incn_parse (fun _ => some (bytes " /* never closed\nint x;\n")) (0 + 1)
        (parser_at (bytes " /* never closed\nint x;\n") 0) (initial_world {}) = some r ∧
        r.1 = false) ∧
    (hasClose (bytes " never closed\nint x;\n") = false → ∀ options : options_t,
      (fun _ => some (bytes " /* never closed\nint x;\n")) options.pInFileName
        = some ([32] ++ 47 :: 42 :: bytes " never closed\nint x;\n") →
      ∃ w', main (fun _ => some (bytes " /* never closed\nint x;\n")) (0 + 1) options
        = some (1, w')) :=
  unterminated_comment_fails (fun _ => some (bytes " /* never closed\nint x;\n")) 0
    (parser_at (bytes " /* never closed\nint x;\n") 0) (initial_world {}) [32]
    (bytes " never closed\nint x;\n") (by decide) (by decide)

/-! ## Loops that do not end -/

theorem scan_stay (q : Nat → Bool) (buf : List Nat) (i : Nat) (h : q (byteAt buf i) = false) :
    scan q buf i = i := by
  unfold scan
  cases hd : buf.drop i with
  | nil => rfl
  | cons c cs =>
    have : byteAt buf i = c := by rw [byteAt_of_drop_zero hd]; rfl
    rw [this] at h
    simp [scanList, h]

/-- The loop of the conditional handlers never leaves a cursor that stands on
the terminating NUL: every round finds nothing to copy and no comment, and
tests the same byte again. -/
theorem conditional_loop_stuck (fuel head : Nat) (p : parser_t) (w : World)
    (h : byteAt p.pFileBuffer head = 0) : conditional_loop fuel head p w = none := by
  have s : scan (fun c => c != 0 && c != 47 && c != 13 && c != 10) p.pFileBuffer head = head :=
    scan_stay _ _ _ (by rw [h]; rfl)
  have o : isCommentOpener p.pFileBuffer head = false := by
    simp [isCommentOpener, h]
  induction fuel with
  | zero =>
    unfold conditional_loop
    simp [h, s, o]
  | succ n ih =>
    unfold conditional_loop
    simp [h, s, o, ih]

/-- C10 (failing input): on the buffer `#if 1`, whose last line has no line
terminator, `h2incn_parse` does not return, whatever the fuel and the
options: `h2incn_parse_if` copies `1`, reaches the NUL, and its loop
`while ((*head != '\r') && (*head != '\n'))` goes round for ever. -/
theorem parse_diverges_on_unterminated_if (fs : List Nat → Option (List Nat)) (fuel : Nat)
    (options : options_t) :
    h2incn_parse fs fuel (parser_at (bytes "#if 1") 0) (initial_world options) = none := by
  have key : ∀ w, parse_loop fs fuel (parser_at (bytes "#if 1") 0) w = none := by
    intro w
    cases fuel with
    | zero =>
      unfold parse_loop
      have : byteAt (parser_at (bytes "#if 1") 0).pFileBuffer
          (parser_at (bytes "#if 1") 0).pNextToken ≠ 0 := by decide
      simp [this]
    | succ n =>
      have b0 : byteAt (parser_at (bytes "#if 1") 0).pFileBuffer
          (parser_at (bytes "#if 1") 0).pNextToken ≠ 0 := by decide
      have s0 : scan isBlank (parser_at (bytes "#if 1") 0).pFileBuffer
          (parser_at (bytes "#if 1") 0).pNextToken = 0 := by decide
      have b1 : byteAt (parser_at (bytes "#if 1") 0).pFileBuffer 0 = 35 := by decide
      have m1 : startsWith (parser_at (bytes "#if 1") 0).pFileBuffer 0 (bytes "#include ")
          = false := by decide
      have m2 : startsWith (parser_at (bytes "#if 1") 0).pFileBuffer 0 (bytes "#define ")
          = false := by decide
      have m3 : startsWith (parser_at (bytes "#if 1") 0).pFileBuffer 0 (bytes "#undef ")
          = false := by decide
      have m4 : startsWith (parser_at (bytes "#if 1") 0).pFileBuffer 0 (bytes "#if ")
          = true := by decide
      have hif : ∀ w', h2incn_parse_if n
          { parser_at (bytes "#if 1") 0 with pNextToken := 0 } w' = none := by
        intro w'
        have s1 : scan (fun c => c != 0 && (c == 32 || c == 9))
            (parser_at (bytes "#if 1") 0).pFileBuffer (0 + 4) = 4 := by decide
        have c1 : byteAt (parser_at (bytes "#if 1") 0).pFileBuffer 4 = 49 := by decide
        have s2 : scan (fun c => c != 0 && c != 47 && c != 13 && c != 10)
            (parser_at (bytes "#if 1") 0).pFileBuffer 4 = 5 := by decide
        have o2 : isCommentOpener (parser_at (bytes "#if 1") 0).pFileBuffer 5 = false := by
          decide
        simp only [h2incn_parse_if, parse_conditional, s1]
        unfold conditional_loop
        simp only [c1, s2, o2]
        cases n with
        | zero => simp
        | succ m =>
          simp [conditional_loop_stuck m 5 _ _ (by decide : byteAt
            ({ parser_at (bytes "#if 1") 0 with pNextToken := 0 } : parser_t).pFileBuffer 5 = 0)]
      unfold parse_loop
      simp only [bne_iff_ne, ne_eq, b0, not_false_eq_true, if_true, s0, b1]
      simp [dispatch, b1, m1, m2, m3, m4, hif]
  unfold h2incn_parse
  exact key _

/-! ## An include met twice -/

/-- Once `b.h` is in the visited set, `h2incn_parse` placed at the second
`#include "b.h"` of the root file does not return: the include handler
returns 1 from its early `return` without moving `pNextToken`, so the loop
dispatches the same directive again and again. -/
theorem include_revisit_stuck (fs : List Nat → Option (List Nat)) (n : Nat) :
    ∀ (p : parser_t) (w : World),
      p.pFileBuffer = bytes "#include \"b.h\"\n#include \"b.h\"\n" → p.pNextToken = 15 →
      w.options.fRecurse = true → (hash_map_find w.pHeadersMap (bytes "b.h")).isNode = true →
      parse_loop fs n p w = none := by
  induction n with
  | zero =>
    intro p w hbuf hpos _ _
    unfold parse_loop
    have : byteAt p.pFileBuffer p.pNextToken ≠ 0 := by rw [hbuf, hpos]; decide
    simp [this]
  | succ n ih =>
    intro p w hbuf hpos hrec hseen
    have b0 : byteAt p.pFileBuffer 15 = 35 := by rw [hbuf]; decide
    have s0 : scan isBlank p.pFileBuffer 15 = 15 := by rw [hbuf]; decide
    have m1 : startsWith p.pFileBuffer 15 (bytes "#include ") = true := by rw [hbuf]; decide
    have s1 : scan (fun c => c != 0 && c != 60 && c != 34 && c != 10) p.pFileBuffer 15 = 24 := by
      rw [hbuf]; decide
    have b1 : byteAt p.pFileBuffer 24 = 34 := by rw [hbuf]; decide
    have s2 : scan (fun c => c != 0 && c != 62 && c != 34 && c != 10) p.pFileBuffer (24 + 1)
        = 28 := by
      rw [hbuf]; decide
    have b2 : byteAt p.pFileBuffer 28 = 34 := by rw [hbuf]; decide
    have l1 : slice p.pFileBuffer (24 + 1) (28 - (24 + 1)) = bytes "b.h" := by
      rw [hbuf]; decide
    have hnext := ih { p with pNextToken := 15 } w hbuf rfl hrec hseen
    unfold parse_loop
    simp [hpos, b0, s0, dispatch, m1, h2incn_parse_include, s1, b1, s2, b2, l1, hrec, hseen,
      hnext]

theorem parse_loop_end (fs : List Nat → Option (List Nat)) (n : Nat) (p : parser_t) (w : World)
    (h : byteAt p.pFileBuffer p.pNextToken = 0) : parse_loop fs n p w = some (true, p, w) := by
  unfold parse_loop
  cases n <;> simp [h]

theorem parse_define_file (fs : List Nat → Option (List Nat)) (n : Nat) (p : parser_t) (w : World)
    (hbuf : p.pFileBuffer = bytes "#define BAR 1\n") (hpos : p.pNextToken = 0) :
    parse_loop fs n p w = none ∨
      ∃ r, parse_loop fs n p w = some r ∧ r.1 = true ∧
        r.2.2.pHeadersMap = w.pHeadersMap ∧ r.2.2.options = w.options := by
  cases n with
  | zero =>
    left
    unfold parse_loop
    have : byteAt p.pFileBuffer p.pNextToken ≠ 0 := by rw [hbuf, hpos]; decide
    simp [this]
  | succ n =>
    have b0 : byteAt p.pFileBuffer 0 = 35 := by rw [hbuf]; decide
    have s0 : scan isBlank p.pFileBuffer 0 = 0 := by rw [hbuf]; decide
    have m1 : startsWith p.pFileBuffer 0 (bytes "#include ") = false := by rw [hbuf]; decide
    have m2 : startsWith p.pFileBuffer 0 (bytes "#define ") = true := by rw [hbuf]; decide
    obtain ⟨r, h1, -, -, h4, h5, h6, h7, -, h9, h10⟩ := parse_define_plain_core n
      { p with pNextToken := 0 } w [] (bytes "BAR") (bytes "1") [] 10
      (by rw [hbuf]; decide) rfl (by decide) (by decide) (by decide) (by decide)
    have hr1 : r.1 = true := by
      rw [h4, hash_map_insert_fst]; rfl
    obtain ⟨b, p1, w1⟩ := r
    simp only at hr1 h5 h6 h7 h9 h10
    subst hr1
    have h5' : p1.pNextToken = 13 := by rw [h5]; decide
    have hb1 : p1.pFileBuffer = bytes "#define BAR 1\n" := by rw [h7]; exact hbuf
    have step1 : parse_loop fs (n + 1) p w = parse_loop fs n p1 w1 := by
      rw [parse_loop]
      simp [hpos, b0, s0, dispatch, m1, m2, h1]
    rw [step1]
    cases n with
    | zero =>
      left
      unfold parse_loop
      have : byteAt p1.pFileBuffer p1.pNextToken ≠ 0 := by rw [hb1, h5']; decide
      simp [this]
    | succ n =>
      right
      have c0 : byteAt p1.pFileBuffer 13 = 10 := by rw [hb1]; decide
      have c1 : scan isBlank p1.pFileBuffer 13 = 13 := by rw [hb1]; decide
      have c2 : byteAt p1.pFileBuffer 14 = 0 := by rw [hb1]; decide
      have e := parse_loop_end fs n
        { p1 with iLineNum := p1.iLineNum + 1, pNextToken := 14, pLine := 14 }
        (w1.fwrite (slice p1.pFileBuffer 13 1)) c2
      have step2 : parse_loop fs (n + 1) p1 w1 = some (true,
          { p1 with iLineNum := p1.iLineNum + 1, pNextToken := 14, pLine := 14 },
          w1.fwrite (slice p1.pFileBuffer 13 1)) := by
        rw [parse_loop]
        simp [h5', c0, c1, e]
      exact ⟨_, step2, rfl, by simp [World.fwrite, h10], by simp [World.fwrite, h9]⟩

/-- C5 (failing input): with recursion enabled, on a root file that holds
`#include "b.h"` twice, `b.h` holding `#define BAR 1`, the run does not end,
whatever the fuel: `main` never returns an exit status. -/
theorem main_diverges_on_repeated_include (fuel : Nat) :
    main twice_fs fuel { pInFileName := bytes "root.h", fRecurse := true } = none := by
  have hroot : twice_fs (bytes "root.h") = some (bytes "#include \"b.h\"\n#include \"b.h\"\n") := by
    decide
  have key : ∀ w : World, w.options.fRecurse = true → w.options.fVerbose = false →
      (hash_map_find w.pHeadersMap (bytes "b.h")).isNode = false →
      (hash_map_find (hash_map_insert w.pHeadersMap (bytes "b.h") []).2 (bytes "b.h")).isNode
        = true →
      parse_loop twice_fs fuel
        ⟨bytes "root.h", bytes "#include \"b.h\"\n#include \"b.h\"\n", 0, 0, 1⟩ w = none := by
    intro w hrec hverb hnew hseen
    cases fuel with
    | zero =>
      unfold parse_loop
      simp only [bne_iff_ne, ne_eq]
      rw [if_pos (by decide)]
    | succ n =>
      have hb : twice_fs (bytes "b.h") = some (bytes "#define BAR 1\n") := by decide
      rcases parse_define_file twice_fs n ⟨bytes "b.h", bytes "#define BAR 1\n", 0, 0, 1⟩
        { w with pHeadersMap := (hash_map_insert w.pHeadersMap (bytes "b.h") []).2 } rfl rfl
        with h | ⟨r, h1, h2, h3, h4⟩
      · rw [parse_loop]
        simp [show byteAt (bytes "#include \"b.h\"\n#include \"b.h\"\n") 0 = 35 by decide,
          show scan isBlank (bytes "#include \"b.h\"\n#include \"b.h\"\n") 0 = 0 by decide,
          dispatch,
          show startsWith (bytes "#include \"b.h\"\n#include \"b.h\"\n") 0 (bytes "#include ")
            = true by decide,
          h2incn_parse_include,
          show scan (fun c => c != 0 && c != 60 && c != 34 && c != 10)
            (bytes "#include \"b.h\"\n#include \"b.h\"\n") 0 = 9 by decide,
          show byteAt (bytes "#include \"b.h\"\n#include \"b.h\"\n") 9 = 34 by decide,
          show scan (fun c => c != 0 && c != 62 && c != 34 && c != 10)
            (bytes "#include \"b.h\"\n#include \"b.h\"\n") (9 + 1) = 13 by decide,
          show byteAt (bytes "#include \"b.h\"\n#include \"b.h\"\n") 13 = 34 by decide,
          show slice (bytes "#include \"b.h\"\n#include \"b.h\"\n") (9 + 1) (13 - (9 + 1))
            = bytes "b.h" by decide,
          hrec, hnew, read_included, h2incn_read_with, hb, hverb, h,
          show bytes "#define BAR 1\n" ≠ [] by decide]
      · obtain ⟨b, p1, w1⟩ := r
        simp only at h2 h3 h4
        subst h2
        have hstuck := include_revisit_stuck twice_fs n
          ⟨bytes "root.h", bytes "#include \"b.h\"\n#include \"b.h\"\n", 0, 15, 1 + 1⟩ w1 rfl rfl
          (by rw [h4]; exact hrec) (by rw [h3]; exact hseen)
        rw [parse_loop]
        simp [show byteAt (bytes "#include \"b.h\"\n#include \"b.h\"\n") 0 = 35 by decide,
          show scan isBlank (bytes "#include \"b.h\"\n#include \"b.h\"\n") 0 = 0 by decide,
          dispatch,
          show startsWith (bytes "#include \"b.h\"\n#include \"b.h\"\n") 0 (bytes "#include ")
            = true by decide,
          h2incn_parse_include,
          show scan (fun c => c != 0 && c != 60 && c != 34 && c != 10)
            (bytes "#include \"b.h\"\n#include \"b.h\"\n") 0 = 9 by decide,
          show byteAt (bytes "#include \"b.h\"\n#include \"b.h\"\n") 9 = 34 by decide,
          show scan (fun c => c != 0 && c != 62 && c != 34 && c != 10)
            (bytes "#include \"b.h\"\n#include \"b.h\"\n") (9 + 1) = 13 by decide,
          show byteAt (bytes "#include \"b.h\"\n#include \"b.h\"\n") 13 = 34 by decide,
          show slice (bytes "#include \"b.h\"\n#include \"b.h\"\n") (9 + 1) (13 - (9 + 1))
            = bytes "b.h" by decide,
          hrec, hnew, read_included, h2incn_read_with, hb, hverb, h1, include_finish,
          show bytes "#define BAR 1\n" ≠ [] by decide,
          show scan (fun c => c != 0 && c != 10)
            (bytes "#include \"b.h\"\n#include \"b.h\"\n") 13 = 14 by decide,
          show byteAt (bytes "#include \"b.h\"\n#include \"b.h\"\n") 14 = 10 by decide,
          hstuck]
  have hmain := key (initial_world { pInFileName := bytes "root.h", fRecurse := true }) rfl rfl
    (by decide) (by decide)
  simp only [main, hash_map_alloc_headers, hash_map_alloc_defines, h2incn_read, h2incn_read_with,
    hroot, h2incn_parse]
  have hm' : parse_loop twice_fs fuel
      ⟨bytes "root.h", bytes "#include \"b.h\"\n#include \"b.h\"\n", 0, 0, 1⟩
      ⟨{ pInFileName := bytes "root.h", fRecurse := true }, empty_map 127, empty_map 32767, [], []⟩
      = none := hmain
  simp [hm', show bytes "#include \"b.h\"\n#include \"b.h\"\n" ≠ [] by decide]

/-! ## More on scans -/

theorem scanList_scanList (q' q : Nat → Bool) (h : ∀ c, q' c = true → q c = true) (S : List Nat) :
    scanList q' S + scanList q (S.drop (scanList q' S)) = scanList q S := by
  induction S with
  | nil => rfl
  | cons c cs ih =>
    by_cases hc : q' c = true
    · have hq : q c = true := h c hc
      simp only [scanList, hc, hq, if_true, List.drop_succ_cons]
      omega
    · simp [scanList, hc]

theorem scan_scan (q' q : Nat → Bool) (h : ∀ c, q' c = true → q c = true) (buf : List Nat)
    (i : Nat) : scan q buf (scan q' buf i) = scan q buf i := by
  unfold scan
  have := scanList_scanList q' q h (buf.drop i)
  rw [← List.drop_drop] at *
  rw [List.drop_drop]
  have e : List.drop (i + scanList q' (List.drop i buf)) buf
      = List.drop (scanList q' (List.drop i buf)) (List.drop i buf) := by
    rw [List.drop_drop]
  rw [e]
  omega

theorem scanList_all (q : Nat → Bool) (S : List Nat) (k : Nat) (hk : k < scanList q S) :
    q (byteAt S k) = true := by
  induction S generalizing k with
  | nil => simp [scanList] at hk
  | cons c cs ih =>
    by_cases hc : q c = true
    · cases k with
      | zero => simpa [byteAt] using hc
      | succ k =>
        simp only [scanList, hc, if_true] at hk
        simpa [byteAt] using ih k (by omega)
    · simp [scanList, hc] at hk

theorem scanList_end (q : Nat → Bool) (h0 : q 0 = false) (S : List Nat) :
    q (byteAt S (scanList q S)) = false := by
  induction S with
  | nil => simp [scanList, byteAt, h0]
  | cons c cs ih =>
    by_cases hc : q c = true
    · simpa [scanList, hc, byteAt] using ih
    · simp [scanList, hc, byteAt]

theorem scan_all (q : Nat → Bool) (buf : List Nat) (i k : Nat) (h1 : i ≤ k)
    (h2 : k < scan q buf i) : q (byteAt buf k) = true := by
  unfold scan at h2
  have := scanList_all q (buf.drop i) (k - i) (by omega)
  rw [byteAt_drop] at this
  have e : i + (k - i) = k := by omega
  rwa [e] at this

theorem scan_end (q : Nat → Bool) (h0 : q 0 = false) (buf : List Nat) (i : Nat) :
    q (byteAt buf (scan q buf i)) = false := by
  unfold scan
  rw [← byteAt_drop]
  exact scanList_end q h0 _

/-! ## `#include` without recursion -/

/-- C12: with recursion disabled, `h2incn_parse_include` returns 1 at every
cursor (so for every line beginning `#include `, well-formed or not), whatever
the loader and the visited-include set are; it leaves the shared state as it
was (no byte written, the visited set untouched), and moves the cursor to the
end `e` of the directive line, the first line feed or NUL at or after the
cursor: just after the line feed, with the line counter advanced by one, when
there is one, and at the end of the buffer otherwise. -/
theorem include_skipped_without_recursion
    (read : parser_t → List Nat → World → Option Result) (p : parser_t) (w : World)
    (hrec : w.options.fRecurse = false) :
    h2incn_parse_include read p w = some (true,
      { p with
        pNextToken :=
          if byteAt p.pFileBuffer (scan (fun c => c != 0 && c != 10) p.pFileBuffer p.pNextToken)
              == 10
          then scan (fun c => c != 0 && c != 10) p.pFileBuffer p.pNextToken + 1
          else scan (fun c => c != 0 && c != 10) p.pFileBuffer p.pNextToken,
        iLineNum :=
          if byteAt p.pFileBuffer (scan (fun c => c != 0 && c != 10) p.pFileBuffer p.pNextToken)
              == 10
          then p.iLineNum + 1 else p.iLineNum }, w) ∧
    (∀ k, p.pNextToken ≤ k →
      k < scan (fun c => c != 0 && c != 10) p.pFileBuffer p.pNextToken →
      byteAt p.pFileBuffer k ≠ 0 ∧ byteAt p.pFileBuffer k ≠ 10) ∧
    (byteAt p.pFileBuffer (scan (fun c => c != 0 && c != 10) p.pFileBuffer p.pNextToken) = 10 ∨
      byteAt p.pFileBuffer (scan (fun c => c != 0 && c != 10) p.pFileBuffer p.pNextToken) = 0) ∧
    (∀ m, h2incn_parse_include read p { w with pHeadersMap := m } =
      (h2incn_parse_include read p w).map
        (fun r => (r.1, r.2.1, { r.2.2 with pHeadersMap := m }))) := by
  have hs := scan_scan (fun c => c != 0 && c != 60 && c != 34 && c != 10)
    (fun c => c != 0 && c != 10)
    (by intro c hc
        simp only [Bool.and_eq_true, bne_iff_ne, ne_eq] at hc ⊢
        exact ⟨hc.1.1.1, hc.2⟩)
    p.pFileBuffer p.pNextToken
  have key : ∀ v : World, v.options.fRecurse = false →
      h2incn_parse_include read p v = some (true,
      { p with
        pNextToken :=
          if byteAt p.pFileBuffer (scan (fun c => c != 0 && c != 10) p.pFileBuffer p.pNextToken)
              == 10
          then scan (fun c => c != 0 && c != 10) p.pFileBuffer p.pNextToken + 1
          else scan (fun c => c != 0 && c != 10) p.pFileBuffer p.pNextToken,
        iLineNum :=
          if byteAt p.pFileBuffer (scan (fun c => c != 0 && c != 10) p.pFileBuffer p.pNextToken)
              == 10
          then p.iLineNum + 1 else p.iLineNum }, v) := by
    intro v hv
    simp only [h2incn_parse_include, hv, Bool.false_eq_true, if_false, include_finish, hs]
    by_cases h10 : byteAt p.pFileBuffer
        (scan (fun c => c != 0 && c != 10) p.pFileBuffer p.pNextToken) = 10
    · simp [h10]
    · simp [h10]
  refine ⟨key w hrec, ?_, ?_, ?_⟩
  · intro k h1 h2
    have := scan_all _ _ _ _ h1 h2
    simpa using this
  · have := scan_end (fun c => c != 0 && c != 10) rfl p.pFileBuffer p.pNextToken
    simp only [Bool.and_eq_false_imp, bne_iff_ne, ne_eq, bne_eq_false_iff_eq] at this
    by_cases h0 : byteAt p.pFileBuffer
        (scan (fun c => c != 0 && c != 10) p.pFileBuffer p.pNextToken) = 0
    · exact Or.inr h0
    · exact Or.inl (this h0)
  · intro m
    rw [key w hrec, key { w with pHeadersMap := m } hrec]
    rfl

theorem include_skipped_without_recursion_witness :
    h2incn_parse_include (fun _ _ _ => none)
        (parser_at (bytes "#include \"b.h\"\nint x;\n") 0) (initial_world {}) =
      some (true,
        { parser_at (bytes "#include \"b.h\"\nint x;\n") 0 with pNextToken := 15, iLineNum := 2 },
        initial_world {}) := by
  have h := (include_skipped_without_recursion (fun _ _ _ => none)
    (parser_at (bytes "#include \"b.h\"\nint x;\n") 0) (initial_world {}) rfl).1
  have e : scan (fun c => c != 0 && c != 10)
      (parser_at (bytes "#include \"b.h\"\nint x;\n") 0).pFileBuffer
      (parser_at (bytes "#include \"b.h\"\nint x;\n") 0).pNextToken = 14 := by decide
  have b : byteAt (parser_at (bytes "#include \"b.h\"\nint x;\n") 0).pFileBuffer 14 = 10 := by
    decide
  rw [e, b] at h
  exact h

/-- C11 (failing input): with recursion enabled, `#include <stdio.h>` is
followed like a quoted include. When `stdio.h` cannot be opened the include
handler calls the loader, which fails, and the handler and the run fail (exit
status 1); when it can be opened its line, translated to the comment `;int puts();`,
is written to the output. -/
theorem angle_include_is_opened :
    (h2incn_parse_include (read_included (fun _ _ => none) angle_fs_missing)
      (parser_at (bytes "#include <stdio.h>\n") 0)
      (initial_world { fRecurse := true })).map (fun r => r.1) = some false ∧
    (main angle_fs_missing 3 { pInFileName := bytes "root.h", fRecurse := true }).map
      (fun r => r.1) = some 1 ∧
    (main angle_fs_present 5
      { pInFileName := bytes "root.h", fRecurse := true, fCode := true }).map
      (fun r => (r.1, r.2.out)) = some (0, bytes ";int puts();\n") := by
  refine ⟨by decide, by decide, by decide⟩

/-- One round of the loop of `h2incn_parse`, at a cursor that is not on the
NUL: the equation of `parse_loop` with the nested reader named; `h` is the
first non-blank byte of the line and `t` the local `tail` after the optional
carriage return. -/
theorem parse_loop_round (fs : List Nat → Option (List Nat)) (n : Nat) (p : parser_t) (w : World)
    (h0 : byteAt p.pFileBuffer p.pNextToken ≠ 0) (h t : Nat)
    (hh : h = scan isBlank p.pFileBuffer p.pNextToken)
    (ht : t = if byteAt p.pFileBuffer h == 13 then h + 1 else h) :
    parse_loop fs (n + 1) p w =
      if byteAt p.pFileBuffer t == 10 then
        parse_loop fs n { p with iLineNum := p.iLineNum + 1, pNextToken := t + 1, pLine := t + 1 }
          (w.fwrite (slice p.pFileBuffer h (t + 1 - h)))
      else if byteAt p.pFileBuffer t == 0 then
        some (true, { p with pNextToken := t }, w)
      else
        match dispatch (read_included (h2incn_parse fs n) fs) n t { p with pNextToken := t } w with
        | none => none
        | some (false, q, v) => some (false, q, v)
        | some (true, q, v) => parse_loop fs n q v := by
  subst hh ht
  rw [parse_loop]
  simp only [bne_iff_ne, ne_eq, h0, not_false_eq_true, if_true]
  rfl


/-- A round of the loop of `h2incn_parse` whose line starts, after blanks,
with a byte that is neither a line terminator nor the NUL: the handler chosen
by `dispatch` runs at that byte. -/
theorem parse_loop_token (fs : List Nat → Option (List Nat)) (n : Nat) (p : parser_t) (w : World)
    (h : Nat) (hs : scan isBlank p.pFileBuffer p.pNextToken = h)
    (c13 : byteAt p.pFileBuffer h ≠ 13) (c10 : byteAt p.pFileBuffer h ≠ 10)
    (c0 : byteAt p.pFileBuffer h ≠ 0) :
    parse_loop fs (n + 1) p w =
      match dispatch (read_included (h2incn_parse fs n) fs) n h { p with pNextToken := h } w with
      | none => none
      | some (false, q, v) => some (false, q, v)
      | some (true, q, v) => parse_loop fs n q v := by
  have h0 : byteAt p.pFileBuffer p.pNextToken ≠ 0 := by
    intro hz
    have : scan isBlank p.pFileBuffer p.pNextToken = p.pNextToken :=
      scan_stay _ _ _ (by rw [hz]; rfl)
    rw [this] at hs
    rw [← hs] at c0
    exact c0 hz
  rw [parse_loop_round fs n p w h0 h h hs.symm (by simp [c13])]
  simp [c10, c0]

/-- A failure returned by the loop of `h2incn_parse` is the return of one
handler call, state included. -/
theorem parse_loop_failure (fs : List Nat → Option (List Nat)) (fuel : Nat) :
    ∀ (p : parser_t) (w : World) (r : Result), parse_loop fs fuel p w = some r → r.1 = false →
      ∃ n h q v, dispatch (read_included (h2incn_parse fs n) fs) n h q v = some r := by
  induction fuel with
  | zero =>
    intro p w r hr hf
    unfold parse_loop at hr
    by_cases h0 : byteAt p.pFileBuffer p.pNextToken = 0
    · simp [h0] at hr
      rw [← hr] at hf
      simp at hf
    · simp [h0] at hr
  | succ n ih =>
    intro p w r hr hf
    by_cases h0 : byteAt p.pFileBuffer p.pNextToken = 0
    · rw [parse_loop_end fs _ p w h0] at hr
      simp only [Option.some.injEq] at hr
      rw [← hr] at hf
      simp at hf
    · obtain ⟨t, ht⟩ : ∃ t, t = if byteAt p.pFileBuffer (scan isBlank p.pFileBuffer p.pNextToken)
          == 13 then scan isBlank p.pFileBuffer p.pNextToken + 1
          else scan isBlank p.pFileBuffer p.pNextToken := ⟨_, rfl⟩
      rw [parse_loop_round fs n p w h0 _ t rfl ht] at hr
      split at hr
      · exact ih _ _ r hr hf
      · split at hr
        · simp only [Option.some.injEq] at hr
          rw [← hr] at hf
          simp at hf
        · split at hr
          · simp at hr
          · next q v hd =>
            exact ⟨n, _, _, _, by rw [hd, hr]⟩
          · exact ih _ _ r hr hf

/-- A failure of `h2incn_parse_include` is either one of its two syntax errors
or the failure of the loader it called, with the state the loader left. -/
theorem parse_include_failure (read : parser_t → List Nat → World → Option Result)
    (p : parser_t) (w : World) (r : Result)
    (hr : h2incn_parse_include read p w = some r) (hf : r.1 = false) :
    r = fail_with p w "h2incn_parse_include: syntax error" ∨
      ∃ name v q, read p name v = some (false, q, r.2.2) := by
  unfold h2incn_parse_include at hr
  simp only at hr
  split at hr
  · split at hr
    · left
      simpa using hr.symm
    · split at hr
      · left
        simpa using hr.symm
      · split at hr
        · simp only [Option.some.injEq] at hr
          rw [← hr] at hf
          simp at hf
        · split at hr
          · simp at hr
          · next b q v hd =>
            right
            simp only [Option.some.injEq] at hr
            rw [← hr] at hf ⊢
            simp only [include_finish] at hf ⊢
            subst hf
            exact ⟨_, _, _, hd⟩
  · simp only [Option.some.injEq] at hr
    rw [← hr] at hf
    simp [include_finish] at hf


theorem scan_run (q : Nat → Bool) {buf M S : List Nat} {i : Nat} (c : Nat)
    (h : buf.drop i = M ++ c :: S) (hM : ∀ x ∈ M, q x = true) (hc : q c = false) :
    scan q buf i = i + M.length := by
  rw [scan_of_drop q h, scanList_append q M _ hM, scanList_stop q c S hc]
  rfl

/-- The loop of the conditional handlers never leaves a cursor that stands on
a `/` which opens no comment: the scan stops at once on the `/`, nothing is
copied, no comment is parsed, and the same byte is tested again. -/
theorem conditional_loop_slash_stuck (fuel head : Nat) (p : parser_t) (w : World)
    (h : byteAt p.pFileBuffer head = 47) (o : isCommentOpener p.pFileBuffer head = false) :
    conditional_loop fuel head p w = none := by
  have s : scan (fun c => c != 0 && c != 47 && c != 13 && c != 10) p.pFileBuffer head = head :=
    scan_stay _ _ _ (by rw [h]; rfl)
  induction fuel with
  | zero =>
    unfold conditional_loop
    simp [h, s, o]
  | succ n ih =>
    unfold conditional_loop
    simp [h, s, o, ih]

/-- A conditional handler whose expression, up to the first `/`, is followed
by a `/` that opens no comment does not return. -/
theorem parse_conditional_slash_stuck (keyword : List Nat) (skip fuel : Nat) (p : parser_t)
    (w : World) (K blanks E rest : List Nat)
    (hd : p.pFileBuffer.drop p.pNextToken = K ++ (blanks ++ (E ++ 47 :: rest)))
    (hK : K.length = skip) (hb : ∀ c ∈ blanks, isBlank c = true)
    (hE : ∀ c ∈ E, c ≠ 0 ∧ c ≠ 47 ∧ c ≠ 13 ∧ c ≠ 10)
    (hE0 : isBlank (byteAt (E ++ 47 :: rest) 0) = false)
    (hr : byteAt rest 0 ≠ 47 ∧ byteAt rest 0 ≠ 42) :
    parse_conditional keyword skip fuel p w = none := by
  have d1 : p.pFileBuffer.drop (p.pNextToken + skip) = blanks ++ (E ++ 47 :: rest) := by
    rw [← hK]; exact drop_add_of_drop hd
  have d2 : p.pFileBuffer.drop (p.pNextToken + skip + blanks.length) = E ++ 47 :: rest :=
    drop_add_of_drop d1
  have d3 : p.pFileBuffer.drop (p.pNextToken + skip + blanks.length + E.length) = 47 :: rest :=
    drop_add_of_drop d2
  have s1 : scan (fun c => c != 0 && (c == 32 || c == 9)) p.pFileBuffer (p.pNextToken + skip)
      = p.pNextToken + skip + blanks.length := by
    rw [scan_of_drop _ d1, scanList_append _ blanks _ (by
      intro c hc
      have := hb c hc
      simp only [isBlank, Bool.or_eq_true, beq_iff_eq] at this
      rcases this with h | h <;> simp [h])]
    cases hE' : E ++ 47 :: rest with
    | nil => simp [scanList]
    | cons c cs =>
      rw [hE'] at hE0
      have : isBlank c = false := hE0
      simp only [isBlank, Bool.or_eq_false_iff, beq_eq_false_iff_ne] at this
      rw [scanList_stop _ c cs (by simp [this.1, this.2])]
      rfl
  have s2 : scan (fun c => c != 0 && c != 47 && c != 13 && c != 10) p.pFileBuffer
      (p.pNextToken + skip + blanks.length) = p.pNextToken + skip + blanks.length + E.length :=
    scan_run _ 47 d2 (by
      intro c hc
      obtain ⟨a, b, c', d⟩ := hE c hc
      simp [a, b, c', d]) rfl
  have b3 : byteAt p.pFileBuffer (p.pNextToken + skip + blanks.length + E.length) = 47 := by
    rw [byteAt_of_drop_zero d3]; rfl
  have o3 : isCommentOpener p.pFileBuffer (p.pNextToken + skip + blanks.length + E.length)
      = false := by
    rw [isCommentOpener_of_drop d3]
    have e1 : byteAt (47 :: rest) 1 = byteAt rest 0 := rfl
    simp [isCommentOpener, e1, hr.1, hr.2]
  have stuck := fun n v => conditional_loop_slash_stuck n _ p v b3 o3
  simp only [parse_conditional, s1]
  cases hEe : E with
  | nil =>
    rw [hEe] at stuck
    simp only [List.length_nil, Nat.add_zero] at stuck
    rw [stuck]
  | cons e es =>
    have b2 : byteAt p.pFileBuffer (p.pNextToken + skip + blanks.length) = e := by
      rw [byteAt_of_drop_zero d2, hEe]; rfl
    obtain ⟨e0, e47, e13, e10⟩ := hE e (by rw [hEe]; exact List.mem_cons_self _ _)
    unfold conditional_loop
    simp only [b2, s2, o3]
    cases fuel with
    | zero => simp [e13, e10]
    | succ n => simp [e13, e10, stuck]


theorem conditional_loop_eol (fuel head : Nat) (p : parser_t) (w : World)
    (h : byteAt p.pFileBuffer head = 13 ∨ byteAt p.pFileBuffer head = 10) :
    conditional_loop fuel head p w = some (.inr (head, p, w)) := by
  unfold conditional_loop
  rcases h with h | h <;> simp [h]

/-- A conditional handler on a directive whose expression holds no `/` and no
NUL and ends at a line terminator: the keyword and the expression are written
and the cursor is left on the terminator. -/
theorem parse_conditional_plain (keyword : List Nat) (skip fuel : Nat) (p : parser_t)
    (w : World) (K blanks E rest : List Nat) (t : Nat)
    (hd : p.pFileBuffer.drop p.pNextToken = K ++ (blanks ++ (E ++ t :: rest)))
    (hK : K.length = skip) (hb : ∀ c ∈ blanks, isBlank c = true)
    (hE : ∀ c ∈ E, c ≠ 0 ∧ c ≠ 47 ∧ c ≠ 13 ∧ c ≠ 10)
    (hE0 : isBlank (byteAt (E ++ t :: rest) 0) = false)
    (ht : t = 13 ∨ t = 10) :
    parse_conditional keyword skip (fuel + 1) p w =
      some (true, { p with pNextToken := p.pNextToken + skip + blanks.length + E.length },
        w.fwrite (keyword ++ E)) := by
  have d1 : p.pFileBuffer.drop (p.pNextToken + skip) = blanks ++ (E ++ t :: rest) := by
    rw [← hK]; exact drop_add_of_drop hd
  have d2 : p.pFileBuffer.drop (p.pNextToken + skip + blanks.length) = E ++ t :: rest :=
    drop_add_of_drop d1
  have d3 : p.pFileBuffer.drop (p.pNextToken + skip + blanks.length + E.length) = t :: rest :=
    drop_add_of_drop d2
  have s1 : scan (fun c => c != 0 && (c == 32 || c == 9)) p.pFileBuffer (p.pNextToken + skip)
      = p.pNextToken + skip + blanks.length := by
    rw [scan_of_drop _ d1, scanList_append _ blanks _ (by
      intro c hc
      have := hb c hc
      simp only [isBlank, Bool.or_eq_true, beq_iff_eq] at this
      rcases this with h | h <;> simp [h])]
    cases hE' : E ++ t :: rest with
    | nil => simp [scanList]
    | cons c cs =>
      rw [hE'] at hE0
      have : isBlank c = false := hE0
      simp only [isBlank, Bool.or_eq_false_iff, beq_eq_false_iff_ne] at this
      rw [scanList_stop _ c cs (by simp [this.1, this.2])]
      rfl
  have s2 : scan (fun c => c != 0 && c != 47 && c != 13 && c != 10) p.pFileBuffer
      (p.pNextToken + skip + blanks.length) = p.pNextToken + skip + blanks.length + E.length :=
    scan_run _ t d2 (by
      intro c hc
      obtain ⟨a, b, c', d⟩ := hE c hc
      simp [a, b, c', d]) (by rcases ht with h | h <;> simp [h])
  have b3 : byteAt p.pFileBuffer (p.pNextToken + skip + blanks.length + E.length) = t := by
    rw [byteAt_of_drop_zero d3]; rfl
  have o3 : isCommentOpener p.pFileBuffer (p.pNextToken + skip + blanks.length + E.length)
      = false := by
    rcases ht with h | h <;> simp [isCommentOpener, b3, h]
  have l2 : slice p.pFileBuffer (p.pNextToken + skip + blanks.length) E.length = E := by
    rw [slice_of_drop d2, slice_append_left]
  have eol := fun n v => conditional_loop_eol n _ p v
      (show byteAt p.pFileBuffer (p.pNextToken + skip + blanks.length + E.length) = 13 ∨
        byteAt p.pFileBuffer (p.pNextToken + skip + blanks.length + E.length) = 10 by
        rw [b3]; exact ht)
  simp only [parse_conditional, s1]
  by_cases hnil : E = []
  · subst hnil
    simp only [List.length_nil, Nat.add_zero] at eol
    rw [eol]
    simp [World.fwrite]
  · obtain ⟨e, es, hEe⟩ := List.exists_cons_of_ne_nil hnil
    have b2 : byteAt p.pFileBuffer (p.pNextToken + skip + blanks.length) = e := by
      rw [byteAt_of_drop_zero d2, hEe]; rfl
    obtain ⟨e0, e47, e13, e10⟩ := hE e (by rw [hEe]; exact List.mem_cons_self _ _)
    have hpos : 0 < E.length := List.length_pos.mpr hnil
    unfold conditional_loop
    simp only [b2, s2, o3, Nat.add_sub_cancel_left, l2]
    simp [e13, e10, eol, World.fwrite, hpos]


/-- C15 (failing input): on the directive lines `#if A / B`, `#ifdef A / B`,
`#ifndef A / B` and `#elif A / B`, each ended by a line feed, whose expression
holds a `/` that opens no comment, the four conditional handlers do not
return, whatever the fuel and the state: the copying scan stops on the `/`,
no comment is parsed, and the loop tests the same byte for ever. For an
expression without any `/` (and without NUL) the handlers, all instances of
`parse_conditional`, do return success with the keyword and the expression
written and the cursor on the line terminator. -/
theorem conditional_diverges_on_lone_slash (fuel : Nat) (w : World) :
    h2incn_parse_if fuel (parser_at (bytes "#if A / B\n") 0) w = none ∧
    h2incn_parse_ifdef fuel (parser_at (bytes "#ifdef A / B\n") 0) w = none ∧
    h2incn_parse_ifndef fuel (parser_at (bytes "#ifndef A / B\n") 0) w = none ∧
    h2incn_parse_elif fuel (parser_at (bytes "#elif A / B\n") 0) w = none ∧
    (∀ (keyword : List Nat) (skip : Nat) (p : parser_t) (K blanks E rest : List Nat) (t : Nat),
      p.pFileBuffer.drop p.pNextToken = K ++ (blanks ++ (E ++ t :: rest)) →
      K.length = skip → (∀ c ∈ blanks, isBlank c = true) →
      (∀ c ∈ E, c ≠ 0 ∧ c ≠ 47 ∧ c ≠ 13 ∧ c ≠ 10) →
      isBlank (byteAt (E ++ t :: rest) 0) = false → (t = 13 ∨ t = 10) →
      parse_conditional keyword skip (fuel + 1) p w =
        some (true, { p with pNextToken := p.pNextToken + skip + blanks.length + E.length },
          w.fwrite (keyword ++ E))) := by
  refine ⟨?_, ?_, ?_, ?_, ?_⟩
  · exact parse_conditional_slash_stuck _ 4 fuel _ w (bytes "#if ") [] (bytes "A ") (bytes " B\n")
      (by decide) (by decide) (by decide) (by decide) (by decide) (by decide)
  · exact parse_conditional_slash_stuck _ 7 fuel _ w (bytes "#ifdef ") [] (bytes "A ")
      (bytes " B\n") (by decide) (by decide) (by decide) (by decide) (by decide) (by decide)
  · exact parse_conditional_slash_stuck _ 8 fuel _ w (bytes "#ifndef ") [] (bytes "A ")
      (bytes " B\n") (by decide) (by decide) (by decide) (by decide) (by decide) (by decide)
  · exact parse_conditional_slash_stuck _ 5 fuel _ w (bytes "#elif") [32] (bytes "A ")
      (bytes " B\n") (by decide) (by decide) (by decide) (by decide) (by decide) (by decide)
  · intro keyword skip p K blanks E rest t hd hK hb hE hE0 ht
    exact parse_conditional_plain keyword skip fuel p w K blanks E rest t hd hK hb hE hE0 ht

/-- The common body of `h2incn_parse_else` and `h2incn_parse_endif` on a
directive line whose text after the keyword opens no comment: the keyword is
written, the rest of the line is stepped over without being written, and the
cursor is left on the line terminator. -/
theorem parse_else_endif_plain (keyword : List Nat) (skip fuel : Nat) (p : parser_t) (w : World)
    (K blanks T rest : List Nat) (t : Nat)
    (hd : p.pFileBuffer.drop p.pNextToken = K ++ (blanks ++ (T ++ t :: rest)))
    (hK : K.length = skip) (hb : ∀ c ∈ blanks, isBlank c = true)
    (hT : ∀ c ∈ T, notEol c = true)
    (hT0 : isBlank (byteAt (T ++ t :: rest) 0) = false)
    (ho : isCommentOpener (T ++ t :: rest) 0 = false)
    (ht : notEol t = false) :
    parse_else_endif keyword skip fuel p w =
      some (true, { p with pNextToken := p.pNextToken + skip + blanks.length + T.length },
        w.fwrite keyword) := by
  have d1 : p.pFileBuffer.drop (p.pNextToken + skip) = blanks ++ (T ++ t :: rest) := by
    rw [← hK]; exact drop_add_of_drop hd
  have d2 : p.pFileBuffer.drop (p.pNextToken + skip + blanks.length) = T ++ t :: rest :=
    drop_add_of_drop d1
  have s1 : scan (fun c => c != 0 && (c == 32 || c == 9)) p.pFileBuffer (p.pNextToken + skip)
      = p.pNextToken + skip + blanks.length := by
    rw [scan_of_drop _ d1, scanList_append _ blanks _ (by
      intro c hc
      have := hb c hc
      simp only [isBlank, Bool.or_eq_true, beq_iff_eq] at this
      rcases this with h | h <;> simp [h])]
    cases hE' : T ++ t :: rest with
    | nil => simp [scanList]
    | cons c cs =>
      rw [hE'] at hT0
      have : isBlank c = false := hT0
      simp only [isBlank, Bool.or_eq_false_iff, beq_eq_false_iff_ne] at this
      rw [scanList_stop _ c cs (by simp [this.1, this.2])]
      rfl
  have s2 : scan notEol p.pFileBuffer (p.pNextToken + skip + blanks.length)
      = p.pNextToken + skip + blanks.length + T.length := scan_run _ t d2 hT ht
  have o2 : isCommentOpener p.pFileBuffer (p.pNextToken + skip + blanks.length) = false := by
    rw [isCommentOpener_of_drop d2]; exact ho
  simp [parse_else_endif, s1, s2, o2]


/-- C16 (counterexample): on `#else foo` and `#endif foo`, each ended by a
line feed, `h2incn_parse_else` and `h2incn_parse_endif` write the keyword
only: the text `foo` that follows it on the line is not in the output. -/
theorem else_text_not_copied :
    (h2incn_parse_else 0 (parser_at (bytes "#else foo\n") 0) (initial_world {})).map
      (fun r => (r.1, r.2.1.pNextToken, r.2.2.out)) = some (true, 9, bytes "%else") ∧
    (h2incn_parse_endif 0 (parser_at (bytes "#endif foo\n") 0) (initial_world {})).map
      (fun r => (r.1, r.2.1.pNextToken, r.2.2.out)) = some (true, 10, bytes "%endif") := by
  refine ⟨by decide, by decide⟩

/-- C16 (amended): `h2incn_parse_else` and `h2incn_parse_endif` write their
keyword (`%else`, `%endif`) and step over the rest of the directive line
without writing it: for every text T that follows the keyword and optional
blanks on the same line, does not start with a comment opener, and ends at a
line terminator or the NUL, the handler returns success, the output grows by
the keyword alone, and the cursor is left on that terminator. -/
theorem else_endif_skip_rest (fuel : Nat) (p : parser_t) (w : World)
    (blanks T rest : List Nat) (t : Nat)
    (hb : ∀ c ∈ blanks, isBlank c = true) (hT : ∀ c ∈ T, notEol c = true)
    (hT0 : isBlank (byteAt (T ++ t :: rest) 0) = false)
    (ho : isCommentOpener (T ++ t :: rest) 0 = false) (ht : notEol t = false) :
    (p.pFileBuffer.drop p.pNextToken = bytes "#else" ++ (blanks ++ (T ++ t :: rest)) →
      h2incn_parse_else fuel p w =
        some (true, { p with pNextToken := p.pNextToken + 5 + blanks.length + T.length },
          w.fwrite (bytes "%else"))) ∧
    (p.pFileBuffer.drop p.pNextToken = bytes "#endif" ++ (blanks ++ (T ++ t :: rest)) →
      h2incn_parse_endif fuel p w =
        some (true, { p with pNextToken := p.pNextToken + 6 + blanks.length + T.length },
          w.fwrite (bytes "%endif"))) := by
  constructor
  · intro hd
    exact parse_else_endif_plain _ 5 fuel p w _ blanks T rest t hd (by decide) hb hT hT0 ho ht
  · intro hd
    exact parse_else_endif_plain _ 6 fuel p w _ blanks T rest t hd (by decide) hb hT hT0 ho ht

theorem else_endif_skip_rest_witness :
    h2incn_parse_else 0 (parser_at (bytes "#else foo\n") 0) (initial_world {}) =
      some (true,
        { parser_at (bytes "#else foo\n") 0 with
          pNextToken := (parser_at (bytes "#else foo\n") 0).pNextToken + 5 + [32].length
            + (bytes "foo").length },
        (initial_world {}).fwrite (bytes "%else")) :=
  (else_endif_skip_rest 0 (parser_at (bytes "#else foo\n") 0) (initial_world {}) [32]
    (bytes "foo") [] 10 (by decide) (by decide) (by decide) (by decide) (by decide)).1
    (by decide)

theorem startsWith_of_drop {buf S : List Nat} {i : Nat} (h : buf.drop i = S) (pat : List Nat) :
    startsWith buf i pat = startsWith S 0 pat := by
  simp only [startsWith, slice_of_drop h]

/-- The branch of `h2incn_parse` for an unknown `#` line or a code line, on a
line ended by a line feed or by carriage return and line feed. -/
theorem parse_other_line_spec (head : Nat) (p : parser_t) (w : World) (body term rest : List Nat)
    (hd : p.pFileBuffer.drop head = body ++ (term ++ rest))
    (hall : ∀ c ∈ body, notEol c = true) (ht : term = [10] ∨ term = [13, 10]) :
    parse_other_line head p w =
      ({ p with iLineNum := p.iLineNum + 1, pLine := head + body.length + term.length,
                pNextToken := head + body.length + term.length },
        if w.options.fCode then w.fwrite (59 :: (body ++ term)) else w) := by
  have d2 : p.pFileBuffer.drop (head + body.length) = term ++ rest := drop_add_of_drop hd
  have l0 : ∀ n, slice p.pFileBuffer head n = slice ((body ++ term) ++ rest) 0 n := by
    intro n
    rw [slice_of_drop hd, List.append_assoc]
  rcases ht with ht | ht
  · subst ht
    have s : scan notEol p.pFileBuffer head = head + body.length :=
      scan_run _ 10 hd hall rfl
    have b : byteAt p.pFileBuffer (head + body.length) = 10 := by
      rw [byteAt_of_drop_zero d2]; rfl
    have l := l0 (body ++ [10]).length
    rw [slice_append_left] at l
    simp only [List.length_append, List.length_singleton] at l
    have e : head + body.length + 1 - head = body.length + 1 := by omega
    simp [parse_other_line, s, b, e, l, Nat.add_assoc]
  · subst ht
    have s : scan notEol p.pFileBuffer head = head + body.length :=
      scan_run _ 13 hd hall rfl
    have b : byteAt p.pFileBuffer (head + body.length) = 13 := by
      rw [byteAt_of_drop_zero d2]; rfl
    have b' : byteAt p.pFileBuffer (head + (body.length + 1)) = 10 := by
      rw [← Nat.add_assoc, byteAt_of_drop d2 1]; rfl
    have l := l0 (body ++ [13, 10]).length
    rw [slice_append_left] at l
    simp only [List.length_append, List.length_cons, List.length_nil] at l
    have l' : slice p.pFileBuffer head (body.length + 2) = body ++ [13, 10] := l
    have e : head + (body.length + 2) - head = body.length + 2 := by omega
    simp [parse_other_line, s, b, b', e, l', Nat.add_assoc]


/-- A round of the loop of `h2incn_parse` on an unknown `#` line or a code
line: the line is consumed with its terminator and written as a `;` comment
when `options.fCode` is set. -/
theorem other_line_round (fs : List Nat → Option (List Nat)) (n : Nat) (p : parser_t) (w : World)
    (indent body term rest : List Nat)
    (hd : p.pFileBuffer.drop p.pNextToken = indent ++ (body ++ (term ++ rest)))
    (hind : ∀ c ∈ indent, isBlank c = true) (hall : ∀ c ∈ body, notEol c = true)
    (hne : body ≠ []) (h0 : isBlank (byteAt body 0) = false)
    (hkind :
      (byteAt body 0 = 35 ∧
        ∀ pat ∈ directive_prefixes, startsWith (body ++ (term ++ rest)) 0 pat = false) ∨
      (byteAt body 0 ≠ 35 ∧ isCommentOpener (body ++ (term ++ rest)) 0 = false))
    (ht : term = [10] ∨ term = [13, 10]) :
    parse_loop fs (n + 1) p w =
      parse_loop fs n
        { p with iLineNum := p.iLineNum + 1,
                 pLine := p.pNextToken + indent.length + body.length + term.length,
                 pNextToken := p.pNextToken + indent.length + body.length + term.length }
        (if w.options.fCode then w.fwrite (59 :: (body ++ term)) else w) := by
  obtain ⟨b, bs, hb⟩ := List.exists_cons_of_ne_nil hne
  have hb0 : byteAt body 0 = b := by rw [hb]; rfl
  rw [hb0] at h0
  have hbe : notEol b = true := hall b (by rw [hb]; exact List.mem_cons_self _ _)
  simp only [notEol, Bool.and_eq_true, bne_iff_ne, ne_eq] at hbe
  have d1 : p.pFileBuffer.drop (p.pNextToken + indent.length) = body ++ (term ++ rest) :=
    drop_add_of_drop hd
  have hd' : p.pFileBuffer.drop p.pNextToken = indent ++ b :: (bs ++ (term ++ rest)) := by
    rw [hd, hb]; rfl
  have s : scan isBlank p.pFileBuffer p.pNextToken = p.pNextToken + indent.length :=
    scan_run _ b hd' hind h0
  have c : byteAt p.pFileBuffer (p.pNextToken + indent.length) = b := by
    rw [byteAt_of_drop_zero d1, hb]; rfl
  rw [parse_loop_token fs n p w _ s (by rw [c]; exact hbe.1.2) (by rw [c]; exact hbe.2)
    (by rw [c]; exact hbe.1.1)]
  have ol := parse_other_line_spec (p.pNextToken + indent.length)
    { p with pNextToken := p.pNextToken + indent.length } w body term rest d1 hall ht
  rcases hkind with ⟨k1, k2⟩ | ⟨k1, k2⟩
  · rw [hb0] at k1
    have m : ∀ pat ∈ directive_prefixes,
        startsWith p.pFileBuffer (p.pNextToken + indent.length) pat = false := by
      intro pat hp
      rw [startsWith_of_drop d1]
      exact k2 pat hp
    simp only [directive_prefixes, List.mem_cons, List.mem_singleton, forall_eq_or_imp,
      forall_eq] at m
    obtain ⟨m1, m2, m3, m4, m5, m6, m7, m8, m9, -⟩ := m
    simp [dispatch, c, k1, m1, m2, m3, m4, m5, m6, m7, m8, m9, ol]
  · rw [hb0] at k1
    have o : isCommentOpener p.pFileBuffer (p.pNextToken + indent.length) = false := by
      rw [isCommentOpener_of_drop d1]; exact k2
    simp [dispatch, c, k1, o, ol]


/-- C18 (failing input): on `#define FOO a \` continued by the line ` b` and
followed by the line `int x;`, `h2incn_parse_define` does not stop at the end
of ` b`, the first physical line without a final backslash: the inner loop
`while (*vtail != 0)` runs to the end of the buffer, so the value written and
stored is `a \`, line feed, ` b`, line feed, `int x;`, line feed, the cursor
is left on the NUL (offset 26) and the line counter has counted one line feed
only. `h2incn_parse` then ends without dispatching `int x;` as a line of its
own: with code-as-comments on, no `;int x;` is written. -/
theorem define_continuation_swallows_rest :
    (h2incn_parse_define 3 (parser_at (bytes "#define FOO a \\\n b\nint x;\n") 0)
        (initial_world {})).map (fun r => (r.2.1.pNextToken, r.2.1.iLineNum, r.2.2.out))
      = some (26, 2, bytes "%define FOO a \\\n b\nint x;\n") ∧
    (h2incn_parse_define 3 (parser_at (bytes "#define FOO a \\\n b\nint x;\n") 0)
        ⟨{}, empty_map 1, empty_map 1, [], []⟩).map
        (fun r => (r.1, (hash_map_find r.2.2.pDefinesMap (bytes "FOO")).entry))
      = some (true, some (bytes "FOO", bytes "a \\\n b\nint x;\n")) ∧
    (h2incn_parse (fun _ => none) 4 (parser_at (bytes "#define FOO a \\\n b\nint x;\n") 0)
        ⟨{ fCode := true }, empty_map 1, empty_map 1, [], []⟩).map (fun r => (r.1, r.2.2.out))
      = some (true, bytes "%define FOO a \\\n b\nint x;\n") := by
  refine ⟨by decide, by decide, by decide⟩

/-- What `h2incn_parse_include` finds, recursion enabled, on a directive whose
file name is well delimited: the two scans, the delimiters and the name. -/
theorem parse_include_scans (p : parser_t) (pre name rest : List Nat) (d1 d2 : Nat)
    (hd : p.pFileBuffer.drop p.pNextToken = pre ++ d1 :: (name ++ d2 :: rest))
    (hpre : ∀ c ∈ pre, c ≠ 0 ∧ c ≠ 60 ∧ c ≠ 34 ∧ c ≠ 10) (hd1 : d1 = 60 ∨ d1 = 34)
    (hname : ∀ c ∈ name, c ≠ 0 ∧ c ≠ 62 ∧ c ≠ 34 ∧ c ≠ 10) (hd2 : d2 = 34 ∨ d2 = 62) :
    scan (fun c => c != 0 && c != 60 && c != 34 && c != 10) p.pFileBuffer p.pNextToken
      = p.pNextToken + pre.length ∧
    byteAt p.pFileBuffer (p.pNextToken + pre.length) = d1 ∧
    scan (fun c => c != 0 && c != 62 && c != 34 && c != 10) p.pFileBuffer
      (p.pNextToken + pre.length + 1) = p.pNextToken + pre.length + 1 + name.length ∧
    byteAt p.pFileBuffer (p.pNextToken + pre.length + 1 + name.length) = d2 ∧
    slice p.pFileBuffer (p.pNextToken + pre.length + 1)
      (p.pNextToken + pre.length + 1 + name.length - (p.pNextToken + pre.length + 1)) = name := by
  have e1 : p.pFileBuffer.drop (p.pNextToken + pre.length) = d1 :: (name ++ d2 :: rest) :=
    drop_add_of_drop hd
  have e2 : p.pFileBuffer.drop (p.pNextToken + pre.length + 1) = name ++ d2 :: rest :=
    drop_add_of_drop (M := [d1]) e1
  have e3 : p.pFileBuffer.drop (p.pNextToken + pre.length + 1 + name.length) = d2 :: rest :=
    drop_add_of_drop e2
  refine ⟨?_, ?_, ?_, ?_, ?_⟩
  · exact scan_run _ d1 hd (by
      intro c hc
      obtain ⟨a, b, c', d⟩ := hpre c hc
      simp [a, b, c', d]) (by rcases hd1 with h | h <;> simp [h])
  · rw [byteAt_of_drop_zero e1]; rfl
  · exact scan_run _ d2 e2 (by
      intro c hc
      obtain ⟨a, b, c', d⟩ := hname c hc
      simp [a, b, c', d]) (by rcases hd2 with h | h <;> simp [h])
  · rw [byteAt_of_drop_zero e3]; rfl
  · rw [Nat.add_sub_cancel_left, slice_of_drop e2, slice_append_left]

/-- With recursion enabled, `h2incn_parse_include` on a well delimited file
name that is already in the visited set returns 1 and leaves parser and
state as they were: the cursor still stands at the directive. -/
theorem parse_include_visited (read : parser_t → List Nat → World → Option Result)
    (p : parser_t) (w : World) (pre name rest : List Nat) (d1 d2 : Nat)
    (hd : p.pFileBuffer.drop p.pNextToken = pre ++ d1 :: (name ++ d2 :: rest))
    (hpre : ∀ c ∈ pre, c ≠ 0 ∧ c ≠ 60 ∧ c ≠ 34 ∧ c ≠ 10) (hd1 : d1 = 60 ∨ d1 = 34)
    (hname : ∀ c ∈ name, c ≠ 0 ∧ c ≠ 62 ∧ c ≠ 34 ∧ c ≠ 10) (hd2 : d2 = 34 ∨ d2 = 62)
    (hrec : w.options.fRecurse = true)
    (hseen : (hash_map_find w.pHeadersMap name).isNode = true) :
    h2incn_parse_include read p w = some (true, p, w) := by
  obtain ⟨s1, b1, s2, b2, l⟩ := parse_include_scans p pre name rest d1 d2 hd hpre hd1 hname hd2
  have c1 : ¬ (d1 ≠ 60 ∧ d1 ≠ 34) := by rcases hd1 with h | h <;> simp [h]
  have c2 : ¬ (d2 ≠ 34 ∧ d2 ≠ 62) := by rcases hd2 with h | h <;> simp [h]
  rw [Nat.add_sub_cancel_left] at l
  simp [h2incn_parse_include, hrec, s1, b1, s2, b2, l, c1, c2, hseen]

/-- With recursion enabled, `h2incn_parse_include` on a well delimited file
name that is not in the visited set inserts the name, calls the loader on it
and then steps over the rest of the directive line. -/
theorem parse_include_fresh (read : parser_t → List Nat → World → Option Result)
    (p : parser_t) (w : World) (pre name rest : List Nat) (d1 d2 : Nat)
    (hd : p.pFileBuffer.drop p.pNextToken = pre ++ d1 :: (name ++ d2 :: rest))
    (hpre : ∀ c ∈ pre, c ≠ 0 ∧ c ≠ 60 ∧ c ≠ 34 ∧ c ≠ 10) (hd1 : d1 = 60 ∨ d1 = 34)
    (hname : ∀ c ∈ name, c ≠ 0 ∧ c ≠ 62 ∧ c ≠ 34 ∧ c ≠ 10) (hd2 : d2 = 34 ∨ d2 = 62)
    (hrec : w.options.fRecurse = true)
    (hnew : (hash_map_find w.pHeadersMap name).isNode = false) :
    h2incn_parse_include read p w =
      match read p name { w with pHeadersMap := (hash_map_insert w.pHeadersMap name []).2 } with
      | none => none
      | some (bSuccess, q, v) =>
        some (include_finish bSuccess (p.pNextToken + pre.length + 1 + name.length) q v) := by
  obtain ⟨s1, b1, s2, b2, l⟩ := parse_include_scans p pre name rest d1 d2 hd hpre hd1 hname hd2
  have c1 : ¬ (d1 ≠ 60 ∧ d1 ≠ 34) := by rcases hd1 with h | h <;> simp [h]
  have c2 : ¬ (d2 ≠ 34 ∧ d2 ≠ 62) := by rcases hd2 with h | h <;> simp [h]
  rw [Nat.add_sub_cancel_left] at l
  rcases hr : read p name { w with pHeadersMap := (hash_map_insert w.pHeadersMap name []).2 }
    with _ | ⟨b, q, v⟩ <;>
  simp [h2incn_parse_include, hrec, s1, b1, s2, b2, l, c1, c2, hnew, hr]

/-- Once a name is in the visited set, the loop of `h2incn_parse` placed at
an `#include` directive of that name does not return: the handler's early
`return 1` leaves `pNextToken` on the directive, which is dispatched again. -/
theorem include_visited_stuck (fs : List Nat → Option (List Nat)) (n : Nat) (p : parser_t)
    (w : World) (pre name rest : List Nat) (d1 d2 : Nat)
    (hd : p.pFileBuffer.drop p.pNextToken
      = (bytes "#include " ++ pre) ++ d1 :: (name ++ d2 :: rest))
    (hpre : ∀ c ∈ pre, c ≠ 0 ∧ c ≠ 60 ∧ c ≠ 34 ∧ c ≠ 10) (hd1 : d1 = 60 ∨ d1 = 34)
    (hname : ∀ c ∈ name, c ≠ 0 ∧ c ≠ 62 ∧ c ≠ 34 ∧ c ≠ 10) (hd2 : d2 = 34 ∨ d2 = 62)
    (hrec : w.options.fRecurse = true)
    (hseen : (hash_map_find w.pHeadersMap name).isNode = true) :
    parse_loop fs n p w = none := by
  have hpre' : ∀ c ∈ bytes "#include " ++ pre, c ≠ 0 ∧ c ≠ 60 ∧ c ≠ 34 ∧ c ≠ 10 := by
    intro c hc
    rcases List.mem_append.mp hc with h | h
    · have hk : ∀ c ∈ bytes "#include ", c ≠ 0 ∧ c ≠ 60 ∧ c ≠ 34 ∧ c ≠ 10 := by decide
      exact hk c h
    · exact hpre c h
  have hd0 : p.pFileBuffer.drop p.pNextToken
      = bytes "#include " ++ (pre ++ d1 :: (name ++ d2 :: rest)) := by
    rw [hd, List.append_assoc]
  have b0 : byteAt p.pFileBuffer p.pNextToken = 35 := by
    rw [byteAt_of_drop_zero hd0]; rfl
  have s0 : scan isBlank p.pFileBuffer p.pNextToken = p.pNextToken :=
    scan_stay _ _ _ (by rw [b0]; rfl)
  have m1 : startsWith p.pFileBuffer p.pNextToken (bytes "#include ") = true := by
    rw [startsWith_of_drop hd0]
    simp only [startsWith, slice_append_left, beq_self_eq_true]
  induction n with
  | zero =>
    unfold parse_loop
    simp [b0]
  | succ n ih =>
    rw [parse_loop_token fs n p w _ s0 (by rw [b0]; decide) (by rw [b0]; decide)
      (by rw [b0]; decide)]
    have hp : ({ p with pNextToken := p.pNextToken } : parser_t) = p := rfl
    rw [hp]
    simp only [dispatch, b0, m1, beq_self_eq_true, if_true]
    rw [parse_include_visited _ p w _ name rest d1 d2 hd hpre' hd1 hname hd2 hrec hseen]
    exact ih


/-- The call of the loader made by the include handler, for a file that opens
with some contents: the nested `h2incn_parse` runs on a fresh parser, and the
including parser comes back unchanged. -/
theorem read_included_opened (parse : parser_t → World → Option Result)
    (fs : List Nat → Option (List Nat)) (p : parser_t) (name content : List Nat) (w : World)
    (hfs : fs name = some content) (hc : content ≠ []) :
    read_included parse fs p name w =
      match parse ⟨name, content, 0, 0, 1⟩ w with
      | none => none
      | some (bSuccess, _, v) => some (bSuccess, p, v) := by
  have hl : ¬ content.length < 1 := by
    have := List.length_pos.mpr hc
    omega
  rcases hr : parse ⟨name, content, 0, 0, 1⟩ w with _ | ⟨b, q, v⟩ <;>
  simp [read_included, h2incn_read_with, hfs, hl, hr]

/-- A round of the loop of `h2incn_parse`, recursion enabled, at an
`#include` directive of a file not yet visited that opens with contents
`content`: the name is inserted, the file is scanned by a nested
`h2incn_parse`, and the loop goes on after the directive line, or returns the
failure of the nested scan. -/
theorem include_fresh_round (fs : List Nat → Option (List Nat)) (n : Nat) (p : parser_t)
    (w : World) (pre name rest content : List Nat) (d1 d2 : Nat)
    (hd : p.pFileBuffer.drop p.pNextToken
      = (bytes "#include " ++ pre) ++ d1 :: (name ++ d2 :: rest))
    (hpre : ∀ c ∈ pre, c ≠ 0 ∧ c ≠ 60 ∧ c ≠ 34 ∧ c ≠ 10) (hd1 : d1 = 60 ∨ d1 = 34)
    (hname : ∀ c ∈ name, c ≠ 0 ∧ c ≠ 62 ∧ c ≠ 34 ∧ c ≠ 10) (hd2 : d2 = 34 ∨ d2 = 62)
    (hrec : w.options.fRecurse = true)
    (hnew : (hash_map_find w.pHeadersMap name).isNode = false)
    (hfs : fs name = some content) (hc : content ≠ []) :
    parse_loop fs (n + 1) p w =
      match h2incn_parse fs n ⟨name, content, 0, 0, 1⟩
          { w with pHeadersMap := (hash_map_insert w.pHeadersMap name []).2 } with
      | none => none
      | some (false, _, v) =>
        some (include_finish false
          (p.pNextToken + (bytes "#include " ++ pre).length + 1 + name.length) p v)
      | some (true, _, v) =>
        parse_loop fs n (include_finish true
          (p.pNextToken + (bytes "#include " ++ pre).length + 1 + name.length) p v).2.1 v := by
  have hpre' : ∀ c ∈ bytes "#include " ++ pre, c ≠ 0 ∧ c ≠ 60 ∧ c ≠ 34 ∧ c ≠ 10 := by
    intro c hc
    rcases List.mem_append.mp hc with h | h
    · have hk : ∀ c ∈ bytes "#include ", c ≠ 0 ∧ c ≠ 60 ∧ c ≠ 34 ∧ c ≠ 10 := by decide
      exact hk c h
    · exact hpre c h
  have hd0 : p.pFileBuffer.drop p.pNextToken
      = bytes "#include " ++ (pre ++ d1 :: (name ++ d2 :: rest)) := by
    rw [hd, List.append_assoc]
  have b0 : byteAt p.pFileBuffer p.pNextToken = 35 := by
    rw [byteAt_of_drop_zero hd0]; rfl
  have s0 : scan isBlank p.pFileBuffer p.pNextToken = p.pNextToken :=
    scan_stay _ _ _ (by rw [b0]; rfl)
  have m1 : startsWith p.pFileBuffer p.pNextToken (bytes "#include ") = true := by
    rw [startsWith_of_drop hd0]
    simp only [startsWith, slice_append_left, beq_self_eq_true]
  rw [parse_loop_token fs n p w _ s0 (by rw [b0]; decide) (by rw [b0]; decide)
    (by rw [b0]; decide)]
  have hp : ({ p with pNextToken := p.pNextToken } : parser_t) = p := rfl
  rw [hp]
  simp only [dispatch, b0, m1, beq_self_eq_true, if_true]
  rw [parse_include_fresh _ p w _ name rest d1 d2 hd hpre' hd1 hname hd2 hrec hnew,
    read_included_opened _ fs p name content _ hfs hc]
  rcases hr : h2incn_parse fs n ⟨name, content, 0, 0, 1⟩
      { w with pHeadersMap := (hash_map_insert w.pHeadersMap name []).2 }
    with _ | ⟨b, q, v⟩
  · rfl
  · cases b <;> simp [include_finish]


/-- C19 (failing input): with recursion enabled, a run on the root `a.h`
holding `#include "b.h"`, where `b.h` holds `#include "a.h"`, does not end,
whatever the fuel: the root's name is never put into the visited set, so
`a.h` is opened again from `b.h`, and there the directive for the visited
`b.h` returns 1 without moving the cursor and is dispatched for ever. A root
`a.h` that includes itself hangs the same way. -/
theorem main_diverges_on_include_cycle (fuel : Nat) :
    main mutual_fs fuel { pInFileName := bytes "a.h", fRecurse := true } = none ∧
    main self_fs fuel { pInFileName := bytes "a.h", fRecurse := true } = none := by
  have hq : ∀ c ∈ ([] : List Nat), c ≠ 0 ∧ c ≠ 60 ∧ c ≠ 34 ∧ c ≠ 10 := by simp
  have ha : ∀ c ∈ bytes "a.h", c ≠ 0 ∧ c ≠ 62 ∧ c ≠ 34 ∧ c ≠ 10 := by decide
  have hb : ∀ c ∈ bytes "b.h", c ≠ 0 ∧ c ≠ 62 ∧ c ≠ 34 ∧ c ≠ 10 := by decide
  have zero : ∀ (fs : List Nat → Option (List Nat)) (p : parser_t) (w : World),
      byteAt p.pFileBuffer p.pNextToken ≠ 0 → parse_loop fs 0 p w = none := by
    intro fs p w h
    unfold parse_loop
    simp [h]
  constructor
  · have key : ∀ w : World, w.options.fRecurse = true → w.options.fVerbose = false →
        (hash_map_find w.pHeadersMap (bytes "b.h")).isNode = false →
        (hash_map_find (hash_map_insert w.pHeadersMap (bytes "b.h") []).2
          (bytes "a.h")).isNode = false →
        (hash_map_find (hash_map_insert (hash_map_insert w.pHeadersMap (bytes "b.h") []).2
          (bytes "a.h") []).2 (bytes "b.h")).isNode = true →
        parse_loop mutual_fs fuel ⟨bytes "a.h", bytes "#include \"b.h\"\n", 0, 0, 1⟩ w = none := by
      intro w hrec hverb h1 h2 h3
      cases fuel with
      | zero => exact zero _ _ _ (by decide)
      | succ n =>
        rw [include_fresh_round mutual_fs n ⟨bytes "a.h", bytes "#include \"b.h\"\n", 0, 0, 1⟩ w [] (bytes "b.h") [10] (bytes "#include \"a.h\"\n")
          34 34 rfl hq (Or.inr rfl) hb (Or.inl rfl) hrec h1 (by decide) (by decide)]
        have inner : h2incn_parse mutual_fs n ⟨bytes "b.h", bytes "#include \"a.h\"\n", 0, 0, 1⟩
            { w with pHeadersMap := (hash_map_insert w.pHeadersMap (bytes "b.h") []).2 }
            = none := by
          simp only [h2incn_parse, hverb, Bool.false_eq_true, if_false]
          cases n with
          | zero => exact zero _ _ _ (by decide)
          | succ m =>
            rw [include_fresh_round mutual_fs m ⟨bytes "b.h", bytes "#include \"a.h\"\n", 0, 0, 1⟩
              { w with pHeadersMap := (hash_map_insert w.pHeadersMap (bytes "b.h") []).2 } [] (bytes "a.h") [10]
              (bytes "#include \"b.h\"\n") 34 34 rfl hq (Or.inr rfl) ha (Or.inl rfl) hrec h2
              (by decide) (by decide)]
            have stuck : h2incn_parse mutual_fs m
                ⟨bytes "a.h", bytes "#include \"b.h\"\n", 0, 0, 1⟩
                { ({ w with pHeadersMap := (hash_map_insert w.pHeadersMap (bytes "b.h") []).2 }
                    : World) with
                  pHeadersMap := (hash_map_insert
                    (hash_map_insert w.pHeadersMap (bytes "b.h") []).2 (bytes "a.h") []).2 }
                = none := by
              simp only [h2incn_parse, hverb, Bool.false_eq_true, if_false]
              exact include_visited_stuck mutual_fs m
                ⟨bytes "a.h", bytes "#include \"b.h\"\n", 0, 0, 1⟩
                { ({ w with pHeadersMap := (hash_map_insert w.pHeadersMap (bytes "b.h") []).2 }
                    : World) with
                  pHeadersMap := (hash_map_insert
                    (hash_map_insert w.pHeadersMap (bytes "b.h") []).2 (bytes "a.h") []).2 } [] (bytes "b.h") [10] 34 34 rfl hq
                (Or.inr rfl) hb (Or.inl rfl) hrec h3
            rw [stuck]
        rw [inner]
    have hmain := key (initial_world { pInFileName := bytes "a.h", fRecurse := true }) rfl rfl
      (by decide) (by decide) (by decide)
    have hroot : mutual_fs (bytes "a.h") = some (bytes "#include \"b.h\"\n") := by decide
    simp only [main, hash_map_alloc_headers, hash_map_alloc_defines, h2incn_read, h2incn_read_with,
      hroot, h2incn_parse]
    have hm' : parse_loop mutual_fs fuel ⟨bytes "a.h", bytes "#include \"b.h\"\n", 0, 0, 1⟩
        ⟨{ pInFileName := bytes "a.h", fRecurse := true }, empty_map 127, empty_map 32767, [], []⟩
        = none := hmain
    simp [hm', show bytes "#include \"b.h\"\n" ≠ [] by decide]
  · have key : ∀ w : World, w.options.fRecurse = true → w.options.fVerbose = false →
        (hash_map_find w.pHeadersMap (bytes "a.h")).isNode = false →
        (hash_map_find (hash_map_insert w.pHeadersMap (bytes "a.h") []).2
          (bytes "a.h")).isNode = true →
        parse_loop self_fs fuel ⟨bytes "a.h", bytes "#include \"a.h\"\n", 0, 0, 1⟩ w = none := by
      intro w hrec hverb h1 h2
      cases fuel with
      | zero => exact zero _ _ _ (by decide)
      | succ n =>
        rw [include_fresh_round self_fs n ⟨bytes "a.h", bytes "#include \"a.h\"\n", 0, 0, 1⟩ w [] (bytes "a.h") [10] (bytes "#include \"a.h\"\n")
          34 34 rfl hq (Or.inr rfl) ha (Or.inl rfl) hrec h1 (by decide) (by decide)]
        have stuck : h2incn_parse self_fs n ⟨bytes "a.h", bytes "#include \"a.h\"\n", 0, 0, 1⟩
            { w with pHeadersMap := (hash_map_insert w.pHeadersMap (bytes "a.h") []).2 }
            = none := by
          simp only [h2incn_parse, hverb, Bool.false_eq_true, if_false]
          exact include_visited_stuck self_fs n ⟨bytes "a.h", bytes "#include \"a.h\"\n", 0, 0, 1⟩
            { w with pHeadersMap := (hash_map_insert w.pHeadersMap (bytes "a.h") []).2 } [] (bytes "a.h") [10] 34 34 rfl hq
            (Or.inr rfl) ha (Or.inl rfl) hrec h2
        rw [stuck]
    have hmain := key (initial_world { pInFileName := bytes "a.h", fRecurse := true }) rfl rfl
      (by decide) (by decide)
    have hroot : self_fs (bytes "a.h") = some (bytes "#include \"a.h\"\n") := by decide
    simp only [main, hash_map_alloc_headers, hash_map_alloc_defines, h2incn_read, h2incn_read_with,
      hroot, h2incn_parse]
    have hm' : parse_loop self_fs fuel ⟨bytes "a.h", bytes "#include \"a.h\"\n", 0, 0, 1⟩
        ⟨{ pInFileName := bytes "a.h", fRecurse := true }, empty_map 127, empty_map 32767, [], []⟩
        = none := hmain
    simp [hm', show bytes "#include \"a.h\"\n" ≠ [] by decide]

theorem parse_loop_zero (fs : List Nat → Option (List Nat)) (p : parser_t) (w : World)
    (h : byteAt p.pFileBuffer p.pNextToken ≠ 0) : parse_loop fs 0 p w = none := by
  unfold parse_loop
  simp [h]

/-- A round of the loop of `h2incn_parse` on a line that holds blanks only:
the line terminator is written and the cursor moves to the next line. -/
theorem blank_line_round (fs : List Nat → Option (List Nat)) (n : Nat) (p : parser_t) (w : World)
    (indent term rest : List Nat)
    (hd : p.pFileBuffer.drop p.pNextToken = indent ++ (term ++ rest))
    (hind : ∀ c ∈ indent, isBlank c = true) (ht : term = [10] ∨ term = [13, 10]) :
    parse_loop fs (n + 1) p w =
      parse_loop fs n
        { p with iLineNum := p.iLineNum + 1,
                 pNextToken := p.pNextToken + indent.length + term.length,
                 pLine := p.pNextToken + indent.length + term.length }
        (w.fwrite term) := by
  have d1 : p.pFileBuffer.drop (p.pNextToken + indent.length) = term ++ rest :=
    drop_add_of_drop hd
  have l0 : slice p.pFileBuffer (p.pNextToken + indent.length) term.length = term := by
    rw [slice_of_drop d1, slice_append_left]
  have h0 : byteAt p.pFileBuffer p.pNextToken ≠ 0 := by
    rw [byteAt_of_drop_zero hd]
    cases indent with
    | nil => rcases ht with h | h <;> subst h <;> simp [byteAt]
    | cons c cs =>
      have := hind c (List.mem_cons_self _ _)
      simp only [isBlank, Bool.or_eq_true, beq_iff_eq] at this
      show c ≠ 0
      omega
  rcases ht with ht | ht
  · subst ht
    have s : scan isBlank p.pFileBuffer p.pNextToken = p.pNextToken + indent.length :=
      scan_run _ 10 hd hind rfl
    have b : byteAt p.pFileBuffer (p.pNextToken + indent.length) = 10 := by
      rw [byteAt_of_drop_zero d1]; rfl
    rw [parse_loop_round fs n p w h0 _ (p.pNextToken + indent.length) s.symm (by simp [b])]
    have e : p.pNextToken + indent.length + 1 - (p.pNextToken + indent.length) = 1 := by omega
    simp only [b, beq_self_eq_true, if_true, e]
    rw [show (1 : Nat) = [10].length from rfl, l0]
  · subst ht
    have s : scan isBlank p.pFileBuffer p.pNextToken = p.pNextToken + indent.length :=
      scan_run _ 13 hd hind rfl
    have b : byteAt p.pFileBuffer (p.pNextToken + indent.length) = 13 := by
      rw [byteAt_of_drop_zero d1]; rfl
    have b' : byteAt p.pFileBuffer (p.pNextToken + indent.length + 1) = 10 := by
      rw [byteAt_of_drop d1 1]; rfl
    rw [parse_loop_round fs n p w h0 _ (p.pNextToken + indent.length + 1) s.symm (by simp [b])]
    have e : p.pNextToken + indent.length + 1 + 1 - (p.pNextToken + indent.length) = 2 := by omega
    simp only [b', beq_self_eq_true, if_true, e]
    rw [show (2 : Nat) = [13, 10].length from rfl, l0]
    rfl


/-- A round of the loop of `h2incn_parse` on a plain `#define NAME VALUE`
directive: the handler's effects, after which the loop goes on at the line
terminator. -/
theorem define_plain_round (fs : List Nat → Option (List Nat)) (n : Nat) (p : parser_t)
    (w : World) (pre name value rest : List Nat) (t : Nat)
    (hbuf : p.pFileBuffer = pre ++ (bytes "#define " ++ (name ++ (32 :: (value ++ t :: rest)))))
    (hpos : p.pNextToken = pre.length)
    (hname : isIdentifier name = true) (hvalue : isPlainValue value = true)
    (hparen : byteAt value 0 ≠ 40) (ht : isTerminator t = true) :
    ∃ p' w', parse_loop fs (n + 1) p w = parse_loop fs n p' w' ∧
      p'.pFileBuffer = p.pFileBuffer ∧
      p'.pNextToken = pre.length + 8 + name.length + 1 + value.length ∧
      w'.pDefinesMap = (hash_map_insert w.pDefinesMap name value).2 ∧
      w'.out = w.out ++ (bytes "%define " ++ name ++ [32] ++ value) ∧
      w'.options = w.options ∧ w'.pHeadersMap = w.pHeadersMap := by
  obtain ⟨r, h1, h2, h3, h4, h5, -, h7, -, h9, h10⟩ :=
    parse_define_plain_core n p w pre name value rest t hbuf hpos hname hvalue hparen ht
  have hr1 : r.1 = true := by rw [h4, hash_map_insert_fst]; rfl
  obtain ⟨b, p1, w1⟩ := r
  simp only at hr1 h2 h3 h5 h7 h9 h10
  subst hr1
  have hd : p.pFileBuffer.drop p.pNextToken
      = bytes "#define " ++ (name ++ (32 :: (value ++ t :: rest))) := by
    rw [hbuf, hpos]; exact drop_append_length _ _
  have b0 : byteAt p.pFileBuffer p.pNextToken = 35 := by
    rw [byteAt_of_drop_zero hd]; rfl
  have s0 : scan isBlank p.pFileBuffer p.pNextToken = p.pNextToken :=
    scan_stay _ _ _ (by rw [b0]; rfl)
  have m1 : startsWith p.pFileBuffer p.pNextToken (bytes "#include ") = false := by
    rw [startsWith_of_drop hd]; rfl
  have m2 : startsWith p.pFileBuffer p.pNextToken (bytes "#define ") = true := by
    rw [startsWith_of_drop hd]
    simp only [startsWith, slice_append_left, beq_self_eq_true]
  refine ⟨p1, w1, ?_, h7, h5, h3, h2, h9, h10⟩
  rw [parse_loop_token fs n p w _ s0 (by rw [b0]; decide) (by rw [b0]; decide)
    (by rw [b0]; decide)]
  have hp : ({ p with pNextToken := p.pNextToken } : parser_t) = p := rfl
  rw [hp]
  simp [dispatch, b0, m1, m2, h1]


/-- A table that holds two different values under one key is not well formed. -/
theorem not_wf_of_two_values (m : hash_map_t) (key v1 v2 : List Nat) (hne : v1 ≠ v2)
    (h1 : map_has m key v1) (h2 : map_has m key v2) : ¬ map_wf m := by
  intro hw
  have ho := (hw.2 _ (bucket_index_lt m key hw)).1
  unfold bst_ordered at ho
  have hsym : (bst_entries (bucket_root m (bucket_index m key))).Pairwise
      (fun a b => key_cmp a.1 b.1 = .lt ∨ key_cmp b.1 a.1 = .lt) :=
    ho.imp (fun h => Or.inl h)
  have := hsym.forall (fun a b h => h.symm) h1 h2 (by
    intro h
    exact hne (Prod.mk.inj h).2)
  rcases this with h | h <;> exact key_cmp_lt_irrefl _ h

/-- C20 (failing input): on the buffer `#define X 1`, `#define X 2`, each line
ended by a line feed, scanned from a well-formed defines table that does not
hold `X`, `h2incn_parse` succeeds, and its second `#define` calls
`hash_map_insert` for `X` while `X` is present in the table, no
`hash_map_delete` in between: the table at the end is the result of the two
inserts, it holds `X -> 1` and `X -> 2` together, and it is no longer well
formed. -/
theorem redefinition_duplicates_entry (fs : List Nat → Option (List Nat)) (n : Nat) (w : World)
    (hw : map_wf w.pDefinesMap) (hn : ∀ v, ¬ map_has w.pDefinesMap (bytes "X") v) :
    ∃ r, h2incn_parse fs (n + 4) (parser_at (bytes "#define X 1\n#define X 2\n") 0) w = some r ∧
      r.1 = true ∧
      r.2.2.pDefinesMap =
        (hash_map_insert (hash_map_insert w.pDefinesMap (bytes "X") (bytes "1")).2
          (bytes "X") (bytes "2")).2 ∧
      (hash_map_find (hash_map_insert w.pDefinesMap (bytes "X") (bytes "1")).2
        (bytes "X")).isNode = true ∧
      map_has r.2.2.pDefinesMap (bytes "X") (bytes "1") ∧
      map_has r.2.2.pDefinesMap (bytes "X") (bytes "2") ∧
      ¬ map_wf r.2.2.pDefinesMap := by
  have hw1 := map_wf_insert w.pDefinesMap hw (bytes "X") (bytes "1") hn
  have g1 : map_has (hash_map_insert w.pDefinesMap (bytes "X") (bytes "1")).2 (bytes "X")
      (bytes "1") := (map_has_insert _ hw _ _ _ _).mpr (Or.inl ⟨rfl, rfl⟩)
  have g2 : map_has (hash_map_insert (hash_map_insert w.pDefinesMap (bytes "X") (bytes "1")).2
      (bytes "X") (bytes "2")).2 (bytes "X") (bytes "1") :=
    (map_has_insert _ hw1 _ _ _ _).mpr (Or.inr g1)
  have g3 : map_has (hash_map_insert (hash_map_insert w.pDefinesMap (bytes "X") (bytes "1")).2
      (bytes "X") (bytes "2")).2 (bytes "X") (bytes "2") :=
    (map_has_insert _ hw1 _ _ _ _).mpr (Or.inl ⟨rfl, rfl⟩)
  have gf : (hash_map_find (hash_map_insert w.pDefinesMap (bytes "X") (bytes "1")).2
      (bytes "X")).isNode = true := by
    obtain ⟨l, r, h⟩ := (find_iff_has _ hw1 _ _).mpr g1
    rw [h]; rfl
  obtain ⟨w0, hw0⟩ : ∃ w0, w0 = (if w.options.fVerbose then
      w.printf (parser_at (bytes "#define X 1\n#define X 2\n") 0) "processing file" else w) :=
    ⟨_, rfl⟩
  have hw0d : w0.pDefinesMap = w.pDefinesMap := by
    rw [hw0]; split <;> rfl
  obtain ⟨p1, w1, e1, b1, c1, m1, -, -, -⟩ := define_plain_round fs (n + 3)
    (parser_at (bytes "#define X 1\n#define X 2\n") 0) w0 [] (bytes "X") (bytes "1")
    (bytes "#define X 2\n") 10 rfl rfl (by decide) (by decide) (by decide) (by decide)
  have d1 : p1.pFileBuffer.drop p1.pNextToken = [] ++ ([10] ++ bytes "#define X 2\n") := by
    rw [b1, c1]; rfl
  have e2 := blank_line_round fs (n + 2) p1 w1 [] [10] _ d1 (by simp) (Or.inl rfl)
  obtain ⟨p3, w3, e3, b3, c3, m3, -, -, -⟩ := define_plain_round fs (n + 1)
    { p1 with iLineNum := p1.iLineNum + 1,
              pNextToken := p1.pNextToken + ([] : List Nat).length + [10].length,
              pLine := p1.pNextToken + ([] : List Nat).length + [10].length }
    (w1.fwrite [10]) (bytes "#define X 1\n") (bytes "X") (bytes "2") [] 10
    (by rw [b1]; rfl) (by rw [c1]; rfl) (by decide) (by decide) (by decide) (by decide)
  have d3 : p3.pFileBuffer.drop p3.pNextToken = [] ++ ([10] ++ []) := by
    rw [b3, c3]
    simp only [b1]
    rfl
  have e4 := blank_line_round fs n p3 w3 [] [10] _ d3 (by simp) (Or.inl rfl)
  have z : byteAt p3.pFileBuffer (p3.pNextToken + ([] : List Nat).length + [10].length) = 0 := by
    rw [b3, c3]
    simp only [b1]
    rfl
  have e5 := parse_loop_end fs n
    { p3 with iLineNum := p3.iLineNum + 1,
              pNextToken := p3.pNextToken + ([] : List Nat).length + [10].length,
              pLine := p3.pNextToken + ([] : List Nat).length + [10].length }
    (w3.fwrite [10]) z
  have hm : (w3.fwrite [10]).pDefinesMap =
      (hash_map_insert (hash_map_insert w.pDefinesMap (bytes "X") (bytes "1")).2
        (bytes "X") (bytes "2")).2 := by
    show w3.pDefinesMap = _
    rw [m3]
    show (hash_map_insert w1.pDefinesMap _ _).2 = _
    rw [m1, hw0d]
  refine ⟨(true,
    { p3 with iLineNum := p3.iLineNum + 1,
              pNextToken := p3.pNextToken + ([] : List Nat).length + [10].length,
              pLine := p3.pNextToken + ([] : List Nat).length + [10].length },
    w3.fwrite [10]), ?_, rfl, hm, gf, ?_, ?_, ?_⟩
  · show parse_loop fs (n + 3 + 1) _ _ = _
    rw [← hw0, e1, e2, e3, e4, e5]
  · show map_has (w3.fwrite [10]).pDefinesMap _ _
    rw [hm]; exact g2
  · show map_has (w3.fwrite [10]).pDefinesMap _ _
    rw [hm]; exact g3
  · show ¬ map_wf (w3.fwrite [10]).pDefinesMap
    rw [hm]
    exact not_wf_of_two_values _ (bytes "X") (bytes "1") (bytes "2") (by decide) g2 g3


theorem redefinition_duplicates_entry_witness :
    ∃ r, h2incn_parse (fun _ => none) (0 + 4)
        (parser_at (bytes "#define X 1\n#define X 2\n") 0) (initial_world {}) = some r ∧
      r.1 = true ∧
      r.2.2.pDefinesMap =
        (hash_map_insert (hash_map_insert (initial_world {}).pDefinesMap (bytes "X")
          (bytes "1")).2 (bytes "X") (bytes "2")).2 ∧
      (hash_map_find (hash_map_insert (initial_world {}).pDefinesMap (bytes "X") (bytes "1")).2
        (bytes "X")).isNode = true ∧
      map_has r.2.2.pDefinesMap (bytes "X") (bytes "1") ∧
      map_has r.2.2.pDefinesMap (bytes "X") (bytes "2") ∧
      ¬ map_wf r.2.2.pDefinesMap :=
  redefinition_duplicates_entry (fun _ => none) 0 (initial_world {})
    (map_wf_alloc 0x8000 _ hash_map_alloc_defines)
    (fun v => map_has_alloc 0x8000 _ hash_map_alloc_defines _ v)

theorem byteAt_append_left (A B : List Nat) (i : Nat) (h : i < A.length) :
    byteAt (A ++ B) i = byteAt A i := by
  induction A generalizing i with
  | nil => simp at h
  | cons a as ih =>
    cases i with
    | zero => rfl
    | succ i =>
      simp only [List.length_cons, Nat.add_lt_add_iff_right] at h
      exact ih i h

theorem byteAt_append_right (A B : List Nat) (i : Nat) :
    byteAt (A ++ B) (A.length + i) = byteAt B i := by
  induction A with
  | nil => simp
  | cons a as ih =>
    rw [List.length_cons, Nat.add_right_comm]
    exact ih

theorem byteAt_head_append (B : List Nat) (t : Nat) (rest : List Nat) :
    byteAt (B ++ t :: rest) 0 = if B = [] then t else byteAt B 0 := by
  cases B <;> rfl

theorem slice_length (buf : List Nat) (i n : Nat) : (slice buf i n).length = n := by
  induction n generalizing i with
  | zero => rfl
  | succ n ih => simp [slice, ih]

/-- A text without comment opener: every `/` in it is followed by a byte that
is neither `/` nor `*`, or by nothing. -/
theorem hasOpener_split (L : List Nat) (h : hasOpener L = false) (A B : List Nat)
    (hL : L = A ++ 47 :: B) : byteAt B 0 ≠ 47 ∧ byteAt B 0 ≠ 42 := by
  have hi : A.length < L.length := by rw [hL]; simp
  have : isCommentOpener L A.length = false := by
    unfold hasOpener at h
    rw [List.any_eq_false] at h
    have := h A.length (List.mem_range.mpr hi)
    simpa using this
  have b0 : byteAt L A.length = 47 := by
    rw [hL]
    have := byteAt_append_right A (47 :: B) 0
    simpa using this
  have b1 : byteAt L (A.length + 1) = byteAt B 0 := by
    rw [hL]
    exact byteAt_append_right A (47 :: B) 1
  simp only [isCommentOpener, b0, b1, beq_self_eq_true, Bool.true_and, Bool.or_eq_false_iff,
    beq_eq_false_iff_ne] at this
  exact this

theorem slice_eq_of_prefix (pat B : List Nat) : slice (pat ++ B) 0 pat.length = pat :=
  slice_append_left pat B

theorem hasInclude_split (L : List Nat) (h : hasInclude L = false) (A B : List Nat) :
    L ≠ A ++ (bytes "#include " ++ B) := by
  intro hL
  have hi : A.length < L.length := by
    rw [hL]
    simp only [List.length_append]
    have : 0 < (bytes "#include ").length := by decide
    omega
  unfold hasInclude at h
  rw [List.any_eq_false] at h
  have := h A.length (List.mem_range.mpr hi)
  apply this
  have hd : L.drop A.length = bytes "#include " ++ B := by
    rw [hL]; exact drop_append_length _ _
  rw [startsWith_of_drop hd]
  simp only [startsWith, slice_append_left, beq_self_eq_true]

theorem hasInclude_at (L : List Nat) (h : hasInclude L = false) (i : Nat) :
    startsWith L i (bytes "#include ") = false := by
  by_cases hi : i < L.length
  · unfold hasInclude at h
    rw [List.any_eq_false] at h
    have := h i (List.mem_range.mpr hi)
    simpa using this
  · have hb : byteAt L i = 0 := by
      have hd : L.drop i = [] := List.drop_eq_nil_of_le (by omega)
      rw [byteAt_of_drop_zero hd]; rfl
    have : slice L i (bytes "#include ").length ≠ bytes "#include " := by
      intro he
      have : byteAt (slice L i (bytes "#include ").length) 0 = 35 := by rw [he]; rfl
      have h2 : byteAt (slice L i (bytes "#include ").length) 0 = byteAt L i := rfl
      rw [h2, hb] at this
      exact absurd this (by decide)
    simpa [startsWith] using this

/-- A list splits into its longest prefix of bytes satisfying `q` and a rest
that does not start with such a byte. -/
theorem run_split (q : Nat → Bool) (R : List Nat) :
    ∃ A B, R = A ++ B ∧ (∀ c ∈ A, q c = true) ∧
      ∀ t rest, q t = false → q (byteAt (B ++ t :: rest) 0) = false := by
  induction R with
  | nil => exact ⟨[], [], rfl, by simp, fun t rest h => h⟩
  | cons c cs ih =>
    by_cases hc : q c = true
    · obtain ⟨A, B, h1, h2, h3⟩ := ih
      refine ⟨c :: A, B, by rw [h1]; rfl, ?_, h3⟩
      intro x hx
      rcases List.mem_cons.mp hx with h | h
      · rw [h]; exact hc
      · exact h2 x h
    · refine ⟨[], c :: cs, rfl, by simp, fun t rest _ => ?_⟩
      simpa using hc

/-- In a text without comment opener, followed by a line terminator, no
position starts a comment opener. -/
theorem no_opener_at (L A B : List Nat) (hL : L = A ++ B) (hfree : hasOpener L = false)
    (t : Nat) (rest : List Nat) (ht : t = 13 ∨ t = 10) :
    isCommentOpener (B ++ t :: rest) 0 = false := by
  cases B with
  | nil =>
    rcases ht with h | h <;> simp [isCommentOpener, byteAt, h]
  | cons b B' =>
    by_cases hb : b = 47
    · subst hb
      obtain ⟨h1, h2⟩ := hasOpener_split L hfree A B' hL
      have hnext : byteAt (B' ++ t :: rest) 0 ≠ 47 ∧ byteAt (B' ++ t :: rest) 0 ≠ 42 := by
        rw [byteAt_head_append]
        by_cases hB : B' = []
        · rcases ht with h | h <;> simp [hB, h]
        · simp [hB, h1, h2]
      have e : byteAt (47 :: B' ++ t :: rest) (0 + 1) = byteAt (B' ++ t :: rest) 0 := rfl
      simp only [isCommentOpener, e, Bool.and_eq_false_imp, Bool.or_eq_false_iff,
        beq_eq_false_iff_ne]
      intro _
      exact hnext
    · simp [isCommentOpener, byteAt, hb]

/-- The function `h2incn_parse_define` on a directive line without comment
and without backslash, given as `#define `, blanks, the name, blanks and the
value, each run being as long as it can: the handler returns 1 with the
cursor on the line terminator, and writes `%define `, the name and, when the
value is not empty, the value after a blank (no blank before `(`). -/
theorem parse_define_line (fuel : Nat) (p : parser_t) (w : World)
    (b1 name b2 value rest : List Nat) (t : Nat)
    (hd : p.pFileBuffer.drop p.pNextToken
      = bytes "#define " ++ (b1 ++ (name ++ (b2 ++ (value ++ t :: rest)))))
    (hb1 : ∀ c ∈ b1, isBlank c = true)
    (hname : ∀ c ∈ name,
      (fun c => c != 0 && c != 32 && c != 9 && c != 40 && c != 13 && c != 10) c = true)
    (hb2 : ∀ c ∈ b2, isBlank c = true)
    (hvalue : ∀ c ∈ value, notEol c = true)
    (hs1 : isBlank (byteAt (name ++ (b2 ++ (value ++ t :: rest))) 0) = false)
    (hs2 : (fun c => c != 0 && c != 32 && c != 9 && c != 40 && c != 13 && c != 10)
      (byteAt (b2 ++ (value ++ t :: rest)) 0) = false)
    (hs3 : isBlank (byteAt (value ++ t :: rest) 0) = false)
    (ho1 : isCommentOpener (name ++ (b2 ++ (value ++ t :: rest))) 0 = false)
    (ho2 : isCommentOpener (value ++ t :: rest) 0 = false)
    (h92 : ∀ c ∈ b1 ++ (name ++ (b2 ++ value)), c ≠ 92)
    (ht : t = 13 ∨ t = 10) :
    ∃ w', h2incn_parse_define fuel p w =
        some (true, { p with pNextToken :=
          p.pNextToken + 8 + b1.length + name.length + b2.length + value.length }, w') ∧
      w'.out = w.out ++ (bytes "%define " ++ name ++
        (if value = [] then [] else (if byteAt value 0 = 40 then [] else [32]) ++ value)) ∧
      w'.options = w.options ∧ w'.pHeadersMap = w.pHeadersMap := by
  have ht0 : t ≠ 0 := by rcases ht with h | h <;> omega
  have d1 : p.pFileBuffer.drop (p.pNextToken + 8)
      = b1 ++ (name ++ (b2 ++ (value ++ t :: rest))) := by
    have := drop_add_of_drop hd
    rwa [bytes_define_length] at this
  have d2 : p.pFileBuffer.drop (p.pNextToken + 8 + b1.length)
      = name ++ (b2 ++ (value ++ t :: rest)) := drop_add_of_drop d1
  have d3 : p.pFileBuffer.drop (p.pNextToken + 8 + b1.length + name.length)
      = b2 ++ (value ++ t :: rest) := drop_add_of_drop d2
  have d4 : p.pFileBuffer.drop (p.pNextToken + 8 + b1.length + name.length + b2.length)
      = value ++ t :: rest := drop_add_of_drop d3
  have d5 : p.pFileBuffer.drop
      (p.pNextToken + 8 + b1.length + name.length + b2.length + value.length)
      = t :: rest := drop_add_of_drop d4
  have hb1z : ∀ c ∈ b1, c ≠ 0 := by
    intro c hc
    have := hb1 c hc
    simp only [isBlank, Bool.or_eq_true, beq_iff_eq] at this
    omega
  have hb2z : ∀ c ∈ b2, c ≠ 0 := by
    intro c hc
    have := hb2 c hc
    simp only [isBlank, Bool.or_eq_true, beq_iff_eq] at this
    omega
  have hnz : ∀ c ∈ name, c ≠ 0 := by
    intro c hc
    have := hname c hc
    simp only [Bool.and_eq_true, bne_iff_ne, ne_eq] at this
    exact this.1.1.1.1.1
  have hvz : ∀ c ∈ value, c ≠ 0 := by
    intro c hc
    have := hvalue c hc
    simp only [notEol, Bool.and_eq_true, bne_iff_ne, ne_eq] at this
    exact this.1.1
  have tail0 : byteAt (value ++ t :: rest) 0 ≠ 0 := by
    rw [byteAt_head_append]
    by_cases hv : value = []
    · simp [hv, ht0]
    · obtain ⟨a, as, ha⟩ := List.exists_cons_of_ne_nil hv
      simp only [hv, if_false, ha]
      exact hvz a (by rw [ha]; exact List.mem_cons_self _ _)
  have tail1 : byteAt (b2 ++ (value ++ t :: rest)) 0 ≠ 0 := by
    cases hb : b2 with
    | nil => exact tail0
    | cons a as => exact hb2z a (by rw [hb]; exact List.mem_cons_self _ _)
  have tail2 : byteAt (name ++ (b2 ++ (value ++ t :: rest))) 0 ≠ 0 := by
    cases hb : name with
    | nil => exact tail1
    | cons a as => exact hnz a (by rw [hb]; exact List.mem_cons_self _ _)
  have tail3 : byteAt (b1 ++ (name ++ (b2 ++ (value ++ t :: rest)))) 0 ≠ 0 := by
    cases hb : b1 with
    | nil => exact tail2
    | cons a as => exact hb1z a (by rw [hb]; exact List.mem_cons_self _ _)
  -- the scans
  have c1 : byteAt p.pFileBuffer (p.pNextToken + 8) ≠ 0 := by
    rw [byteAt_of_drop_zero d1]; exact tail3
  have s1 : scan isBlank p.pFileBuffer (p.pNextToken + 8) = p.pNextToken + 8 + b1.length := by
    rw [scan_of_drop _ d1, scanList_append _ _ _ hb1]
    have : scanList isBlank (name ++ (b2 ++ (value ++ t :: rest))) = 0 := by
      cases hN : name ++ (b2 ++ (value ++ t :: rest)) with
      | nil => rfl
      | cons x xs =>
        rw [hN] at hs1
        exact scanList_stop _ _ _ hs1
    rw [this]; rfl
  have o1 : isCommentOpener p.pFileBuffer (p.pNextToken + 8 + b1.length) = false := by
    rw [isCommentOpener_of_drop d2]; exact ho1
  have s2 : scan (fun c => c != 0 && c != 32 && c != 9 && c != 40 && c != 13 && c != 10)
      p.pFileBuffer (p.pNextToken + 8 + b1.length)
      = p.pNextToken + 8 + b1.length + name.length := by
    rw [scan_of_drop _ d2, scanList_append _ _ _ hname]
    have : scanList (fun c => c != 0 && c != 32 && c != 9 && c != 40 && c != 13 && c != 10)
        (b2 ++ (value ++ t :: rest)) = 0 := by
      cases hN : b2 ++ (value ++ t :: rest) with
      | nil => rfl
      | cons x xs =>
        rw [hN] at hs2
        exact scanList_stop _ _ _ hs2
    rw [this]; rfl
  have c3 : byteAt p.pFileBuffer (p.pNextToken + 8 + b1.length + name.length) ≠ 0 := by
    rw [byteAt_of_drop_zero d3]; exact tail1
  have s3 : scan isBlank p.pFileBuffer (p.pNextToken + 8 + b1.length + name.length)
      = p.pNextToken + 8 + b1.length + name.length + b2.length := by
    rw [scan_of_drop _ d3, scanList_append _ _ _ hb2]
    have : scanList isBlank (value ++ t :: rest) = 0 := by
      cases hN : value ++ t :: rest with
      | nil => rfl
      | cons x xs =>
        rw [hN] at hs3
        exact scanList_stop _ _ _ hs3
    rw [this]; rfl
  have o3 : isCommentOpener p.pFileBuffer
      (p.pNextToken + 8 + b1.length + name.length + b2.length) = false := by
    rw [isCommentOpener_of_drop d4]; exact ho2
  have s4 : scan notEol p.pFileBuffer (p.pNextToken + 8 + b1.length + name.length + b2.length)
      = p.pNextToken + 8 + b1.length + name.length + b2.length + value.length :=
    scan_run _ t d4 hvalue (by rcases ht with h | h <;> subst h <;> rfl)
  have b5 : byteAt p.pFileBuffer
      (p.pNextToken + 8 + b1.length + name.length + b2.length + value.length - 1) ≠ 92 := by
    have hd' : p.pFileBuffer.drop p.pNextToken
        = (bytes "#define " ++ (b1 ++ (name ++ (b2 ++ value)))) ++ t :: rest := by
      rw [hd]; simp
    have hne : bytes "#define " ++ (b1 ++ (name ++ (b2 ++ value))) ≠ [] := by
      intro h
      have := congrArg List.length h
      simp [bytes_define_length] at this
    have hlen : (bytes "#define " ++ (b1 ++ (name ++ (b2 ++ value)))).length
        = 8 + b1.length + name.length + b2.length + value.length := by
      simp only [List.length_append, bytes_define_length]; omega
    have e : p.pNextToken + 8 + b1.length + name.length + b2.length + value.length - 1
        = p.pNextToken + ((bytes "#define " ++ (b1 ++ (name ++ (b2 ++ value)))).length - 1) := by
      rw [hlen]; omega
    rw [e, byteAt_of_drop hd']
    intro h
    have hl := byteAt_getLast _ (t :: rest) hne
    rw [h] at hl
    have hmem := List.mem_of_getLast?_eq_some hl.symm
    rcases List.mem_append.mp hmem with h1 | h1
    · revert h1; decide
    · exact h92 92 h1 rfl
  have l2 : slice p.pFileBuffer (p.pNextToken + 8 + b1.length) name.length = name := by
    rw [slice_of_drop d2]; exact slice_append_left _ _
  have l4 : slice p.pFileBuffer (p.pNextToken + 8 + b1.length + name.length + b2.length)
      value.length = value := by
    rw [slice_of_drop d4]; exact slice_append_left _ _
  have b4 : byteAt p.pFileBuffer (p.pNextToken + 8 + b1.length + name.length + b2.length)
      = byteAt value 0 ∨ value = [] := by
    by_cases hv : value = []
    · exact Or.inr hv
    · left
      rw [byteAt_of_drop_zero d4, byteAt_head_append]
      simp [hv]
  have sn := define_skip_to_name_stop fuel (p.pNextToken + 8) p (w.fwrite (bytes "%define "))
    (by rw [s1]; exact o1)
  rw [s1] at sn
  simp only [bne_iff_ne, ne_eq, c1, not_false_eq_true, if_true] at sn
  have sv : ∀ w', define_skip_to_value fuel (p.pNextToken + 8 + b1.length + name.length) p w'
      = some (.inr (p.pNextToken + 8 + b1.length + name.length + b2.length, p, w')) := by
    intro w'
    have := define_skip_to_value_stop fuel (p.pNextToken + 8 + b1.length + name.length) p w'
      (by rw [s3]; exact o3)
    rw [this, s3]
    simp [c3]
  have sc : ∀ w', define_continuation fuel
      (p.pNextToken + 8 + b1.length + name.length + b2.length)
      (p.pNextToken + 8 + b1.length + name.length + b2.length + value.length) p w'
      = some (.inr (p.pNextToken + 8 + b1.length + name.length + b2.length + value.length,
          p, w')) :=
    fun w' => define_continuation_stop fuel _ _ p w' b5
  have n1 : p.pNextToken + 8 + b1.length + name.length - (p.pNextToken + 8 + b1.length)
      = name.length := by omega
  have n2 : p.pNextToken + 8 + b1.length + name.length + b2.length + value.length
      - (p.pNextToken + 8 + b1.length + name.length + b2.length) = value.length := by omega
  simp only [h2incn_parse_define, sn, s2, n1, l2, sv, s4, sc, n2, l4, hash_map_insert_fst]
  refine ⟨_, rfl, ?_, ?_, ?_⟩
  · by_cases hv : value = []
    · subst hv
      by_cases hp : (w.options.fPreprocess && (hash_map_find w.pDefinesMap name).isNode) = true
        <;> simp [World.fwrite, World.printf, hp]
    · have hpos : 0 < value.length := List.length_pos.mpr hv
      rcases b4 with b4 | b4
      · by_cases hp : (w.options.fPreprocess && (hash_map_find w.pDefinesMap name).isNode) = true
          <;> by_cases h40 : byteAt value 0 = 40
          <;> simp [World.fwrite, World.printf, hp, hv, hpos, b4, h40]
      · exact absurd b4 hv
  · by_cases hp : (w.options.fPreprocess && (hash_map_find w.pDefinesMap name).isNode) = true
      <;> by_cases hv : 0 < value.length
      <;> simp [World.fwrite, World.printf, hp, hv] <;> split <;> rfl
  · by_cases hp : (w.options.fPreprocess && (hash_map_find w.pDefinesMap name).isNode) = true
      <;> by_cases hv : 0 < value.length
      <;> simp [World.fwrite, World.printf, hp, hv] <;> split <;> rfl


/-- The function `h2incn_parse_undef` on `#undef `, blanks, the name and
blanks, each run being as long as it can: the handler returns 1, writes
`%undef ` and the name, and a blank when the byte it stops on is not a line
terminator, and leaves the cursor on that byte. -/
theorem parse_undef_line (p : parser_t) (w : World) (b1 name b2 rest : List Nat)
    (hd : p.pFileBuffer.drop p.pNextToken = bytes "#undef " ++ (b1 ++ (name ++ (b2 ++ rest))))
    (hb1 : ∀ c ∈ b1, isBlank c = true)
    (hname : ∀ c ∈ name,
      (fun c => c != 0 && c != 32 && c != 9 && c != 47 && c != 40 && c != 13 && c != 10) c
        = true)
    (hb2 : ∀ c ∈ b2, isBlank c = true)
    (hs1 : isBlank (byteAt (name ++ (b2 ++ rest)) 0) = false)
    (hs2 : (fun c => c != 0 && c != 32 && c != 9 && c != 47 && c != 40 && c != 13 && c != 10)
      (byteAt (b2 ++ rest) 0) = false)
    (hs3 : isBlank (byteAt rest 0) = false) :
    ∃ w', h2incn_parse_undef p w =
        (true, { p with pNextToken := p.pNextToken + 7 + b1.length + name.length + b2.length },
          w') ∧
      w'.out = w.out ++ (bytes "%undef " ++ name ++
        (if byteAt rest 0 = 13 ∨ byteAt rest 0 = 10 then [] else [32])) ∧
      w'.options = w.options ∧ w'.pHeadersMap = w.pHeadersMap := by
  have d1 : p.pFileBuffer.drop (p.pNextToken + 7) = b1 ++ (name ++ (b2 ++ rest)) := by
    have := drop_add_of_drop hd
    rwa [bytes_undef_length] at this
  have d2 : p.pFileBuffer.drop (p.pNextToken + 7 + b1.length) = name ++ (b2 ++ rest) :=
    drop_add_of_drop d1
  have d3 : p.pFileBuffer.drop (p.pNextToken + 7 + b1.length + name.length) = b2 ++ rest :=
    drop_add_of_drop d2
  have d4 : p.pFileBuffer.drop (p.pNextToken + 7 + b1.length + name.length + b2.length) = rest :=
    drop_add_of_drop d3
  have blank' : ∀ (B : List Nat), (∀ c ∈ B, isBlank c = true) →
      ∀ c ∈ B, (fun c => c != 0 && (c == 32 || c == 9)) c = true := by
    intro B hB c hc
    have := hB c hc
    simp only [isBlank, Bool.or_eq_true, beq_iff_eq] at this
    rcases this with h | h <;> simp [h]
  have stop' : ∀ (S : List Nat), isBlank (byteAt S 0) = false →
      scanList (fun c => c != 0 && (c == 32 || c == 9)) S = 0 := by
    intro S hS
    cases S with
    | nil => rfl
    | cons x xs =>
      have hx : isBlank x = false := hS
      simp only [isBlank, Bool.or_eq_false_iff, beq_eq_false_iff_ne] at hx
      exact scanList_stop _ _ _ (by simp [hx.1, hx.2])
  have s1 : scan (fun c => c != 0 && (c == 32 || c == 9)) p.pFileBuffer (p.pNextToken + 7)
      = p.pNextToken + 7 + b1.length := by
    rw [scan_of_drop _ d1, scanList_append _ _ _ (blank' b1 hb1), stop' _ hs1]; rfl
  have s2 : scan (fun c => c != 0 && c != 32 && c != 9 && c != 47 && c != 40 && c != 13
      && c != 10) p.pFileBuffer (p.pNextToken + 7 + b1.length)
      = p.pNextToken + 7 + b1.length + name.length := by
    rw [scan_of_drop _ d2, scanList_append _ _ _ hname]
    have : scanList (fun c => c != 0 && c != 32 && c != 9 && c != 47 && c != 40 && c != 13
        && c != 10) (b2 ++ rest) = 0 := by
      cases hN : b2 ++ rest with
      | nil => rfl
      | cons x xs =>
        rw [hN] at hs2
        exact scanList_stop _ _ _ hs2
    rw [this]; rfl
  have s3 : scan (fun c => c != 0 && (c == 32 || c == 9)) p.pFileBuffer
      (p.pNextToken + 7 + b1.length + name.length)
      = p.pNextToken + 7 + b1.length + name.length + b2.length := by
    rw [scan_of_drop _ d3, scanList_append _ _ _ (blank' b2 hb2), stop' _ hs3]; rfl
  have l2 : slice p.pFileBuffer (p.pNextToken + 7 + b1.length) name.length = name := by
    rw [slice_of_drop d2]; exact slice_append_left _ _
  have b4 : byteAt p.pFileBuffer (p.pNextToken + 7 + b1.length + name.length + b2.length)
      = byteAt rest 0 := byteAt_of_drop_zero d4
  have n1 : p.pNextToken + 7 + b1.length + name.length - (p.pNextToken + 7 + b1.length)
      = name.length := by omega
  simp only [h2incn_parse_undef, s1, s2, s3, n1, l2, b4]
  refine ⟨_, rfl, ?_, ?_, ?_⟩
  · by_cases h13 : byteAt rest 0 = 13 <;> by_cases h10 : byteAt rest 0 = 10
      <;> simp [World.fwrite, h13, h10]
  · split <;> rfl
  · split <;> rfl

theorem plain_text_of_isPlainLine (L : List Nat) (h : isPlainLine L = true) : plain_text L := by
  simp only [isPlainLine, Bool.and_eq_true, List.all_eq_true, Bool.not_eq_true'] at h
  exact ⟨h.1.1, hasOpener_split L h.1.2, hasInclude_split L h.2⟩

theorem plain_text_suffix (A B : List Nat) (h : plain_text (A ++ B)) : plain_text B := by
  obtain ⟨h1, h2, h3⟩ := h
  refine ⟨fun c hc => h1 c (List.mem_append_right _ hc), ?_, ?_⟩
  · intro X Y hB
    exact h2 (A ++ X) Y (by rw [hB, List.append_assoc])
  · intro X Y hB
    exact h3 (A ++ X) Y (by rw [hB, List.append_assoc])

theorem plain_text_prefix (A B : List Nat) (h : plain_text (A ++ B)) :
    ∀ c ∈ A, isPlainByte c = true :=
  fun c hc => h.1 c (List.mem_append_left _ hc)

/-- In a plain text followed by a line terminator, no position starts a
comment opener. -/
theorem plain_no_opener (A B : List Nat) (h : plain_text (A ++ B)) (t : Nat) (rest : List Nat)
    (ht : t = 13 ∨ t = 10) : isCommentOpener (B ++ t :: rest) 0 = false := by
  cases B with
  | nil =>
    rcases ht with h | h <;> simp [isCommentOpener, byteAt, h]
  | cons b B' =>
    by_cases hb : b = 47
    · subst hb
      obtain ⟨h1, h2⟩ := h.2.1 A B' rfl
      have hnext : byteAt (B' ++ t :: rest) 0 ≠ 47 ∧ byteAt (B' ++ t :: rest) 0 ≠ 42 := by
        rw [byteAt_head_append]
        by_cases hB : B' = []
        · rcases ht with h | h <;> simp [hB, h]
        · simp [hB, h1, h2]
      have e : byteAt (47 :: B' ++ t :: rest) (0 + 1) = byteAt (B' ++ t :: rest) 0 := rfl
      simp only [isCommentOpener, e, Bool.and_eq_false_imp, Bool.or_eq_false_iff,
        beq_eq_false_iff_ne]
      intro _
      exact hnext
    · simp [isCommentOpener, byteAt, hb]

theorem scan_runs_nil (o : options_t) : scan_runs o [] [] 0 := by
  intro fs n p w rest ho _
  exact ⟨p, w, by rw [Nat.zero_add], rfl, rfl, by simp, ho, rfl⟩

theorem scan_runs_append (o : options_t) (T1 G1 T2 G2 : List Nat) (K1 K2 : Nat)
    (h1 : scan_runs o T1 G1 K1) (h2 : scan_runs o T2 G2 K2) :
    scan_runs o (T1 ++ T2) (G1 ++ G2) (K1 + K2) := by
  intro fs n p w rest ho hd
  obtain ⟨p1, w1, e1, b1, c1, o1, q1, m1⟩ := h1 fs (K2 + n) p w (T2 ++ rest) ho
    (by rw [hd, List.append_assoc])
  have hd1 : p1.pFileBuffer.drop p1.pNextToken = T2 ++ rest := by
    rw [b1, c1]
    exact drop_add_of_drop (by rw [hd, List.append_assoc])
  obtain ⟨p2, w2, e2, b2, c2, o2, q2, m2⟩ := h2 fs n p1 w1 rest q1 hd1
  refine ⟨p2, w2, ?_, by rw [b2, b1], ?_, ?_, q2, by rw [m2, m1]⟩
  · rw [Nat.add_assoc, e1, e2]
  · rw [c2, c1, List.length_append, Nat.add_assoc]
  · rw [o2, o1, List.append_assoc]

theorem scan_hangs_append_left (o : options_t) (T1 T2 : List Nat) (K : Nat)
    (h : scan_hangs o T1 K) : scan_hangs o (T1 ++ T2) K := by
  intro fs n p w rest ho hd
  exact h fs n p w (T2 ++ rest) ho (by rw [hd, List.append_assoc])

theorem scan_hangs_append_right (o : options_t) (T1 G1 T2 : List Nat) (K1 K2 : Nat)
    (h1 : scan_runs o T1 G1 K1) (h2 : scan_hangs o T2 K2) :
    scan_hangs o (T1 ++ T2) (K1 + K2) := by
  intro fs n p w rest ho hd
  obtain ⟨p1, w1, e1, b1, c1, -, q1, -⟩ := h1 fs (K2 + n) p w (T2 ++ rest) ho
    (by rw [hd, List.append_assoc])
  have hd1 : p1.pFileBuffer.drop p1.pNextToken = T2 ++ rest := by
    rw [b1, c1]
    exact drop_add_of_drop (by rw [hd, List.append_assoc])
  rw [Nat.add_assoc, e1]
  exact h2 fs n p1 w1 rest q1 hd1


theorem slice_cons (b : Nat) (Y : List Nat) (i n : Nat) :
    slice (b :: Y) (i + 1) n = slice Y i n := by
  induction n generalizing i with
  | zero => rfl
  | succ n ih =>
    simp only [slice]
    rw [ih]
    rfl

/-- A pattern without line terminator bytes that matches at the start of a
text followed by a line terminator lies within the text. -/
theorem startsWith_prefix (pat : List Nat) (hpat : ∀ c ∈ pat, c ≠ 13 ∧ c ≠ 10) (t : Nat)
    (ht : t = 13 ∨ t = 10) (rest : List Nat) :
    ∀ B : List Nat, startsWith (B ++ t :: rest) 0 pat = true → ∃ X, B = pat ++ X := by
  induction pat with
  | nil => exact fun B _ => ⟨B, rfl⟩
  | cons c cs ih =>
    intro B h
    simp only [startsWith, List.length_cons, slice, beq_iff_eq, List.cons.injEq] at h
    obtain ⟨h1, h2⟩ := h
    have hc := hpat c (List.mem_cons_self _ _)
    cases B with
    | nil =>
      have : t = c := h1
      rcases ht with h | h <;> omega
    | cons b B' =>
      have hb : b = c := h1
      have h3 : slice (B' ++ t :: rest) 0 cs.length = cs := by
        rw [← slice_cons b _ 0 cs.length]
        exact h2
      obtain ⟨X, hX⟩ := ih (fun x hx => hpat x (List.mem_cons_of_mem _ hx)) B'
        (by simp [startsWith, h3])
      exact ⟨X, by rw [hb, hX]; rfl⟩

theorem dispatch_define (read : parser_t → List Nat → World → Option Result) (fuel head : Nat)
    (p : parser_t) (w : World) (X : List Nat)
    (hd : p.pFileBuffer.drop head = bytes "#define " ++ X) :
    dispatch read fuel head p w = h2incn_parse_define fuel p w := by
  have b : byteAt p.pFileBuffer head = 35 := by rw [byteAt_of_drop_zero hd]; rfl
  have m0 : startsWith p.pFileBuffer head (bytes "#include ") = false := by
    rw [startsWith_of_drop hd]; rfl
  have mt : startsWith p.pFileBuffer head (bytes "#define ") = true := by
    rw [startsWith_of_drop hd]
    simp only [startsWith, slice_append_left, beq_self_eq_true]
  simp [dispatch, b, m0, mt]

theorem dispatch_undef (read : parser_t → List Nat → World → Option Result) (fuel head : Nat)
    (p : parser_t) (w : World) (X : List Nat)
    (hd : p.pFileBuffer.drop head = bytes "#undef " ++ X) :
    dispatch read fuel head p w = some (h2incn_parse_undef p w) := by
  have b : byteAt p.pFileBuffer head = 35 := by rw [byteAt_of_drop_zero hd]; rfl
  have m0 : startsWith p.pFileBuffer head (bytes "#include ") = false := by
    rw [startsWith_of_drop hd]; rfl
  have m1 : startsWith p.pFileBuffer head (bytes "#define ") = false := by
    rw [startsWith_of_drop hd]; rfl
  have mt : startsWith p.pFileBuffer head (bytes "#undef ") = true := by
    rw [startsWith_of_drop hd]
    simp only [startsWith, slice_append_left, beq_self_eq_true]
  simp [dispatch, b, m0, m1, mt]

theorem dispatch_if (read : parser_t → List Nat → World → Option Result) (fuel head : Nat)
    (p : parser_t) (w : World) (X : List Nat)
    (hd : p.pFileBuffer.drop head = bytes "#if " ++ X) :
    dispatch read fuel head p w = h2incn_parse_if fuel p w := by
  have b : byteAt p.pFileBuffer head = 35 := by rw [byteAt_of_drop_zero hd]; rfl
  have m0 : startsWith p.pFileBuffer head (bytes "#include ") = false := by
    rw [startsWith_of_drop hd]; rfl
  have m1 : startsWith p.pFileBuffer head (bytes "#define ") = false := by
    rw [startsWith_of_drop hd]; rfl
  have m2 : startsWith p.pFileBuffer head (bytes "#undef ") = false := by
    rw [startsWith_of_drop hd]; rfl
  have mt : startsWith p.pFileBuffer head (bytes "#if ") = true := by
    rw [startsWith_of_drop hd]
    simp only [startsWith, slice_append_left, beq_self_eq_true]
  simp [dispatch, b, m0, m1, m2, mt]

theorem dispatch_ifdef (read : parser_t → List Nat → World → Option Result) (fuel head : Nat)
    (p : parser_t) (w : World) (X : List Nat)
    (hd : p.pFileBuffer.drop head = bytes "#ifdef " ++ X) :
    dispatch read fuel head p w = h2incn_parse_ifdef fuel p w := by
  have b : byteAt p.pFileBuffer head = 35 := by rw [byteAt_of_drop_zero hd]; rfl
  have m0 : startsWith p.pFileBuffer head (bytes "#include ") = false := by
    rw [startsWith_of_drop hd]; rfl
  have m1 : startsWith p.pFileBuffer head (bytes "#define ") = false := by
    rw [startsWith_of_drop hd]; rfl
  have m2 : startsWith p.pFileBuffer head (bytes "#undef ") = false := by
    rw [startsWith_of_drop hd]; rfl
  have m3 : startsWith p.pFileBuffer head (bytes "#if ") = false := by
    rw [startsWith_of_drop hd]; rfl
  have mt : startsWith p.pFileBuffer head (bytes "#ifdef ") = true := by
    rw [startsWith_of_drop hd]
    simp only [startsWith, slice_append_left, beq_self_eq_true]
  simp [dispatch, b, m0, m1, m2, m3, mt]

theorem dispatch_ifndef (read : parser_t → List Nat → World → Option Result) (fuel head : Nat)
    (p : parser_t) (w : World) (X : List Nat)
    (hd : p.pFileBuffer.drop head = bytes "#ifndef " ++ X) :
    dispatch read fuel head p w = h2incn_parse_ifndef fuel p w := by
  have b : byteAt p.pFileBuffer head = 35 := by rw [byteAt_of_drop_zero hd]; rfl
  have m0 : startsWith p.pFileBuffer head (bytes "#include ") = false := by
    rw [startsWith_of_drop hd]; rfl
  have m1 : startsWith p.pFileBuffer head (bytes "#define ") = false := by
    rw [startsWith_of_drop hd]; rfl
  have m2 : startsWith p.pFileBuffer head (bytes "#undef ") = false := by
    rw [startsWith_of_drop hd]; rfl
  have m3 : startsWith p.pFileBuffer head (bytes "#if ") = false := by
    rw [startsWith_of_drop hd]; rfl
  have m4 : startsWith p.pFileBuffer head (bytes "#ifdef ") = false := by
    rw [startsWith_of_drop hd]; rfl
  have mt : startsWith p.pFileBuffer head (bytes "#ifndef ") = true := by
    rw [startsWith_of_drop hd]
    simp only [startsWith, slice_append_left, beq_self_eq_true]
  simp [dispatch, b, m0, m1, m2, m3, m4, mt]

theorem dispatch_elif (read : parser_t → List Nat → World → Option Result) (fuel head : Nat)
    (p : parser_t) (w : World) (X : List Nat)
    (hd : p.pFileBuffer.drop head = bytes "#elif" ++ X) :
    dispatch read fuel head p w = h2incn_parse_elif fuel p w := by
  have b : byteAt p.pFileBuffer head = 35 := by rw [byteAt_of_drop_zero hd]; rfl
  have m0 : startsWith p.pFileBuffer head (bytes "#include ") = false := by
    rw [startsWith_of_drop hd]; rfl
  have m1 : startsWith p.pFileBuffer head (bytes "#define ") = false := by
    rw [startsWith_of_drop hd]; rfl
  have m2 : startsWith p.pFileBuffer head (bytes "#undef ") = false := by
    rw [startsWith_of_drop hd]; rfl
  have m3 : startsWith p.pFileBuffer head (bytes "#if ") = false := by
    rw [startsWith_of_drop hd]; rfl
  have m4 : startsWith p.pFileBuffer head (bytes "#ifdef ") = false := by
    rw [startsWith_of_drop hd]; rfl
  have m5 : startsWith p.pFileBuffer head (bytes "#ifndef ") = false := by
    rw [startsWith_of_drop hd]; rfl
  have mt : startsWith p.pFileBuffer head (bytes "#elif") = true := by
    rw [startsWith_of_drop hd]
    simp only [startsWith, slice_append_left, beq_self_eq_true]
  simp [dispatch, b, m0, m1, m2, m3, m4, m5, mt]

theorem dispatch_else (read : parser_t → List Nat → World → Option Result) (fuel head : Nat)
    (p : parser_t) (w : World) (X : List Nat)
    (hd : p.pFileBuffer.drop head = bytes "#else" ++ X) :
    dispatch read fuel head p w = h2incn_parse_else fuel p w := by
  have b : byteAt p.pFileBuffer head = 35 := by rw [byteAt_of_drop_zero hd]; rfl
  have m0 : startsWith p.pFileBuffer head (bytes "#include ") = false := by
    rw [startsWith_of_drop hd]; rfl
  have m1 : startsWith p.pFileBuffer head (bytes "#define ") = false := by
    rw [startsWith_of_drop hd]; rfl
  have m2 : startsWith p.pFileBuffer head (bytes "#undef ") = false := by
    rw [startsWith_of_drop hd]; rfl
  have m3 : startsWith p.pFileBuffer head (bytes "#if ") = false := by
    rw [startsWith_of_drop hd]; rfl
  have m4 : startsWith p.pFileBuffer head (bytes "#ifdef ") = false := by
    rw [startsWith_of_drop hd]; rfl
  have m5 : startsWith p.pFileBuffer head (bytes "#ifndef ") = false := by
    rw [startsWith_of_drop hd]; rfl
  have m6 : startsWith p.pFileBuffer head (bytes "#elif") = false := by
    rw [startsWith_of_drop hd]; rfl
  have mt : startsWith p.pFileBuffer head (bytes "#else") = true := by
    rw [startsWith_of_drop hd]
    simp only [startsWith, slice_append_left, beq_self_eq_true]
  simp [dispatch, b, m0, m1, m2, m3, m4, m5, m6, mt]

theorem dispatch_endif (read : parser_t → List Nat → World → Option Result) (fuel head : Nat)
    (p : parser_t) (w : World) (X : List Nat)
    (hd : p.pFileBuffer.drop head = bytes "#endif" ++ X) :
    dispatch read fuel head p w = h2incn_parse_endif fuel p w := by
  have b : byteAt p.pFileBuffer head = 35 := by rw [byteAt_of_drop_zero hd]; rfl
  have m0 : startsWith p.pFileBuffer head (bytes "#include ") = false := by
    rw [startsWith_of_drop hd]; rfl
  have m1 : startsWith p.pFileBuffer head (bytes "#define ") = false := by
    rw [startsWith_of_drop hd]; rfl
  have m2 : startsWith p.pFileBuffer head (bytes "#undef ") = false := by
    rw [startsWith_of_drop hd]; rfl
  have m3 : startsWith p.pFileBuffer head (bytes "#if ") = false := by
    rw [startsWith_of_drop hd]; rfl
  have m4 : startsWith p.pFileBuffer head (bytes "#ifdef ") = false := by
    rw [startsWith_of_drop hd]; rfl
  have m5 : startsWith p.pFileBuffer head (bytes "#ifndef ") = false := by
    rw [startsWith_of_drop hd]; rfl
  have m6 : startsWith p.pFileBuffer head (bytes "#elif") = false := by
    rw [startsWith_of_drop hd]; rfl
  have m7 : startsWith p.pFileBuffer head (bytes "#else") = false := by
    rw [startsWith_of_drop hd]; rfl
  have mt : startsWith p.pFileBuffer head (bytes "#endif") = true := by
    rw [startsWith_of_drop hd]
    simp only [startsWith, slice_append_left, beq_self_eq_true]
  simp [dispatch, b, m0, m1, m2, m3, m4, m5, m6, m7, mt]

theorem line_end_cases (term : List Nat) (h : isLineEnd term = true) :
    term = [10] ∨ term = [13, 10] := by
  simpa [isLineEnd] using h

theorem line_end_head (term rest : List Nat) (h : isLineEnd term = true) :
    ∃ t rest', term ++ rest = t :: rest' ∧ (t = 13 ∨ t = 10) := by
  rcases line_end_cases term h with h | h
  · exact ⟨10, rest, by rw [h]; rfl, Or.inr rfl⟩
  · exact ⟨13, 10 :: rest, by rw [h]; rfl, Or.inl rfl⟩

theorem plain_byte_facts (c : Nat) (h : isPlainByte c = true) :
    c ≠ 0 ∧ c ≠ 10 ∧ c ≠ 13 ∧ c ≠ 92 := by
  simp only [isPlainByte, Bool.and_eq_true, bne_iff_ne, ne_eq] at h
  exact ⟨h.1.1.1, h.1.1.2, h.1.2, h.2⟩

/-- The round of the loop of `h2incn_parse` at a line whose first non-blank
byte is no line terminator: the handler chosen by `dispatch` runs there. -/
theorem token_step (fs : List Nat → Option (List Nat)) (n : Nat) (p : parser_t) (w : World)
    (indent B X : List Nat)
    (hd : p.pFileBuffer.drop p.pNextToken = indent ++ (B ++ X))
    (hind : ∀ c ∈ indent, isBlank c = true) (hB : B ≠ [])
    (hb : isBlank (byteAt B 0) = false) (hp : isPlainByte (byteAt B 0) = true) :
    parse_loop fs (n + 1) p w =
      match dispatch (read_included (h2incn_parse fs n) fs) n (p.pNextToken + indent.length)
          { p with pNextToken := p.pNextToken + indent.length } w with
      | none => none
      | some (false, q, v) => some (false, q, v)
      | some (true, q, v) => parse_loop fs n q v := by
  obtain ⟨b, bs, hbs⟩ := List.exists_cons_of_ne_nil hB
  have hb0 : byteAt B 0 = b := by rw [hbs]; rfl
  rw [hb0] at hb hp
  obtain ⟨p0, p10, p13, -⟩ := plain_byte_facts b hp
  have hd' : p.pFileBuffer.drop p.pNextToken = indent ++ b :: (bs ++ X) := by
    rw [hd, hbs]; rfl
  have s : scan isBlank p.pFileBuffer p.pNextToken = p.pNextToken + indent.length :=
    scan_run _ b hd' hind hb
  have c : byteAt p.pFileBuffer (p.pNextToken + indent.length) = b := by
    rw [byteAt_of_drop_zero (drop_add_of_drop hd')]; rfl
  exact parse_loop_token fs n p w _ s (by rw [c]; exact p13) (by rw [c]; exact p10)
    (by rw [c]; exact p0)

/-- A directive line whose handler runs to the line terminator takes two
rounds: the handler's, and the round that copies the terminator. -/
theorem directive_runs (o : options_t) (indent B term G : List Nat)
    (hind : ∀ c ∈ indent, isBlank c = true) (hB : B ≠ [])
    (hb : isBlank (byteAt B 0) = false) (hp : isPlainByte (byteAt B 0) = true)
    (hterm : isLineEnd term = true)
    (hh : ∀ (fs : List Nat → Option (List Nat)) (n : Nat) (p : parser_t) (w : World)
      (rest : List Nat), w.options = o →
      p.pFileBuffer.drop p.pNextToken = B ++ (term ++ rest) →
      ∃ w', dispatch (read_included (h2incn_parse fs (n + 1)) fs) (n + 1) p.pNextToken p w
          = some (true, { p with pNextToken := p.pNextToken + B.length }, w') ∧
        w'.out = w.out ++ G ∧ w'.options = w.options ∧ w'.pHeadersMap = w.pHeadersMap) :
    scan_runs o (indent ++ (B ++ term)) (G ++ term) 2 := by
  intro fs n p w rest ho hd
  have hd0 : p.pFileBuffer.drop p.pNextToken = indent ++ (B ++ (term ++ rest)) := by
    rw [hd]; simp
  have hd1 : p.pFileBuffer.drop (p.pNextToken + indent.length) = B ++ (term ++ rest) :=
    drop_add_of_drop hd0
  obtain ⟨w1, e1, o1, q1, m1⟩ := hh fs n { p with pNextToken := p.pNextToken + indent.length } w
    rest ho hd1
  have e1' : dispatch (read_included (h2incn_parse fs (n + 1)) fs) (n + 1)
      (p.pNextToken + indent.length) { p with pNextToken := p.pNextToken + indent.length } w
      = some (true, { p with pNextToken := p.pNextToken + indent.length + B.length }, w1) := e1
  have step1 := token_step fs (n + 1) p w indent B (term ++ rest) hd0 hind hB hb hp
  rw [e1'] at step1
  have hd2 : ({ p with pNextToken := p.pNextToken + indent.length + B.length } :
      parser_t).pFileBuffer.drop
      ({ p with pNextToken := p.pNextToken + indent.length + B.length } : parser_t).pNextToken
      = [] ++ (term ++ rest) := drop_add_of_drop hd1
  have step2 := blank_line_round fs n
    { p with pNextToken := p.pNextToken + indent.length + B.length } w1 [] term rest hd2
    (by simp) (line_end_cases term hterm)
  refine ⟨{ p with
      iLineNum := p.iLineNum + 1,
      pNextToken := p.pNextToken + indent.length + B.length + ([] : List Nat).length + term.length,
      pLine := p.pNextToken + indent.length + B.length + ([] : List Nat).length + term.length },
    w1.fwrite term, ?_, ?_, ?_, ?_, ?_, ?_⟩
  · rw [show 2 + n = n + 1 + 1 by omega, step1]
    exact step2
  · rfl
  · simp only [List.length_append, List.length_nil]
    omega
  · simp only [World.fwrite, o1, List.append_assoc]
  · simp only [World.fwrite, q1, ho]
  · simp only [World.fwrite, m1]

/-- A directive line whose handler does not return hangs the scan. -/
theorem directive_hangs (o : options_t) (indent B term : List Nat)
    (hind : ∀ c ∈ indent, isBlank c = true) (hB : B ≠ [])
    (hb : isBlank (byteAt B 0) = false) (hp : isPlainByte (byteAt B 0) = true)
    (hh : ∀ (fs : List Nat → Option (List Nat)) (n : Nat) (p : parser_t) (w : World)
      (rest : List Nat), w.options = o →
      p.pFileBuffer.drop p.pNextToken = B ++ (term ++ rest) →
      dispatch (read_included (h2incn_parse fs n) fs) n p.pNextToken p w = none) :
    scan_hangs o (indent ++ (B ++ term)) 1 := by
  intro fs n p w rest ho hd
  have hd0 : p.pFileBuffer.drop p.pNextToken = indent ++ (B ++ (term ++ rest)) := by
    rw [hd]; simp
  have hd1 : p.pFileBuffer.drop (p.pNextToken + indent.length) = B ++ (term ++ rest) :=
    drop_add_of_drop hd0
  have e1 : dispatch (read_included (h2incn_parse fs n) fs) n
      (p.pNextToken + indent.length) { p with pNextToken := p.pNextToken + indent.length } w
      = none :=
    hh fs n { p with pNextToken := p.pNextToken + indent.length } w rest ho hd1
  have step1 := token_step fs n p w indent B (term ++ rest) hd0 hind hB hb hp
  rw [e1] at step1
  rw [show 1 + n = n + 1 by omega, step1]


theorem blank_not_plain_stop (c : Nat) (h : isBlank c = true) : c ≠ 0 ∧ c ≠ 13 ∧ c ≠ 10 := by
  simp only [isBlank, Bool.or_eq_true, beq_iff_eq] at h
  omega

/-- A plain `#define` line takes two rounds of the loop of `h2incn_parse`. -/
theorem define_line_runs (o : options_t) (indent R term : List Nat)
    (hind : ∀ c ∈ indent, isBlank c = true)
    (hpl : plain_text (indent ++ (bytes "#define " ++ R))) (hterm : isLineEnd term = true) :
    ∃ G, scan_runs o (indent ++ ((bytes "#define " ++ R) ++ term)) G 2 := by
  obtain ⟨b1, R1, e1, hb1, s1⟩ := run_split isBlank R
  obtain ⟨name, R2, e2, hname, s2⟩ := run_split
    (fun c => c != 0 && c != 32 && c != 9 && c != 40 && c != 13 && c != 10) R1
  obtain ⟨b2, value, e3, hb2, s3⟩ := run_split isBlank R2
  have hR : R = b1 ++ (name ++ (b2 ++ value)) := by rw [e1, e2, e3]
  have hplR : ∀ c ∈ R, isPlainByte c = true := fun c hc =>
    hpl.1 c (List.mem_append_right _ (List.mem_append_right _ hc))
  refine ⟨(bytes "%define " ++ name ++
      (if value = [] then [] else (if byteAt value 0 = 40 then [] else [32]) ++ value)) ++ term,
    ?_⟩
  apply directive_runs o indent (bytes "#define " ++ R) term _ hind (by simp [bytes])
    rfl rfl hterm
  intro fs n p w rest ho hd
  obtain ⟨t, rest', ht, ht'⟩ := line_end_head term rest hterm
  have qt : (fun c => c != 0 && c != 32 && c != 9 && c != 40 && c != 13 && c != 10) t
      = false := by
    rcases ht' with h | h <;> subst h <;> rfl
  have bt : isBlank t = false := by
    rcases ht' with h | h <;> subst h <;> rfl
  have hd' : p.pFileBuffer.drop p.pNextToken
      = bytes "#define " ++ (b1 ++ (name ++ (b2 ++ (value ++ t :: rest')))) := by
    rw [hd, ht, hR]; simp
  have h1 : isBlank (byteAt (name ++ (b2 ++ (value ++ t :: rest'))) 0) = false := by
    have := s1 t rest' bt
    rw [e2, e3] at this
    simpa using this
  have h2 : (fun c => c != 0 && c != 32 && c != 9 && c != 40 && c != 13 && c != 10)
      (byteAt (b2 ++ (value ++ t :: rest')) 0) = false := by
    have := s2 t rest' qt
    rw [e3] at this
    simpa using this
  have h3 : isBlank (byteAt (value ++ t :: rest') 0) = false := s3 t rest' bt
  have o1 : isCommentOpener (name ++ (b2 ++ (value ++ t :: rest'))) 0 = false := by
    have := plain_no_opener (indent ++ (bytes "#define " ++ b1)) (name ++ (b2 ++ value))
      (by rw [hR] at hpl; simpa using hpl) t rest' ht'
    simpa using this
  have o2 : isCommentOpener (value ++ t :: rest') 0 = false :=
    plain_no_opener (indent ++ (bytes "#define " ++ (b1 ++ (name ++ b2)))) value
      (by rw [hR] at hpl; simpa using hpl) t rest' ht'
  have h92 : ∀ c ∈ b1 ++ (name ++ (b2 ++ value)), c ≠ 92 := by
    intro c hc
    rw [← hR] at hc
    exact (plain_byte_facts c (hplR c hc)).2.2.2
  have hvalue : ∀ c ∈ value, notEol c = true := by
    intro c hc
    have hcR : c ∈ R := by
      rw [hR]
      exact List.mem_append_right _ (List.mem_append_right _ (List.mem_append_right _ hc))
    obtain ⟨a, b, c', -⟩ := plain_byte_facts c (hplR c hcR)
    simp [notEol, a, b, c']
  obtain ⟨w', e, ow, qw, mw⟩ := parse_define_line (n + 1) p w b1 name b2 value rest' t hd' hb1
    hname hb2 hvalue h1 h2 h3 o1 o2 h92 ht'
  refine ⟨w', ?_, ow, qw, mw⟩
  rw [dispatch_define _ _ _ p w _ hd, e]
  have hlen : (bytes "#define " ++ R).length
      = 8 + b1.length + name.length + b2.length + value.length := by
    rw [hR]
    simp only [List.length_append, bytes_define_length]
    omega
  rw [hlen]
  simp only [Option.some.injEq, Prod.mk.injEq, true_and, and_true]
  congr 1
  omega


/-- A plain line handled by one of the four conditional handlers: the scan
hangs on it when its expression holds a `/`, and takes two rounds otherwise. -/
theorem conditional_line (o : options_t) (keyword K : List Nat) (skip : Nat)
    (indent R term : List Nat) (hK : K.length = skip) (hK0 : byteAt K 0 = 35) (hKn : K ≠ [])
    (hdisp : ∀ (read : parser_t → List Nat → World → Option Result) (fuel head : Nat)
      (p : parser_t) (w : World) (X : List Nat), p.pFileBuffer.drop head = K ++ X →
      dispatch read fuel head p w = parse_conditional keyword skip fuel p w)
    (hind : ∀ c ∈ indent, isBlank c = true)
    (hpl : plain_text (indent ++ (K ++ R))) (hterm : isLineEnd term = true) :
    scan_hangs o (indent ++ ((K ++ R) ++ term)) 1 ∨
      ∃ G, scan_runs o (indent ++ ((K ++ R) ++ term)) G 2 := by
  obtain ⟨blanks, E, e1, hb, s1⟩ := run_split isBlank R
  have hplE : ∀ c ∈ E, isPlainByte c = true := fun c hc =>
    hpl.1 c (List.mem_append_right _ (List.mem_append_right _
      (by rw [e1]; exact List.mem_append_right _ hc)))
  have hB0 : byteAt (K ++ R) 0 = 35 := by
    obtain ⟨k, ks, hk⟩ := List.exists_cons_of_ne_nil hKn
    rw [hk] at hK0 ⊢
    exact hK0
  have hBn : K ++ R ≠ [] := by simp [hKn]
  by_cases h47 : 47 ∈ E
  · left
    obtain ⟨E1, E', e2, hE1, s2⟩ := run_split (fun c => c != 47) E
    have hE' : ∃ E2, E' = 47 :: E2 := by
      cases E' with
      | nil =>
        exfalso
        rw [e2, List.append_nil] at h47
        have := hE1 47 h47
        simp at this
      | cons x xs =>
        have := s2 47 [] (by simp)
        have hx : x = 47 := by simpa [byteAt] using this
        exact ⟨xs, by rw [hx]⟩
    obtain ⟨E2, e3⟩ := hE'
    have hE : E = E1 ++ 47 :: E2 := by rw [e2, e3]
    apply directive_hangs o indent (K ++ R) term hind hBn (by rw [hB0]; rfl) (by rw [hB0]; rfl)
    intro fs n p w rest _ hd
    obtain ⟨t, rest', ht, ht'⟩ := line_end_head term rest hterm
    have bt : isBlank t = false := by
      rcases ht' with h | h <;> subst h <;> rfl
    have hd' : p.pFileBuffer.drop p.pNextToken
        = K ++ (blanks ++ (E1 ++ 47 :: (E2 ++ t :: rest'))) := by
      rw [hd, ht, e1, hE]; simp
    rw [hdisp _ _ _ p w _ hd']
    apply parse_conditional_slash_stuck keyword skip n p w K blanks E1 (E2 ++ t :: rest') hd' hK hb
    · intro c hc
      have h1 := hE1 c hc
      obtain ⟨a, b, c', -⟩ := plain_byte_facts c (hplE c (by rw [hE]; exact List.mem_append_left _ hc))
      simp only [bne_iff_ne, ne_eq] at h1
      exact ⟨a, h1, c', b⟩
    · have := s1 t rest' bt
      rw [hE] at this
      simpa using this
    · have := hpl.2.1 (indent ++ (K ++ (blanks ++ E1))) E2 (by rw [e1, hE]; simp)
      rw [byteAt_head_append]
      by_cases hE2 : E2 = []
      · rcases ht' with h | h <;> simp [hE2, h]
      · simp [hE2, this.1, this.2]
  · right
    refine ⟨(keyword ++ E) ++ term, ?_⟩
    apply directive_runs o indent (K ++ R) term _ hind hBn (by rw [hB0]; rfl) (by rw [hB0]; rfl)
      hterm
    intro fs n p w rest _ hd
    obtain ⟨t, rest', ht, ht'⟩ := line_end_head term rest hterm
    have bt : isBlank t = false := by
      rcases ht' with h | h <;> subst h <;> rfl
    have hd' : p.pFileBuffer.drop p.pNextToken = K ++ (blanks ++ (E ++ t :: rest')) := by
      rw [hd, ht, e1]; simp
    rw [hdisp _ _ _ p w _ hd']
    have := parse_conditional_plain keyword skip n p w K blanks E rest' t hd' hK hb
      (by
        intro c hc
        obtain ⟨a, b, c', -⟩ := plain_byte_facts c (hplE c hc)
        exact ⟨a, fun h => h47 (h ▸ hc), c', b⟩)
      (s1 t rest' bt) ht'
    refine ⟨w.fwrite (keyword ++ E), ?_, rfl, rfl, rfl⟩
    rw [this]
    have hlen : (K ++ R).length = skip + blanks.length + E.length := by
      rw [e1]
      simp only [List.length_append, hK]
      omega
    rw [hlen]
    simp only [Option.some.injEq, Prod.mk.injEq, true_and, and_true]
    congr 1
    omega

/-- A plain `#else` or `#endif` line takes two rounds. -/
theorem else_endif_line (o : options_t) (keyword K : List Nat) (skip : Nat)
    (indent R term : List Nat) (hK : K.length = skip) (hK0 : byteAt K 0 = 35) (hKn : K ≠ [])
    (hdisp : ∀ (read : parser_t → List Nat → World → Option Result) (fuel head : Nat)
      (p : parser_t) (w : World) (X : List Nat), p.pFileBuffer.drop head = K ++ X →
      dispatch read fuel head p w = parse_else_endif keyword skip fuel p w)
    (hind : ∀ c ∈ indent, isBlank c = true)
    (hpl : plain_text (indent ++ (K ++ R))) (hterm : isLineEnd term = true) :
    ∃ G, scan_runs o (indent ++ ((K ++ R) ++ term)) G 2 := by
  obtain ⟨blanks, T, e1, hb, s1⟩ := run_split isBlank R
  have hplT : ∀ c ∈ T, isPlainByte c = true := fun c hc =>
    hpl.1 c (List.mem_append_right _ (List.mem_append_right _
      (by rw [e1]; exact List.mem_append_right _ hc)))
  have hB0 : byteAt (K ++ R) 0 = 35 := by
    obtain ⟨k, ks, hk⟩ := List.exists_cons_of_ne_nil hKn
    rw [hk] at hK0 ⊢
    exact hK0
  have hBn : K ++ R ≠ [] := by simp [hKn]
  refine ⟨keyword ++ term, ?_⟩
  apply directive_runs o indent (K ++ R) term _ hind hBn (by rw [hB0]; rfl) (by rw [hB0]; rfl)
    hterm
  intro fs n p w rest _ hd
  obtain ⟨t, rest', ht, ht'⟩ := line_end_head term rest hterm
  have bt : isBlank t = false := by
    rcases ht' with h | h <;> subst h <;> rfl
  have hd' : p.pFileBuffer.drop p.pNextToken = K ++ (blanks ++ (T ++ t :: rest')) := by
    rw [hd, ht, e1]; simp
  rw [hdisp _ _ _ p w _ hd']
  have := parse_else_endif_plain keyword skip (n + 1) p w K blanks T rest' t hd' hK hb
    (by
      intro c hc
      obtain ⟨a, b, c', -⟩ := plain_byte_facts c (hplT c hc)
      simp [notEol, a, b, c'])
    (s1 t rest' bt)
    (plain_no_opener (indent ++ (K ++ blanks)) T (by rw [e1] at hpl; simpa using hpl) t rest' ht')
    (by rcases ht' with h | h <;> subst h <;> rfl)
  refine ⟨w.fwrite keyword, ?_, rfl, rfl, rfl⟩
  rw [this]
  have hlen : (K ++ R).length = skip + blanks.length + T.length := by
    rw [e1]
    simp only [List.length_append, hK]
    omega
  rw [hlen]
  simp only [Option.some.injEq, Prod.mk.injEq, true_and, and_true]
  congr 1
  omega


/-- A line of blanks takes one round, which copies its terminator. -/
theorem blank_line_runs (o : options_t) (indent term : List Nat)
    (hind : ∀ c ∈ indent, isBlank c = true) (hterm : isLineEnd term = true) :
    scan_runs o (indent ++ term) term 1 := by
  intro fs n p w rest ho hd
  have hd0 : p.pFileBuffer.drop p.pNextToken = indent ++ (term ++ rest) := by
    rw [hd]; simp
  have e := blank_line_round fs n p w indent term rest hd0 hind (line_end_cases term hterm)
  rw [show n + 1 = 1 + n by omega] at e
  exact ⟨_, _, e, rfl, by simp only [List.length_append]; omega, rfl, ho, rfl⟩

/-- A plain line that is no directive takes one round: it is written as a
`;` comment when `fCode` is set and dropped otherwise. -/
theorem other_line_runs (o : options_t) (indent B term : List Nat)
    (hind : ∀ c ∈ indent, isBlank c = true) (hB : B ≠ [])
    (hb : isBlank (byteAt B 0) = false)
    (hpl : plain_text (indent ++ B)) (hterm : isLineEnd term = true)
    (hkind : byteAt B 0 = 35 → ∀ pat ∈ directive_prefixes, ∀ X, B ≠ pat ++ X) :
    scan_runs o (indent ++ (B ++ term)) (if o.fCode then 59 :: (B ++ term) else []) 1 := by
  intro fs n p w rest ho hd
  have hd0 : p.pFileBuffer.drop p.pNextToken = indent ++ (B ++ (term ++ rest)) := by
    rw [hd]; simp
  obtain ⟨t, rest', ht, ht'⟩ := line_end_head term rest hterm
  have hall : ∀ c ∈ B, notEol c = true := by
    intro c hc
    obtain ⟨a, b, c', -⟩ := plain_byte_facts c (hpl.1 c (List.mem_append_right _ hc))
    simp [notEol, a, b, c']
  have hk : (byteAt B 0 = 35 ∧
        ∀ pat ∈ directive_prefixes, startsWith (B ++ (term ++ rest)) 0 pat = false) ∨
      (byteAt B 0 ≠ 35 ∧ isCommentOpener (B ++ (term ++ rest)) 0 = false) := by
    by_cases h35 : byteAt B 0 = 35
    · left
      refine ⟨h35, ?_⟩
      intro pat hpat
      by_contra hs
      rw [Bool.not_eq_false] at hs
      rw [ht] at hs
      have hnt : ∀ pat ∈ directive_prefixes, ∀ c ∈ pat, c ≠ 13 ∧ c ≠ 10 := by decide
      obtain ⟨X, hX⟩ := startsWith_prefix pat (hnt pat hpat) t ht' rest' B hs
      exact hkind h35 pat hpat X hX
    · right
      refine ⟨h35, ?_⟩
      rw [ht]
      exact plain_no_opener indent B hpl t rest' ht'
  have := other_line_round fs n p w indent B term rest hd0 hind hall hB hb hk
    (line_end_cases term hterm)
  rw [show n + 1 = 1 + n by omega] at this
  refine ⟨_, _, this, rfl, by simp only [List.length_append]; omega, ?_, ?_, ?_⟩
  · rw [ho]
    split <;> simp [World.fwrite]
  · split <;> exact ho
  · split <;> rfl

/-- A plain `#undef` line: the handler stops after the name, and what follows
on the line is scanned as a line of its own. -/
theorem undef_line (o : options_t) (indent R term : List Nat)
    (hind : ∀ c ∈ indent, isBlank c = true)
    (hpl : plain_text (indent ++ (bytes "#undef " ++ R))) (hterm : isLineEnd term = true)
    (ih : ∀ L', L'.length < (indent ++ (bytes "#undef " ++ R)).length → plain_text L' →
      hangs_or_runs o (L' ++ term)) :
    hangs_or_runs o (indent ++ ((bytes "#undef " ++ R) ++ term)) := by
  obtain ⟨b1, R1, e1, hb1, s1⟩ := run_split isBlank R
  obtain ⟨name, R2, e2, hname, s2⟩ := run_split
    (fun c => c != 0 && c != 32 && c != 9 && c != 47 && c != 40 && c != 13 && c != 10) R1
  obtain ⟨b2, R3, e3, hb2, s3⟩ := run_split isBlank R2
  have hR : R = b1 ++ (name ++ (b2 ++ R3)) := by rw [e1, e2, e3]
  have facts : ∀ (t : Nat) (rest' : List Nat), (t = 13 ∨ t = 10) →
      isBlank (byteAt (name ++ (b2 ++ (R3 ++ t :: rest'))) 0) = false ∧
      (fun c => c != 0 && c != 32 && c != 9 && c != 47 && c != 40 && c != 13 && c != 10)
        (byteAt (b2 ++ (R3 ++ t :: rest')) 0) = false ∧
      isBlank (byteAt (R3 ++ t :: rest') 0) = false := by
    intro t rest' ht'
    have qt : (fun c => c != 0 && c != 32 && c != 9 && c != 47 && c != 40 && c != 13
        && c != 10) t = false := by
      rcases ht' with h | h <;> subst h <;> rfl
    have bt : isBlank t = false := by
      rcases ht' with h | h <;> subst h <;> rfl
    refine ⟨?_, ?_, s3 t rest' bt⟩
    · have := s1 t rest' bt
      rw [e2, e3] at this
      simpa using this
    · have := s2 t rest' qt
      rw [e3] at this
      simpa using this
  by_cases hR3 : R3 = []
  · subst hR3
    right
    refine ⟨(bytes "%undef " ++ name) ++ term, 2, ?_⟩
    apply directive_runs o indent (bytes "#undef " ++ R) term _ hind (by simp [bytes]) rfl rfl
      hterm
    intro fs n p w rest _ hd
    obtain ⟨t, rest', ht, ht'⟩ := line_end_head term rest hterm
    obtain ⟨f1, f2, f3⟩ := facts t rest' ht'
    have hd' : p.pFileBuffer.drop p.pNextToken
        = bytes "#undef " ++ (b1 ++ (name ++ (b2 ++ ([] ++ t :: rest')))) := by
      rw [hd, ht, hR]; simp
    obtain ⟨w', e, ow, qw, mw⟩ := parse_undef_line p w b1 name b2 ([] ++ t :: rest') hd' hb1
      hname hb2 f1 f2 f3
    have h1310 : byteAt ([] ++ t :: rest') 0 = 13 ∨ byteAt ([] ++ t :: rest') 0 = 10 := ht'
    rw [if_pos h1310, List.append_nil] at ow
    refine ⟨w', ?_, ow, qw, mw⟩
    rw [dispatch_undef _ _ _ p w _ hd, e]
    have hlen : (bytes "#undef " ++ R).length = 7 + b1.length + name.length + b2.length := by
      rw [hR]
      simp only [List.length_append, bytes_undef_length, List.length_nil]
      omega
    rw [hlen]
    simp only [Option.some.injEq, Prod.mk.injEq, true_and, and_true]
    congr 1
    omega
  · -- the handler's round, then the rest of the line
    have hplR3 : plain_text R3 := by
      apply plain_text_suffix (indent ++ (bytes "#undef " ++ (b1 ++ (name ++ b2)))) R3
      rw [hR] at hpl
      simpa using hpl
    have hlt : R3.length < (indent ++ (bytes "#undef " ++ R)).length := by
      rw [hR]
      simp only [List.length_append, bytes_undef_length]
      omega
    obtain ⟨r0, r3, hr3⟩ := List.exists_cons_of_ne_nil hR3
    have hr0 : byteAt R3 0 = r0 := by rw [hr3]; rfl
    have hr0p := plain_byte_facts r0 (hplR3.1 r0 (by rw [hr3]; exact List.mem_cons_self _ _))
    have step : ∀ (fs : List Nat → Option (List Nat)) (m : Nat) (p : parser_t) (w : World)
        (rest : List Nat), w.options = o →
        p.pFileBuffer.drop p.pNextToken = indent ++ ((bytes "#undef " ++ R) ++ term) ++ rest →
        ∃ p1 w1, parse_loop fs (m + 1) p w = parse_loop fs m p1 w1 ∧
          p1.pFileBuffer = p.pFileBuffer ∧
          p1.pNextToken = p.pNextToken
            + (indent ++ (bytes "#undef " ++ (b1 ++ (name ++ b2)))).length ∧
          w1.out = w.out ++ (bytes "%undef " ++ name ++ [32]) ∧ w1.options = o ∧
          w1.pHeadersMap = w.pHeadersMap ∧
          p1.pFileBuffer.drop p1.pNextToken = (R3 ++ term) ++ rest := by
      intro fs m p w rest ho hd
      obtain ⟨t, rest', ht, ht'⟩ := line_end_head term rest hterm
      obtain ⟨f1, f2, f3⟩ := facts t rest' ht'
      have hd0 : p.pFileBuffer.drop p.pNextToken
          = indent ++ ((bytes "#undef " ++ R) ++ (term ++ rest)) := by
        rw [hd]; simp
      have hd1 : p.pFileBuffer.drop (p.pNextToken + indent.length)
          = bytes "#undef " ++ (b1 ++ (name ++ (b2 ++ (R3 ++ t :: rest')))) := by
        have := drop_add_of_drop hd0
        rw [this, ht, hR]; simp
      obtain ⟨w', e, ow, qw, mw⟩ := parse_undef_line
        { p with pNextToken := p.pNextToken + indent.length } w b1 name b2 (R3 ++ t :: rest')
        hd1 hb1 hname hb2 f1 f2 f3
      have hno : ¬ (byteAt (R3 ++ t :: rest') 0 = 13 ∨ byteAt (R3 ++ t :: rest') 0 = 10) := by
        rw [byteAt_head_append, if_neg hR3, hr0]
        intro h
        rcases h with h | h
        · exact hr0p.2.2.1 h
        · exact hr0p.2.1 h
      rw [if_neg hno] at ow
      have st := token_step fs m p w indent (bytes "#undef " ++ R) (term ++ rest) hd0 hind
        (by simp [bytes]) rfl rfl
      rw [dispatch_undef _ _ _ { p with pNextToken := p.pNextToken + indent.length } w _ hd1,
        e] at st
      refine ⟨_, w', st, rfl, ?_, ow, by rw [qw, ho], mw, ?_⟩
      · simp only [List.length_append, bytes_undef_length]
        omega
      · have hd2 : p.pFileBuffer.drop p.pNextToken
            = (indent ++ (bytes "#undef " ++ (b1 ++ (name ++ b2)))) ++ ((R3 ++ term) ++ rest) := by
          rw [hd, hR]; simp
        have := drop_add_of_drop hd2
        simp only [List.length_append, bytes_undef_length] at this ⊢
        rw [← this]
        congr 1
        omega
    rcases ih R3 hlt hplR3 with ⟨K, hK⟩ | ⟨G, K, hK⟩
    · left
      refine ⟨K + 1, ?_⟩
      intro fs n p w rest ho hd
      obtain ⟨p1, w1, e1', -, -, -, q1, -, d1⟩ := step fs (K + n) p w rest ho hd
      rw [show K + 1 + n = K + n + 1 by omega, e1']
      exact hK fs n p1 w1 rest q1 d1
    · right
      refine ⟨(bytes "%undef " ++ name ++ [32]) ++ G, K + 1, ?_⟩
      intro fs n p w rest ho hd
      obtain ⟨p1, w1, e1', bf1, c1, o1, q1, m1, d1⟩ := step fs (K + n) p w rest ho hd
      obtain ⟨p2, w2, e2', bf2, c2, o2, q2, m2⟩ := hK fs n p1 w1 rest q1 d1
      refine ⟨p2, w2, ?_, by rw [bf2, bf1], ?_, ?_, q2, by rw [m2, m1]⟩
      · rw [show K + 1 + n = K + n + 1 by omega, e1', e2']
      · rw [c2, c1, hR]
        simp only [List.length_append, bytes_undef_length]
        omega
      · rw [o2, o1, List.append_assoc]


/-- One plain line, given that the dichotomy holds for every shorter plain
text ended by the same terminator. -/
theorem plain_line_step (o : options_t) (L term : List Nat) (hpl : plain_text L)
    (hterm : isLineEnd term = true)
    (ih : ∀ L', L'.length < L.length → plain_text L' → hangs_or_runs o (L' ++ term)) :
    hangs_or_runs o (L ++ term) := by
  obtain ⟨indent, B, e, hind, s⟩ := run_split isBlank L
  subst e
  rw [List.append_assoc]
  by_cases hB : B = []
  · subst hB
    exact Or.inr ⟨term, 1, blank_line_runs o indent term hind hterm⟩
  have hb : isBlank (byteAt B 0) = false := by
    have := s 10 [] rfl
    rwa [byteAt_head_append, if_neg hB] at this
  by_cases h1 : bytes "#define " <+: B
  · obtain ⟨R, hR⟩ := h1
    subst hR
    obtain ⟨G, hG⟩ := define_line_runs o indent R term hind hpl hterm
    exact Or.inr ⟨G, 2, hG⟩
  by_cases h2 : bytes "#undef " <+: B
  · obtain ⟨R, hR⟩ := h2
    subst hR
    exact undef_line o indent R term hind hpl hterm ih
  by_cases h3 : bytes "#if " <+: B
  · obtain ⟨R, hR⟩ := h3
    subst hR
    rcases conditional_line o (bytes "%if ") (bytes "#if ") 4 indent R term rfl rfl
      (by decide) (fun read fuel head p w X hd => dispatch_if read fuel head p w X hd)
      hind hpl hterm with h | ⟨G, h⟩
    · exact Or.inl ⟨1, h⟩
    · exact Or.inr ⟨G, 2, h⟩
  by_cases h4 : bytes "#ifdef " <+: B
  · obtain ⟨R, hR⟩ := h4
    subst hR
    rcases conditional_line o (bytes "%ifdef ") (bytes "#ifdef ") 7 indent R term rfl rfl
      (by decide) (fun read fuel head p w X hd => dispatch_ifdef read fuel head p w X hd)
      hind hpl hterm with h | ⟨G, h⟩
    · exact Or.inl ⟨1, h⟩
    · exact Or.inr ⟨G, 2, h⟩
  by_cases h5 : bytes "#ifndef " <+: B
  · obtain ⟨R, hR⟩ := h5
    subst hR
    rcases conditional_line o (bytes "%ifndef ") (bytes "#ifndef ") 8 indent R term rfl rfl
      (by decide) (fun read fuel head p w X hd => dispatch_ifndef read fuel head p w X hd)
      hind hpl hterm with h | ⟨G, h⟩
    · exact Or.inl ⟨1, h⟩
    · exact Or.inr ⟨G, 2, h⟩
  by_cases h6 : bytes "#elif" <+: B
  · obtain ⟨R, hR⟩ := h6
    subst hR
    rcases conditional_line o (bytes "%elif ") (bytes "#elif") 5 indent R term rfl rfl
      (by decide) (fun read fuel head p w X hd => dispatch_elif read fuel head p w X hd)
      hind hpl hterm with h | ⟨G, h⟩
    · exact Or.inl ⟨1, h⟩
    · exact Or.inr ⟨G, 2, h⟩
  by_cases h7 : bytes "#else" <+: B
  · obtain ⟨R, hR⟩ := h7
    subst hR
    obtain ⟨G, h⟩ := else_endif_line o (bytes "%else") (bytes "#else") 5 indent R term rfl rfl
      (by decide) (fun read fuel head p w X hd => dispatch_else read fuel head p w X hd)
      hind hpl hterm
    exact Or.inr ⟨G, 2, h⟩
  by_cases h8 : bytes "#endif" <+: B
  · obtain ⟨R, hR⟩ := h8
    subst hR
    obtain ⟨G, h⟩ := else_endif_line o (bytes "%endif") (bytes "#endif") 6 indent R term rfl rfl
      (by decide) (fun read fuel head p w X hd => dispatch_endif read fuel head p w X hd)
      hind hpl hterm
    exact Or.inr ⟨G, 2, h⟩
  refine Or.inr ⟨_, 1, other_line_runs o indent B term hind hB hb hpl hterm ?_⟩
  intro _ pat hpat X hX
  simp only [directive_prefixes, List.mem_cons, List.mem_singleton, List.not_mem_nil,
    or_false] at hpat
  rcases hpat with h | h | h | h | h | h | h | h | h <;> subst h
  · exact hpl.2.2 indent X (by rw [hX])
  · exact h1 ⟨X, hX.symm⟩
  · exact h2 ⟨X, hX.symm⟩
  · exact h3 ⟨X, hX.symm⟩
  · exact h4 ⟨X, hX.symm⟩
  · exact h5 ⟨X, hX.symm⟩
  · exact h6 ⟨X, hX.symm⟩
  · exact h7 ⟨X, hX.symm⟩
  · exact h8 ⟨X, hX.symm⟩

/-- Every plain line either hangs the scan (a conditional directive with a
`/` in its expression) or is run over with an output that depends on the line
and the options only. -/
theorem plain_line_run (o : options_t) (term : List Nat) (hterm : isLineEnd term = true) :
    ∀ (N : Nat) (L : List Nat), L.length ≤ N → plain_text L → hangs_or_runs o (L ++ term) := by
  intro N
  induction N with
  | zero =>
    intro L hL hpl
    exact plain_line_step o L term hpl hterm (fun L' h => by omega)
  | succ N ih =>
    intro L hL hpl
    exact plain_line_step o L term hpl hterm (fun L' h hp => ih L' (by omega) hp)

/-- The dichotomy for a sequence of plain lines. -/
theorem plain_lines_run (o : options_t) (ls : List (List Nat × List Nat))
    (h : plain_lines ls = true) : hangs_or_runs o (lines_text ls) := by
  induction ls with
  | nil => exact Or.inr ⟨[], 0, scan_runs_nil o⟩
  | cons l ls ih =>
    simp only [plain_lines, List.all_cons, Bool.and_eq_true] at h
    obtain ⟨⟨hl1, hl2⟩, hrest⟩ := h
    have hline := plain_line_run o l.2 hl2 l.1.length l.1 (Nat.le_refl _)
      (plain_text_of_isPlainLine l.1 hl1)
    have hls := ih (by simpa [plain_lines] using hrest)
    show hangs_or_runs o (l.1 ++ (l.2 ++ lines_text ls))
    rw [← List.append_assoc]
    rcases hline with ⟨K, hK⟩ | ⟨G, K, hK⟩
    · exact Or.inl ⟨K, scan_hangs_append_left o _ _ K hK⟩
    · rcases hls with ⟨K', hK'⟩ | ⟨G', K', hK'⟩
      · exact Or.inl ⟨K + K', scan_hangs_append_right o _ G _ K K' hK hK'⟩
      · exact Or.inr ⟨G ++ G', K + K', scan_runs_append o _ G _ G' K K' hK hK'⟩

theorem out_related_fwrite (a c : List Nat) (w v : World) (bs : List Nat)
    (h : out_related a c w v) : out_related a c (w.fwrite bs) (v.fwrite bs) := by
  obtain ⟨h1, x, h2, h3⟩ := h
  exact ⟨h1, x ++ bs, by simp [World.fwrite, h2], by simp [World.fwrite, h3]⟩

theorem out_related_printf (a c : List Nat) (w v : World) (p : parser_t) (s : String)
    (h : out_related a c w v) : out_related a c (w.printf p s) (v.printf p s) := h

theorem out_related_ite (a c : List Nat) (b : Bool) (w1 w2 v1 v2 : World)
    (h1 : out_related a c w1 v1) (h2 : out_related a c w2 v2) :
    out_related a c (if b then w1 else w2) (if b then v1 else v2) := by
  cases b <;> simpa

theorem fwrite_options (w : World) (bs : List Nat) : (w.fwrite bs).options = w.options := rfl

theorem printf_options (w : World) (p : parser_t) (s : String) :
    (w.printf p s).options = w.options := rfl

theorem world_ite_options (c : Prop) [Decidable c] (w1 w2 : World) :
    (if c then w1 else w2).options = if c then w1.options else w2.options := by
  split <;> rfl

theorem out_related_ite_prop (a c : List Nat) (b : Prop) [Decidable b] (w1 w2 v1 v2 : World)
    (h1 : out_related a c w1 v1) (h2 : out_related a c w2 v2) :
    out_related a c (if b then w1 else w2) (if b then v1 else v2) := by
  split <;> assumption

theorem sum_related_trans (a c : List Nat) (w u : World) (p q : parser_t)
    (r r' : Result ⊕ (Nat × parser_t × World)) (h : sum_related a c u q r r')
    (ho : u.options = w.options) (hb : q.pFileBuffer = p.pFileBuffer) :
    sum_related a c w p r r' := by
  cases r with
  | inl x =>
    cases r' with
    | inl y =>
      obtain ⟨h1, h2, h3, h4, h5⟩ := h
      exact ⟨h1, h2, h3, h4.trans ho, h5⟩
    | inr y => exact h
  | inr x =>
    cases r' with
    | inl y => exact h
    | inr y =>
      obtain ⟨h1, h2, h3, h4, h5⟩ := h
      exact ⟨h1, h2, h3, h4.trans ho, h5.trans hb⟩


theorem out_related_set_options (a c : List Nat) (w v : World) (o : options_t)
    (h : out_related a c w v) :
    out_related a c { w with options := o } { v with options := o } :=
  ⟨rfl, h.2⟩

theorem ite_buffer (c : Prop) [Decidable c] (p1 p2 : parser_t) (b : List Nat)
    (h1 : p1.pFileBuffer = b) (h2 : p2.pFileBuffer = b) :
    (if c then p1 else p2).pFileBuffer = b := by
  split <;> assumption

theorem comment_continuation_transfer (a c : List Nat) (fuel : Nat) :
    ∀ (fuel' head tail : Nat) (p : parser_t) (w v : World) (r : Nat × Nat × parser_t × World),
      fuel ≤ fuel' → out_related a c w v → comment_continuation fuel head tail p w = some r →
      ∃ v', comment_continuation fuel' head tail p v = some (r.1, r.2.1, r.2.2.1, v') ∧
        out_related a c r.2.2.2 v' ∧ r.2.2.2.options = w.options ∧
        r.2.2.1.pFileBuffer = p.pFileBuffer := by
  induction fuel using Nat.strong_induction_on with
  | _ fuel ih =>
    intro fuel' head tail p w v r hle hrel h
    have ho := hrel.1
    unfold comment_continuation at h ⊢
    simp only [world_ite_options, fwrite_options, printf_options, ite_self] at h ⊢
    simp only [← ho]
    split at h
    · next hc =>
      rw [if_pos hc]
      cases fuel with
      | zero => cases h
      | succ n =>
        obtain ⟨m, rfl⟩ : ∃ m, fuel' = m + 1 := ⟨fuel' - 1, by omega⟩
        simp only at h ⊢
        obtain ⟨v', e, r1, r2, r3⟩ := ih n (Nat.lt_succ_self n) m _ _ _ _ _ r (by omega)
          (out_related_ite_prop a c _ _ _ _ _
            (out_related_fwrite a c _ _ _ (out_related_printf a c w v p _ hrel))
            (out_related_printf a c w v p _ hrel)) h
        refine ⟨v', e, r1, ?_, ?_⟩
        · rw [r2]
          simp only [world_ite_options, fwrite_options, printf_options, ite_self]
        · rw [r3]
          exact ite_buffer _ _ _ _ rfl rfl
    · next hc =>
      rw [if_neg hc]
      simp only [Option.some.injEq] at h
      subst h
      exact ⟨v, rfl, hrel, rfl, rfl⟩

theorem comment_block_transfer (a c : List Nat) (S : List Nat) :
    ∀ (head tail : Nat) (p : parser_t) (w v : World) (r : Nat × Nat × parser_t × World),
      out_related a c w v → comment_block S head tail p w = r →
      ∃ v', comment_block S head tail p v = (r.1, r.2.1, r.2.2.1, v') ∧
        out_related a c r.2.2.2 v' ∧ r.2.2.2.options = w.options ∧
        r.2.2.1.pFileBuffer = p.pFileBuffer := by
  induction S with
  | nil =>
    intro head tail p w v r hrel h
    simp only [comment_block] at h ⊢
    subst h
    exact ⟨v, rfl, hrel, rfl, rfl⟩
  | cons x rest ih =>
    intro head tail p w v r hrel h
    have ho := hrel.1
    simp only [comment_block, ← ho] at h ⊢
    by_cases h0 : (x == 0) = true
    · simp only [h0, if_true] at h ⊢
      subst h
      exact ⟨v, rfl, hrel, rfl, rfl⟩
    · simp only [h0, if_false] at h ⊢
      by_cases h10 : (x == 10) = true
      · simp only [h10, if_true] at h ⊢
        obtain ⟨v', e, r1, r2, r3⟩ := ih _ _ _ _ _ r
          (out_related_ite_prop a c _ _ _ _ _ (out_related_fwrite a c _ _ _ hrel) hrel) h
        refine ⟨v', e, r1, ?_, r3⟩
        rw [r2]
        simp only [world_ite_options, fwrite_options, ite_self]
      · simp only [h10, if_false] at h ⊢
        by_cases h42 : (x == 42) = true
        · simp only [h42, if_true] at h ⊢
          by_cases h47 : (byteAt rest 0 == 47) = true
          · simp only [h47, if_true] at h ⊢
            subst h
            exact ⟨v, rfl, hrel, rfl, rfl⟩
          · simp only [h47, if_false] at h ⊢
            exact ih head (tail + 1) p w v r hrel h
        · simp only [h42, if_false] at h ⊢
          exact ih head (tail + 1) p w v r hrel h

theorem parse_comment_transfer (a c : List Nat) : transfers a c h2incn_parse_comment := by
  intro fuel fuel' p w v x hle hrel h
  have ho := hrel.1
  unfold h2incn_parse_comment at h ⊢
  simp only at h ⊢
  split at h
  · next hc =>
    rw [if_pos hc]
    simp only [Option.some.injEq] at h
    subst h
    exact ⟨_, rfl, hrel, rfl, fun hh => by cases hh⟩
  · next hc =>
    rw [if_neg hc]
    split at h
    · next hc2 =>
      rw [if_pos hc2]
      split at h
      · cases h
      · next hd tl q u heq =>
        obtain ⟨u', e, r1, r2, r3⟩ := comment_continuation_transfer a c fuel fuel' _ _ p w v _
          hle hrel heq
        rw [e]
        simp only at r1 r2 r3 ⊢
        simp only [Option.some.injEq] at h
        subst h
        have ho' : u.options = u'.options := r1.1
        simp only [world_ite_options, fwrite_options, ite_self, ← ho']
        refine ⟨_, rfl, ?_, r2, fun _ => ?_⟩
        · exact out_related_ite_prop a c _ _ _ _ _ (out_related_fwrite a c _ _ _ r1) r1
        · exact ite_buffer _ _ _ _ r3 r3
    · next hc2 =>
      rw [if_neg hc2]
      split at h
      · next hc3 =>
        rw [if_pos hc3]
        obtain ⟨u', e, r1, r2, r3⟩ := comment_block_transfer a c
          (p.pFileBuffer.drop (p.pNextToken + 1 + 1)) p.pNextToken (p.pNextToken + 1 + 1) p w v
          _ hrel rfl
        rw [e]
        have ho' := r1.1
        simp only [← ho']
        split at h
        · next hc4 =>
          rw [if_pos hc4]
          simp only [Option.some.injEq] at h
          subst h
          exact ⟨_, rfl, r1, r2, fun hh => by cases hh⟩
        · next hc4 =>
          rw [if_neg hc4]
          split at h
          · next hc5 =>
            rw [if_pos hc5]
            simp only [Option.some.injEq] at h
            subst h
            exact ⟨_, rfl, out_related_fwrite a c _ _ _ r1, r2, fun _ => r3⟩
          · next hc5 =>
            rw [if_neg hc5]
            simp only [Option.some.injEq] at h
            subst h
            exact ⟨_, rfl, r1, r2, fun _ => ite_buffer _ _ _ _ r3 r3⟩
      · next hc3 =>
        rw [if_neg hc3]
        simp only [Option.some.injEq] at h
        subst h
        exact ⟨_, rfl, hrel, rfl, fun hh => by cases hh⟩

theorem parse_comment_silently_transfer (a c : List Nat) :
    ∀ (fuel fuel' head : Nat) (p : parser_t) (w v : World) (x : Result),
      fuel ≤ fuel' → out_related a c w v → parse_comment_silently fuel head p w = some x →
      ∃ v', parse_comment_silently fuel' head p v = some (x.1, x.2.1, v') ∧
        out_related a c x.2.2 v' ∧ x.2.2.options = w.options ∧
        (x.1 = true → x.2.1.pFileBuffer = p.pFileBuffer) := by
  intro fuel fuel' head p w v x hle hrel h
  have ho := hrel.1
  unfold parse_comment_silently at h ⊢
  simp only at h ⊢
  simp only [← ho]
  split at h
  · cases h
  · next b q u heq =>
    obtain ⟨u', e, r1, r2, r3⟩ := parse_comment_transfer a c fuel fuel' _ _ _ _ hle
      (out_related_set_options a c w v { w.options with fComments := false } hrel) heq
    rw [e]
    simp only [Option.some.injEq] at h
    subst h
    simp only at r1 r2 r3 ⊢
    have ho' : u.options = u'.options := r1.1
    refine ⟨_, rfl, ?_, ?_, r3⟩
    · rw [← ho']
      exact out_related_set_options a c u u' _ r1
    · simp only [r2]


theorem sum_related_inl (a c : List Nat) (w : World) (p : parser_t) (x : Result)
    (r' : Result ⊕ (Nat × parser_t × World)) (h : sum_related a c w p (.inl x) r') :
    ∃ v', r' = .inl (x.1, x.2.1, v') ∧ out_related a c x.2.2 v' ∧
      x.2.2.options = w.options ∧ x.1 = false := by
  cases r' with
  | inr y => exact h.elim
  | inl y =>
    obtain ⟨yb, yq, yu⟩ := y
    obtain ⟨h1, h2, h3, h4, h5⟩ := h
    simp only at h1 h2 h3
    subst h1 h2
    exact ⟨yu, rfl, h3, h4, h5⟩

theorem sum_related_inr (a c : List Nat) (w : World) (p : parser_t)
    (x : Nat × parser_t × World)
    (r' : Result ⊕ (Nat × parser_t × World)) (h : sum_related a c w p (.inr x) r') :
    ∃ u', r' = .inr (x.1, x.2.1, u') ∧ out_related a c x.2.2 u' ∧
      x.2.2.options = w.options ∧ x.2.1.pFileBuffer = p.pFileBuffer := by
  cases r' with
  | inl y => exact h.elim
  | inr y =>
    obtain ⟨yk, yq, yu⟩ := y
    obtain ⟨h1, h2, h3, h4, h5⟩ := h
    simp only at h1 h2 h3
    subst h1 h2
    exact ⟨yu, rfl, h3, h4, h5⟩

theorem define_skip_to_name_transfer (a c : List Nat) (fuel : Nat) :
    ∀ (fuel' head : Nat) (p : parser_t) (w v : World) (r : Result ⊕ (Nat × parser_t × World)),
      fuel ≤ fuel' → out_related a c w v → define_skip_to_name fuel head p w = some r →
      ∃ r', define_skip_to_name fuel' head p v = some r' ∧ sum_related a c w p r r' := by
  induction fuel using Nat.strong_induction_on with
  | _ fuel ih =>
    intro fuel' head p w v r hle hrel h
    unfold define_skip_to_name at h ⊢
    simp only at h ⊢
    split at h
    · next hc1 =>
      rw [if_pos hc1]
      split at h
      · next hc2 =>
        rw [if_pos hc2]
        split at h
        · next hc3 =>
          rw [if_pos hc3]
          simp only [Option.some.injEq] at h
          subst h
          exact ⟨_, rfl, rfl, rfl, hrel, rfl, rfl⟩
        · next hc3 =>
          rw [if_neg hc3]
          split at h
          · cases h
          · next q u heq =>
            obtain ⟨u', ey, hr, hopt, -⟩ := parse_comment_silently_transfer a c fuel fuel' _ p w v
              _ hle hrel heq
            rw [ey]
            simp only [Option.some.injEq] at h ⊢
            subst h
            exact ⟨_, rfl, rfl, rfl, hr, hopt, rfl⟩
          · next q u heq =>
            obtain ⟨u', ey, hr, hopt, hbuf⟩ := parse_comment_silently_transfer a c fuel fuel' _
              p w v _ hle hrel heq
            rw [ey]
            simp only at hopt hbuf ⊢
            cases fuel with
            | zero => cases h
            | succ n =>
              obtain ⟨m, rfl⟩ : ∃ m, fuel' = m + 1 := ⟨fuel' - 1, by omega⟩
              simp only at h ⊢
              obtain ⟨r', er, hs⟩ := ih n (Nat.lt_succ_self n) m _ _ _ _ r (by omega) hr h
              exact ⟨r', er, sum_related_trans a c w u p q r r' hs hopt (hbuf trivial)⟩
      · next hc2 =>
        rw [if_neg hc2]
        simp only [Option.some.injEq] at h
        subst h
        exact ⟨_, rfl, rfl, rfl, hrel, rfl, rfl⟩
    · next hc1 =>
      rw [if_neg hc1]
      simp only [Option.some.injEq] at h
      subst h
      exact ⟨_, rfl, rfl, rfl, hrel, rfl, rfl⟩

theorem define_skip_to_value_transfer (a c : List Nat) (fuel : Nat) :
    ∀ (fuel' vhead : Nat) (p : parser_t) (w v : World)
      (r : Result ⊕ (Nat × parser_t × World)),
      fuel ≤ fuel' → out_related a c w v → define_skip_to_value fuel vhead p w = some r →
      ∃ r', define_skip_to_value fuel' vhead p v = some r' ∧ sum_related a c w p r r' := by
  induction fuel using Nat.strong_induction_on with
  | _ fuel ih =>
    intro fuel' vhead p w v r hle hrel h
    unfold define_skip_to_value at h ⊢
    simp only at h ⊢
    split at h
    · next hc1 =>
      rw [if_pos hc1]
      split at h
      · next hc2 =>
        rw [if_pos hc2]
        split at h
        · cases h
        · next q u heq =>
          obtain ⟨u', ey, hr, hopt, -⟩ := parse_comment_silently_transfer a c fuel fuel' _ p w v
            _ hle hrel heq
          rw [ey]
          simp only [Option.some.injEq] at h ⊢
          subst h
          exact ⟨_, rfl, rfl, rfl, hr, hopt, rfl⟩
        · next q u heq =>
          obtain ⟨u', ey, hr, hopt, hbuf⟩ := parse_comment_silently_transfer a c fuel fuel' _
            p w v _ hle hrel heq
          rw [ey]
          simp only at hopt hbuf ⊢
          cases fuel with
          | zero => cases h
          | succ n =>
            obtain ⟨m, rfl⟩ : ∃ m, fuel' = m + 1 := ⟨fuel' - 1, by omega⟩
            simp only at h ⊢
            obtain ⟨r', er, hs⟩ := ih n (Nat.lt_succ_self n) m _ _ _ _ r (by omega) hr h
            exact ⟨r', er, sum_related_trans a c w u p q r r' hs hopt (hbuf trivial)⟩
      · next hc2 =>
        rw [if_neg hc2]
        simp only [Option.some.injEq] at h
        subst h
        exact ⟨_, rfl, rfl, rfl, hrel, rfl, rfl⟩
    · next hc1 =>
      rw [if_neg hc1]
      simp only [Option.some.injEq] at h
      subst h
      exact ⟨_, rfl, rfl, rfl, hrel, rfl, rfl⟩

theorem define_continued_line_transfer (a c : List Nat) (fuel : Nat) :
    ∀ (fuel' vhead vtail : Nat) (p : parser_t) (w v : World)
      (r : Result ⊕ (Nat × parser_t × World)),
      fuel ≤ fuel' → out_related a c w v → define_continued_line fuel vhead vtail p w = some r →
      ∃ r', define_continued_line fuel' vhead vtail p v = some r' ∧
        sum_related a c w p r r' := by
  induction fuel using Nat.strong_induction_on with
  | _ fuel ih =>
    intro fuel' vhead vtail p w v r hle hrel h
    unfold define_continued_line at h ⊢
    simp only at h ⊢
    split at h
    · next hc1 =>
      rw [if_pos hc1]
      split at h
      · next hc2 =>
        rw [if_pos hc2]
        split at h
        · cases h
        · next q u heq =>
          obtain ⟨u', ey, hr, hopt, -⟩ := parse_comment_silently_transfer a c fuel fuel' _ p w v
            _ hle hrel heq
          rw [ey]
          simp only [Option.some.injEq] at h ⊢
          subst h
          exact ⟨_, rfl, rfl, rfl, hr, hopt, rfl⟩
        · next q u heq =>
          obtain ⟨u', ey, hr, hopt, hbuf⟩ := parse_comment_silently_transfer a c fuel fuel' _
            p w v _ hle hrel heq
          rw [ey]
          simp only at hopt hbuf ⊢
          cases fuel with
          | zero => cases h
          | succ n =>
            obtain ⟨m, rfl⟩ : ∃ m, fuel' = m + 1 := ⟨fuel' - 1, by omega⟩
            simp only at h ⊢
            obtain ⟨r', er, hs⟩ := ih n (Nat.lt_succ_self n) m _ _ _ _ _ r (by omega) hr h
            exact ⟨r', er, sum_related_trans a c w u p q r r' hs hopt (hbuf trivial)⟩
      · next hc2 =>
        rw [if_neg hc2]
        cases fuel with
        | zero => cases h
        | succ n =>
          obtain ⟨m, rfl⟩ : ∃ m, fuel' = m + 1 := ⟨fuel' - 1, by omega⟩
          simp only at h ⊢
          exact ih n (Nat.lt_succ_self n) m _ _ _ _ _ r (by omega) hrel h
    · next hc1 =>
      rw [if_neg hc1]
      simp only [Option.some.injEq] at h
      subst h
      exact ⟨_, rfl, rfl, rfl, hrel, rfl, rfl⟩

theorem define_continuation_transfer (a c : List Nat) (fuel : Nat) :
    ∀ (fuel' vhead vtail : Nat) (p : parser_t) (w v : World)
      (r : Result ⊕ (Nat × parser_t × World)),
      fuel ≤ fuel' → out_related a c w v → define_continuation fuel vhead vtail p w = some r →
      ∃ r', define_continuation fuel' vhead vtail p v = some r' ∧
        sum_related a c w p r r' := by
  induction fuel using Nat.strong_induction_on with
  | _ fuel ih =>
    intro fuel' vhead vtail p w v r hle hrel h
    unfold define_continuation at h ⊢
    simp only at h ⊢
    split at h
    · next hc1 =>
      rw [if_pos hc1]
      split at h
      · cases h
      · next x heq =>
        obtain ⟨r', er, hs⟩ := define_continued_line_transfer a c fuel fuel' _ _ _ w v _ hle
          hrel heq
        obtain ⟨u', rfl, h3, h4, h5⟩ := sum_related_inl a c _ _ _ _ hs
        rw [er]
        simp only [Option.some.injEq] at h ⊢
        subst h
        exact ⟨_, rfl, rfl, rfl, h3, h4, h5⟩
      · next k q u heq =>
        obtain ⟨r', er, hs⟩ := define_continued_line_transfer a c fuel fuel' _ _ _ w v _ hle
          hrel heq
        obtain ⟨u', rfl, h3, h4, h5⟩ := sum_related_inr a c _ _ _ _ hs
        rw [er]
        simp only at h3 h4 h5 ⊢
        cases fuel with
        | zero => cases h
        | succ n =>
          obtain ⟨m, rfl⟩ : ∃ m, fuel' = m + 1 := ⟨fuel' - 1, by omega⟩
          simp only at h ⊢
          obtain ⟨r', er', hs'⟩ := ih n (Nat.lt_succ_self n) m _ _ _ _ _ r (by omega) h3 h
          refine ⟨r', er', sum_related_trans a c w u p q r r' hs' h4 ?_⟩
          rw [h5]
          try exact ite_buffer _ _ _ _ rfl rfl
    · next hc1 =>
      rw [if_neg hc1]
      simp only [Option.some.injEq] at h
      subst h
      exact ⟨_, rfl, rfl, rfl, hrel, rfl, rfl⟩


theorem conditional_loop_transfer (a c : List Nat)
    (hT : transfers a c h2incn_parse_comment) (fuel : Nat) :
    ∀ (fuel' head : Nat) (p : parser_t) (w v : World) (r : Result ⊕ (Nat × parser_t × World)),
      fuel ≤ fuel' → out_related a c w v → conditional_loop fuel head p w = some r →
      ∃ r', conditional_loop fuel' head p v = some r' ∧ sum_related a c w p r r' := by
  induction fuel using Nat.strong_induction_on with
  | _ fuel ih =>
    intro fuel' head p w v r hle hrel h
    have ho := hrel.1
    unfold conditional_loop at h ⊢
    simp only [world_ite_options, fwrite_options, ite_self] at h ⊢
    rw [← ho]
    split at h
    · next hc1 =>
      rw [if_pos hc1]
      split at h
      · next hc2 =>
        rw [if_pos hc2]
        split at h
        · cases h
        · next q u heq =>
          obtain ⟨u', ey, hr, hopt, -⟩ := hT _ fuel' _ _ _ _ hle
            (by
              repeat
                first
                | with_reducible apply out_related_printf
                | with_reducible apply out_related_fwrite
                | with_reducible apply out_related_ite_prop
                | exact hrel) heq
          rw [ey]
          simp only [Option.some.injEq] at h ⊢
          subst h
          refine ⟨_, rfl, rfl, rfl, hr, ?_, rfl⟩
          rw [hopt]
          simp only [world_ite_options, fwrite_options, ite_self]
        · next q u heq =>
          obtain ⟨u', ey, hr, hopt, hbuf⟩ := hT _ fuel' _ _ _ _ hle
            (by
              repeat
                first
                | with_reducible apply out_related_printf
                | with_reducible apply out_related_fwrite
                | with_reducible apply out_related_ite_prop
                | exact hrel) heq
          rw [ey]
          simp only [world_ite_options, fwrite_options, ite_self] at hopt
          simp only at hbuf ⊢
          cases fuel with
          | zero => cases h
          | succ n =>
            obtain ⟨m, rfl⟩ : ∃ m, fuel' = m + 1 := ⟨fuel' - 1, by omega⟩
            simp only at h ⊢
            obtain ⟨r', er, hs⟩ := ih n (Nat.lt_succ_self n) m _ _ _ _ r (by omega) hr h
            exact ⟨r', er, sum_related_trans a c w u p q r r' hs hopt (hbuf trivial)⟩
      · next hc2 =>
        rw [if_neg hc2]
        cases fuel with
        | zero => cases h
        | succ n =>
          obtain ⟨m, rfl⟩ : ∃ m, fuel' = m + 1 := ⟨fuel' - 1, by omega⟩
          simp only at h ⊢
          obtain ⟨r', er, hs⟩ := ih n (Nat.lt_succ_self n) m _ _ _ _ r (by omega)
            (by
              repeat
                first
                | with_reducible apply out_related_printf
                | with_reducible apply out_related_fwrite
                | with_reducible apply out_related_ite_prop
                | exact hrel) h
          refine ⟨r', er, sum_related_trans a c w _ p p r r' hs ?_ rfl⟩
          simp only [world_ite_options, fwrite_options, ite_self]
    · next hc1 =>
      rw [if_neg hc1]
      simp only [Option.some.injEq] at h
      subst h
      exact ⟨_, rfl, rfl, rfl, hrel, rfl, rfl⟩

theorem parse_conditional_transfer (a c : List Nat)
    (hT : transfers a c h2incn_parse_comment) (keyword : List Nat) (skip : Nat) :
    transfers a c (parse_conditional keyword skip) := by
  intro fuel fuel' p w v x hle hrel h
  unfold parse_conditional at h ⊢
  simp only at h ⊢
  split at h
  · cases h
  · next r heq =>
    obtain ⟨r', er, hs⟩ := conditional_loop_transfer a c hT fuel fuel' _ p _ _ _ hle
      (out_related_fwrite a c w v keyword hrel) heq
    rw [er]
    cases r' with
    | inr y => exact absurd hs (by simp [sum_related])
    | inl y =>
      obtain ⟨h1, h2, h3, h4, h5⟩ := hs
      simp only [Option.some.injEq] at h
      subst h
      obtain ⟨yb, yq, yu⟩ := y
      simp only at h1 h2 h3 h4 h5
      subst h1 h2
      exact ⟨yu, rfl, h3, h4, fun hh => by rw [h5] at hh; cases hh⟩
  · next k q u heq =>
    obtain ⟨r', er, hs⟩ := conditional_loop_transfer a c hT fuel fuel' _ p _ _ _ hle
      (out_related_fwrite a c w v keyword hrel) heq
    rw [er]
    cases r' with
    | inl y => exact absurd hs (by simp [sum_related])
    | inr y =>
      obtain ⟨h1, h2, h3, h4, h5⟩ := hs
      simp only [Option.some.injEq] at h
      subst h
      obtain ⟨yk, yq, yu⟩ := y
      simp only at h1 h2 h3 h4 h5
      subst h1 h2
      exact ⟨yu, rfl, h3, h4, fun _ => h5⟩

theorem parse_else_endif_transfer (a c : List Nat)
    (hT : transfers a c h2incn_parse_comment) (keyword : List Nat) (skip : Nat) :
    transfers a c (parse_else_endif keyword skip) := by
  intro fuel fuel' p w v x hle hrel h
  have ho := hrel.1
  unfold parse_else_endif at h ⊢
  simp only [world_ite_options, fwrite_options, ite_self] at h ⊢
  simp only [← ho]
  split at h
  · next hc =>
    rw [if_pos hc]
    obtain ⟨u', ey, hr, hopt, hbuf⟩ := hT fuel fuel' _ _ _ _ hle
      (out_related_ite_prop a c _ _ _ _ _
        (out_related_fwrite a c _ _ _ (out_related_fwrite a c _ _ _ hrel))
        (out_related_fwrite a c _ _ _ hrel)) h
    simp only [world_ite_options, fwrite_options, ite_self] at hopt
    exact ⟨u', ey, hr, hopt, hbuf⟩
  · next hc =>
    rw [if_neg hc]
    simp only [Option.some.injEq] at h
    subst h
    exact ⟨_, rfl, out_related_fwrite a c w v keyword hrel, rfl, fun _ => rfl⟩

theorem define_warn_related (a c : List Nat) (w v : World) (q : parser_t) (key : List Nat)
    (s : String) (h : out_related a c w v) :
    out_related a c
      (if w.options.fPreprocess && (hash_map_find w.pDefinesMap key).isNode then
        w.printf q s else w)
      (if v.options.fPreprocess && (hash_map_find v.pDefinesMap key).isNode then
        v.printf q s else v) := by
  split <;> split <;> exact h

theorem define_value_related (a c : List Nat) (w v : World) (b : Prop) [Decidable b]
    (b2 : Bool) (m m' : hash_map_t) (t : List Nat) (h : out_related a c w v) :
    out_related a c
      { (if b then (if b2 then w.fwrite [32] else w).fwrite t else w) with pDefinesMap := m }
      { (if b then (if b2 then v.fwrite [32] else v).fwrite t else v) with pDefinesMap := m' } :=
  out_related_ite_prop a c b _ _ _ _
    (out_related_fwrite a c _ _ _ (out_related_ite a c b2 _ _ _ _
      (out_related_fwrite a c _ _ _ h) h)) h

theorem parse_define_transfer (a c : List Nat) : transfers a c h2incn_parse_define := by
  intro fuel fuel' p w v x hle hrel h
  unfold h2incn_parse_define at h ⊢
  simp only at h ⊢
  split at h
  · cases h
  · next r heq =>
    obtain ⟨r', er, hs⟩ := define_skip_to_name_transfer a c fuel fuel' _ p _ _ _ hle
      (out_related_fwrite a c w v _ hrel) heq
    obtain ⟨u', rfl, h3, h4, h5⟩ := sum_related_inl a c _ _ _ _ hs
    rw [er]
    simp only [Option.some.injEq] at h ⊢
    subst h
    exact ⟨u', rfl, h3, h4, fun hh => by rw [h5] at hh; cases hh⟩
  · next k1 q1 u1 heq1 =>
    obtain ⟨r', er, hs⟩ := define_skip_to_name_transfer a c fuel fuel' _ p _ _ _ hle
      (out_related_fwrite a c w v _ hrel) heq1
    obtain ⟨u1', rfl, h3, h4, h5⟩ := sum_related_inr a c _ _ _ _ hs
    rw [er]
    simp only at h3 h4 h5 ⊢
    replace h4 : u1.options = w.options := h4
    split at h
    · cases h
    · next r2 heq2 =>
      obtain ⟨r', er2, hs2⟩ := define_skip_to_value_transfer a c fuel fuel' _ q1 _ _ _ hle
        (define_warn_related a c _ _ q1 _ _ (out_related_fwrite a c _ _ _ h3)) heq2
      obtain ⟨u', rfl, g3, g4, g5⟩ := sum_related_inl a c _ _ _ _ hs2
      rw [er2]
      simp only [Option.some.injEq] at h ⊢
      subst h
      refine ⟨u', rfl, g3, ?_, fun hh => by rw [g5] at hh; cases hh⟩
      rw [g4]
      simp only [world_ite_options, fwrite_options, printf_options, ite_self]
      exact h4
    · next k2 q2 u2 heq2 =>
      obtain ⟨r', er2, hs2⟩ := define_skip_to_value_transfer a c fuel fuel' _ q1 _ _ _ hle
        (define_warn_related a c _ _ q1 _ _ (out_related_fwrite a c _ _ _ h3)) heq2
      obtain ⟨u2', rfl, g3, g4, g5⟩ := sum_related_inr a c _ _ _ _ hs2
      rw [er2]
      simp only [world_ite_options, fwrite_options, printf_options, ite_self] at g3 g4 g5 ⊢
      split at h
      · cases h
      · next r3 heq3 =>
        obtain ⟨r', er3, hs3⟩ := define_continuation_transfer a c fuel fuel' _ _ q2 _ _ _ hle
          g3 heq3
        obtain ⟨u', rfl, f3, f4, f5⟩ := sum_related_inl a c _ _ _ _ hs3
        rw [er3]
        simp only [Option.some.injEq] at h ⊢
        subst h
        exact ⟨u', rfl, f3, f4.trans (g4.trans h4), fun hh => by rw [f5] at hh; cases hh⟩
      · next k3 q3 u3 heq3 =>
        obtain ⟨r', er3, hs3⟩ := define_continuation_transfer a c fuel fuel' _ _ q2 _ _ _ hle
          g3 heq3
        obtain ⟨u3', rfl, f3, f4, f5⟩ := sum_related_inr a c _ _ _ _ hs3
        rw [er3]
        simp only [Option.some.injEq] at h f3 f4 f5 ⊢
        subst h
        simp only [hash_map_insert_fst]
        refine ⟨_, rfl, ?_, ?_, fun _ => ?_⟩
        · obtain ⟨e1, x, e2, e3⟩ := define_value_related a c u3 u3' (k3 > k2)
            (byteAt q1.pFileBuffer k2 != 40) u3.pDefinesMap u3'.pDefinesMap
            (slice q1.pFileBuffer k2 (k3 - k2)) f3
          refine ⟨?_, x, e2, e3⟩
          simp only [world_ite_options, fwrite_options, ite_self] at e1 ⊢
          exact e1
        · simp only [world_ite_options, fwrite_options, printf_options, ite_self]
          exact f4.trans (g4.trans h4)
        · exact f5.trans (g5.trans h5)

theorem parse_undef_transfer (a c : List Nat) :
    transfers a c (fun _ p w => some (h2incn_parse_undef p w)) := by
  intro fuel fuel' p w v x hle hrel h
  simp only [Option.some.injEq] at h
  subst h
  refine ⟨_, rfl, ?_, ?_, fun _ => rfl⟩
  · unfold h2incn_parse_undef
    exact out_related_ite a c _ _ _ _ _
      (out_related_fwrite a c _ _ _ (out_related_fwrite a c _ _ _ (out_related_fwrite a c _ _ _ hrel)))
      (out_related_fwrite a c _ _ _ (out_related_fwrite a c _ _ _ hrel))
  · unfold h2incn_parse_undef
    simp only [world_ite_options, fwrite_options, ite_self]

theorem parse_other_line_transfer (a c : List Nat) (head : Nat) :
    transfers a c
      (fun _ p w => some (true, (parse_other_line head p w).1, (parse_other_line head p w).2)) := by
  intro fuel fuel' p w v x hle hrel h
  have ho := hrel.1
  simp only [Option.some.injEq] at h
  subst h
  refine ⟨_, rfl, ?_, ?_, fun _ => ?_⟩
  · unfold parse_other_line
    simp only [← ho]
    exact out_related_ite a c _ _ _ _ _ (out_related_fwrite a c _ _ _ hrel) hrel
  · unfold parse_other_line
    simp only [world_ite_options, fwrite_options, ite_self]
  · unfold parse_other_line
    simp only
    repeat' split
    all_goals rfl


theorem dispatch_transfer (a c : List Nat)
    (read read' : parser_t → List Nat → World → Option Result) (head : Nat)
    (fuel fuel' : Nat) (p : parser_t) (w v : World) (x : Result)
    (hle : fuel ≤ fuel') (hrel : out_related a c w v)
    (hinc : startsWith p.pFileBuffer head (bytes "#include ") = false)
    (h : dispatch read fuel head p w = some x) :
    ∃ v', dispatch read' fuel' head p v = some (x.1, x.2.1, v') ∧ out_related a c x.2.2 v' ∧
      x.2.2.options = w.options ∧ (x.1 = true → x.2.1.pFileBuffer = p.pFileBuffer) := by
  have hC := parse_comment_transfer a c
  unfold dispatch at h ⊢
  simp only [hinc, Bool.false_eq_true, if_false] at h ⊢
  split at h
  · next h35 =>
    rw [if_pos h35]
    split at h
    · next hd =>
      rw [if_pos hd]
      exact parse_define_transfer a c fuel fuel' p w v x hle hrel h
    · next hd =>
      rw [if_neg hd]
      split at h
      · next hd =>
        rw [if_pos hd]
        exact parse_undef_transfer a c fuel fuel' p w v x hle hrel h
      · next hd =>
        rw [if_neg hd]
        split at h
        · next hd =>
          rw [if_pos hd]
          exact parse_conditional_transfer a c hC _ _ fuel fuel' p w v x hle hrel h
        · next hd =>
          rw [if_neg hd]
          split at h
          · next hd =>
            rw [if_pos hd]
            exact parse_conditional_transfer a c hC _ _ fuel fuel' p w v x hle hrel h
          · next hd =>
            rw [if_neg hd]
            split at h
            · next hd =>
              rw [if_pos hd]
              exact parse_conditional_transfer a c hC _ _ fuel fuel' p w v x hle hrel h
            · next hd =>
              rw [if_neg hd]
              split at h
              · next hd =>
                rw [if_pos hd]
                exact parse_conditional_transfer a c hC _ _ fuel fuel' p w v x hle hrel h
              · next hd =>
                rw [if_neg hd]
                split at h
                · next hd =>
                  rw [if_pos hd]
                  exact parse_else_endif_transfer a c hC _ _ fuel fuel' p w v x hle hrel h
                · next hd =>
                  rw [if_neg hd]
                  split at h
                  · next hd =>
                    rw [if_pos hd]
                    exact parse_else_endif_transfer a c hC _ _ fuel fuel' p w v x hle hrel h
                  · next hd =>
                    rw [if_neg hd]
                    exact parse_other_line_transfer a c head fuel fuel' p w v x hle hrel h
  · next h35 =>
    rw [if_neg h35]
    split at h
    · next hd =>
      rw [if_pos hd]
      exact hC fuel fuel' p w v x hle hrel h
    · next hd =>
      rw [if_neg hd]
      exact parse_other_line_transfer a c head fuel fuel' p w v x hle hrel h

theorem parse_loop_transfer (a c : List Nat) (fs fs' : List Nat → Option (List Nat))
    (fuel : Nat) :
    ∀ (fuel' : Nat) (p : parser_t) (w v : World) (x : Result),
      fuel ≤ fuel' → out_related a c w v →
      (∀ i, startsWith p.pFileBuffer i (bytes "#include ") = false) →
      parse_loop fs fuel p w = some x →
      ∃ v', parse_loop fs' fuel' p v = some (x.1, x.2.1, v') ∧ out_related a c x.2.2 v' ∧
        x.2.2.options = w.options := by
  induction fuel with
  | zero =>
    intro fuel' p w v x hle hrel hinc h
    by_cases h0 : byteAt p.pFileBuffer p.pNextToken = 0
    · rw [parse_loop_end fs 0 p w h0] at h
      rw [parse_loop_end fs' fuel' p v h0]
      cases h
      exact ⟨v, rfl, hrel, rfl⟩
    · rw [parse_loop_zero fs p w h0] at h
      cases h
  | succ n ih =>
    intro fuel' p w v x hle hrel hinc h
    by_cases h0 : byteAt p.pFileBuffer p.pNextToken = 0
    · rw [parse_loop_end fs _ p w h0] at h
      rw [parse_loop_end fs' fuel' p v h0]
      cases h
      exact ⟨v, rfl, hrel, rfl⟩
    · obtain ⟨m, rfl⟩ : ∃ m, fuel' = m + 1 := ⟨fuel' - 1, by omega⟩
      obtain ⟨t, ht⟩ : ∃ t, t =
          (if byteAt p.pFileBuffer (scan isBlank p.pFileBuffer p.pNextToken) == 13 then
            scan isBlank p.pFileBuffer p.pNextToken + 1
          else scan isBlank p.pFileBuffer p.pNextToken) := ⟨_, rfl⟩
      rw [parse_loop_round fs n p w h0 _ t rfl ht] at h
      rw [parse_loop_round fs' m p v h0 _ t rfl ht]
      split at h
      · next c10 =>
        rw [if_pos c10]
        exact ih m _ (w.fwrite _) (v.fwrite _) x (by omega) (out_related_fwrite a c _ _ _ hrel) hinc h
      · next c10 =>
        rw [if_neg c10]
        split at h
        · next c0 =>
          rw [if_pos c0]
          cases h
          exact ⟨v, rfl, hrel, rfl⟩
        · next c0 =>
          rw [if_neg c0]
          split at h
          · cases h
          · next q u heq =>
            obtain ⟨u', e, hr, ho, -⟩ := dispatch_transfer a c _
              (read_included (h2incn_parse fs' m) fs') t n m { p with pNextToken := t } w v _
              (by omega) hrel (hinc t) heq
            rw [e]
            cases h
            exact ⟨u', rfl, hr, ho⟩
          · next q u heq =>
            obtain ⟨u', e, hr, ho, hb⟩ := dispatch_transfer a c _
              (read_included (h2incn_parse fs' m) fs') t n m { p with pNextToken := t } w v _
              (by omega) hrel (hinc t) heq
            rw [e]
            simp only at hr ho hb ⊢
            obtain ⟨v', e2, hr2, ho2⟩ := ih m q u u' x (by omega) hr
              (by rw [hb trivial]; exact hinc) h
            exact ⟨v', e2, hr2, ho2.trans ho⟩

theorem parse_transfer (a c : List Nat) (fs fs' : List Nat → Option (List Nat))
    (fuel fuel' : Nat) (p : parser_t) (w v : World) (x : Result)
    (hle : fuel ≤ fuel') (hrel : out_related a c w v)
    (hinc : ∀ i, startsWith p.pFileBuffer i (bytes "#include ") = false)
    (h : h2incn_parse fs fuel p w = some x) :
    ∃ v', h2incn_parse fs' fuel' p v = some (x.1, x.2.1, v') ∧ out_related a c x.2.2 v' ∧
      x.2.2.options = w.options := by
  have ho := hrel.1
  unfold h2incn_parse at h ⊢
  obtain ⟨v', e, hr, hopt⟩ := parse_loop_transfer a c fs fs' fuel fuel' p _
    (if v.options.fVerbose then v.printf p "processing file" else v) x hle
    (by rw [← ho]; exact out_related_ite a c _ _ _ _ _ hrel hrel) hinc h
  refine ⟨v', e, hr, ?_⟩
  rw [hopt]
  simp only [world_ite_options, printf_options, ite_self]

theorem startsWith_cons (b : Nat) (Y : List Nat) (i : Nat) (pat : List Nat) :
    startsWith (b :: Y) (i + 1) pat = startsWith Y i pat := by
  simp only [startsWith, slice_cons]

theorem startsWith_include_head (b : Nat) (Y : List Nat) (hb : b ≠ 35) :
    startsWith (b :: Y) 0 (bytes "#include ") = false := by
  rw [Bool.eq_false_iff]
  intro h
  simp only [startsWith, beq_iff_eq] at h
  have h2 : byteAt (slice (b :: Y) 0 (bytes "#include ").length) 0 = 35 := by rw [h]; rfl
  exact hb h2

/-- A line without `#include ` in front of a text without it: the whole has
none. -/
theorem line_no_include (term R : List Nat) (ht : term = [10] ∨ term = [13, 10])
    (hR : ∀ j, startsWith R j (bytes "#include ") = false) :
    ∀ (B : List Nat), (∀ A X, B ≠ A ++ (bytes "#include " ++ X)) →
      ∀ i, startsWith (B ++ (term ++ R)) i (bytes "#include ") = false := by
  have hpat : ∀ c ∈ bytes "#include ", c ≠ 13 ∧ c ≠ 10 := by decide
  have hterm : ∀ i, startsWith (term ++ R) (i + 1) (bytes "#include ") = false := by
    intro i
    rcases ht with h | h
    · subst h
      exact (startsWith_cons _ _ _ _).trans (hR i)
    · subst h
      rw [show [13, 10] ++ R = 13 :: 10 :: R from rfl, startsWith_cons]
      cases i with
      | zero => exact startsWith_include_head 10 R (by decide)
      | succ k => exact (startsWith_cons _ _ _ _).trans (hR k)
  have hzero : ∀ (B : List Nat), (∀ A X, B ≠ A ++ (bytes "#include " ++ X)) →
      startsWith (B ++ (term ++ R)) 0 (bytes "#include ") = false := by
    intro B hB
    rw [Bool.eq_false_iff]
    intro h
    obtain ⟨t, rest, e, ht'⟩ : ∃ t rest, term ++ R = t :: rest ∧ (t = 13 ∨ t = 10) := by
      rcases ht with h | h
      · exact ⟨10, R, by rw [h]; rfl, Or.inr rfl⟩
      · exact ⟨13, 10 :: R, by rw [h]; rfl, Or.inl rfl⟩
    rw [e] at h
    obtain ⟨X, hX⟩ := startsWith_prefix _ hpat t ht' rest B h
    exact hB [] X hX
  intro B
  induction B with
  | nil =>
    intro hB i
    cases i with
    | zero => exact hzero [] hB
    | succ k => exact hterm k
  | cons b B' ih =>
    intro hB i
    cases i with
    | zero => exact hzero (b :: B') hB
    | succ k =>
      rw [List.cons_append, startsWith_cons]
      exact ih (fun A X hA => hB (b :: A) X (by rw [hA]; rfl)) k

theorem plain_lines_no_include (ls : List (List Nat × List Nat)) (h : plain_lines ls = true) :
    ∀ i, startsWith (lines_text ls) i (bytes "#include ") = false := by
  induction ls with
  | nil => exact hasInclude_at [] rfl
  | cons l ls ih =>
    simp only [plain_lines, List.all_cons, Bool.and_eq_true] at h
    obtain ⟨⟨hl1, hl2⟩, hrest⟩ := h
    have hls := ih (by simpa [plain_lines] using hrest)
    exact line_no_include l.2 (lines_text ls) (line_end_cases l.2 hl2) hls l.1
      (plain_text_of_isPlainLine l.1 hl1).2.2

theorem byteAt_length (T : List Nat) : byteAt T T.length = 0 := by
  have hd : T.drop T.length = [] := List.drop_length T
  rw [byteAt_of_drop_zero hd]
  rfl

/-- A text that scans with success on its own is run over, wherever it
stands, with the output of its own scan. -/
theorem own_scan_runs (o : options_t) (T oT : List Nat) (hT : hangs_or_runs o T)
    (hinc : ∀ i, startsWith T i (bytes "#include ") = false)
    (fs : List Nat → Option (List Nat)) (n : Nat) (fn : List Nat) (w : World)
    (ho : w.options = o)
    (h : (h2incn_parse fs n ⟨fn, T, 0, 0, 1⟩ w).map (fun r => (r.1, r.2.2.out))
      = some (true, w.out ++ oT)) :
    ∃ K, scan_runs o T oT K := by
  rcases hx : h2incn_parse fs n ⟨fn, T, 0, 0, 1⟩ w with _ | x
  · rw [hx] at h
    cases h
  rw [hx] at h
  simp only [Option.map_some', Option.some.injEq, Prod.mk.injEq] at h
  obtain ⟨hx1, hx2⟩ := h
  unfold h2incn_parse at hx
  obtain ⟨w0, hw0⟩ : ∃ w0, w0 = (if w.options.fVerbose then
      w.printf ⟨fn, T, 0, 0, 1⟩ "processing file" else w) := ⟨_, rfl⟩
  rw [← hw0] at hx
  have hw0o : w0.options = o := by
    rw [hw0, world_ite_options]
    simp only [printf_options, ite_self]
    exact ho
  have hw0out : w0.out = w.out := by
    rw [hw0]
    split <;> rfl
  have hd : (⟨fn, T, 0, 0, 1⟩ : parser_t).pFileBuffer.drop (⟨fn, T, 0, 0, 1⟩ : parser_t).pNextToken
      = T ++ [] := by simp
  rcases hT with ⟨K, hK⟩ | ⟨G, K, hK⟩
  · obtain ⟨v', e, -, -⟩ := parse_loop_transfer [] [] fs fs n (K + n) ⟨fn, T, 0, 0, 1⟩ w0 w0 x
      (by omega) ⟨rfl, w0.out, rfl, rfl⟩ hinc hx
    rw [hK fs n ⟨fn, T, 0, 0, 1⟩ w0 [] hw0o hd] at e
    cases e
  · obtain ⟨v', e, ⟨-, t, e1, e2⟩, -⟩ := parse_loop_transfer [] [] fs fs n (K + n)
      ⟨fn, T, 0, 0, 1⟩ w0 w0 x (by omega) ⟨rfl, w0.out, rfl, rfl⟩ hinc hx
    obtain ⟨p', w', e3, b1, c1, o1, -, -⟩ := hK fs n ⟨fn, T, 0, 0, 1⟩ w0 [] hw0o hd
    have hend : byteAt p'.pFileBuffer p'.pNextToken = 0 := by
      rw [b1, c1]
      simp only [Nat.zero_add]
      exact byteAt_length T
    rw [e3, parse_loop_end fs n p' w' hend] at e
    simp only [Option.some.injEq, Prod.mk.injEq] at e
    obtain ⟨-, -, e5⟩ := e
    have hG : G = oT := by
      have h1 : w0.out ++ G = w.out ++ oT := by
        rw [← o1, e5, e2, ← hx2, e1]
      rw [hw0out] at h1
      exact List.append_cancel_left h1
    exact ⟨K, hG ▸ hK⟩

theorem include_finish_line (b : Bool) (tail : Nat) (p : parser_t) (w : World)
    (post rest : List Nat) (hd : p.pFileBuffer.drop tail = post ++ 10 :: rest)
    (hpost : ∀ c ∈ post, c ≠ 0 ∧ c ≠ 10) :
    include_finish b tail p w =
      (b, { p with iLineNum := p.iLineNum + 1, pNextToken := tail + post.length + 1 }, w) := by
  have s1 : scan (fun c => c != 0 && c != 10) p.pFileBuffer tail = tail + post.length :=
    scan_run _ 10 hd (fun x hx => by simp [(hpost x hx).1, (hpost x hx).2]) rfl
  have b1 : byteAt p.pFileBuffer (tail + post.length) = 10 := by
    rw [byteAt_of_drop_zero (drop_add_of_drop hd)]
    rfl
  unfold include_finish
  simp only [s1, b1, beq_self_eq_true, if_true]

/-- The loop of `h2incn_parse` over a text `TP`, an `#include "f"` line for a
new file `f` that scans with success on its own, and a text `TS` that ends
the buffer: the three outputs follow one another. -/
theorem include_line_splice (fs : List Nat → Option (List Nat)) (f C TP TS oP oC oS : List Nat)
    (KP KS nC : Nat) (o : options_t) (hKP : scan_runs o TP oP KP) (hKS : scan_runs o TS oS KS)
    (wC : World) (xq : parser_t) (xv : World)
    (hx : h2incn_parse fs nC ⟨f, C, 0, 0, 1⟩ wC = some (true, xq, xv))
    (hx2 : xv.out = wC.out ++ oC) (hoC : wC.options = o) (hrec : o.fRecurse = true)
    (hf : ∀ c ∈ f, c ≠ 0 ∧ c ≠ 62 ∧ c ≠ 34 ∧ c ≠ 10)
    (hfs : fs f = some C) (hC : C ≠ []) (hCinc : hasInclude C = false)
    (p : parser_t) (w : World) (ho : w.options = o)
    (hnew : (hash_map_find w.pHeadersMap f).isNode = false)
    (hd : p.pFileBuffer.drop p.pNextToken
      = TP ++ (bytes "#include " ++ 34 :: (f ++ 34 :: 10 :: TS)))
    (n' : Nat) (hn : nC ≤ KS + n') :
    ∃ q v, parse_loop fs (KP + ((KS + n') + 1)) p w = some (true, q, v) ∧
      v.out = w.out ++ (oP ++ (oC ++ oS)) := by
  obtain ⟨p1, w1, e1, b1, c1, o1, q1, m1⟩ := hKP fs ((KS + n') + 1) p w _ ho hd
  have hd0 : p1.pFileBuffer.drop p1.pNextToken
      = bytes "#include " ++ 34 :: (f ++ 34 :: 10 :: TS) := by
    rw [b1, c1]
    exact drop_add_of_drop hd
  have hd1 : p1.pFileBuffer.drop p1.pNextToken
      = (bytes "#include " ++ []) ++ 34 :: (f ++ 34 :: (10 :: TS)) := by
    rw [hd0, List.append_nil]
  have hround := include_fresh_round fs (KS + n') p1 w1 [] f (10 :: TS) C 34 34 hd1
    (fun c hc => absurd hc (List.not_mem_nil c)) (Or.inr rfl) hf (Or.inl rfl)
    (by rw [q1]; exact hrec) (by rw [m1]; exact hnew) hfs hC
  obtain ⟨v', e3, ⟨ho3, t, t1, t2⟩, o3⟩ := parse_transfer wC.out w1.out fs fs nC (KS + n')
    ⟨f, C, 0, 0, 1⟩ wC { w1 with pHeadersMap := (hash_map_insert w1.pHeadersMap f []).2 }
    (true, xq, xv) hn ⟨hoC.trans q1.symm, [], by simp, by simp⟩ (hasInclude_at C hCinc) hx
  simp only at e3 ho3 t1 t2 o3
  have ht : t = oC := by
    rw [hx2] at t1
    exact (List.append_cancel_left t1).symm
  subst ht
  have hv'o : v'.options = o := by rw [← ho3, o3, hoC]
  rw [e1, hround, e3]
  simp only
  have hd2 : p1.pFileBuffer.drop
      (p1.pNextToken + (bytes "#include " ++ []).length + 1 + f.length)
      = [34] ++ 10 :: TS := by
    have h1 : p1.pFileBuffer.drop p1.pNextToken
        = (bytes "#include " ++ 34 :: f) ++ ([34] ++ 10 :: TS) := by
      rw [hd0]
      simp
    have h2 := drop_add_of_drop h1
    have h3 : p1.pNextToken + (bytes "#include " ++ 34 :: f).length
        = p1.pNextToken + (bytes "#include " ++ []).length + 1 + f.length := by
      simp only [List.length_append, List.length_cons, List.length_nil]
      omega
    rw [h3] at h2
    exact h2
  rw [include_finish_line true _ p1 v' [34] TS hd2 (by decide)]
  simp only
  obtain ⟨p3, w3, e4, b3, c3, o4, -, -⟩ := hKS fs n'
    { p1 with iLineNum := p1.iLineNum + 1,
              pNextToken := p1.pNextToken + (bytes "#include " ++ []).length + 1 + f.length
                + [34].length + 1 } v' [] hv'o
    (by
      have h1 : p1.pFileBuffer.drop
          (p1.pNextToken + (bytes "#include " ++ []).length + 1 + f.length)
          = [34, 10] ++ TS := by
        rw [hd2]
        rfl
      have h2 := drop_add_of_drop h1
      simp only [List.append_nil]
      exact h2)
  have hend : byteAt p3.pFileBuffer p3.pNextToken = 0 := by
    have h1 : p1.pFileBuffer.drop
        (p1.pNextToken + (bytes "#include " ++ []).length + 1 + f.length)
        = ([34, 10] ++ TS) ++ [] := by
      rw [hd2]
      simp
    have h2 := drop_add_of_drop h1
    rw [b3, c3]
    have h3 : p1.pNextToken + (bytes "#include " ++ []).length + 1 + f.length
        + [34].length + 1 + TS.length
        = p1.pNextToken + (bytes "#include " ++ []).length + 1 + f.length
          + ([34, 10] ++ TS).length := by
      simp only [List.length_append, List.length_cons, List.length_nil]
      omega
    show byteAt p1.pFileBuffer (p1.pNextToken + (bytes "#include " ++ []).length + 1 + f.length
        + [34].length + 1 + TS.length) = 0
    rw [h3, byteAt_of_drop_zero h2]
    rfl
  rw [e4, parse_loop_end fs n' p3 w3 hend]
  refine ⟨p3, w3, rfl, ?_⟩
  rw [o4, t2, o1]
  simp only [List.append_assoc]

/-- C13: with `options.fRecurse` set, let the root buffer be the lines `P`,
the line `#include "f"` ended by a line feed, and the lines `S`, where `P` and
`S` are lines ended by LF or CR LF whose text holds no NUL, CR, LF or
backslash, no comment opener and no `#include `; let `f` be a name without
NUL, `>`, `"` or LF that is not in the headers map, and let the file system
give for it a non-empty content `C` without `#include `. If `h2incn_parse`
returns 1 on the buffer `P` alone with `oP` written, on `C` (as file `f`) with
`oC` written, and on `S` alone with `oS` written, each from some state with
the same options, then with enough fuel `h2incn_parse` returns 1 on the root
buffer and what it has written is `oP ++ oC ++ oS`: the include line itself
adds no byte. -/
theorem include_output_is_spliced
    (fs : List Nat → Option (List Nat)) (fn f fnP fnS : List Nat)
    (P S : List (List Nat × List Nat)) (C oP oC oS : List Nat)
    (w wP wC wS : World) (nP nC nS : Nat)
    (hrec : w.options.fRecurse = true)
    (hP : plain_lines P = true) (hS : plain_lines S = true)
    (hf : ∀ c ∈ f, c ≠ 0 ∧ c ≠ 62 ∧ c ≠ 34 ∧ c ≠ 10)
    (hnew : (hash_map_find w.pHeadersMap f).isNode = false)
    (hfs : fs f = some C) (hC : C ≠ []) (hCinc : hasInclude C = false)
    (hoP : wP.options = w.options) (hoC : wC.options = w.options)
    (hoS : wS.options = w.options)
    (hrunP : (h2incn_parse fs nP ⟨fnP, lines_text P, 0, 0, 1⟩ wP).map
      (fun r => (r.1, r.2.2.out)) = some (true, wP.out ++ oP))
    (hrunC : (h2incn_parse fs nC ⟨f, C, 0, 0, 1⟩ wC).map
      (fun r => (r.1, r.2.2.out)) = some (true, wC.out ++ oC))
    (hrunS : (h2incn_parse fs nS ⟨fnS, lines_text S, 0, 0, 1⟩ wS).map
      (fun r => (r.1, r.2.2.out)) = some (true, wS.out ++ oS)) :
    ∃ N, ∀ fuel, N ≤ fuel →
      (h2incn_parse fs fuel
        ⟨fn, lines_text P ++ (bytes "#include " ++ 34 :: (f ++ 34 :: 10 :: lines_text S)),
          0, 0, 1⟩ w).map (fun r => (r.1, r.2.2.out))
        = some (true, w.out ++ (oP ++ (oC ++ oS))) := by
  obtain ⟨KP, hKP⟩ := own_scan_runs w.options (lines_text P) oP
    (plain_lines_run _ P hP) (plain_lines_no_include P hP) fs nP fnP wP hoP hrunP
  obtain ⟨KS, hKS⟩ := own_scan_runs w.options (lines_text S) oS
    (plain_lines_run _ S hS) (plain_lines_no_include S hS) fs nS fnS wS hoS hrunS
  rcases hx : h2incn_parse fs nC ⟨f, C, 0, 0, 1⟩ wC with _ | ⟨xb, xq, xv⟩
  · rw [hx] at hrunC
    cases hrunC
  rw [hx] at hrunC
  simp only [Option.map_some', Option.some.injEq, Prod.mk.injEq] at hrunC
  obtain ⟨hx1, hx2⟩ := hrunC
  subst hx1
  refine ⟨KP + (nC + KS + 1), fun fuel hfuel => ?_⟩
  obtain ⟨n', rfl, hn⟩ : ∃ n', fuel = KP + ((KS + n') + 1) ∧ nC ≤ KS + n' :=
    ⟨fuel - (KP + (nC + KS + 1)) + nC, by omega, by omega⟩
  unfold h2incn_parse
  obtain ⟨q, v, e, hv⟩ := include_line_splice fs f C (lines_text P) (lines_text S) oP oC oS
    KP KS nC w.options hKP hKS wC xq xv hx hx2 hoC hrec hf hfs hC hCinc
    ⟨fn, lines_text P ++ (bytes "#include " ++ 34 :: (f ++ 34 :: 10 :: lines_text S)), 0, 0, 1⟩
    (if w.options.fVerbose then
      w.printf
        ⟨fn, lines_text P ++ (bytes "#include " ++ 34 :: (f ++ 34 :: 10 :: lines_text S)),
          0, 0, 1⟩ "processing file"
      else w)
    (by rw [world_ite_options]; simp only [printf_options, ite_self])
    (by split <;> exact hnew) (by simp) n' hn
  rw [e]
  simp only [Option.map_some', Option.some.injEq, Prod.mk.injEq, true_and]
  rw [hv]
  congr 1
  split <;> rfl

theorem include_output_is_spliced_witness :
    ∃ N, ∀ fuel, N ≤ fuel →
      (h2incn_parse splice_fs fuel
        ⟨bytes "root.h",
          lines_text [(bytes "#define A 1", [10]), (bytes "  int a;", [13, 10])] ++
            (bytes "#include " ++ 34 :: (bytes "f.h" ++ 34 :: 10 ::
              lines_text [(bytes "#ifdef A", [10]), (bytes "int c;", [10]),
                (bytes "#endif", [10])])),
          0, 0, 1⟩
        ⟨{ fCode := true, fRecurse := true }, empty_map 1, empty_map 1, [], []⟩).map
          (fun r => (r.1, r.2.2.out))
        = some (true,
          (⟨{ fCode := true, fRecurse := true }, empty_map 1, empty_map 1, [], []⟩ : World).out ++
            (bytes "%define A 1\n;int a;\r\n" ++
              (bytes "%define B 2\n;int b;\n" ++ bytes "%ifdef A\n;int c;\n%endif\n"))) :=
  include_output_is_spliced splice_fs (bytes "root.h") (bytes "f.h") [] []
    [(bytes "#define A 1", [10]), (bytes "  int a;", [13, 10])]
    [(bytes "#ifdef A", [10]), (bytes "int c;", [10]), (bytes "#endif", [10])]
    (bytes "#define B 2\nint b;\n")
    (bytes "%define A 1\n;int a;\r\n") (bytes "%define B 2\n;int b;\n")
    (bytes "%ifdef A\n;int c;\n%endif\n")
    ⟨{ fCode := true, fRecurse := true }, empty_map 1, empty_map 1, [], []⟩
    ⟨{ fCode := true, fRecurse := true }, empty_map 1, empty_map 1, [], []⟩
    ⟨{ fCode := true, fRecurse := true }, empty_map 1, empty_map 1, [], []⟩
    ⟨{ fCode := true, fRecurse := true }, empty_map 1, empty_map 1, [], []⟩
    20 20 20 rfl (by decide) (by decide) (by decide) (by decide) (by decide) (by decide)
    (by decide) rfl rfl rfl (by decide!) (by decide!) (by decide!)

theorem and_two_pow_eq_zero (b j : Nat) : b &&& 2 ^ j = 0 ↔ b.testBit j = false := by
  constructor
  · intro h
    have h2 : (b &&& 2 ^ j).testBit j = false := by rw [h]; simp
    simpa [Nat.testBit_and, Nat.testBit_two_pow_self] using h2
  · intro h
    apply Nat.eq_of_testBit_eq
    intro i
    simp only [Nat.testBit_and, Nat.testBit_two_pow, Nat.zero_testBit]
    by_cases hij : j = i
    · subst hij
      simp [h]
    · simp [hij]

theorem find_uppermost_bit_spec (j : Nat) :
    ∀ b, 1 ≤ b → b < 2 ^ (j + 1) → find_uppermost_bit (j + 1) b (2 ^ j) = 2 ^ Nat.log2 b := by
  induction j with
  | zero =>
    intro b h1 h2
    have hb : b = 1 := by omega
    subst hb
    have hl : Nat.log2 1 = 0 := by
      have := @Nat.log2_two_pow 0
      simpa using this
    rw [hl]
    decide
  | succ j ih =>
    intro b h1 h2
    have hb0 : b ≠ 0 := by omega
    by_cases hge : 2 ^ (j + 1) ≤ b
    · have hlog : Nat.log2 b = j + 1 := by
        have h3 : j + 1 ≤ Nat.log2 b := (Nat.le_log2 hb0).2 hge
        have h4 : Nat.log2 b < j + 2 := (Nat.log2_lt hb0).2 h2
        omega
      have hbit : b.testBit (j + 1) = true := by
        by_contra hf
        have hf' : b.testBit (j + 1) = false := by simpa using hf
        have : b < 2 ^ (j + 1) := by
          apply Nat.lt_pow_two_of_testBit
          intro i hi
          by_cases hij : i = j + 1
          · rw [hij]; exact hf'
          · apply Nat.testBit_lt_two_pow
            calc b < 2 ^ (j + 1 + 1) := h2
              _ ≤ 2 ^ i := Nat.pow_le_pow_right (by decide) (by omega)
        omega
      have hne : ¬ (b &&& 2 ^ (j + 1) = 0) := by
        rw [and_two_pow_eq_zero, hbit]
        simp
      rw [find_uppermost_bit]
      simp only [beq_iff_eq, hne, if_false, hlog]
    · have hlt : b < 2 ^ (j + 1) := by omega
      have hz : b &&& 2 ^ (j + 1) = 0 := by
        rw [and_two_pow_eq_zero]
        exact Nat.testBit_lt_two_pow hlt
      rw [find_uppermost_bit]
      simp only [beq_iff_eq, hz, if_true]
      have hs : 2 ^ (j + 1) >>> 1 = 2 ^ j := by
        rw [Nat.shiftRight_eq_div_pow, Nat.pow_succ]
        simp
      rw [hs]
      exact ih b h1 hlt

/-- C22: `hash_map_alloc` returns null for a request of 0 buckets; for every
request `b ≥ 1` it returns a map with the magic set whose bucket mask is
`2 ^ log2 (min b 32768) - 1`, so that the number of slots, mask + 1, is the
power of two `2 ^ k` with `2 ^ k ≤ min b 32768 < 2 ^ (k + 1)`; the slots are
that many null pointers; and for `b` a power of two up to 32768 the number of
slots is `b`. -/
theorem hash_map_alloc_mask (b : Nat) (hb : 1 ≤ b) :
    hash_map_alloc 0 = none ∧
    ∃ m, hash_map_alloc b = some m ∧ m.magic = HASH_MAP_MAGIC ∧
      m.buckets = 2 ^ Nat.log2 (min b 32768) - 1 ∧
      m.buckets + 1 = 2 ^ Nat.log2 (min b 32768) ∧
      2 ^ Nat.log2 (min b 32768) ≤ min b 32768 ∧
      min b 32768 < 2 ^ (Nat.log2 (min b 32768) + 1) ∧
      m.slots = List.replicate (m.buckets + 1) bst_node_t.nil ∧
      (∀ k, k ≤ 15 → b = 2 ^ k → m.buckets + 1 = b) := by
  refine ⟨rfl, ?_⟩
  have hc1 : 1 ≤ min b 32768 := by omega
  have hc2 : min b 32768 < 2 ^ (31 + 1) := by
    have : min b 32768 ≤ 32768 := Nat.min_le_right _ _
    omega
  have hfind := find_uppermost_bit_spec 31 (min b 32768) hc1 hc2
  have hcap : (if b > 0x8000 then 0x8000 else b) = min b 32768 := by
    split <;> omega
  have hpos : 0 < 2 ^ Nat.log2 (min b 32768) := Nat.pos_pow_of_pos _ (by decide)
  have hshift : (1 <<< 31 : Nat) = 2 ^ 31 := by decide
  refine ⟨⟨HASH_MAP_MAGIC, 2 ^ Nat.log2 (min b 32768) - 1,
      List.replicate (2 ^ Nat.log2 (min b 32768) - 1 + 1) bst_node_t.nil⟩, ?_, rfl, rfl, ?_,
    Nat.log2_self_le (by omega), Nat.lt_log2_self, rfl, ?_⟩
  · unfold hash_map_alloc
    have hb0 : (b == 0) = false := by simp; omega
    simp only [hb0, Bool.false_eq_true, if_false, hcap, hshift, hfind]
  · show 2 ^ Nat.log2 (min b 32768) - 1 + 1 = 2 ^ Nat.log2 (min b 32768)
    omega
  · intro k hk hbk
    show 2 ^ Nat.log2 (min b 32768) - 1 + 1 = b
    have h1 : min b 32768 = 2 ^ k := by
      have : 2 ^ k ≤ 2 ^ 15 := Nat.pow_le_pow_right (by decide) hk
      omega
    rw [h1, Nat.log2_two_pow, hbk]
    have : 0 < 2 ^ k := Nat.pos_pow_of_pos _ (by decide)
    omega

theorem hash_map_alloc_mask_witness :
    hash_map_alloc 0 = none ∧
    ∃ m, hash_map_alloc 100 = some m ∧ m.magic = HASH_MAP_MAGIC ∧
      m.buckets = 2 ^ Nat.log2 (min 100 32768) - 1 ∧
      m.buckets + 1 = 2 ^ Nat.log2 (min 100 32768) ∧
      2 ^ Nat.log2 (min 100 32768) ≤ min 100 32768 ∧
      min 100 32768 < 2 ^ (Nat.log2 (min 100 32768) + 1) ∧
      m.slots = List.replicate (m.buckets + 1) bst_node_t.nil ∧
      (∀ k, k ≤ 15 → 100 = 2 ^ k → m.buckets + 1 = 100) :=
  hash_map_alloc_mask 100 (by decide)


theorem bucket_root_node_lt (m : hash_map_t) (i : Nat) (h : (bucket_root m i).isNode = true) :
    i < m.slots.length := by
  by_contra hn
  have : bucket_root m i = .nil := by
    unfold bucket_root
    rw [List.getD_eq_default _ _ (by omega)]
  rw [this] at h
  cases h

/-- The loop of `hash_map_free` empties the buckets it visits and leaves
every other bucket, the header fields and the number of slots alone. -/
theorem hash_map_free_loop_spec (n : Nat) :
    ∀ (i : Nat) (m : hash_map_t),
      (hash_map_free_loop n i m).magic = m.magic ∧
      (hash_map_free_loop n i m).buckets = m.buckets ∧
      ∀ k, bucket_root (hash_map_free_loop n i m) k =
        if i ≤ k ∧ k < i + n then .nil else bucket_root m k := by
  induction n with
  | zero =>
    intro i m
    refine ⟨rfl, rfl, fun k => ?_⟩
    have : ¬ (i ≤ k ∧ k < i + 0) := by omega
    simp only [this, if_false]
    rfl
  | succ n ih =>
    intro i m
    unfold hash_map_free_loop
    simp only
    by_cases hnode : (bucket_root m i).isNode = true
    · have hi := bucket_root_node_lt m i hnode
      simp only [hnode, if_true]
      obtain ⟨h1, h2, h3⟩ := ih (i + 1)
        (set_bucket m i (binarytree_delete_tree (bucket_root m i)).2)
      refine ⟨h1, h2, fun k => ?_⟩
      rw [h3 k, bucket_root_set m i k _ hi]
      by_cases hk : i = k
      · subst hk
        have : ¬ (i + 1 ≤ i ∧ i < i + 1 + n) := by omega
        have h' : (i ≤ i ∧ i < i + (n + 1)) := by omega
        simp only [this, h', if_false, if_true]
        rfl
      · by_cases hr : i + 1 ≤ k ∧ k < i + 1 + n
        · have h' : i ≤ k ∧ k < i + (n + 1) := by omega
          simp only [hr, h', and_self, if_true]
        · have h' : ¬ (i ≤ k ∧ k < i + (n + 1)) := by omega
          simp only [hr, h', hk, if_false]
    · have hnil : bucket_root m i = .nil := by
        cases hb : bucket_root m i with
        | nil => rfl
        | node l k v r => rw [hb] at hnode; exact absurd rfl hnode
      simp only [hnode, Bool.false_eq_true, if_false]
      obtain ⟨h1, h2, h3⟩ := ih (i + 1) m
      refine ⟨h1, h2, fun k => ?_⟩
      rw [h3 k]
      by_cases hk : i = k
      · subst hk
        have : ¬ (i + 1 ≤ i ∧ i < i + 1 + n) := by omega
        have h' : (i ≤ i ∧ i < i + (n + 1)) := by omega
        simp only [this, h', if_false, if_true, and_self]
        exact hnil
      · by_cases hr : i + 1 ≤ k ∧ k < i + 1 + n
        · have h' : i ≤ k ∧ k < i + (n + 1) := by omega
          simp only [hr, h', and_self, if_true]
        · have h' : ¬ (i ≤ k ∧ k < i + (n + 1)) := by omega
          simp only [hr, h', if_false]

/-- C21 (failing input): `hash_map_free` on a map whose magic is intact
returns 0, clears the magic and empties the buckets of index below the mask,
but the bucket whose index is the mask, the last of the mask + 1 slots, is
never handed to `binarytree_delete_tree`: its tree is as it was. For the
headers table of `main` holding the name `tt.h`, whose bucket is 127, the node
of `tt.h` is still found after `hash_map_free`. On the null pointer and on a
map with another magic the function returns 1 and changes nothing. -/
theorem hash_map_free_skips_last_bucket :
    (∀ m : hash_map_t, m.magic = HASH_MAP_MAGIC →
      ∃ m', hash_map_free (some m) = (0, some m') ∧ m'.magic = 0 ∧ m'.buckets = m.buckets ∧
        (∀ i, i < m.buckets → bucket_root m' i = .nil) ∧
        bucket_root m' m.buckets = bucket_root m m.buckets) ∧
    (headers_with_tt.magic = HASH_MAP_MAGIC ∧ headers_with_tt.buckets = 127 ∧
      headers_with_tt.slots.length = 128 ∧
      bucket_index headers_with_tt (bytes "tt.h") = 127 ∧
      (bucket_root headers_with_tt 127).isNode = true ∧
      ∃ m', hash_map_free (some headers_with_tt) = (0, some m') ∧
        (hash_map_find m' (bytes "tt.h")).isNode = true) ∧
    hash_map_free none = (1, none) ∧
    (∀ m : hash_map_t, m.magic ≠ HASH_MAP_MAGIC → hash_map_free (some m) = (1, some m)) := by
  have hgen : ∀ m : hash_map_t, m.magic = HASH_MAP_MAGIC →
      ∃ m', hash_map_free (some m) = (0, some m') ∧ m'.magic = 0 ∧ m'.buckets = m.buckets ∧
        (∀ i, i < m.buckets → bucket_root m' i = .nil) ∧
        bucket_root m' m.buckets = bucket_root m m.buckets := by
    intro m hm
    obtain ⟨-, h2, h3⟩ := hash_map_free_loop_spec m.buckets 0 m
    refine ⟨{ hash_map_free_loop m.buckets 0 m with magic := 0 }, ?_, rfl, h2, ?_, ?_⟩
    · unfold hash_map_free
      simp [hm]
    · intro i hi
      have := h3 i
      have hc : 0 ≤ i ∧ i < 0 + m.buckets := by omega
      simp only [hc, and_self, if_true] at this
      exact this
    · have := h3 m.buckets
      have hc : ¬ (0 ≤ m.buckets ∧ m.buckets < 0 + m.buckets) := by omega
      simp only [hc, if_false] at this
      exact this
  refine ⟨hgen, ⟨by decide, by decide, by decide!, by decide, by decide!, ?_⟩, rfl, ?_⟩
  · obtain ⟨m', e, -, hb, -, hlast⟩ := hgen headers_with_tt (by decide)
    refine ⟨m', e, ?_⟩
    have hidx : bucket_index m' (bytes "tt.h") = 127 := by
      unfold bucket_index
      rw [hb]
      decide
    unfold hash_map_find
    rw [hidx]
    have h127 : headers_with_tt.buckets = 127 := by decide
    rw [h127] at hlast
    rw [hlast]
    decide!
  · intro m hm
    unfold hash_map_free
    simp [hm]


/-- The sum over the prefixes of a list of the running sum modulo 255, the
running sum starting at `a`. -/
theorem prefix_sums_cons (a b : Nat) (bs : List Nat) :
    ((List.range (b :: bs).length).map (fun j => (a + ((b :: bs).take (j + 1)).sum) % 255)).sum
      = (a + b) % 255 +
        ((List.range bs.length).map (fun j => (a + b + (bs.take (j + 1)).sum) % 255)).sum := by
  rw [List.length_cons, List.range_succ_eq_map, List.map_cons, List.sum_cons, List.map_map]
  simp only [List.take_succ_cons, List.take_zero, List.sum_cons, List.sum_nil, Nat.add_zero,
    Function.comp_def, Nat.succ_eq_add_one, Nat.add_assoc, Nat.zero_add]

theorem prefix_sums_le (a : Nat) (bs : List Nat) :
    ((List.range bs.length).map (fun j => (a + (bs.take (j + 1)).sum) % 255)).sum
      ≤ 254 * bs.length := by
  induction bs generalizing a with
  | nil => simp
  | cons b bs ih =>
    rw [prefix_sums_cons]
    have h1 := ih (a + b)
    have h2 : (a + b) % 255 < 255 := Nat.mod_lt _ (by decide)
    simp only [List.length_cons]
    omega

/-- The loop of `hash16` from a first accumulator that is a running sum
modulo 255: it ends with the running sum modulo 255 and has added the
prefix sums to the second accumulator, modulo 2^32. -/
theorem hash16_loop_spec (bs : List Nat) :
    ∀ (a s2 : Nat), (∀ b ∈ bs, b < 256) → s2 < 4294967296 →
      (hash16_loop bs (a % 255) s2).1 = (a + bs.sum) % 255 ∧
      (hash16_loop bs (a % 255) s2).2 =
        (s2 + ((List.range bs.length).map
          (fun j => (a + (bs.take (j + 1)).sum) % 255)).sum) % 4294967296 := by
  induction bs with
  | nil =>
    intro a s2 _ hs
    refine ⟨rfl, ?_⟩
    simp only [List.length_nil, List.range_zero, List.map_nil, List.sum_nil, Nat.add_zero]
    exact (Nat.mod_eq_of_lt hs).symm
  | cons b bs ih =>
    intro a s2 hb _
    have hb256 : b < 256 := hb b (List.mem_cons_self _ _)
    have hstep : (if a % 255 + b % 256 ≥ 255 then a % 255 + b % 256 - 255
        else a % 255 + b % 256) = (a + b) % 255 := by
      have h1 : a % 255 < 255 := Nat.mod_lt _ (by decide)
      have h2 : b % 256 = b := Nat.mod_eq_of_lt hb256
      rw [h2]
      split <;> omega
    unfold hash16_loop
    simp only [hstep]
    rw [prefix_sums_cons, List.sum_cons]
    obtain ⟨h1, h2⟩ := ih (a + b) ((s2 + (a + b) % 255) % 4294967296)
      (fun c hc => hb c (List.mem_cons_of_mem _ hc)) (Nat.mod_lt _ (by decide))
    refine ⟨by rw [h1, Nat.add_assoc], ?_⟩
    rw [h2]
    omega

/-- C23: for every key of fewer than 2^24 bytes (each below 256), `hash16`
returns `(S2 mod 255) * 256 + S1`, where `S1` is the sum of the bytes modulo
255 and `S2` the sum over `j = 1..n` of the sum of the first `j` bytes modulo
255; after every step of the loop the first accumulator is the running sum
modulo 255, hence at most 254; and the result is at most 0xFEFE, below
65536. -/
theorem hash16_is_spec (key : List Nat) (hb : ∀ b ∈ key, b < 256)
    (hlen : key.length < 2 ^ 24) :
    hash16 key = hash16_spec key ∧
    (∀ j, (hash16_loop (key.take j) 0 0).1 = (key.take j).sum % 255 ∧
      (hash16_loop (key.take j) 0 0).1 ≤ 254) ∧
    hash16 key ≤ 0xFEFE ∧ hash16 key < 65536 := by
  have hfst : ∀ bs : List Nat, (∀ b ∈ bs, b < 256) →
      (hash16_loop bs 0 0).1 = bs.sum % 255 := by
    intro bs h
    have := (hash16_loop_spec bs 0 0 h (by decide)).1
    simpa using this
  have hsnd : (hash16_loop key 0 0).2 = hash16_S2 key := by
    have h1 := (hash16_loop_spec key 0 0 hb (by decide)).2
    have h2 := prefix_sums_le 0 key
    simp only [Nat.zero_mod, Nat.zero_add] at h1 h2
    rw [h1]
    unfold hash16_S2
    apply Nat.mod_eq_of_lt
    have : (2 : Nat) ^ 24 = 16777216 := by decide
    omega
  have hmain : hash16 key = hash16_spec key := by
    unfold hash16 hash16_spec hash16_S1
    simp only [hfst key hb, hsnd]
    have hx : hash16_S2 key % 255 < 255 := Nat.mod_lt _ (by decide)
    have hy : key.sum % 255 < 2 ^ 8 := by
      have : key.sum % 255 < 255 := Nat.mod_lt _ (by decide)
      have : (2 : Nat) ^ 8 = 256 := by decide
      omega
    rw [Nat.shiftLeft_eq]
    have h8 : (2 : Nat) ^ 8 = 256 := by decide
    have hm : hash16_S2 key % 255 * 2 ^ 8 % 4294967296 = 2 ^ 8 * (hash16_S2 key % 255) := by
      rw [Nat.mul_comm, Nat.mod_eq_of_lt]
      rw [h8]
      omega
    rw [hm, ← Nat.mul_add_lt_is_or hy, h8]
    omega
  refine ⟨hmain, fun j => ?_, ?_, ?_⟩
  · have h := hfst (key.take j) (fun b hbm => hb b (List.mem_of_mem_take hbm))
    refine ⟨h, ?_⟩
    rw [h]
    have : (key.take j).sum % 255 < 255 := Nat.mod_lt _ (by decide)
    omega
  · rw [hmain]
    unfold hash16_spec hash16_S1
    have hx : hash16_S2 key % 255 < 255 := Nat.mod_lt _ (by decide)
    have hy : key.sum % 255 < 255 := Nat.mod_lt _ (by decide)
    omega
  · rw [hmain]
    unfold hash16_spec hash16_S1
    have hx : hash16_S2 key % 255 < 255 := Nat.mod_lt _ (by decide)
    have hy : key.sum % 255 < 255 := Nat.mod_lt _ (by decide)
    omega

theorem hash16_is_spec_witness :
    hash16 (bytes "tt.h") = hash16_spec (bytes "tt.h") ∧
    (∀ j, (hash16_loop ((bytes "tt.h").take j) 0 0).1 = ((bytes "tt.h").take j).sum % 255 ∧
      (hash16_loop ((bytes "tt.h").take j) 0 0).1 ≤ 254) ∧
    hash16 (bytes "tt.h") ≤ 0xFEFE ∧ hash16 (bytes "tt.h") < 65536 :=
  hash16_is_spec (bytes "tt.h") (by decide) (by decide)

/-- C24 (failing input): on `#define FOO // c` followed by the line `int x;`,
and likewise on `#define FOO /* c */` followed by that line, under either
setting of `options.fComments`, `h2incn_parse_define` does not leave the value
empty: the comment handler it calls steps over the line terminator, so the
handler takes `int x;` as the value, writes `%define FOO int x;`, stores
`FOO -> int x;` and leaves the cursor at the end of the line `int x;`, on line
2. `h2incn_parse` then never dispatches `int x;` as a line of its own: with
code-as-comments on, no `;int x;` is written. -/
theorem define_comment_swallows_next_line :
    (∀ fc : Bool,
      (h2incn_parse_define 3 (parser_at (bytes "#define FOO // c\nint x;\n") 0)
          ⟨{ fComments := fc }, empty_map 1, empty_map 1, [], []⟩).map
          (fun r => (r.1, r.2.1.pNextToken, r.2.1.iLineNum, r.2.2.out))
        = some (true, 23, 2, bytes "%define FOO int x;") ∧
      (h2incn_parse_define 3 (parser_at (bytes "#define FOO // c\nint x;\n") 0)
          ⟨{ fComments := fc }, empty_map 1, empty_map 1, [], []⟩).map
          (fun r => (hash_map_find r.2.2.pDefinesMap (bytes "FOO")).entry)
        = some (some (bytes "FOO", bytes "int x;"))) ∧
    (∀ fc : Bool,
      (h2incn_parse_define 3 (parser_at (bytes "#define FOO /* c */\nint x;\n") 0)
          ⟨{ fComments := fc }, empty_map 1, empty_map 1, [], []⟩).map
          (fun r => (r.1, r.2.1.pNextToken, r.2.1.iLineNum, r.2.2.out))
        = some (true, 26, 2, bytes "%define FOO int x;") ∧
      (h2incn_parse_define 3 (parser_at (bytes "#define FOO /* c */\nint x;\n") 0)
          ⟨{ fComments := fc }, empty_map 1, empty_map 1, [], []⟩).map
          (fun r => (hash_map_find r.2.2.pDefinesMap (bytes "FOO")).entry)
        = some (some (bytes "FOO", bytes "int x;"))) ∧
    (h2incn_parse (fun _ => none) 5 (parser_at (bytes "#define FOO // c\nint x;\n") 0)
        ⟨{ fCode := true }, empty_map 1, empty_map 1, [], []⟩).map (fun r => (r.1, r.2.2.out))
      = some (true, bytes "%define FOO int x;\n") := by
  refine ⟨fun fc => ?_, fun fc => ?_, by decide!⟩
  · cases fc <;> decide
  · cases fc <;> decide

/-- C26 (failing input): on `#if X // c` followed by the line `int x;` the
handler `h2incn_parse_if` does not stop at the end of the directive line: the
comment handler it calls steps over the line terminator, and the copying loop
goes on with the next line. Without comment conversion it writes
`%if X int x;`, with it `%if X  ;// c`, line feed, `int x;`; the cursor is left
at the end of the line `int x;`, on line 2. `#ifdef X /* c */` does the same
without comment conversion (`%ifdef X int x;`); with comment conversion it
stops on its own line terminator. `#ifndef` and `#elif` share the loop.
`h2incn_parse` then never dispatches `int x;` as a line of its own. -/
theorem conditional_comment_swallows_next_line :
    (h2incn_parse_if 3 (parser_at (bytes "#if X // c\nint x;\n") 0)
        (initial_world {})).map
        (fun r => (r.1, r.2.1.pNextToken, r.2.1.iLineNum, r.2.2.out))
      = some (true, 17, 2, bytes "%if X int x;") ∧
    (h2incn_parse_if 3 (parser_at (bytes "#if X // c\nint x;\n") 0)
        (initial_world { fComments := true })).map
        (fun r => (r.1, r.2.1.pNextToken, r.2.1.iLineNum, r.2.2.out))
      = some (true, 17, 2, bytes "%if X  ;// c\nint x;") ∧
    (h2incn_parse_ifdef 3 (parser_at (bytes "#ifdef X /* c */\nint x;\n") 0)
        (initial_world {})).map
        (fun r => (r.1, r.2.1.pNextToken, r.2.1.iLineNum, r.2.2.out))
      = some (true, 23, 2, bytes "%ifdef X int x;") ∧
    (h2incn_parse_ifdef 3 (parser_at (bytes "#ifdef X /* c */\nint x;\n") 0)
        (initial_world { fComments := true })).map
        (fun r => (r.1, r.2.1.pNextToken, r.2.1.iLineNum, r.2.2.out))
      = some (true, 16, 1, bytes "%ifdef X  ;/* c */\n") ∧
    (h2incn_parse_ifndef 3 (parser_at (bytes "#ifndef X // c\nint x;\n") 0)
        (initial_world {})).map
        (fun r => (r.1, r.2.1.pNextToken, r.2.1.iLineNum, r.2.2.out))
      = some (true, 21, 2, bytes "%ifndef X int x;") ∧
    (h2incn_parse_elif 3 (parser_at (bytes "#elif X // c\nint x;\n") 0)
        (initial_world {})).map
        (fun r => (r.1, r.2.1.pNextToken, r.2.1.iLineNum, r.2.2.out))
      = some (true, 19, 2, bytes "%elif X int x;") ∧
    (h2incn_parse (fun _ => none) 5 (parser_at (bytes "#ifdef X // c\nint x;\n#endif\n") 0)
        (initial_world { fCode := true })).map (fun r => (r.1, r.2.2.out))
      = some (true, bytes "%ifdef X int x;\n%endif\n") := by
  refine ⟨by decide, by decide, by decide, by decide, by decide, by decide, by decide!⟩

theorem lines_of_length (text : List Nat) :
    ∀ cur, (lines_of cur text).length = text.count 10 + 1 := by
  induction text with
  | nil => intro cur; rfl
  | cons c cs ih =>
    intro cur
    unfold lines_of
    by_cases hc : c = 10
    · subst hc
      simp [ih]
    · have hb : (c == 10) = false := by simp [hc]
      simp only [hb, Bool.false_eq_true, if_false, ih]
      rw [List.count_cons_of_ne (Ne.symm hc)]

theorem lf_lines_of (text : List Nat) :
    ∀ cur, lf_lines (lines_of cur text) = cur ++ text ++ [10] := by
  induction text with
  | nil => intro cur; simp [lines_of, lf_lines]
  | cons c cs ih =>
    intro cur
    unfold lines_of
    by_cases hc : c = 10
    · subst hc
      simp [lf_lines, ih]
    · have hb : (c == 10) = false := by simp [hc]
      simp only [hb, Bool.false_eq_true, if_false, ih]
      simp

theorem lines_of_no_lf (text : List Nat) :
    ∀ cur, 10 ∉ cur → ∀ l ∈ lines_of cur text, 10 ∉ l := by
  induction text with
  | nil =>
    intro cur hcur l hl
    simp only [lines_of, List.mem_singleton] at hl
    rw [hl]; exact hcur
  | cons c cs ih =>
    intro cur hcur l hl
    unfold lines_of at hl
    by_cases hc : c = 10
    · subst hc
      simp only [beq_self_eq_true, if_true, List.mem_cons] at hl
      rcases hl with h | h
      · rw [h]; exact hcur
      · exact ih [] (List.not_mem_nil _) l h
    · have hb : (c == 10) = false := by simp [hc]
      simp only [hb, Bool.false_eq_true, if_false] at hl
      refine ih (cur ++ [c]) ?_ l hl
      intro hm
      rcases List.mem_append.mp hm with h | h
      · exact hcur h
      · exact hc (List.mem_singleton.mp h).symm

/-- The loop of the block comment branch over the body of a terminated
comment: where it stops, what it counts and what it has written, `cur` being
the bytes of the current line that lie before the cursor. -/
theorem comment_block_bytes (body : List Nat) :
    ∀ (cur : List Nat) (head : Nat) (p : parser_t) (w : World) (rest : List Nat),
      p.pFileBuffer.drop head = cur ++ (body ++ 42 :: 47 :: rest) →
      (∀ c ∈ body, c ≠ 0) → (∀ A B, body ≠ A ++ 42 :: 47 :: B) →
      ∃ head' cur' p' w',
        comment_block (body ++ 42 :: 47 :: rest) head (head + cur.length) p w
          = (head', head + cur.length + body.length + 1, p', w') ∧
        p'.pFileBuffer = p.pFileBuffer ∧ p'.pNextToken = p.pNextToken ∧
        p'.pFileName = p.pFileName ∧ p'.iLineNum = p.iLineNum + body.count 10 ∧
        p.pFileBuffer.drop head' = cur' ++ 47 :: rest ∧
        head' + cur'.length = head + cur.length + body.length + 1 ∧
        (w.options.fComments = false → w' = w) ∧
        (w.options.fComments = true →
          w'.options = w.options ∧ w'.log = w.log ∧ w'.pHeadersMap = w.pHeadersMap ∧
          w'.pDefinesMap = w.pDefinesMap ∧
          w'.out ++ 59 :: (cur' ++ [47, 10])
            = w.out ++ marked_lines (lines_of cur (body ++ [42, 47]))) := by
  induction body with
  | nil =>
    intro cur head p w rest hd _ _
    refine ⟨head, cur ++ [42], p, w, ?_, rfl, rfl, rfl, rfl, ?_, ?_, fun _ => rfl, fun _ => ?_⟩
    · simp [comment_block, byteAt]
    · rw [hd]; simp
    · simp only [List.length_append, List.length_singleton, List.length_nil]
      omega
    · refine ⟨rfl, rfl, rfl, rfl, ?_⟩
      simp [lines_of, marked_lines]
  | cons c body ih =>
    intro cur head p w rest hd hnul hclose
    have hc0 : c ≠ 0 := hnul c (List.mem_cons_self _ _)
    have hnul' : ∀ x ∈ body, x ≠ 0 := fun x hx => hnul x (List.mem_cons_of_mem _ hx)
    have hclose' : ∀ A B, body ≠ A ++ 42 :: 47 :: B := by
      intro A B hA
      exact hclose (c :: A) B (by rw [hA]; rfl)
    by_cases h10 : c = 10
    · subst h10
      have hd' : p.pFileBuffer.drop (head + cur.length + 1)
          = [] ++ (body ++ 42 :: 47 :: rest) := by
        have h1 : p.pFileBuffer.drop head = (cur ++ [10]) ++ (body ++ 42 :: 47 :: rest) := by
          rw [hd]; simp
        have h2 := drop_add_of_drop h1
        simpa using h2
      have hsl : slice p.pFileBuffer head (head + cur.length + 1 - head) = cur ++ [10] := by
        have h1 : p.pFileBuffer.drop head = (cur ++ [10]) ++ (body ++ 42 :: 47 :: rest) := by
          rw [hd]; simp
        have e : head + cur.length + 1 - head = (cur ++ [10]).length := by simp; omega
        rw [e, slice_of_drop h1, slice_append_left]
      obtain ⟨head', cur', p', w', e, b1, b2, b3, b4, b5, b6, b7, b8⟩ :=
        ih [] (head + cur.length + 1)
          { p with pLine := head + cur.length + 1, iLineNum := p.iLineNum + 1 }
          (if w.options.fComments then w.fwrite ([59] ++ (cur ++ [10])) else w) rest hd'
          hnul' hclose'
      refine ⟨head', cur', p', w', ?_, b1, b2, b3, ?_, b5, ?_, ?_, ?_⟩
      · rw [List.cons_append, comment_block]
        simp only [show ((10 : Nat) == 0) = false from rfl, Bool.false_eq_true, if_false,
          beq_self_eq_true, if_true, hsl]
        simp only [List.length_nil, Nat.add_zero] at e
        rw [e]
        simp only [List.length_cons]
        congr 2
        omega
      · rw [b4]
        simp only [List.count_cons_self]
        omega
      · rw [b6]
        simp only [List.length_nil, List.length_cons]
        omega
      · intro hf
        have hw : (if w.options.fComments = true then w.fwrite ([59] ++ (cur ++ [10])) else w)
            = w := by simp [hf]
        rw [hw] at b7
        exact b7 hf
      · intro ht
        have hw : (if w.options.fComments = true then w.fwrite ([59] ++ (cur ++ [10])) else w)
            = w.fwrite ([59] ++ (cur ++ [10])) := by rw [ht]; rfl
        rw [hw] at b8
        obtain ⟨o1, o2, o3, o4, o5⟩ := b8 ht
        refine ⟨o1, o2, o3, o4, ?_⟩
        rw [o5]
        simp [World.fwrite, lines_of, marked_lines]
    · have hstep : comment_block (c :: body ++ 42 :: 47 :: rest) head (head + cur.length) p w
          = comment_block (body ++ 42 :: 47 :: rest) head (head + cur.length + 1) p w := by
        rw [List.cons_append, comment_block]
        have e0 : (c == 0) = false := by simp [hc0]
        have e10 : (c == 10) = false := by simp [h10]
        simp only [e0, e10, Bool.false_eq_true, if_false]
        by_cases h42 : c = 42
        · subst h42
          have hnext : (byteAt (body ++ 42 :: 47 :: rest) 0 == 47) = false := by
            cases body with
            | nil => rfl
            | cons b body' =>
              have : b ≠ 47 := by
                intro hb
                exact hclose [] body' (by rw [hb]; rfl)
              simp [byteAt, this]
          simp only [beq_self_eq_true, if_true, hnext, Bool.false_eq_true, if_false]
        · have e42 : (c == 42) = false := by simp [h42]
          simp only [e42, Bool.false_eq_true, if_false]
      have hd' : p.pFileBuffer.drop head = (cur ++ [c]) ++ (body ++ 42 :: 47 :: rest) := by
        rw [hd]; simp
      obtain ⟨head', cur', p', w', e, b1, b2, b3, b4, b5, b6, b7, b8⟩ :=
        ih (cur ++ [c]) head p w rest hd' hnul' hclose'
      have hlen : head + (cur ++ [c]).length = head + cur.length + 1 := by
        simp only [List.length_append, List.length_singleton]
        omega
      rw [hlen] at e b6
      refine ⟨head', cur', p', w', ?_, b1, b2, b3, ?_, b5, ?_, b7, ?_⟩
      · rw [hstep, e]
        simp only [List.length_cons]
        congr 2
        omega
      · rw [b4, List.count_cons_of_ne (Ne.symm h10)]
      · rw [b6]
        simp only [List.length_cons]
        omega
      · intro ht
        obtain ⟨o1, o2, o3, o4, o5⟩ := b8 ht
        refine ⟨o1, o2, o3, o4, ?_⟩
        rw [o5]
        have e10 : (c == 10) = false := by simp [h10]
        have hl : lines_of cur (c :: body ++ [42, 47])
            = lines_of (cur ++ [c]) (body ++ [42, 47]) := by
          rw [List.cons_append, lines_of]
          simp only [e10, Bool.false_eq_true, if_false]
        rw [hl]


/-- The block comment branch of `h2incn_parse_comment` on a terminated
comment, up to the tests that follow the closing `*/`: the state in which the
loop is left, and the two ways the handler goes on. -/
theorem parse_comment_block_run (fuel : Nat) (p : parser_t) (w : World) (body rest : List Nat)
    (hd : p.pFileBuffer.drop p.pNextToken = [47, 42] ++ (body ++ 42 :: 47 :: rest))
    (hnul : ∀ c ∈ body, c ≠ 0) (hclose : ∀ A B, body ≠ A ++ 42 :: 47 :: B)
    (B C : Nat) (hB : B = scan isBlank p.pFileBuffer (p.pNextToken + 2 + body.length + 1 + 1))
    (hC : C = if byteAt p.pFileBuffer B == 13 then B + 1 else B) :
    (w.options.fComments = true →
      ∃ p' w', h2incn_parse_comment fuel p w = some (true, p', w') ∧
        p'.pFileBuffer = p.pFileBuffer ∧ p'.pNextToken = B ∧
        p'.pFileName = p.pFileName ∧ p'.iLineNum = p.iLineNum + body.count 10 ∧
        w'.options = w.options ∧ w'.log = w.log ∧ w'.pHeadersMap = w.pHeadersMap ∧
        w'.pDefinesMap = w.pDefinesMap ∧
        w'.out = w.out ++ marked_lines (lines_of [] ([47, 42] ++ body ++ [42, 47]))) ∧
    (w.options.fComments = false →
      ∃ p', h2incn_parse_comment fuel p w = some (true, p', w) ∧
        p'.pFileBuffer = p.pFileBuffer ∧ p'.pFileName = p.pFileName ∧
        p'.pNextToken = scan isBlank p.pFileBuffer
          (if byteAt p.pFileBuffer C == 10 then C + 1 else C) ∧
        p'.iLineNum = p.iLineNum + body.count 10
          + (if byteAt p.pFileBuffer C == 10 then 1 else 0)) := by
  have b0 : byteAt p.pFileBuffer p.pNextToken = 47 := by
    rw [byteAt_of_drop_zero hd]; rfl
  have b1 : byteAt p.pFileBuffer (p.pNextToken + 1) = 42 := by
    rw [byteAt_of_drop hd 1]; rfl
  have hd2 : p.pFileBuffer.drop (p.pNextToken + 1 + 1) = body ++ 42 :: 47 :: rest :=
    drop_add_of_drop (M := [47, 42]) hd
  obtain ⟨head', cur', p', w', e, c1, c2, c3, c4, c5, c6, c7, c8⟩ :=
    comment_block_bytes body [47, 42] p.pNextToken p w rest hd hnul hclose
  have e' : comment_block (body ++ 42 :: 47 :: rest) p.pNextToken (p.pNextToken + 1 + 1) p w
      = (head', p.pNextToken + 2 + body.length + 1, p', w') := e
  have c6' : head' + cur'.length = p.pNextToken + 2 + body.length + 1 := c6
  have b47 : byteAt p.pFileBuffer (p.pNextToken + 2 + body.length + 1) = 47 := by
    rw [← c6', byteAt_of_drop_zero (drop_add_of_drop c5)]
    rfl
  have hsl : slice p.pFileBuffer head' (p.pNextToken + 2 + body.length + 1 + 1 - head')
      = cur' ++ [47] := by
    have h1 : p.pFileBuffer.drop head' = (cur' ++ [47]) ++ rest := by
      rw [c5]; simp
    have e2 : p.pNextToken + 2 + body.length + 1 + 1 - head' = (cur' ++ [47]).length := by
      simp only [List.length_append, List.length_singleton]
      omega
    rw [e2, slice_of_drop h1, slice_append_left]
  have hlines : lines_of [] ([47, 42] ++ body ++ [42, 47])
      = lines_of [47, 42] (body ++ [42, 47]) := rfl
  have hrun : h2incn_parse_comment fuel p w =
      if w'.options.fComments then
        some (true, { p' with pNextToken := B }, w'.fwrite ([59] ++ (cur' ++ [47]) ++ [10]))
      else
        some (true,
          { (if byteAt p.pFileBuffer C == 10 then
                { p' with iLineNum := p'.iLineNum + 1, pLine := C + 1 } else p') with
            pNextToken := scan isBlank p.pFileBuffer
              (if byteAt p.pFileBuffer C == 10 then C + 1 else C) }, w') := by
    unfold h2incn_parse_comment
    simp only [b0, b1, hd2, e', b47, bne_self_eq_false, Bool.false_eq_true, if_false,
      show ((42 : Nat) == 47) = false from rfl, beq_self_eq_true, if_true, hsl, ← hB, ← hC]
  refine ⟨fun ht => ?_, fun hf => ?_⟩
  · obtain ⟨o1, o2, o3, o4, o5⟩ := c8 ht
    refine ⟨{ p' with pNextToken := B }, w'.fwrite ([59] ++ (cur' ++ [47]) ++ [10]), ?_,
      c1, rfl, c3, c4, o1, o2, o3, o4, ?_⟩
    · rw [hrun, o1, ht]
      rfl
    · rw [hlines, ← o5]
      simp [World.fwrite]
  · have hw := c7 hf
    subst hw
    refine ⟨{ (if byteAt p.pFileBuffer C == 10 then
          { p' with iLineNum := p'.iLineNum + 1, pLine := C + 1 } else p') with
        pNextToken := scan isBlank p.pFileBuffer
          (if byteAt p.pFileBuffer C == 10 then C + 1 else C) }, ?_, ?_, ?_, rfl, ?_⟩
    · rw [hrun, hf]
      rfl
    · simp only
      split <;> exact c1
    · simp only
      split <;> exact c3
    · simp only
      split
      · simp only [c4]
      · simp only [c4, Nat.add_zero]


theorem no_close_of_hasClose (body : List Nat) (hnul : ∀ c ∈ body, c ≠ 0)
    (h : hasClose body = false) : ∀ A B, body ≠ A ++ 42 :: 47 :: B := by
  intro A B hA
  have : hasClose body = true := by
    rw [hasClose_iff]
    refine ⟨A.length, ?_, ?_, ?_⟩
    · have hd : body.drop A.length = 42 :: 47 :: B := by rw [hA]; simp
      rw [byteAt_of_drop_zero hd]; rfl
    · have hd : body.drop A.length = 42 :: 47 :: B := by rw [hA]; simp
      rw [byteAt_of_drop hd 1]; rfl
    · intro k hk
      have hk' : k < body.length := by
        rw [hA]; simp; omega
      have hm : byteAt body k ∈ body := by
        have e : byteAt body k = body[k] := by
          clear hA h hnul
          induction body generalizing k with
          | nil => simp at hk'
          | cons b bs ih =>
            cases k with
            | zero => rfl
            | succ j =>
              simp only [byteAt, List.getElem_cons_succ]
              exact ih j (by omega) (by simpa using hk')
        rw [e]
        exact List.getElem_mem _
      exact hnul _ hm
  rw [h] at this
  cases this

/-- C27: with `options.fComments` set, on a terminated block comment, the
bytes `/*`, a body without NUL in which `*/` does not occur, and `*/`,
`h2incn_parse_comment` returns 1 for every fuel and has written, for each
physical line of the comment in order, a `;`, the line and a line feed: as
many segments as the comment has line feeds, plus one. The lines are those of
the comment text cut at its line feeds, so that the segments without their
`;` are the comment from `/*` through `*/` followed by one added line feed.
The line counter advances by the number of line feeds of the comment, and
nothing is printed. -/
theorem block_comment_segments (fuel : Nat) (p : parser_t) (w : World) (body rest : List Nat)
    (hd : p.pFileBuffer.drop p.pNextToken = [47, 42] ++ (body ++ 42 :: 47 :: rest))
    (hnul : ∀ c ∈ body, c ≠ 0) (hclose : hasClose body = false)
    (hc : w.options.fComments = true) :
    ∃ p' w', h2incn_parse_comment fuel p w = some (true, p', w') ∧
      w'.out = w.out ++ marked_lines (lines_of [] ([47, 42] ++ body ++ [42, 47])) ∧
      (lines_of [] ([47, 42] ++ body ++ [42, 47])).length
        = ([47, 42] ++ body ++ [42, 47]).count 10 + 1 ∧
      (∀ l ∈ lines_of [] ([47, 42] ++ body ++ [42, 47]), 10 ∉ l) ∧
      lf_lines (lines_of [] ([47, 42] ++ body ++ [42, 47]))
        = [47, 42] ++ body ++ [42, 47] ++ [10] ∧
      p'.iLineNum = p.iLineNum + ([47, 42] ++ body ++ [42, 47]).count 10 ∧
      p'.pFileBuffer = p.pFileBuffer ∧
      p'.pNextToken = scan isBlank p.pFileBuffer (p.pNextToken + ([47, 42] ++ body ++ [42, 47]).length) ∧
      w'.log = w.log ∧ w'.options = w.options := by
  obtain ⟨p', w', e, c1, c2, -, c4, o1, o2, -, -, o5⟩ :=
    (parse_comment_block_run fuel p w body rest hd hnul (no_close_of_hasClose body hnul hclose)
      _ _ rfl rfl).1 hc
  have hcount : ([47, 42] ++ body ++ [42, 47]).count 10 = body.count 10 := by
    simp [List.count_append, List.count_cons]
  refine ⟨p', w', e, o5, lines_of_length _ _, lines_of_no_lf _ _ (List.not_mem_nil _), ?_, ?_,
    c1, ?_, o2, o1⟩
  · rw [lf_lines_of]
    simp
  · rw [c4, hcount]
  · rw [c2]
    congr 1
    simp only [List.length_append, List.length_cons, List.length_nil]
    omega

theorem block_comment_segments_witness :
    ∃ p' w', h2incn_parse_comment 0 (parser_at (bytes "/* a\n * b\n */ int x;") 0)
        (initial_world { fComments := true }) = some (true, p', w') ∧
      w'.out = (initial_world { fComments := true }).out ++
        marked_lines (lines_of [] ([47, 42] ++ bytes " a\n * b\n " ++ [42, 47])) ∧
      (lines_of [] ([47, 42] ++ bytes " a\n * b\n " ++ [42, 47])).length
        = ([47, 42] ++ bytes " a\n * b\n " ++ [42, 47]).count 10 + 1 ∧
      (∀ l ∈ lines_of [] ([47, 42] ++ bytes " a\n * b\n " ++ [42, 47]), 10 ∉ l) ∧
      lf_lines (lines_of [] ([47, 42] ++ bytes " a\n * b\n " ++ [42, 47]))
        = [47, 42] ++ bytes " a\n * b\n " ++ [42, 47] ++ [10] ∧
      p'.iLineNum = (parser_at (bytes "/* a\n * b\n */ int x;") 0).iLineNum
        + ([47, 42] ++ bytes " a\n * b\n " ++ [42, 47]).count 10 ∧
      p'.pFileBuffer = (parser_at (bytes "/* a\n * b\n */ int x;") 0).pFileBuffer ∧
      p'.pNextToken = scan isBlank (parser_at (bytes "/* a\n * b\n */ int x;") 0).pFileBuffer
        ((parser_at (bytes "/* a\n * b\n */ int x;") 0).pNextToken
          + ([47, 42] ++ bytes " a\n * b\n " ++ [42, 47]).length) ∧
      w'.log = (initial_world { fComments := true }).log ∧
      w'.options = (initial_world { fComments := true }).options :=
  block_comment_segments 0 (parser_at (bytes "/* a\n * b\n */ int x;") 0)
    (initial_world { fComments := true }) (bytes " a\n * b\n ") (bytes " int x;")
    (by decide) (by decide) (by decide) rfl


theorem scanList_head_stop (q : Nat → Bool) (S : List Nat) (h : q (byteAt S 0) = false) :
    scanList q S = 0 := by
  cases S with
  | nil => rfl
  | cons c S' => exact scanList_stop q c S' h

theorem scan_blanks_stop (buf : List Nat) (i : Nat) (blanks S : List Nat)
    (hd : buf.drop i = blanks ++ S) (hb : ∀ c ∈ blanks, isBlank c = true)
    (hs : isBlank (byteAt S 0) = false) : scan isBlank buf i = i + blanks.length := by
  rw [scan_of_drop _ hd, scanList_append _ _ _ hb, scanList_head_stop _ _ hs]
  rfl

/-- The handler `h2incn_parse_comment`, comment conversion off, on a
terminated block comment followed by blanks and a line terminator, or by
blanks and a byte that is neither a blank nor CR nor LF. -/
theorem parse_comment_block_off (fuel : Nat) (p : parser_t) (w : World)
    (body blanks term rest : List Nat)
    (hd : p.pFileBuffer.drop p.pNextToken
      = [47, 42] ++ (body ++ 42 :: 47 :: (blanks ++ (term ++ rest))))
    (hnul : ∀ c ∈ body, c ≠ 0) (hclose : ∀ A B, body ≠ A ++ 42 :: 47 :: B)
    (hblank : ∀ c ∈ blanks, isBlank c = true)
    (hterm : term = [10] ∨ term = [13, 10] ∨
      (term = [] ∧ isBlank (byteAt rest 0) = false ∧ byteAt rest 0 ≠ 13 ∧ byteAt rest 0 ≠ 10))
    (hc : w.options.fComments = false) :
    ∃ p', h2incn_parse_comment fuel p w = some (true, p', w) ∧
      p'.pFileBuffer = p.pFileBuffer ∧ p'.pFileName = p.pFileName ∧
      p'.pNextToken = scan isBlank p.pFileBuffer
        (p.pNextToken + 2 + body.length + 2 + blanks.length + term.length) ∧
      p'.iLineNum = p.iLineNum + body.count 10 + term.count 10 := by
  have hdT : p.pFileBuffer.drop (p.pNextToken + 2 + body.length + 1 + 1)
      = blanks ++ (term ++ rest) := by
    have h1 : p.pFileBuffer.drop p.pNextToken
        = ([47, 42] ++ body ++ [42, 47]) ++ (blanks ++ (term ++ rest)) := by
      rw [hd]; simp
    have h2 := drop_add_of_drop h1
    have e : p.pNextToken + ([47, 42] ++ body ++ [42, 47]).length
        = p.pNextToken + 2 + body.length + 1 + 1 := by
      simp only [List.length_append, List.length_cons, List.length_nil]
      omega
    rw [e] at h2
    exact h2
  have hstop : isBlank (byteAt (term ++ rest) 0) = false := by
    rcases hterm with h | h | ⟨h, h1, -, -⟩
    · rw [h]; rfl
    · rw [h]; rfl
    · rw [h]; exact h1
  have hB : scan isBlank p.pFileBuffer (p.pNextToken + 2 + body.length + 1 + 1)
      = p.pNextToken + 2 + body.length + 1 + 1 + blanks.length :=
    scan_blanks_stop _ _ blanks (term ++ rest) hdT hblank hstop
  have hdB : p.pFileBuffer.drop (p.pNextToken + 2 + body.length + 1 + 1 + blanks.length)
      = term ++ rest := drop_add_of_drop hdT
  obtain ⟨p', e, c1, c3, c2, c4⟩ :=
    (parse_comment_block_run fuel p w body (blanks ++ (term ++ rest)) hd hnul hclose
      _ _ rfl rfl).2 hc
  rw [hB] at c2 c4
  refine ⟨p', e, c1, c3, ?_, ?_⟩
  · rw [c2]
    rcases hterm with h | h | ⟨h, h1, h2, h3⟩
    · subst h
      have b1 : byteAt p.pFileBuffer (p.pNextToken + 2 + body.length + 1 + 1 + blanks.length)
          = 10 := by rw [byteAt_of_drop_zero hdB]; rfl
      simp only [b1, show ((10 : Nat) == 13) = false from rfl, Bool.false_eq_true, if_false,
        beq_self_eq_true, if_true, List.length_singleton]
    · subst h
      have b1 : byteAt p.pFileBuffer (p.pNextToken + 2 + body.length + 1 + 1 + blanks.length)
          = 13 := by rw [byteAt_of_drop_zero hdB]; rfl
      have b2 : byteAt p.pFileBuffer
          (p.pNextToken + 2 + body.length + 1 + 1 + blanks.length + 1) = 10 := by
        rw [byteAt_of_drop hdB 1]; rfl
      simp only [b1, b2, beq_self_eq_true, if_true, List.length_cons, List.length_nil]
    · subst h
      have b1 : byteAt p.pFileBuffer (p.pNextToken + 2 + body.length + 1 + 1 + blanks.length)
          = byteAt rest 0 := by rw [byteAt_of_drop_zero hdB]; rfl
      have e13 : (byteAt rest 0 == 13) = false := by simp [h2]
      have e10 : (byteAt rest 0 == 10) = false := by simp [h3]
      simp only [b1, e13, e10, Bool.false_eq_true, if_false, List.length_nil]
      congr 1
  · rw [c4]
    rcases hterm with h | h | ⟨h, h1, h2, h3⟩
    · subst h
      have b1 : byteAt p.pFileBuffer (p.pNextToken + 2 + body.length + 1 + 1 + blanks.length)
          = 10 := by rw [byteAt_of_drop_zero hdB]; rfl
      simp only [b1, show ((10 : Nat) == 13) = false from rfl, Bool.false_eq_true, if_false,
        beq_self_eq_true, if_true]
      rfl
    · subst h
      have b1 : byteAt p.pFileBuffer (p.pNextToken + 2 + body.length + 1 + 1 + blanks.length)
          = 13 := by rw [byteAt_of_drop_zero hdB]; rfl
      have b2 : byteAt p.pFileBuffer
          (p.pNextToken + 2 + body.length + 1 + 1 + blanks.length + 1) = 10 := by
        rw [byteAt_of_drop hdB 1]; rfl
      simp only [b1, b2, beq_self_eq_true, if_true]
      rfl
    · subst h
      have b1 : byteAt p.pFileBuffer (p.pNextToken + 2 + body.length + 1 + 1 + blanks.length)
          = byteAt rest 0 := by rw [byteAt_of_drop_zero hdB]; rfl
      have e13 : (byteAt rest 0 == 13) = false := by simp [h2]
      have e10 : (byteAt rest 0 == 10) = false := by simp [h3]
      simp only [b1, e13, e10, Bool.false_eq_true, if_false]
      rfl

/-- C28: with `options.fComments` clear, on a terminated block comment (the
bytes `/*`, a body without NUL in which `*/` does not occur, and `*/`)
followed by blanks and tabs and then by LF, by CR LF, or by a byte that is
none of blank, tab, CR and LF, `h2incn_parse_comment` returns 1 for every
fuel and leaves the shared state as it was, so it writes and prints nothing;
the cursor is moved past the comment, the blanks and the line terminator (and
the blanks that follow it), and the line counter is advanced by the number of
line feeds in the comment and in the terminator. A round of the loop of
`h2incn_parse` on a line that holds, after leading blanks, only such a
comment goes on after the line with the output unchanged. -/
theorem block_comment_dropped (fs : List Nat → Option (List Nat)) (n fuel : Nat)
    (p : parser_t) (w : World) (indent body blanks term rest : List Nat)
    (hd : p.pFileBuffer.drop p.pNextToken
      = indent ++ ([47, 42] ++ (body ++ 42 :: 47 :: (blanks ++ (term ++ rest)))))
    (hind : ∀ c ∈ indent, isBlank c = true)
    (hnul : ∀ c ∈ body, c ≠ 0) (hclose : hasClose body = false)
    (hblank : ∀ c ∈ blanks, isBlank c = true)
    (hterm : term = [10] ∨ term = [13, 10] ∨
      (term = [] ∧ isBlank (byteAt rest 0) = false ∧ byteAt rest 0 ≠ 13 ∧ byteAt rest 0 ≠ 10))
    (hc : w.options.fComments = false) :
    ∃ p', h2incn_parse_comment fuel { p with pNextToken := p.pNextToken + indent.length } w
        = some (true, p', w) ∧
      p'.pFileBuffer = p.pFileBuffer ∧
      p'.pNextToken = scan isBlank p.pFileBuffer
        (p.pNextToken + indent.length + 2 + body.length + 2 + blanks.length + term.length) ∧
      p'.iLineNum = p.iLineNum + body.count 10 + term.count 10 ∧
      ∃ p'', parse_loop fs (n + 1) p w = parse_loop fs n p'' w ∧
        p''.pFileBuffer = p.pFileBuffer ∧ p''.pNextToken = p'.pNextToken ∧
        p''.iLineNum = p'.iLineNum := by
  have hdh : p.pFileBuffer.drop (p.pNextToken + indent.length)
      = [47, 42] ++ (body ++ 42 :: 47 :: (blanks ++ (term ++ rest))) := drop_add_of_drop hd
  have hnc := no_close_of_hasClose body hnul hclose
  obtain ⟨p', e, c1, -, c2, c4⟩ := parse_comment_block_off fuel
    { p with pNextToken := p.pNextToken + indent.length } w body blanks term rest hdh hnul hnc
    hblank hterm hc
  obtain ⟨p'', e', d1, -, d2, d4⟩ := parse_comment_block_off n
    { p with pNextToken := p.pNextToken + indent.length } w body blanks term rest hdh hnul hnc
    hblank hterm hc
  refine ⟨p', e, c1, c2, c4, p'', ?_, d1, d2.trans c2.symm, d4.trans c4.symm⟩
  have hs : scan isBlank p.pFileBuffer p.pNextToken = p.pNextToken + indent.length :=
    scan_blanks_stop _ _ indent _ hd hind rfl
  have b47 : byteAt p.pFileBuffer (p.pNextToken + indent.length) = 47 := by
    rw [byteAt_of_drop_zero hdh]; rfl
  have b42 : byteAt p.pFileBuffer (p.pNextToken + indent.length + 1) = 42 := by
    rw [byteAt_of_drop hdh 1]; rfl
  rw [parse_loop_token fs n p w _ hs (by rw [b47]; decide) (by rw [b47]; decide)
    (by rw [b47]; decide)]
  have hdisp : dispatch (read_included (h2incn_parse fs n) fs) n (p.pNextToken + indent.length)
      { p with pNextToken := p.pNextToken + indent.length } w
      = h2incn_parse_comment n { p with pNextToken := p.pNextToken + indent.length } w := by
    unfold dispatch
    simp only [b47, isCommentOpener, b42, show ((47 : Nat) == 35) = false from rfl,
      Bool.false_eq_true, if_false, beq_self_eq_true, Bool.or_true, Bool.and_self, if_true]
  rw [hdisp, e']

theorem block_comment_dropped_witness :
    ∃ p', h2incn_parse_comment 0
        { parser_at (bytes "  /* a\n b */ \r\n  int x;\n") 0 with
          pNextToken := (parser_at (bytes "  /* a\n b */ \r\n  int x;\n") 0).pNextToken
            + (bytes "  ").length } (initial_world { fCode := true })
        = some (true, p', initial_world { fCode := true }) ∧
      p'.pFileBuffer = (parser_at (bytes "  /* a\n b */ \r\n  int x;\n") 0).pFileBuffer ∧
      p'.pNextToken = scan isBlank (parser_at (bytes "  /* a\n b */ \r\n  int x;\n") 0).pFileBuffer
        ((parser_at (bytes "  /* a\n b */ \r\n  int x;\n") 0).pNextToken + (bytes "  ").length + 2
          + (bytes " a\n b ").length + 2 + (bytes " ").length + [13, 10].length) ∧
      p'.iLineNum = (parser_at (bytes "  /* a\n b */ \r\n  int x;\n") 0).iLineNum
        + (bytes " a\n b ").count 10 + [13, 10].count 10 ∧
      ∃ p'', parse_loop (fun _ => none) (0 + 1) (parser_at (bytes "  /* a\n b */ \r\n  int x;\n") 0)
          (initial_world { fCode := true })
          = parse_loop (fun _ => none) 0 p'' (initial_world { fCode := true }) ∧
        p''.pFileBuffer = (parser_at (bytes "  /* a\n b */ \r\n  int x;\n") 0).pFileBuffer ∧
        p''.pNextToken = p'.pNextToken ∧ p''.iLineNum = p'.iLineNum :=
  block_comment_dropped (fun _ => none) 0 0 (parser_at (bytes "  /* a\n b */ \r\n  int x;\n") 0)
    (initial_world { fCode := true }) (bytes "  ") (bytes " a\n b ") (bytes " ") [13, 10]
    (bytes "  int x;\n") (by decide) (by decide) (by decide) (by decide) (by decide)
    (Or.inr (Or.inl rfl)) rfl

/-- A block comment closed on its line and followed by one blank and a byte
that is no blank, CR or LF, parsed as `h2incn_parse_define` does it: the
cursor moves to that byte and nothing else changes. -/
theorem parse_comment_silently_inline (fuel head : Nat) (p : parser_t) (w : World)
    (body X : List Nat)
    (hd : p.pFileBuffer.drop head = [47, 42] ++ body ++ [42, 47, 32] ++ X)
    (hbody : ∀ c ∈ body, notEol c = true) (hclose : hasClose body = false)
    (hx1 : isBlank (byteAt X 0) = false) (hx2 : byteAt X 0 ≠ 13) (hx3 : byteAt X 0 ≠ 10) :
    ∃ p', parse_comment_silently fuel head p w = some (true, p', w) ∧
      p'.pFileBuffer = p.pFileBuffer ∧ p'.pNextToken = head + (body.length + 5) ∧
      p'.iLineNum = p.iLineNum ∧ p'.pFileName = p.pFileName := by
  have hnul : ∀ c ∈ body, c ≠ 0 := by
    intro c hc
    have := hbody c hc
    simp only [notEol, Bool.and_eq_true, bne_iff_ne, ne_eq] at this
    exact this.1.1
  have hlf : body.count 10 = 0 := by
    rw [List.count_eq_zero]
    intro hm
    have := hbody 10 hm
    simp [notEol] at this
  have hd' : ({ p with pNextToken := head } : parser_t).pFileBuffer.drop
      ({ p with pNextToken := head } : parser_t).pNextToken
      = [47, 42] ++ (body ++ 42 :: 47 :: ([32] ++ ([] ++ X))) := by
    show p.pFileBuffer.drop head = _
    rw [hd]; simp
  obtain ⟨p', e, c1, c3, c2, c4⟩ := parse_comment_block_off fuel { p with pNextToken := head }
    { w with options := { w.options with fComments := false } } body [32] [] X hd' hnul
    (no_close_of_hasClose body hnul hclose) (by decide) (Or.inr (Or.inr ⟨rfl, hx1, hx2, hx3⟩)) rfl
  refine ⟨p', ?_, c1, ?_, ?_, c3⟩
  · unfold parse_comment_silently
    simp only [e]
  · rw [c2]
    have hdX : p.pFileBuffer.drop (head + (body.length + 5)) = X := by
      have h1 : p.pFileBuffer.drop head = ([47, 42] ++ body ++ [42, 47, 32]) ++ X := hd
      have h2 := drop_add_of_drop h1
      have e2 : head + ([47, 42] ++ body ++ [42, 47, 32]).length = head + (body.length + 5) := by
        simp only [List.length_append, List.length_cons, List.length_nil]
        omega
      rw [e2] at h2
      exact h2
    have e3 : head + 2 + body.length + 2 + [32].length + ([] : List Nat).length
        = head + (body.length + 5) := by
      simp only [List.length_cons, List.length_nil]
      omega
    show scan isBlank p.pFileBuffer (head + 2 + body.length + 2 + [32].length
      + ([] : List Nat).length) = _
    rw [e3]
    apply scan_stay
    rw [byteAt_of_drop_zero hdX]
    exact hx1
  · rw [c4, hlf]
    rfl

/-- The first loop of `h2incn_parse_define` over an optional inline comment in
front of a name. -/
theorem define_skip_to_name_inline (fuel head : Nat) (p : parser_t) (w : World)
    (c : Option (List Nat)) (X : List Nat) (hf : c.isSome = true → 0 < fuel)
    (hd : p.pFileBuffer.drop head = inline_comment c ++ X) (hc : isInlineBody c = true)
    (hx0 : byteAt X 0 ≠ 0)
    (hx1 : isBlank (byteAt X 0) = false) (hx2 : byteAt X 0 ≠ 13) (hx3 : byteAt X 0 ≠ 10)
    (hxo : isCommentOpener X 0 = false) :
    ∃ p', define_skip_to_name fuel head p w
        = some (.inr (head + (inline_comment c).length, p', w)) ∧
      p'.pFileBuffer = p.pFileBuffer ∧ p'.iLineNum = p.iLineNum ∧ p'.pFileName = p.pFileName := by
  cases c with
  | none =>
    have hdX : p.pFileBuffer.drop head = X := hd
    have hs : scan isBlank p.pFileBuffer head = head := by
      apply scan_stay
      rw [byteAt_of_drop_zero hdX]; exact hx1
    refine ⟨p, ?_, rfl, rfl, rfl⟩
    rw [define_skip_to_name_stop _ _ _ _ (by rw [hs, isCommentOpener_of_drop hdX]; exact hxo)]
    have b : byteAt p.pFileBuffer head ≠ 0 := by rw [byteAt_of_drop_zero hdX]; exact hx0
    simp [b, hs, inline_comment]
  | some body =>
    obtain ⟨m, rfl⟩ : ∃ m, fuel = m + 1 := ⟨fuel - 1, by have := hf rfl; omega⟩
    simp only [isInlineBody, Bool.and_eq_true, List.all_eq_true, Bool.not_eq_true'] at hc
    obtain ⟨hbody, hclose⟩ := hc
    have hd' : p.pFileBuffer.drop head = [47, 42] ++ body ++ [42, 47, 32] ++ X := hd
    obtain ⟨p', e, c1, c2, c4, c3⟩ := parse_comment_silently_inline (m + 1) head p w body X
      hd' hbody hclose hx1 hx2 hx3
    have b0 : byteAt p.pFileBuffer head = 47 := by rw [byteAt_of_drop_zero hd']; rfl
    have b1 : byteAt p.pFileBuffer (head + 1) = 42 := by rw [byteAt_of_drop hd' 1]; rfl
    have hs : scan isBlank p.pFileBuffer head = head := by
      apply scan_stay
      rw [b0]; rfl
    have hdX : p'.pFileBuffer.drop p'.pNextToken = X := by
      rw [c1, c2]
      have h1 : p.pFileBuffer.drop head = ([47, 42] ++ body ++ [42, 47, 32]) ++ X := hd
      have h2 := drop_add_of_drop h1
      have e2 : head + ([47, 42] ++ body ++ [42, 47, 32]).length = head + (body.length + 5) := by
        simp only [List.length_append, List.length_cons, List.length_nil]
        omega
      rw [e2] at h2
      exact h2
    have hs' : scan isBlank p'.pFileBuffer p'.pNextToken = p'.pNextToken := by
      apply scan_stay
      rw [byteAt_of_drop_zero hdX]; exact hx1
    have hstop := define_skip_to_name_stop m p'.pNextToken p' w
      (by rw [hs', isCommentOpener_of_drop hdX]; exact hxo)
    have b' : byteAt p'.pFileBuffer p'.pNextToken ≠ 0 := by
      rw [byteAt_of_drop_zero hdX]; exact hx0
    refine ⟨p', ?_, c1, c4, c3⟩
    rw [define_skip_to_name]
    simp only [b0, hs, isCommentOpener, b1, e, hstop,
      show ((47 : Nat) != 0) = true from rfl, if_true, beq_self_eq_true,
      show ((42 : Nat) == 47) = false from rfl, Bool.or_true, Bool.and_self, Bool.and_false,
      Bool.false_eq_true, if_false]
    have b'' : (byteAt p'.pFileBuffer p'.pNextToken != 0) = true := by simp [b']
    have hl : (inline_comment (some body)).length = body.length + 5 := by
      simp [inline_comment]
    simp only [b'', if_true, hs']
    simp only [c2, hl]

/-- The second loop of `h2incn_parse_define` over a blank and an optional
inline comment in front of a value. -/
theorem define_skip_to_value_inline (fuel vhead : Nat) (p : parser_t) (w : World)
    (c : Option (List Nat)) (X : List Nat) (hf : c.isSome = true → 0 < fuel)
    (hd : p.pFileBuffer.drop vhead = 32 :: (inline_comment c ++ X)) (hc : isInlineBody c = true)
    (hx0 : byteAt X 0 ≠ 0)
    (hx1 : isBlank (byteAt X 0) = false) (hx2 : byteAt X 0 ≠ 13) (hx3 : byteAt X 0 ≠ 10)
    (hxo : isCommentOpener X 0 = false) :
    ∃ p', define_skip_to_value fuel vhead p w
        = some (.inr (vhead + 1 + (inline_comment c).length, p', w)) ∧
      p'.pFileBuffer = p.pFileBuffer ∧ p'.iLineNum = p.iLineNum ∧ p'.pFileName = p.pFileName := by
  have hd1 : p.pFileBuffer.drop (vhead + 1) = inline_comment c ++ X :=
    drop_add_of_drop (M := [32]) hd
  have bv : byteAt p.pFileBuffer vhead = 32 := by rw [byteAt_of_drop_zero hd]; rfl
  cases c with
  | none =>
    have hdX : p.pFileBuffer.drop (vhead + 1) = X := hd1
    have hs : scan isBlank p.pFileBuffer vhead = vhead + 1 :=
      scan_blanks_stop _ _ [32] X hd (by decide) hx1
    refine ⟨p, ?_, rfl, rfl, rfl⟩
    rw [define_skip_to_value_stop _ _ _ _ (by rw [hs, isCommentOpener_of_drop hdX]; exact hxo)]
    simp [bv, hs, inline_comment]
  | some body =>
    obtain ⟨m, rfl⟩ : ∃ m, fuel = m + 1 := ⟨fuel - 1, by have := hf rfl; omega⟩
    simp only [isInlineBody, Bool.and_eq_true, List.all_eq_true, Bool.not_eq_true'] at hc
    obtain ⟨hbody, hclose⟩ := hc
    have hd' : p.pFileBuffer.drop (vhead + 1) = [47, 42] ++ body ++ [42, 47, 32] ++ X := hd1
    obtain ⟨p', e, c1, c2, c4, c3⟩ := parse_comment_silently_inline (m + 1) (vhead + 1) p w
      body X hd' hbody hclose hx1 hx2 hx3
    have b0 : byteAt p.pFileBuffer (vhead + 1) = 47 := by rw [byteAt_of_drop_zero hd']; rfl
    have b1 : byteAt p.pFileBuffer (vhead + 1 + 1) = 42 := by rw [byteAt_of_drop hd' 1]; rfl
    have hs : scan isBlank p.pFileBuffer vhead = vhead + 1 := by
      have hd2 : p.pFileBuffer.drop vhead = [32] ++ (inline_comment (some body) ++ X) := hd
      exact scan_blanks_stop _ _ [32] _ hd2 (by decide) rfl
    have hdX : p'.pFileBuffer.drop p'.pNextToken = X := by
      rw [c1, c2]
      have h1 : p.pFileBuffer.drop (vhead + 1) = ([47, 42] ++ body ++ [42, 47, 32]) ++ X := hd'
      have h2 := drop_add_of_drop h1
      have e2 : vhead + 1 + ([47, 42] ++ body ++ [42, 47, 32]).length
          = vhead + 1 + (body.length + 5) := by
        simp only [List.length_append, List.length_cons, List.length_nil]
        omega
      rw [e2] at h2
      exact h2
    have hs' : scan isBlank p'.pFileBuffer p'.pNextToken = p'.pNextToken := by
      apply scan_stay
      rw [byteAt_of_drop_zero hdX]; exact hx1
    have hstop := define_skip_to_value_stop m p'.pNextToken p' w
      (by rw [hs', isCommentOpener_of_drop hdX]; exact hxo)
    have b' : byteAt p'.pFileBuffer p'.pNextToken ≠ 0 := by
      rw [byteAt_of_drop_zero hdX]; exact hx0
    refine ⟨p', ?_, c1, c4, c3⟩
    rw [define_skip_to_value]
    simp only [bv, hs, isCommentOpener, b0, b1, e, hstop,
      show ((32 : Nat) != 0) = true from rfl, if_true, beq_self_eq_true,
      Bool.or_true, Bool.and_self]
    have b'' : (byteAt p'.pFileBuffer p'.pNextToken != 0) = true := by simp [b']
    have hl : (inline_comment (some body)).length = body.length + 5 := by
      simp [inline_comment]
    simp only [b'', if_true, hs']
    simp only [c2, hl]


/-- The handler `h2incn_parse_define` on a line `#define NAME VALUE` in which
a block comment closed on the line and followed by a blank may stand in front
of NAME and in front of VALUE: what it returns, writes, prints and stores.
Fuel is needed only to go round a loop after a comment. -/
theorem parse_define_inline_core (fuel : Nat) (p : parser_t) (w : World)
    (c1 c2 : Option (List Nat)) (name value rest : List Nat) (t : Nat)
    (hf : (c1.isSome = true ∨ c2.isSome = true) → 0 < fuel)
    (hd : p.pFileBuffer.drop p.pNextToken
      = bytes "#define " ++ (inline_comment c1 ++
          (name ++ 32 :: (inline_comment c2 ++ (value ++ t :: rest)))))
    (hc1 : isInlineBody c1 = true) (hc2 : isInlineBody c2 = true)
    (hname : isIdentifier name = true) (hvalue : isPlainValue value = true)
    (hparen : byteAt value 0 ≠ 40) (ht : isTerminator t = true) :
    ∃ r, h2incn_parse_define fuel p w = some r ∧
      r.2.2.out = w.out ++ (bytes "%define " ++ name ++ [32] ++ value) ∧
      r.2.2.pDefinesMap = (hash_map_insert w.pDefinesMap name value).2 ∧
      r.1 = ((hash_map_insert w.pDefinesMap name value).1 == 0) ∧
      r.2.1.pNextToken = p.pNextToken + 8 + (inline_comment c1).length + name.length + 1
        + (inline_comment c2).length + value.length ∧
      byteAt p.pFileBuffer r.2.1.pNextToken = t ∧
      r.2.1.pFileBuffer = p.pFileBuffer ∧ r.2.1.iLineNum = p.iLineNum ∧
      r.2.2.options = w.options ∧
      r.2.2.log = w.log ++
        (if w.options.fPreprocess && (hash_map_find w.pDefinesMap name).isNode then
          [{ text := "h2incn_parse_define: warning: redefinition", file := p.pFileName,
             line := p.iLineNum }]
        else []) := by
  obtain ⟨hn0, hnc⟩ := identifier_facts name hname
  obtain ⟨hv0, hvc, hvb, hvo, hvl⟩ := plainValue_facts value hvalue
  have ht' : t = 13 ∨ t = 10 := by simpa [isTerminator] using ht
  obtain ⟨c, cs, hcs⟩ := List.exists_cons_of_ne_nil hn0
  obtain ⟨a, as, has⟩ := List.exists_cons_of_ne_nil hv0
  have hc := identChar_facts c (hnc c (by rw [hcs]; exact List.mem_cons_self _ _))
  have ha : notEol a = true := hvc a (by rw [has]; exact List.mem_cons_self _ _)
  have ha' : a ≠ 0 ∧ a ≠ 13 ∧ a ≠ 10 := by
    simp only [notEol, Bool.and_eq_true, bne_iff_ne, ne_eq] at ha
    exact ⟨ha.1.1, ha.1.2, ha.2⟩
  -- the text at the name and at the value
  have hN0 : byteAt (name ++ 32 :: (inline_comment c2 ++ (value ++ t :: rest))) 0 = c := by
    rw [hcs]; rfl
  have hV0 : byteAt (value ++ t :: rest) 0 = a := by
    rw [has]; rfl
  have d1 : p.pFileBuffer.drop (p.pNextToken + 8)
      = inline_comment c1 ++ (name ++ 32 :: (inline_comment c2 ++ (value ++ t :: rest))) := by
    have := drop_add_of_drop hd
    rwa [bytes_define_length] at this
  obtain ⟨p1, e1, f1, g1, n1⟩ := define_skip_to_name_inline fuel (p.pNextToken + 8) p
    (w.fwrite (bytes "%define ")) c1 _ (fun h => hf (Or.inl h)) d1 hc1
    (by rw [hN0]; exact hc.1)
    (by rw [hN0]; simp only [isBlank, Bool.or_eq_false_iff, beq_eq_false_iff_ne]; omega)
    (by rw [hN0]; omega) (by rw [hN0]; omega)
    (by
      simp only [isCommentOpener, hN0, Bool.and_eq_false_imp, beq_iff_eq]
      intro h; omega)
  have d2 : p1.pFileBuffer.drop (p.pNextToken + 8 + (inline_comment c1).length)
      = name ++ 32 :: (inline_comment c2 ++ (value ++ t :: rest)) := by
    rw [f1]; exact drop_add_of_drop d1
  have d3 : p1.pFileBuffer.drop (p.pNextToken + 8 + (inline_comment c1).length + name.length)
      = 32 :: (inline_comment c2 ++ (value ++ t :: rest)) := drop_add_of_drop d2
  have s2 : scan (fun c => c != 0 && c != 32 && c != 9 && c != 40 && c != 13 && c != 10)
      p1.pFileBuffer (p.pNextToken + 8 + (inline_comment c1).length)
      = p.pNextToken + 8 + (inline_comment c1).length + name.length := by
    refine scan_run _ 32 d2 ?_ rfl
    intro x hx
    have := identChar_facts x (hnc x hx)
    simp only [Bool.and_eq_true, bne_iff_ne, ne_eq]
    omega
  have l1 : slice p1.pFileBuffer (p.pNextToken + 8 + (inline_comment c1).length)
      (p.pNextToken + 8 + (inline_comment c1).length + name.length
        - (p.pNextToken + 8 + (inline_comment c1).length)) = name := by
    rw [Nat.add_sub_cancel_left, slice_of_drop d2]
    exact slice_append_left _ _
  obtain ⟨p2, e2, f2, g2, -⟩ := define_skip_to_value_inline fuel
    (p.pNextToken + 8 + (inline_comment c1).length + name.length) p1
    (if ((w.fwrite (bytes "%define ")).fwrite name).options.fPreprocess &&
        (hash_map_find ((w.fwrite (bytes "%define ")).fwrite name).pDefinesMap name).isNode then
      ((w.fwrite (bytes "%define ")).fwrite name).printf p1
        "h2incn_parse_define: warning: redefinition"
      else (w.fwrite (bytes "%define ")).fwrite name) c2 _ (fun h => hf (Or.inr h)) d3 hc2
    (by rw [hV0]; exact ha'.1)
    (by rw [hV0]; simpa [has, byteAt] using hvb)
    (by rw [hV0]; exact ha'.2.1) (by rw [hV0]; exact ha'.2.2)
    (isCommentOpener_append _ _ _ hv0 hvo ht)
  have d4 : p1.pFileBuffer.drop (p.pNextToken + 8 + (inline_comment c1).length + name.length
      + 1 + (inline_comment c2).length) = value ++ t :: rest := by
    have h1 : p1.pFileBuffer.drop
        (p.pNextToken + 8 + (inline_comment c1).length + name.length)
        = ([32] ++ inline_comment c2) ++ (value ++ t :: rest) := by
      rw [d3]; simp
    have h2 := drop_add_of_drop h1
    have e : p.pNextToken + 8 + (inline_comment c1).length + name.length
        + ([32] ++ inline_comment c2).length
        = p.pNextToken + 8 + (inline_comment c1).length + name.length
          + 1 + (inline_comment c2).length := by
      simp only [List.length_append, List.length_singleton]
      omega
    rw [e] at h2
    exact h2
  have d5 : p1.pFileBuffer.drop (p.pNextToken + 8 + (inline_comment c1).length + name.length
      + 1 + (inline_comment c2).length + value.length) = t :: rest := drop_add_of_drop d4
  have s4 : scan notEol p1.pFileBuffer (p.pNextToken + 8 + (inline_comment c1).length
      + name.length + 1 + (inline_comment c2).length)
      = p.pNextToken + 8 + (inline_comment c1).length + name.length
        + 1 + (inline_comment c2).length + value.length :=
    scan_run _ t d4 hvc (by rcases ht' with h | h <;> subst h <;> rfl)
  have b3 : byteAt p2.pFileBuffer (p.pNextToken + 8 + (inline_comment c1).length + name.length
      + 1 + (inline_comment c2).length + value.length - 1) ≠ 92 := by
    have h1 : p.pNextToken + 8 + (inline_comment c1).length + name.length
        + 1 + (inline_comment c2).length + value.length - 1
        = (p.pNextToken + 8 + (inline_comment c1).length + name.length
          + 1 + (inline_comment c2).length) + (value.length - 1) := by
      have : 0 < value.length := List.length_pos.mpr hv0
      omega
    rw [f2, h1, byteAt_of_drop d4]
    intro h
    apply hvl
    rw [← byteAt_getLast value (t :: rest) hv0, h]
  have b4 : byteAt p1.pFileBuffer (p.pNextToken + 8 + (inline_comment c1).length + name.length
      + 1 + (inline_comment c2).length) = a := by
    rw [byteAt_of_drop_zero d4]; exact hV0
  have b5 : byteAt p1.pFileBuffer (p.pNextToken + 8 + (inline_comment c1).length + name.length
      + 1 + (inline_comment c2).length + value.length) = t := by
    rw [byteAt_of_drop_zero d5]; rfl
  have l2 : slice p1.pFileBuffer (p.pNextToken + 8 + (inline_comment c1).length + name.length
      + 1 + (inline_comment c2).length)
      (p.pNextToken + 8 + (inline_comment c1).length + name.length
        + 1 + (inline_comment c2).length + value.length
        - (p.pNextToken + 8 + (inline_comment c1).length + name.length
          + 1 + (inline_comment c2).length)) = value := by
    rw [Nat.add_sub_cancel_left, slice_of_drop d4]
    exact slice_append_left _ _
  have hpa : (a != 40) = true := by
    have : a ≠ 40 := by
      intro h
      apply hparen
      rw [has, h]; rfl
    simpa using this
  have n3 : (p.pNextToken + 8 + (inline_comment c1).length + name.length
      + 1 + (inline_comment c2).length + value.length
      > p.pNextToken + 8 + (inline_comment c1).length + name.length
        + 1 + (inline_comment c2).length) = True := by
    have : 0 < value.length := List.length_pos.mpr hv0
    exact eq_true (by omega)
  have sc := fun w' => define_continuation_stop fuel
    (p.pNextToken + 8 + (inline_comment c1).length + name.length
      + 1 + (inline_comment c2).length)
    (p.pNextToken + 8 + (inline_comment c1).length + name.length
      + 1 + (inline_comment c2).length + value.length) p2 w' b3
  simp only [h2incn_parse_define, e1, s2, l1, e2, s4, sc, l2, n3, hpa, b4, if_true]
  refine ⟨_, rfl, ?_, ?_, ?_, rfl, ?_, f2.trans f1, g2.trans g1, ?_, ?_⟩
  · by_cases hp : (w.options.fPreprocess && (hash_map_find w.pDefinesMap name).isNode) = true
      <;> simp [World.fwrite, World.printf, hp]
  · by_cases hp : (w.options.fPreprocess && (hash_map_find w.pDefinesMap name).isNode) = true
      <;> simp [World.fwrite, World.printf, hp]
  · by_cases hp : (w.options.fPreprocess && (hash_map_find w.pDefinesMap name).isNode) = true
      <;> simp [World.fwrite, World.printf, hp]
  · rw [← f1]; exact b5
  · by_cases hp : (w.options.fPreprocess && (hash_map_find w.pDefinesMap name).isNode) = true
      <;> simp [World.fwrite, World.printf, hp]
  · by_cases hp : (w.options.fPreprocess && (hash_map_find w.pDefinesMap name).isNode) = true
      <;> simp [World.fwrite, World.printf, hp, n1, g1]

/-- C25: on a directive line `#define NAME VALUE` in which a block comment
closed on the line and followed by a blank may stand in front of NAME, in
front of VALUE, or both (so `#define NAME /* c */ VALUE` and
`#define /* c */ NAME VALUE`), with NAME an identifier and VALUE a plain
replacement text that starts with no `(`, `h2incn_parse_define` returns for
every positive fuel, has written exactly `%define NAME VALUE`, of the comments
no byte, has called `hash_map_insert` on the defines table with NAME and
VALUE and returns 1 exactly when that call returns 0; the cursor is left on
the line terminator and the line counter is as it was. The state is any
state, so this holds with comment conversion on and off. -/
theorem define_inline_comment (fuel : Nat) (p : parser_t) (w : World)
    (c1 c2 : Option (List Nat)) (name value rest : List Nat) (t : Nat)
    (hd : p.pFileBuffer.drop p.pNextToken
      = bytes "#define " ++ (inline_comment c1 ++
          (name ++ 32 :: (inline_comment c2 ++ (value ++ t :: rest)))))
    (hc1 : isInlineBody c1 = true) (hc2 : isInlineBody c2 = true)
    (hname : isIdentifier name = true) (hvalue : isPlainValue value = true)
    (hparen : byteAt value 0 ≠ 40) (ht : isTerminator t = true) :
    ∃ r, h2incn_parse_define (fuel + 1) p w = some r ∧
      r.2.2.out = w.out ++ (bytes "%define " ++ name ++ [32] ++ value) ∧
      r.2.2.pDefinesMap = (hash_map_insert w.pDefinesMap name value).2 ∧
      r.1 = ((hash_map_insert w.pDefinesMap name value).1 == 0) ∧
      r.2.1.pNextToken = p.pNextToken + 8 + (inline_comment c1).length + name.length + 1
        + (inline_comment c2).length + value.length ∧
      byteAt p.pFileBuffer r.2.1.pNextToken = t ∧
      r.2.1.pFileBuffer = p.pFileBuffer ∧ r.2.1.iLineNum = p.iLineNum ∧
      r.2.2.options = w.options := by
  obtain ⟨r, h1, h2, h3, h4, h5, h6, h7, h8, h9, -⟩ := parse_define_inline_core (fuel + 1) p w
    c1 c2 name value rest t (fun _ => Nat.succ_pos _) hd hc1 hc2 hname hvalue hparen ht
  exact ⟨r, h1, h2, h3, h4, h5, h6, h7, h8, h9⟩

theorem define_inline_comment_witness :
    ∃ r, h2incn_parse_define (0 + 1) (parser_at (bytes "#define FOO /* c */ 1 + 2\n") 0)
        (initial_world { fComments := true }) = some r ∧
      r.2.2.out = (initial_world { fComments := true }).out
        ++ (bytes "%define " ++ bytes "FOO" ++ [32] ++ bytes "1 + 2") ∧
      r.2.2.pDefinesMap = (hash_map_insert (initial_world { fComments := true }).pDefinesMap
        (bytes "FOO") (bytes "1 + 2")).2 ∧
      r.1 = ((hash_map_insert (initial_world { fComments := true }).pDefinesMap
        (bytes "FOO") (bytes "1 + 2")).1 == 0) ∧
      r.2.1.pNextToken = (parser_at (bytes "#define FOO /* c */ 1 + 2\n") 0).pNextToken + 8
        + (inline_comment none).length + (bytes "FOO").length + 1
        + (inline_comment (some (bytes " c "))).length + (bytes "1 + 2").length ∧
      byteAt (parser_at (bytes "#define FOO /* c */ 1 + 2\n") 0).pFileBuffer r.2.1.pNextToken
        = 10 ∧
      r.2.1.pFileBuffer = (parser_at (bytes "#define FOO /* c */ 1 + 2\n") 0).pFileBuffer ∧
      r.2.1.iLineNum = (parser_at (bytes "#define FOO /* c */ 1 + 2\n") 0).iLineNum ∧
      r.2.2.options = (initial_world { fComments := true }).options :=
  define_inline_comment 0 (parser_at (bytes "#define FOO /* c */ 1 + 2\n") 0)
    (initial_world { fComments := true }) none (some (bytes " c ")) (bytes "FOO")
    (bytes "1 + 2") [] 10 (by decide) (by decide) (by decide) (by decide) (by decide)
    (by decide) (by decide)


/-- C30: on a directive line `#define NAME VALUE` (NAME an identifier, VALUE a
plain replacement text that starts with no `(`), `h2incn_parse_define`
returns for every fuel and prints the line `warning: redefinition`, once,
exactly when `options.fPreprocess` is set and `hash_map_find` finds NAME in
the defines table; otherwise it prints nothing. In either case it returns 1,
has written `%define NAME VALUE`, and the defines table is the one
`hash_map_insert` gives for NAME and VALUE. -/
theorem redefinition_warning (fuel : Nat) (p : parser_t) (w : World)
    (name value rest : List Nat) (t : Nat)
    (hd : p.pFileBuffer.drop p.pNextToken
      = bytes "#define " ++ (name ++ 32 :: (value ++ t :: rest)))
    (hname : isIdentifier name = true) (hvalue : isPlainValue value = true)
    (hparen : byteAt value 0 ≠ 40) (ht : isTerminator t = true) :
    ∃ r, h2incn_parse_define fuel p w = some r ∧ r.1 = true ∧
      r.2.2.log = w.log ++
        (if w.options.fPreprocess && (hash_map_find w.pDefinesMap name).isNode then
          [{ text := "h2incn_parse_define: warning: redefinition", file := p.pFileName,
             line := p.iLineNum }]
        else []) ∧
      r.2.2.out = w.out ++ (bytes "%define " ++ name ++ [32] ++ value) ∧
      r.2.2.pDefinesMap = (hash_map_insert w.pDefinesMap name value).2 := by
  obtain ⟨r, h1, h2, h3, h4, -, -, -, -, -, h10⟩ := parse_define_inline_core fuel p w
    none none name value rest t (fun h => by rcases h with h | h <;> cases h) hd rfl rfl
    hname hvalue hparen ht
  refine ⟨r, h1, ?_, h10, h2, h3⟩
  rw [h4, hash_map_insert_fst]
  rfl

theorem redefinition_warning_witness :
    ∃ r, h2incn_parse_define 0 (parser_at (bytes "#define FOO 2\n") 0)
        { world_defining_foo with options := { fPreprocess := true } } = some r ∧ r.1 = true ∧
      r.2.2.log = ({ world_defining_foo with options := { fPreprocess := true } } : World).log ++
        (if ({ world_defining_foo with options := { fPreprocess := true } } : World).options.fPreprocess
            && (hash_map_find
              ({ world_defining_foo with options := { fPreprocess := true } } : World).pDefinesMap
              (bytes "FOO")).isNode then
          [{ text := "h2incn_parse_define: warning: redefinition",
             file := (parser_at (bytes "#define FOO 2\n") 0).pFileName,
             line := (parser_at (bytes "#define FOO 2\n") 0).iLineNum }]
        else []) ∧
      r.2.2.out = ({ world_defining_foo with options := { fPreprocess := true } } : World).out
        ++ (bytes "%define " ++ bytes "FOO" ++ [32] ++ bytes "2") ∧
      r.2.2.pDefinesMap = (hash_map_insert
        ({ world_defining_foo with options := { fPreprocess := true } } : World).pDefinesMap
        (bytes "FOO") (bytes "2")).2 :=
  redefinition_warning 0 (parser_at (bytes "#define FOO 2\n") 0)
    { world_defining_foo with options := { fPreprocess := true } } (bytes "FOO") (bytes "2")
    [] 10 (by decide) (by decide) (by decide) (by decide) (by decide)

theorem continuation_warnings_length (file : List Nat) (k : Nat) :
    ∀ n, (continuation_warnings file n k).length = k := by
  induction k with
  | zero => intro n; rfl
  | succ k ih => intro n; simp [continuation_warnings, ih]

theorem marked_lines_append (A B : List (List Nat)) :
    marked_lines (A ++ B) = marked_lines A ++ marked_lines B := by
  induction A with
  | nil => rfl
  | cons a A ih => simp [marked_lines, ih]

theorem lf_lines_append (A B : List (List Nat)) :
    lf_lines (A ++ B) = lf_lines A ++ lf_lines B := by
  induction A with
  | nil => rfl
  | cons a A ih => simp [lf_lines, ih]

/-- The continuation loop of the `//` branch over lines that each end in a
backslash, up to a line that does not: one round for each continued line. -/
theorem comment_continuation_lines (last rest : List Nat)
    (hlast : ∀ c ∈ last, notEol c = true) (hlast2 : last.getLast? ≠ some 92)
    (L : List (List Nat)) :
    ∀ (fuel head : Nat) (p : parser_t) (w : World),
      L.length ≤ fuel →
      p.pFileBuffer.drop head = lf_lines L ++ (last ++ 10 :: rest) →
      (∀ l ∈ L, (∀ c ∈ l, notEol c = true) ∧ l.getLast? = some 92) →
      (L = [] → last = [] → byteAt p.pFileBuffer (head - 1) ≠ 92) →
      ∃ p' w', comment_continuation fuel head (head + (L.headD last).length) p w
          = some (head + (lf_lines L).length, head + (lf_lines L).length + last.length, p', w') ∧
        p'.pFileBuffer = p.pFileBuffer ∧ p'.pFileName = p.pFileName ∧
        p'.iLineNum = p.iLineNum + L.length ∧
        w'.options = w.options ∧ w'.pHeadersMap = w.pHeadersMap ∧
        w'.pDefinesMap = w.pDefinesMap ∧
        w'.out = w.out ++ (if w.options.fComments then marked_lines L else []) ∧
        w'.log = w.log ++ continuation_warnings p.pFileName p.iLineNum L.length := by
  induction L with
  | nil =>
    intro fuel head p w _ hd _ hprev
    have hd' : p.pFileBuffer.drop head = last ++ 10 :: rest := hd
    have b : byteAt p.pFileBuffer (head + last.length - 1) ≠ 92 := by
      by_cases hl : last = []
      · rw [hl]
        exact hprev rfl hl
      · have h1 : head + last.length - 1 = head + (last.length - 1) := by
          have : 0 < last.length := List.length_pos.mpr hl
          omega
        rw [h1, byteAt_of_drop hd']
        intro h
        apply hlast2
        rw [← byteAt_getLast last (10 :: rest) hl, h]
    refine ⟨p, w, ?_, rfl, rfl, rfl, rfl, rfl, rfl, ?_, ?_⟩
    · show comment_continuation fuel head (head + last.length) p w = _
      rw [comment_continuation_stop _ _ _ _ _ b]
      rfl
    · simp [marked_lines]
    · simp [continuation_warnings]
  | cons l L ih =>
    intro fuel head p w hfuel hd hL hprev
    obtain ⟨m, rfl⟩ : ∃ m, fuel = m + 1 := ⟨fuel - 1, by simp at hfuel; omega⟩
    obtain ⟨hl1, hl2⟩ := hL l (List.mem_cons_self _ _)
    have hne : l ≠ [] := by
      intro h
      rw [h] at hl2
      cases hl2
    have hd0 : p.pFileBuffer.drop head = l ++ 10 :: (lf_lines L ++ (last ++ 10 :: rest)) := by
      rw [hd]; simp [lf_lines]
    have hd1 : p.pFileBuffer.drop (head + l.length)
        = 10 :: (lf_lines L ++ (last ++ 10 :: rest)) := drop_add_of_drop hd0
    have hd2 : p.pFileBuffer.drop (head + l.length + 1)
        = lf_lines L ++ (last ++ 10 :: rest) := drop_add_of_drop (M := [10]) hd1
    have b92 : byteAt p.pFileBuffer (head + l.length - 1) = 92 := by
      have h1 : head + l.length - 1 = head + (l.length - 1) := by
        have : 0 < l.length := List.length_pos.mpr hne
        omega
      rw [h1, byteAt_of_drop hd0]
      have := byteAt_getLast l (10 :: (lf_lines L ++ (last ++ 10 :: rest))) hne
      rw [hl2] at this
      exact Option.some.inj this
    have b10 : byteAt p.pFileBuffer (head + l.length) = 10 := by
      rw [byteAt_of_drop_zero hd1]; rfl
    have hsl : slice p.pFileBuffer head (head + l.length - head) = l := by
      rw [Nat.add_sub_cancel_left, slice_of_drop hd0]
      exact slice_append_left _ _
    have hnext : ∀ c ∈ L.headD last, notEol c = true := by
      cases L with
      | nil => exact hlast
      | cons l' L' => exact (hL l' (List.mem_cons_of_mem _ (List.mem_cons_self _ _))).1
    have hs : scan notEol p.pFileBuffer (head + l.length + 1)
        = head + l.length + 1 + (L.headD last).length := by
      cases L with
      | nil =>
        exact scan_run _ 10 (by rw [hd2]; rfl) hlast rfl
      | cons l' L' =>
        refine scan_run _ 10 (S := lf_lines L' ++ (last ++ 10 :: rest)) ?_ hnext rfl
        rw [hd2]
        simp [lf_lines]
    obtain ⟨p', w', e, c1, c2, c3, c4, c5, c6, c7, c8⟩ := ih m (head + l.length + 1)
      { p with pLine := head + l.length + 1, pNextToken := head + l.length + 1,
               iLineNum := p.iLineNum + 1 }
      (if (w.printf p
          "h2incn_parse_comment: warning: continuation character found in single-line comment"
          ).options.fComments then
        (w.printf p
          "h2incn_parse_comment: warning: continuation character found in single-line comment"
          ).fwrite ([59] ++ l ++ [10])
        else w.printf p
          "h2incn_parse_comment: warning: continuation character found in single-line comment")
      (by simp at hfuel; omega) hd2
      (fun l' hl' => hL l' (List.mem_cons_of_mem _ hl'))
      (fun _ _ => by
        show byteAt p.pFileBuffer (head + l.length + 1 - 1) ≠ 92
        rw [Nat.add_sub_cancel, b10]
        decide)
    refine ⟨p', w', ?_, c1, c2, ?_, ?_, ?_, ?_, ?_, ?_⟩
    · show comment_continuation (m + 1) head (head + l.length) p w = _
      rw [comment_continuation]
      simp only [b92, beq_self_eq_true, if_true, b10, show ((10 : Nat) == 13) = false from rfl,
        Bool.false_eq_true, if_false, hsl, hs, e]
      have hlen : (lf_lines (l :: L)).length = l.length + 1 + (lf_lines L).length := by
        simp only [lf_lines, List.length_append, List.length_cons]
        omega
      rw [hlen, ← Nat.add_assoc, ← Nat.add_assoc]
    · rw [c3]
      simp only [List.length_cons]
      omega
    · rw [c4]
      split <;> rfl
    · rw [c5]
      split <;> rfl
    · rw [c6]
      split <;> rfl
    · rw [c7]
      by_cases hf : w.options.fComments = true
      · simp [World.printf, World.fwrite, hf, marked_lines]
      · simp [World.printf, World.fwrite, hf]
    · rw [c8]
      by_cases hf : w.options.fComments = true
      · simp [World.printf, World.fwrite, hf, continuation_warnings]
      · simp [World.printf, World.fwrite, hf, continuation_warnings]


/-- C29: on a `//` comment made of `k` physical lines that each end in a
backslash and of one more line that does not, every line without NUL and CR
and ended by a line feed, `h2incn_parse_comment` returns 1 whenever the fuel
is at least `k`. It has printed `k` continuation warnings, one for each of the
lines from the line of the comment on, and nothing else; the line counter is
advanced by `k + 1`; with comment conversion on it has written, for each of
the `k + 1` lines in order, a `;`, the line and its line feed, and with comment
conversion off it has written nothing. The cursor is past the last line feed
and the blanks that follow it. -/
theorem line_comment_continued (fuel : Nat) (p : parser_t) (w : World)
    (L : List (List Nat)) (last rest : List Nat)
    (hd : p.pFileBuffer.drop p.pNextToken = lf_lines (L ++ [last]) ++ rest)
    (hopen : startsWith (L.headD last) 0 [47, 47] = true)
    (hL : ∀ l ∈ L, l.all notEol = true ∧ l.getLast? = some 92)
    (hlast : last.all notEol = true) (hlast2 : last.getLast? ≠ some 92)
    (hfuel : L.length ≤ fuel) :
    ∃ p' w', h2incn_parse_comment fuel p w = some (true, p', w') ∧
      w'.log = w.log ++ continuation_warnings p.pFileName p.iLineNum L.length ∧
      (continuation_warnings p.pFileName p.iLineNum L.length).length = L.length ∧
      p'.iLineNum = p.iLineNum + L.length + 1 ∧
      w'.out = w.out ++ (if w.options.fComments then marked_lines (L ++ [last]) else []) ∧
      p'.pFileBuffer = p.pFileBuffer ∧
      p'.pNextToken
        = scan isBlank p.pFileBuffer (p.pNextToken + (lf_lines (L ++ [last])).length) ∧
      w'.options = w.options := by
  have hlast' : ∀ c ∈ last, notEol c = true := by simpa using hlast
  have hL' : ∀ l ∈ L, (∀ c ∈ l, notEol c = true) ∧ l.getLast? = some 92 := by
    intro l hl
    obtain ⟨h1, h2⟩ := hL l hl
    exact ⟨by simpa using h1, h2⟩
  have hd' : p.pFileBuffer.drop p.pNextToken = lf_lines L ++ (last ++ 10 :: rest) := by
    rw [hd, lf_lines_append]
    simp [lf_lines]
  -- the first physical line
  obtain ⟨x, hx⟩ : ∃ x, L.headD last = 47 :: 47 :: x := by
    cases hfl : L.headD last with
    | nil => rw [hfl] at hopen; simp [startsWith, slice, byteAt] at hopen
    | cons a as =>
      cases as with
      | nil => rw [hfl] at hopen; simp [startsWith, slice, byteAt] at hopen
      | cons b bs =>
        rw [hfl] at hopen
        simp only [startsWith, List.length_cons, List.length_nil, slice, byteAt, beq_iff_eq,
          List.cons.injEq, and_true] at hopen
        obtain ⟨rfl, rfl⟩ := hopen
        exact ⟨bs, rfl⟩
  have hfl : ∀ c ∈ L.headD last, notEol c = true := by
    cases L with
    | nil => exact hlast'
    | cons l L' => exact (hL' l (List.mem_cons_self _ _)).1
  obtain ⟨S, hS⟩ : ∃ S, p.pFileBuffer.drop p.pNextToken = L.headD last ++ 10 :: S := by
    cases L with
    | nil => exact ⟨rest, hd'⟩
    | cons l L' =>
      refine ⟨lf_lines L' ++ (last ++ 10 :: rest), ?_⟩
      rw [hd']
      simp [lf_lines]
  have b0 : byteAt p.pFileBuffer p.pNextToken = 47 := by
    rw [byteAt_of_drop_zero hS, hx]; rfl
  have b1 : byteAt p.pFileBuffer (p.pNextToken + 1) = 47 := by
    rw [byteAt_of_drop hS 1, hx]; rfl
  have s1 : scan notEol p.pFileBuffer (p.pNextToken + 1)
      = p.pNextToken + (L.headD last).length := by
    have d1 : p.pFileBuffer.drop (p.pNextToken + 1) = (47 :: x) ++ 10 :: S := by
      have : p.pFileBuffer.drop p.pNextToken = [47] ++ ((47 :: x) ++ 10 :: S) := by
        rw [hS, hx]; rfl
      exact drop_add_of_drop this
    have hM : ∀ c ∈ 47 :: x, notEol c = true :=
      fun c hc => hfl c (by rw [hx]; exact List.mem_cons_of_mem _ hc)
    rw [scan_run _ 10 d1 hM rfl, hx]
    simp only [List.length_cons]
    omega
  obtain ⟨p', w', e, c1, c2, c3, c4, -, -, c7, c8⟩ :=
    comment_continuation_lines last rest hlast' hlast2 L fuel p.pNextToken p w hfuel hd' hL'
      (fun hn hl => by
        rw [hn, hl] at hx
        cases hx)
  have dh : p.pFileBuffer.drop (p.pNextToken + (lf_lines L).length) = last ++ 10 :: rest :=
    drop_add_of_drop hd'
  have dt : p.pFileBuffer.drop (p.pNextToken + (lf_lines L).length + last.length)
      = 10 :: rest := drop_add_of_drop dh
  have b10 : byteAt p.pFileBuffer (p.pNextToken + (lf_lines L).length + last.length) = 10 := by
    rw [byteAt_of_drop_zero dt]; rfl
  have hsl : slice p.pFileBuffer (p.pNextToken + (lf_lines L).length)
      (p.pNextToken + (lf_lines L).length + last.length + 1
        - (p.pNextToken + (lf_lines L).length)) = last ++ [10] := by
    have h1 : p.pFileBuffer.drop (p.pNextToken + (lf_lines L).length)
        = (last ++ [10]) ++ rest := by rw [dh]; simp
    have e2 : p.pNextToken + (lf_lines L).length + last.length + 1
        - (p.pNextToken + (lf_lines L).length) = (last ++ [10]).length := by
      simp only [List.length_append, List.length_singleton]
      omega
    rw [e2, slice_of_drop h1, slice_append_left]
  have hlen : (lf_lines (L ++ [last])).length = (lf_lines L).length + last.length + 1 := by
    rw [lf_lines_append]
    simp only [lf_lines, List.length_append, List.length_cons, List.length_nil]
    omega
  refine ⟨{ p' with iLineNum := p'.iLineNum + 1,
                    pLine := p.pNextToken + (lf_lines L).length + last.length + 1,
                    pNextToken := scan isBlank p.pFileBuffer
                      (p.pNextToken + (lf_lines L).length + last.length + 1) },
    if w'.options.fComments then w'.fwrite ([59] ++ (last ++ [10])) else w', ?_, ?_,
    continuation_warnings_length _ _ _, ?_, ?_, c1, ?_, ?_⟩
  · unfold h2incn_parse_comment
    simp only [b0, b1, s1, e, b10, bne_self_eq_false, Bool.false_eq_true, if_false,
      beq_self_eq_true, if_true, show ((10 : Nat) == 13) = false from rfl, hsl]
  · rw [← c8]
    split <;> rfl
  · show p'.iLineNum + 1 = _
    rw [c3]
  · rw [c4]
    by_cases hf : w.options.fComments = true
    · simp only [hf, if_true, World.fwrite, c7, marked_lines_append, marked_lines]
      simp
    · have hf' : w.options.fComments = false := by simpa using hf
      simp only [hf', Bool.false_eq_true, if_false, c7, List.append_nil]
  · show scan isBlank p.pFileBuffer (p.pNextToken + (lf_lines L).length + last.length + 1) = _
    rw [hlen]
    congr 1
    omega
  · rw [← c4]
    split <;> rfl

theorem line_comment_continued_witness :
    ∃ p' w', h2incn_parse_comment 2 (parser_at (bytes "// a \\\n b \\\n c\n  int x;\n") 0)
        (initial_world { fComments := true }) = some (true, p', w') ∧
      w'.log = (initial_world { fComments := true }).log ++
        continuation_warnings (parser_at (bytes "// a \\\n b \\\n c\n  int x;\n") 0).pFileName
          (parser_at (bytes "// a \\\n b \\\n c\n  int x;\n") 0).iLineNum
          [bytes "// a \\", bytes " b \\"].length ∧
      (continuation_warnings (parser_at (bytes "// a \\\n b \\\n c\n  int x;\n") 0).pFileName
        (parser_at (bytes "// a \\\n b \\\n c\n  int x;\n") 0).iLineNum
        [bytes "// a \\", bytes " b \\"].length).length = [bytes "// a \\", bytes " b \\"].length ∧
      p'.iLineNum = (parser_at (bytes "// a \\\n b \\\n c\n  int x;\n") 0).iLineNum
        + [bytes "// a \\", bytes " b \\"].length + 1 ∧
      w'.out = (initial_world { fComments := true }).out ++
        (if (initial_world { fComments := true }).options.fComments then
          marked_lines ([bytes "// a \\", bytes " b \\"] ++ [bytes " c"]) else []) ∧
      p'.pFileBuffer = (parser_at (bytes "// a \\\n b \\\n c\n  int x;\n") 0).pFileBuffer ∧
      p'.pNextToken = scan isBlank (parser_at (bytes "// a \\\n b \\\n c\n  int x;\n") 0).pFileBuffer
        ((parser_at (bytes "// a \\\n b \\\n c\n  int x;\n") 0).pNextToken
          + (lf_lines ([bytes "// a \\", bytes " b \\"] ++ [bytes " c"])).length) ∧
      w'.options = (initial_world { fComments := true }).options :=
  line_comment_continued 2 (parser_at (bytes "// a \\\n b \\\n c\n  int x;\n") 0)
    (initial_world { fComments := true }) [bytes "// a \\", bytes " b \\"] (bytes " c")
    (bytes "  int x;\n") (by decide) (by decide) (by decide) (by decide) (by decide)
    (by decide)

/-! ## The bucket index stays inside the slots -/

theorem set_bucket_length (m : hash_map_t) (i : Nat) (t : bst_node_t) :
    (set_bucket m i t).slots.length = m.slots.length := by
  simp [set_bucket]

theorem hash_map_insert_slots (m : hash_map_t) (key value : List Nat) :
    (hash_map_insert m key value).2.slots.length = m.slots.length := by
  rw [hash_map_insert_eq]
  exact set_bucket_length _ _ _

theorem hash_map_delete_slots (m : hash_map_t) (key : List Nat) :
    (hash_map_delete m key).2.slots.length = m.slots.length :=
  set_bucket_length _ _ _

theorem insert_all_shape (kvs : List (List Nat × List Nat)) :
    ∀ m : hash_map_t, (insert_all m kvs).buckets = m.buckets ∧
      (insert_all m kvs).slots.length = m.slots.length := by
  induction kvs with
  | nil => intro m; exact ⟨rfl, rfl⟩
  | cons kv rest ih =>
    intro m
    rw [insert_all]
    obtain ⟨a, b⟩ := ih (hash_map_insert m kv.1 kv.2).2
    exact ⟨a.trans (hash_map_insert_buckets _ _ _), b.trans (hash_map_insert_slots _ _ _)⟩

theorem delete_all_shape (ks : List (List Nat)) :
    ∀ m : hash_map_t, (delete_all m ks).buckets = m.buckets ∧
      (delete_all m ks).slots.length = m.slots.length := by
  induction ks with
  | nil => intro m; exact ⟨rfl, rfl⟩
  | cons k rest ih =>
    intro m
    rw [delete_all]
    obtain ⟨a, b⟩ := ih (hash_map_delete m k).2
    exact ⟨a.trans (hash_map_delete_buckets _ _), b.trans (hash_map_delete_slots _ _)⟩

theorem hash_map_alloc_slots (b : Nat) (m : hash_map_t) (h : hash_map_alloc b = some m) :
    m.slots.length = m.buckets + 1 := (map_wf_alloc b m h).1

/-- C34: for every map `m` that `hash_map_alloc` returns and every key,
`hash_map_find`, `hash_map_insert` and `hash_map_delete` all work on the bucket
of index `hash16(key) & m.buckets` (`m.buckets` holds the mask); that index is
at most the mask, and so below the number of slots, which is mask + 1. This
stays so after any run of inserts and deletes on the map, which change
neither the mask nor the number of slots. -/
theorem bucket_index_in_slots (b : Nat) (m : hash_map_t) (key value : List Nat)
    (h : hash_map_alloc b = some m) :
    hash_map_find m key
      = binarytree_find_node (bucket_root m (hash16 key &&& m.buckets)) key ∧
    hash_map_insert m key value
      = ((binarytree_insert_node (bucket_root m (hash16 key &&& m.buckets)) key value).1,
         set_bucket m (hash16 key &&& m.buckets)
           (binarytree_insert_node (bucket_root m (hash16 key &&& m.buckets)) key value).2) ∧
    hash_map_delete m key
      = ((binarytree_delete_node (bucket_root m (hash16 key &&& m.buckets)) key).1,
         set_bucket m (hash16 key &&& m.buckets)
           (binarytree_delete_node (bucket_root m (hash16 key &&& m.buckets)) key).2) ∧
    bucket_index m key = hash16 key &&& m.buckets ∧
    hash16 key &&& m.buckets ≤ m.buckets ∧
    m.slots.length = m.buckets + 1 ∧
    hash16 key &&& m.buckets < m.slots.length ∧
    ∀ (kvs : List (List Nat × List Nat)) (ks : List (List Nat)),
      (delete_all (insert_all m kvs) ks).buckets = m.buckets ∧
      (delete_all (insert_all m kvs) ks).slots.length = m.buckets + 1 ∧
      bucket_index (delete_all (insert_all m kvs) ks) key = hash16 key &&& m.buckets ∧
      bucket_index (delete_all (insert_all m kvs) ks) key
        < (delete_all (insert_all m kvs) ks).slots.length := by
  have hs := hash_map_alloc_slots b m h
  have hle : hash16 key &&& m.buckets ≤ m.buckets := Nat.and_le_right
  refine ⟨rfl, hash_map_insert_eq m key value, rfl, rfl, hle, hs, by omega, ?_⟩
  intro kvs ks
  obtain ⟨d1, d2⟩ := delete_all_shape ks (insert_all m kvs)
  obtain ⟨i1, i2⟩ := insert_all_shape kvs m
  have e1 : (delete_all (insert_all m kvs) ks).buckets = m.buckets := d1.trans i1
  have e2 : (delete_all (insert_all m kvs) ks).slots.length = m.buckets + 1 := by
    rw [d2, i2, hs]
  refine ⟨e1, e2, ?_, ?_⟩
  · rw [bucket_index, e1]
  · rw [bucket_index, e1, e2]
    omega

theorem bucket_index_in_slots_witness :
    hash_map_find (empty_map 127) (bytes "tt.h")
      = binarytree_find_node (bucket_root (empty_map 127)
          (hash16 (bytes "tt.h") &&& (empty_map 127).buckets)) (bytes "tt.h") ∧
    hash_map_insert (empty_map 127) (bytes "tt.h") []
      = ((binarytree_insert_node (bucket_root (empty_map 127)
            (hash16 (bytes "tt.h") &&& (empty_map 127).buckets)) (bytes "tt.h") []).1,
         set_bucket (empty_map 127) (hash16 (bytes "tt.h") &&& (empty_map 127).buckets)
           (binarytree_insert_node (bucket_root (empty_map 127)
            (hash16 (bytes "tt.h") &&& (empty_map 127).buckets)) (bytes "tt.h") []).2) ∧
    hash_map_delete (empty_map 127) (bytes "tt.h")
      = ((binarytree_delete_node (bucket_root (empty_map 127)
            (hash16 (bytes "tt.h") &&& (empty_map 127).buckets)) (bytes "tt.h")).1,
         set_bucket (empty_map 127) (hash16 (bytes "tt.h") &&& (empty_map 127).buckets)
           (binarytree_delete_node (bucket_root (empty_map 127)
            (hash16 (bytes "tt.h") &&& (empty_map 127).buckets)) (bytes "tt.h")).2) ∧
    bucket_index (empty_map 127) (bytes "tt.h")
      = hash16 (bytes "tt.h") &&& (empty_map 127).buckets ∧
    hash16 (bytes "tt.h") &&& (empty_map 127).buckets ≤ (empty_map 127).buckets ∧
    (empty_map 127).slots.length = (empty_map 127).buckets + 1 ∧
    hash16 (bytes "tt.h") &&& (empty_map 127).buckets < (empty_map 127).slots.length ∧
    ∀ (kvs : List (List Nat × List Nat)) (ks : List (List Nat)),
      (delete_all (insert_all (empty_map 127) kvs) ks).buckets = (empty_map 127).buckets ∧
      (delete_all (insert_all (empty_map 127) kvs) ks).slots.length
        = (empty_map 127).buckets + 1 ∧
      bucket_index (delete_all (insert_all (empty_map 127) kvs) ks) (bytes "tt.h")
        = hash16 (bytes "tt.h") &&& (empty_map 127).buckets ∧
      bucket_index (delete_all (insert_all (empty_map 127) kvs) ks) (bytes "tt.h")
        < (delete_all (insert_all (empty_map 127) kvs) ks).slots.length :=
  bucket_index_in_slots 0x80 (empty_map 127) (bytes "tt.h") [] hash_map_alloc_headers

/-! ## The options across `h2incn_parse_define` -/

/-- C32: whatever `h2incn_parse_define` returns, with 1 or with 0, the global
`options` are then what they were on entry: `fComments`, which the handler
clears around each of its calls of `h2incn_parse_comment`, has its entry value
again, and no other option has changed. -/
theorem define_restores_options (fuel : Nat) (p : parser_t) (w : World) (r : Result)
    (h : h2incn_parse_define fuel p w = some r) :
    r.2.2.options.fComments = w.options.fComments ∧ r.2.2.options = w.options := by
  obtain ⟨v, -, -, ho, -⟩ :=
    parse_define_transfer [] [] fuel fuel p w w r (Nat.le_refl _) ⟨rfl, w.out, rfl, rfl⟩ h
  exact ⟨by rw [ho], ho⟩

theorem define_restores_options_witness :
    (h2incn_parse_define 2 (parser_at (bytes "#define FOO /* c */ 1\n") 0)
        ⟨{ fComments := true }, empty_map 1, empty_map 1, [], []⟩
      = some (true,
          { parser_at (bytes "#define FOO /* c */ 1\n") 0 with pNextToken := 21 },
          ⟨{ fComments := true }, empty_map 1,
            (hash_map_insert (empty_map 1) (bytes "FOO") (bytes "1")).2,
            bytes "%define FOO 1", []⟩)) ∧
    (((true, { parser_at (bytes "#define FOO /* c */ 1\n") 0 with pNextToken := 21 },
        (⟨{ fComments := true }, empty_map 1,
          (hash_map_insert (empty_map 1) (bytes "FOO") (bytes "1")).2,
          bytes "%define FOO 1", []⟩ : World)) : Result).2.2.options.fComments
        = (⟨{ fComments := true }, empty_map 1, empty_map 1, [], []⟩ : World).options.fComments ∧
      ((true, { parser_at (bytes "#define FOO /* c */ 1\n") 0 with pNextToken := 21 },
        (⟨{ fComments := true }, empty_map 1,
          (hash_map_insert (empty_map 1) (bytes "FOO") (bytes "1")).2,
          bytes "%define FOO 1", []⟩ : World)) : Result).2.2.options
        = (⟨{ fComments := true }, empty_map 1, empty_map 1, [], []⟩ : World).options) ∧
    (h2incn_parse_define 2 (parser_at (bytes "#define FOO /* c") 0)
        ⟨{ fComments := true }, empty_map 1, empty_map 1, [], []⟩
      = some (false,
          { parser_at ((bytes "#define FOO /* c").set 16 0) 0 with pNextToken := 12 },
          ⟨{ fComments := true }, empty_map 1, empty_map 1, bytes "%define FOO",
            [⟨"h2incn_parse_comment: unterminated comment", [], 1⟩]⟩)) ∧
    (((false, { parser_at ((bytes "#define FOO /* c").set 16 0) 0 with pNextToken := 12 },
        (⟨{ fComments := true }, empty_map 1, empty_map 1, bytes "%define FOO",
          [⟨"h2incn_parse_comment: unterminated comment", [], 1⟩]⟩ : World)) :
          Result).2.2.options.fComments
        = (⟨{ fComments := true }, empty_map 1, empty_map 1, [], []⟩ : World).options.fComments ∧
      ((false, { parser_at ((bytes "#define FOO /* c").set 16 0) 0 with pNextToken := 12 },
        (⟨{ fComments := true }, empty_map 1, empty_map 1, bytes "%define FOO",
          [⟨"h2incn_parse_comment: unterminated comment", [], 1⟩]⟩ : World)) :
          Result).2.2.options
        = (⟨{ fComments := true }, empty_map 1, empty_map 1, [], []⟩ : World).options) :=
  ⟨by decide,
   define_restores_options 2 (parser_at (bytes "#define FOO /* c */ 1\n") 0)
      ⟨{ fComments := true }, empty_map 1, empty_map 1, [], []⟩ _ (by decide),
   by decide,
   define_restores_options 2 (parser_at (bytes "#define FOO /* c") 0)
      ⟨{ fComments := true }, empty_map 1, empty_map 1, [], []⟩ _ (by decide)⟩

/-! ## Line bookkeeping -/

/-- C31: the line counter is not exact after a `#define` continued with a
backslash. On the buffer `#define FOO a \`, line feed, ` b`, line feed,
`int x;`, line feed, `h2incn_parse` starts with an exact counter (line 1, no
line feed in front of the cursor) and its first round calls
`h2incn_parse_define`; the handler returns 1 with the cursor at offset 26,
behind three line feeds, and `iLineNum` 2, where 4 is exact: its continuation
loop counts the line feed behind the backslash and steps over the others
without counting. The loop of `h2incn_parse` is then at its top in that state
(it goes on with the parser the handler returned), finds the NUL and returns
it. -/
theorem define_continuation_miscounts_lines :
    line_exact (parser_at (bytes "#define FOO a \\\n b\nint x;\n") 0) = true ∧
    (h2incn_parse_define 3 (parser_at (bytes "#define FOO a \\\n b\nint x;\n") 0)
        ⟨{}, empty_map 1, empty_map 1, [], []⟩).map
        (fun r => (r.1, r.2.1.pNextToken, r.2.1.iLineNum,
          (r.2.1.pFileBuffer.take r.2.1.pNextToken).count 10, line_exact r.2.1))
      = some (true, 26, 2, 3, false) ∧
    parse_loop (fun _ => none) 4 (parser_at (bytes "#define FOO a \\\n b\nint x;\n") 0)
        ⟨{}, empty_map 1, empty_map 1, [], []⟩
      = (h2incn_parse_define 3 (parser_at (bytes "#define FOO a \\\n b\nint x;\n") 0)
          ⟨{}, empty_map 1, empty_map 1, [], []⟩).bind
          (fun r => parse_loop (fun _ => none) 3 r.2.1 r.2.2) ∧
    (h2incn_parse (fun _ => none) 4 (parser_at (bytes "#define FOO a \\\n b\nint x;\n") 0)
        ⟨{}, empty_map 1, empty_map 1, [], []⟩).map
        (fun r => (r.1, r.2.1.pNextToken, r.2.1.iLineNum, line_exact r.2.1))
      = some (true, 26, 2, false) := by
  refine ⟨by decide, by decide, by decide!, by decide!⟩

/-! ## The headers table across the handlers -/

theorem world_ite_headers (c : Prop) [Decidable c] (w1 w2 : World) (m : hash_map_t)
    (h1 : w1.pHeadersMap = m) (h2 : w2.pHeadersMap = m) :
    (if c then w1 else w2).pHeadersMap = m := by
  split <;> assumption

theorem comment_continuation_headers (fuel : Nat) :
    ∀ (head tail : Nat) (p : parser_t) (w : World) (r : Nat × Nat × parser_t × World),
      comment_continuation fuel head tail p w = some r →
      r.2.2.2.pHeadersMap = w.pHeadersMap := by
  induction fuel with
  | zero =>
    intro head tail p w r h
    unfold comment_continuation at h
    split at h
    · cases h
    · cases h; rfl
  | succ n ih =>
    intro head tail p w r h
    unfold comment_continuation at h
    split at h
    · simp only at h
      exact (ih _ _ _ _ r h).trans (world_ite_headers _ _ _ _ rfl rfl)
    · cases h; rfl

theorem comment_block_headers (S : List Nat) :
    ∀ (head tail : Nat) (p : parser_t) (w : World),
      (comment_block S head tail p w).2.2.2.pHeadersMap = w.pHeadersMap := by
  induction S with
  | nil => intro head tail p w; rfl
  | cons x rest ih =>
    intro head tail p w
    simp only [comment_block]
    split
    · rfl
    · split
      · rw [ih]
        exact world_ite_headers _ _ _ _ rfl rfl
      · split
        · split
          · rfl
          · exact ih _ _ _ _
        · exact ih _ _ _ _

theorem parse_comment_headers (fuel : Nat) (p : parser_t) (w : World) (x : Result)
    (h : h2incn_parse_comment fuel p w = some x) : x.2.2.pHeadersMap = w.pHeadersMap := by
  unfold h2incn_parse_comment at h
  simp only at h
  split at h
  · cases h; rfl
  · split at h
    · split at h
      · cases h
      · next hd tl q u heq =>
        have e := comment_continuation_headers _ _ _ _ _ _ heq
        cases h
        exact world_ite_headers _ _ _ _ e e
    · split at h
      · have e := comment_block_headers (p.pFileBuffer.drop (p.pNextToken + 1 + 1))
          p.pNextToken (p.pNextToken + 1 + 1) p w
        split at h
        · cases h; exact e
        · split at h
          · cases h; exact e
          · cases h; exact e
      · cases h; rfl

theorem parse_comment_silently_headers (fuel head : Nat) (p : parser_t) (w : World)
    (x : Result) (h : parse_comment_silently fuel head p w = some x) :
    x.2.2.pHeadersMap = w.pHeadersMap := by
  unfold parse_comment_silently at h
  simp only at h
  split at h
  · cases h
  · next b q u heq =>
    have e := parse_comment_headers _ _ _ _ heq
    cases h
    exact e

theorem define_skip_to_name_headers (fuel : Nat) :
    ∀ (head : Nat) (p : parser_t) (w : World) (s : Result ⊕ (Nat × parser_t × World)),
      define_skip_to_name fuel head p w = some s →
      (loop_world s).pHeadersMap = w.pHeadersMap := by
  induction fuel using Nat.strong_induction_on with
  | _ fuel ih =>
    intro head p w s h
    unfold define_skip_to_name at h
    simp only at h
    split at h
    · split at h
      · split at h
        · cases h; rfl
        · split at h
          · cases h
          · next q u heq =>
            cases h
            exact parse_comment_silently_headers _ _ _ _ _ heq
          · next q u heq =>
            have e := parse_comment_silently_headers _ _ _ _ _ heq
            cases fuel with
            | zero => cases h
            | succ n =>
              simp only at h
              exact (ih n (Nat.lt_succ_self n) _ _ _ s h).trans (e)
      · cases h; rfl
    · cases h; rfl

theorem define_skip_to_value_headers (fuel : Nat) :
    ∀ (vhead : Nat) (p : parser_t) (w : World) (s : Result ⊕ (Nat × parser_t × World)),
      define_skip_to_value fuel vhead p w = some s →
      (loop_world s).pHeadersMap = w.pHeadersMap := by
  induction fuel using Nat.strong_induction_on with
  | _ fuel ih =>
    intro vhead p w s h
    unfold define_skip_to_value at h
    simp only at h
    split at h
    · split at h
      · split at h
        · cases h
        · next q u heq =>
          cases h
          exact parse_comment_silently_headers _ _ _ _ _ heq
        · next q u heq =>
          have e := parse_comment_silently_headers _ _ _ _ _ heq
          cases fuel with
          | zero => cases h
          | succ n =>
            simp only at h
            exact (ih n (Nat.lt_succ_self n) _ _ _ s h).trans (e)
      · cases h; rfl
    · cases h; rfl

theorem define_continued_line_headers (fuel : Nat) :
    ∀ (vhead vtail : Nat) (p : parser_t) (w : World) (s : Result ⊕ (Nat × parser_t × World)),
      define_continued_line fuel vhead vtail p w = some s →
      (loop_world s).pHeadersMap = w.pHeadersMap := by
  induction fuel using Nat.strong_induction_on with
  | _ fuel ih =>
    intro vhead vtail p w s h
    unfold define_continued_line at h
    simp only at h
    split at h
    · split at h
      · split at h
        · cases h
        · next q u heq =>
          cases h
          exact parse_comment_silently_headers _ _ _ _ _ heq
        · next q u heq =>
          have e := parse_comment_silently_headers _ _ _ _ _ heq
          cases fuel with
          | zero => cases h
          | succ n =>
            simp only at h
            exact (ih n (Nat.lt_succ_self n) _ _ _ _ s h).trans (e)
      · cases fuel with
        | zero => cases h
        | succ n =>
          simp only at h
          exact ih n (Nat.lt_succ_self n) _ _ _ _ s h
    · cases h; rfl

theorem define_continuation_headers (fuel : Nat) :
    ∀ (vhead vtail : Nat) (p : parser_t) (w : World) (s : Result ⊕ (Nat × parser_t × World)),
      define_continuation fuel vhead vtail p w = some s →
      (loop_world s).pHeadersMap = w.pHeadersMap := by
  induction fuel using Nat.strong_induction_on with
  | _ fuel ih =>
    intro vhead vtail p w s h
    unfold define_continuation at h
    simp only at h
    split at h
    · split at h
      · cases h
      · next r heq =>
        cases h
        exact define_continued_line_headers _ _ _ _ _ _ heq
      · next vt q u heq =>
        have e := define_continued_line_headers _ _ _ _ _ _ heq
        cases fuel with
        | zero => cases h
        | succ n =>
          simp only at h
          exact (ih n (Nat.lt_succ_self n) _ _ _ _ s h).trans (e)
    · cases h; rfl

theorem parse_define_headers (fuel : Nat) (p : parser_t) (w : World) (x : Result)
    (h : h2incn_parse_define fuel p w = some x) : x.2.2.pHeadersMap = w.pHeadersMap := by
  unfold h2incn_parse_define at h
  simp only at h
  split at h
  · cases h
  · next r heq =>
    cases h
    exact define_skip_to_name_headers _ _ _ _ _ heq
  · next hd q u heq =>
    have e1 : u.pHeadersMap = w.pHeadersMap := define_skip_to_name_headers _ _ _ _ _ heq
    split at h
    · cases h
    · next r heq2 =>
      cases h
      exact (define_skip_to_value_headers _ _ _ _ _ heq2).trans (world_ite_headers _ _ _ _ e1 e1)
    · next vh q2 u2 heq2 =>
      have e2 : u2.pHeadersMap = w.pHeadersMap := by
        exact (define_skip_to_value_headers _ _ _ _ _ heq2).trans (world_ite_headers _ _ _ _ e1 e1)
      split at h
      · cases h
      · next r heq3 =>
        cases h
        exact (define_continuation_headers _ _ _ _ _ _ heq3).trans (e2)
      · next vt q3 u3 heq3 =>
        have e3 : u3.pHeadersMap = w.pHeadersMap := by
          exact (define_continuation_headers _ _ _ _ _ _ heq3).trans (e2)
        cases h
        exact world_ite_headers _ _ _ _
          (show (if _ then u3.fwrite [32] else u3).pHeadersMap = _ from
            world_ite_headers _ (u3.fwrite [32]) u3 _ e3 e3) e3

theorem conditional_loop_headers (fuel : Nat) :
    ∀ (head : Nat) (p : parser_t) (w : World) (s : Result ⊕ (Nat × parser_t × World)),
      conditional_loop fuel head p w = some s →
      (loop_world s).pHeadersMap = w.pHeadersMap := by
  induction fuel using Nat.strong_induction_on with
  | _ fuel ih =>
    intro head p w s h
    unfold conditional_loop at h
    simp only at h
    have e0 : ∀ (c : Prop) [Decidable c] (bs : List Nat),
        (if c then w.fwrite bs else w).pHeadersMap = w.pHeadersMap :=
      fun c _ bs => world_ite_headers c _ _ _ rfl rfl
    split at h
    · split at h
      · split at h
        · cases h
        · next q u heq =>
          cases h
          exact (parse_comment_headers _ _ _ _ heq).trans (world_ite_headers _ _ _ _ (e0 _ _) (e0 _ _))
        · next q u heq =>
          have e : u.pHeadersMap = w.pHeadersMap := by
            exact (parse_comment_headers _ _ _ _ heq).trans (world_ite_headers _ _ _ _ (e0 _ _) (e0 _ _))
          cases fuel with
          | zero => cases h
          | succ n =>
            simp only at h
            exact (ih n (Nat.lt_succ_self n) _ _ _ s h).trans (e)
      · cases fuel with
        | zero => cases h
        | succ n =>
          simp only at h
          exact (ih n (Nat.lt_succ_self n) _ _ _ s h).trans (e0 _ _)
    · cases h; rfl

theorem parse_conditional_headers (keyword : List Nat) (skip fuel : Nat) (p : parser_t)
    (w : World) (x : Result) (h : parse_conditional keyword skip fuel p w = some x) :
    x.2.2.pHeadersMap = w.pHeadersMap := by
  unfold parse_conditional at h
  simp only at h
  split at h
  · cases h
  · next r heq =>
    cases h
    exact conditional_loop_headers _ _ _ _ _ heq
  · next hd q u heq =>
    cases h
    exact conditional_loop_headers _ _ _ _ _ heq

theorem parse_else_endif_headers (keyword : List Nat) (skip fuel : Nat) (p : parser_t)
    (w : World) (x : Result) (h : parse_else_endif keyword skip fuel p w = some x) :
    x.2.2.pHeadersMap = w.pHeadersMap := by
  unfold parse_else_endif at h
  simp only at h
  split at h
  · rw [parse_comment_headers _ _ _ _ h]
    exact world_ite_headers _ _ _ _ rfl rfl
  · cases h; rfl

theorem parse_undef_headers (p : parser_t) (w : World) :
    (h2incn_parse_undef p w).2.2.pHeadersMap = w.pHeadersMap := by
  unfold h2incn_parse_undef
  exact world_ite_headers _ _ _ _ rfl rfl

theorem parse_other_line_headers (head : Nat) (p : parser_t) (w : World) :
    (parse_other_line head p w).2.pHeadersMap = w.pHeadersMap := by
  unfold parse_other_line
  exact world_ite_headers _ _ _ _ rfl rfl

/-! ## The headers table across `h2incn_parse` -/

theorem headers_kept_refl (w : World) : headers_kept w w :=
  fun hw => ⟨hw, fun _ _ h => h⟩

theorem headers_kept_of_eq (w w' : World) (h : w'.pHeadersMap = w.pHeadersMap) :
    headers_kept w w' := by
  intro hw
  rw [h]
  exact ⟨hw, fun _ _ h => h⟩

theorem headers_kept_trans (w1 w2 w3 : World) (h12 : headers_kept w1 w2)
    (h23 : headers_kept w2 w3) : headers_kept w1 w3 := by
  intro hw
  obtain ⟨a, b⟩ := h12 hw
  obtain ⟨c, d⟩ := h23 a
  exact ⟨c, fun k v h => d k v (b k v h)⟩

theorem isNode_false_iff (t : bst_node_t) : t.isNode = false ↔ t = .nil := by
  cases t <;> simp [bst_node_t.isNode]

theorem headers_kept_insert (w : World) (name : List Nat)
    (hnew : (hash_map_find w.pHeadersMap name).isNode = false) :
    headers_kept w { w with pHeadersMap := (hash_map_insert w.pHeadersMap name []).2 } := by
  intro hw
  have hn := (find_nil_iff _ hw name).1 ((isNode_false_iff _).1 hnew)
  refine ⟨map_wf_insert _ hw name [] hn, fun k v h => ?_⟩
  exact (map_has_insert _ hw name [] k v).2 (Or.inr h)

theorem read_with_headers (parse : parser_t → World → Option Result)
    (hparse : ∀ q v y, parse q v = some y → headers_kept v y.2.2)
    (fs : List Nat → Option (List Nat)) (prev : Option parser_t) (name : List Nat) (w : World)
    (y : Bool × Option parser_t × World)
    (h : h2incn_read_with parse fs prev name w = some y) : headers_kept w y.2.2 := by
  unfold h2incn_read_with at h
  split at h
  · split at h
    · cases h; exact headers_kept_of_eq _ _ rfl
    · cases h
  · split at h
    · cases h; exact headers_kept_of_eq _ _ rfl
    · simp only at h
      split at h
      · cases h
      · next b q u heq =>
        cases h
        exact hparse _ _ _ heq

theorem read_included_headers (parse : parser_t → World → Option Result)
    (hparse : ∀ q v y, parse q v = some y → headers_kept v y.2.2)
    (fs : List Nat → Option (List Nat)) (p : parser_t) (name : List Nat) (w : World)
    (y : Result) (h : read_included parse fs p name w = some y) : headers_kept w y.2.2 := by
  unfold read_included at h
  split at h
  · cases h
  · next b prev u heq =>
    cases h
    exact read_with_headers parse hparse fs _ _ _ _ heq

/-- The shape of every call of `h2incn_parse_include`: either it returns
without starting a nested scan and with the headers table as it was, or the
name was not found in the table, and the result is that of the nested read
started with the name inserted. -/
theorem parse_include_shape (read : parser_t → List Nat → World → Option Result)
    (p : parser_t) (w : World) :
    (h2incn_parse_include read p w = h2incn_parse_include (fun _ _ _ => none) p w ∧
      ∀ x, h2incn_parse_include read p w = some x → x.2.2.pHeadersMap = w.pHeadersMap) ∨
    ∃ name tail, (hash_map_find w.pHeadersMap name).isNode = false ∧
      h2incn_parse_include read p w =
        (read p name { w with pHeadersMap := (hash_map_insert w.pHeadersMap name []).2 }).map
          (fun y => include_finish y.1 tail y.2.1 y.2.2) := by
  unfold h2incn_parse_include
  simp only
  split
  · split
    · exact Or.inl ⟨rfl, fun x h => by cases h; rfl⟩
    · split
      · exact Or.inl ⟨rfl, fun x h => by cases h; rfl⟩
      · split
        · exact Or.inl ⟨rfl, fun x h => by cases h; rfl⟩
        · next hnew =>
          refine Or.inr ⟨slice p.pFileBuffer
              (scan (fun c => c != 0 && c != 60 && c != 34 && c != 10) p.pFileBuffer
                p.pNextToken + 1)
              (scan (fun c => c != 0 && c != 62 && c != 34 && c != 10) p.pFileBuffer
                  (scan (fun c => c != 0 && c != 60 && c != 34 && c != 10) p.pFileBuffer
                    p.pNextToken + 1) -
                (scan (fun c => c != 0 && c != 60 && c != 34 && c != 10) p.pFileBuffer
                  p.pNextToken + 1)),
            scan (fun c => c != 0 && c != 62 && c != 34 && c != 10) p.pFileBuffer
              (scan (fun c => c != 0 && c != 60 && c != 34 && c != 10) p.pFileBuffer
                p.pNextToken + 1), by simpa using hnew, ?_⟩
          split
          · next heq => rw [heq]; rfl
          · next b q u heq => rw [heq]; rfl
  · exact Or.inl ⟨rfl, fun x h => by cases h; rfl⟩

theorem parse_include_headers (read : parser_t → List Nat → World → Option Result)
    (hread : ∀ q name v y, read q name v = some y → headers_kept v y.2.2)
    (p : parser_t) (w : World) (x : Result) (h : h2incn_parse_include read p w = some x) :
    headers_kept w x.2.2 := by
  rcases parse_include_shape read p w with ⟨-, e⟩ | ⟨name, tail, hnew, e⟩
  · exact headers_kept_of_eq _ _ (e x h)
  · rw [e] at h
    rcases hr : read p name { w with pHeadersMap := (hash_map_insert w.pHeadersMap name []).2 }
      with _ | y
    · rw [hr] at h; cases h
    · rw [hr] at h
      simp only [Option.map_some', Option.some.injEq] at h
      subst h
      exact headers_kept_trans _ _ y.2.2 (headers_kept_insert w name hnew) (hread _ _ _ _ hr)

theorem dispatch_headers (read : parser_t → List Nat → World → Option Result)
    (hread : ∀ q name v y, read q name v = some y → headers_kept v y.2.2)
    (fuel head : Nat) (p : parser_t) (w : World) (x : Result)
    (h : dispatch read fuel head p w = some x) : headers_kept w x.2.2 := by
  unfold dispatch at h
  simp only at h
  repeat' split at h
  · exact parse_include_headers read hread p w x h
  · exact headers_kept_of_eq _ _ (parse_define_headers _ _ _ _ h)
  · cases h; exact headers_kept_of_eq _ _ (parse_undef_headers _ _)
  · exact headers_kept_of_eq _ _ (parse_conditional_headers _ _ _ _ _ _ h)
  · exact headers_kept_of_eq _ _ (parse_conditional_headers _ _ _ _ _ _ h)
  · exact headers_kept_of_eq _ _ (parse_conditional_headers _ _ _ _ _ _ h)
  · exact headers_kept_of_eq _ _ (parse_conditional_headers _ _ _ _ _ _ h)
  · exact headers_kept_of_eq _ _ (parse_else_endif_headers _ _ _ _ _ _ h)
  · exact headers_kept_of_eq _ _ (parse_else_endif_headers _ _ _ _ _ _ h)
  · cases h; exact headers_kept_of_eq _ _ (parse_other_line_headers _ _ _)
  · exact headers_kept_of_eq _ _ (parse_comment_headers _ _ _ _ h)
  · cases h; exact headers_kept_of_eq _ _ (parse_other_line_headers _ _ _)

theorem parse_loop_headers (fs : List Nat → Option (List Nat)) (fuel : Nat) :
    ∀ (p : parser_t) (w : World) (r : Result),
      parse_loop fs fuel p w = some r → headers_kept w r.2.2 := by
  induction fuel with
  | zero =>
    intro p w r h
    by_cases h0 : byteAt p.pFileBuffer p.pNextToken = 0
    · rw [parse_loop_end fs _ p w h0] at h
      cases h
      exact headers_kept_refl _
    · rw [parse_loop_zero fs p w h0] at h
      cases h
  | succ n ih =>
    intro p w r h
    by_cases h0 : byteAt p.pFileBuffer p.pNextToken = 0
    · rw [parse_loop_end fs _ p w h0] at h
      cases h
      exact headers_kept_refl _
    · obtain ⟨t, ht⟩ : ∃ t, t = if byteAt p.pFileBuffer (scan isBlank p.pFileBuffer p.pNextToken)
          == 13 then scan isBlank p.pFileBuffer p.pNextToken + 1
          else scan isBlank p.pFileBuffer p.pNextToken := ⟨_, rfl⟩
      rw [parse_loop_round fs n p w h0 _ t rfl ht] at h
      have hparse : ∀ q v y, h2incn_parse fs n q v = some y → headers_kept v y.2.2 := by
        intro q v y hy
        unfold h2incn_parse at hy
        exact headers_kept_trans v _ _
          (headers_kept_of_eq _ _ (world_ite_headers _ (v.printf q "processing file") v _ rfl rfl))
          (ih _ _ y hy)
      have hread : ∀ q name v y, read_included (h2incn_parse fs n) fs q name v = some y →
          headers_kept v y.2.2 :=
        fun q name v y hy => read_included_headers _ hparse fs q name v y hy
      split at h
      · exact headers_kept_trans w (w.fwrite _) _ (headers_kept_of_eq _ _ rfl) (ih _ _ r h)
      · split at h
        · cases h
          exact headers_kept_refl _
        · split at h
          · cases h
          · next q u heq =>
            cases h
            exact dispatch_headers _ hread _ _ _ _ _ heq
          · next q u heq =>
            exact headers_kept_trans _ _ _ (dispatch_headers _ hread _ _ _ _ _ heq)
              (ih _ _ r h)

theorem parse_headers (fs : List Nat → Option (List Nat)) (fuel : Nat) (p : parser_t)
    (w : World) (r : Result) (h : h2incn_parse fs fuel p w = some r) :
    headers_kept w r.2.2 :=
  headers_kept_trans w _ _
    (headers_kept_of_eq _ _ (world_ite_headers _ (w.printf p "processing file") w _ rfl rfl))
    (parse_loop_headers fs fuel _ _ r h)

theorem map_wf_no_key_twice (m : hash_map_t) (hw : map_wf m) :
    (∀ i, ((bst_entries (bucket_root m i)).map Prod.fst).Nodup) ∧
    (∀ i j e f, e ∈ bst_entries (bucket_root m i) → f ∈ bst_entries (bucket_root m j) →
      e.1 = f.1 → i = j) := by
  have hnil : ∀ i, ¬ i < m.slots.length → bucket_root m i = .nil := by
    intro i hi
    unfold bucket_root
    rw [List.getD_eq_default]
    omega
  refine ⟨fun i => ?_, fun i j e f he hf hef => ?_⟩
  · by_cases hi : i < m.slots.length
    · have ho := (hw.2 i hi).1
      unfold bst_ordered at ho
      rw [List.Nodup, List.pairwise_map]
      refine ho.imp ?_
      intro a b hab heq
      rw [heq] at hab
      exact key_cmp_lt_irrefl _ hab
    · rw [hnil i hi]
      simp [bst_entries]
  · have hi : i < m.slots.length := by
      by_contra hi
      rw [hnil i hi] at he
      simp [bst_entries] at he
    have hj : j < m.slots.length := by
      by_contra hj
      rw [hnil j hj] at hf
      simp [bst_entries] at hf
    rw [← (hw.2 i hi).2 e he, ← (hw.2 j hj).2 f hf, hef]

theorem find_isNode_iff (m : hash_map_t) (hw : map_wf m) (key : List Nat) :
    (hash_map_find m key).isNode = true ↔ ∃ v, map_has m key v := by
  have h := find_nil_iff m hw key
  constructor
  · intro hn
    by_contra hc
    have hnil := h.2 (fun v hv => hc ⟨v, hv⟩)
    rw [hnil] at hn
    cases hn
  · intro ⟨v, hv⟩
    cases hf : (hash_map_find m key).isNode with
    | true => rfl
    | false => exact absurd hv (h.1 ((isNode_false_iff _).1 hf) v)

/-- C33: the headers table never holds a file name twice. Every call of
`h2incn_parse_include` either returns without starting a nested scan, the
headers table as it was, or it has found the name absent from the table
(`hash_map_find` returned null), and its result is that of the nested read
started in the state with the name inserted: the insert comes before the
nested scan. Such an insert into a well-formed table gives a well-formed
table that holds the name and every name held before. So each time
`h2incn_parse` returns, for the root file or a nested one, from a state whose
headers table is well formed (as the table `main` allocates is), the table is
well formed: no bucket holds a key twice, no key sits in two buckets, and
every name that was in the table at the start is still in it. -/
theorem headers_never_twice (fs : List Nat → Option (List Nat)) (fuel : Nat) (p : parser_t)
    (w : World) (r : Result) (hw : map_wf w.pHeadersMap)
    (h : h2incn_parse fs fuel p w = some r) :
    (∀ (read : parser_t → List Nat → World → Option Result) (q : parser_t) (v : World),
      (h2incn_parse_include read q v = h2incn_parse_include (fun _ _ _ => none) q v ∧
        ∀ x, h2incn_parse_include read q v = some x → x.2.2.pHeadersMap = v.pHeadersMap) ∨
      ∃ name tail, (hash_map_find v.pHeadersMap name).isNode = false ∧
        h2incn_parse_include read q v =
          (read q name
            { v with pHeadersMap := (hash_map_insert v.pHeadersMap name []).2 }).map
            (fun y => include_finish y.1 tail y.2.1 y.2.2)) ∧
    (∀ (m : hash_map_t) (name : List Nat), map_wf m →
      (hash_map_find m name).isNode = false →
      map_wf (hash_map_insert m name []).2 ∧
      (hash_map_find (hash_map_insert m name []).2 name).isNode = true ∧
      ∀ k, (hash_map_find m k).isNode = true →
        (hash_map_find (hash_map_insert m name []).2 k).isNode = true) ∧
    map_wf r.2.2.pHeadersMap ∧
    (∀ i, ((bst_entries (bucket_root r.2.2.pHeadersMap i)).map Prod.fst).Nodup) ∧
    (∀ i j e f, e ∈ bst_entries (bucket_root r.2.2.pHeadersMap i) →
      f ∈ bst_entries (bucket_root r.2.2.pHeadersMap j) → e.1 = f.1 → i = j) ∧
    (∀ k, (hash_map_find w.pHeadersMap k).isNode = true →
      (hash_map_find r.2.2.pHeadersMap k).isNode = true) := by
  obtain ⟨hr, hsub⟩ := parse_headers fs fuel p w r h hw
  obtain ⟨hn1, hn2⟩ := map_wf_no_key_twice _ hr
  refine ⟨fun read q v => parse_include_shape read q v, ?_, hr, hn1, hn2, ?_⟩
  · intro m name hm hnew
    have hn := (find_nil_iff _ hm name).1 ((isNode_false_iff _).1 hnew)
    have hm' := map_wf_insert m hm name [] hn
    refine ⟨hm', ?_, ?_⟩
    · exact (find_isNode_iff _ hm' name).2 ⟨[], (map_has_insert m hm name [] name []).2
        (Or.inl ⟨rfl, rfl⟩)⟩
    · intro k hk
      obtain ⟨v, hv⟩ := (find_isNode_iff _ hm k).1 hk
      exact (find_isNode_iff _ hm' k).2 ⟨v, (map_has_insert m hm name [] k v).2 (Or.inr hv)⟩
  · intro k hk
    obtain ⟨v, hv⟩ := (find_isNode_iff _ hw k).1 hk
    exact (find_isNode_iff _ hr k).2 ⟨v, hsub k v hv⟩

theorem headers_never_twice_witness :
    h2incn_parse splice_fs 6 (parser_at (bytes "#include \"f.h\"\n") 0)
        ⟨{ fRecurse := true }, empty_map 127, empty_map 1, [], []⟩
      = some (true,
          { parser_at (bytes "#include \"f.h\"\n") 0 with pNextToken := 15, iLineNum := 2 },
          ⟨{ fRecurse := true }, (hash_map_insert (empty_map 127) (bytes "f.h") []).2,
            (hash_map_insert (empty_map 1) (bytes "B") (bytes "2")).2,
            bytes "%define B 2\n", []⟩) ∧
    map_wf (empty_map 127) ∧
    map_wf (hash_map_insert (empty_map 127) (bytes "f.h") []).2 ∧
    (∀ i, ((bst_entries (bucket_root (hash_map_insert (empty_map 127) (bytes "f.h") []).2
      i)).map Prod.fst).Nodup) :=
  have hw : map_wf (empty_map 127) := map_wf_alloc 0x80 _ hash_map_alloc_headers
  have h : h2incn_parse splice_fs 6 (parser_at (bytes "#include \"f.h\"\n") 0)
        ⟨{ fRecurse := true }, empty_map 127, empty_map 1, [], []⟩
      = some (true,
          { parser_at (bytes "#include \"f.h\"\n") 0 with pNextToken := 15, iLineNum := 2 },
          ⟨{ fRecurse := true }, (hash_map_insert (empty_map 127) (bytes "f.h") []).2,
            (hash_map_insert (empty_map 1) (bytes "B") (bytes "2")).2,
            bytes "%define B 2\n", []⟩) := by decide!
  ⟨h, hw,
   (headers_never_twice splice_fs 6 (parser_at (bytes "#include \"f.h\"\n") 0)
      ⟨{ fRecurse := true }, empty_map 127, empty_map 1, [], []⟩ _ hw h).2.2.1,
   (headers_never_twice splice_fs 6 (parser_at (bytes "#include \"f.h\"\n") 0)
      ⟨{ fRecurse := true }, empty_map 127, empty_map 1, [], []⟩ _ hw h).2.2.2.1⟩

theorem find_after_reinsert_delete (t : bst_node_t) (key v1 v2 : List Nat)
    (h : ∀ v, (key, v) ∉ bst_entries t) :
    binarytree_find_node (binarytree_delete_node
      (binarytree_insert_node (binarytree_insert_node t key v1).2 key v2).2 key).2 key
      = .node .nil key v2 .nil := by
  induction t with
  | nil =>
    simp [binarytree_insert_node, binarytree_alloc_node, key_cmp_refl, binarytree_delete_node,
      binarytree_find_node]
  | node l k v r ihl ihr =>
    cases hc : key_cmp key k with
    | lt =>
      simp only [binarytree_insert_node, hc, binarytree_delete_node, binarytree_find_node]
      exact ihl (fun v' hv => h v' (by simp [bst_entries, hv]))
    | gt =>
      simp only [binarytree_insert_node, hc, binarytree_delete_node, binarytree_find_node]
      exact ihr (fun v' hv => h v' (by simp [bst_entries, hv]))
    | eq =>
      have hk : key = k := (key_cmp_eq_iff key k).1 hc
      exact absurd (by simp [bst_entries, hk]) (h v)

theorem find_after_redefine_undef (m : hash_map_t) (hw : map_wf m) (key v1 v2 : List Nat)
    (hn : ∀ v, ¬ map_has m key v) :
    hash_map_find (hash_map_delete
      (hash_map_insert (hash_map_insert m key v1).2 key v2).2 key).2 key
      = .node .nil key v2 .nil := by
  have hi : bucket_index m key < m.slots.length := bucket_index_lt m key hw
  have e1 : (hash_map_insert m key v1).2 = set_bucket m (bucket_index m key)
      (binarytree_insert_node (bucket_root m (bucket_index m key)) key v1).2 := by
    rw [hash_map_insert_eq]
  have r1 : bucket_root (hash_map_insert m key v1).2 (bucket_index m key)
      = (binarytree_insert_node (bucket_root m (bucket_index m key)) key v1).2 := by
    rw [e1, bucket_root_set _ _ _ _ hi, if_pos rfl]
  have i1 : bucket_index (hash_map_insert m key v1).2 key = bucket_index m key := by
    rw [e1]; rfl
  have l1 : (hash_map_insert m key v1).2.slots.length = m.slots.length :=
    hash_map_insert_slots m key v1
  have e2 : (hash_map_insert (hash_map_insert m key v1).2 key v2).2
      = set_bucket (hash_map_insert m key v1).2 (bucket_index m key)
          (binarytree_insert_node
            (binarytree_insert_node (bucket_root m (bucket_index m key)) key v1).2 key v2).2 := by
    rw [hash_map_insert_eq, i1, r1]
  have r2 : bucket_root (hash_map_insert (hash_map_insert m key v1).2 key v2).2
      (bucket_index m key)
      = (binarytree_insert_node
          (binarytree_insert_node (bucket_root m (bucket_index m key)) key v1).2 key v2).2 := by
    rw [e2, bucket_root_set _ _ _ _ (by rw [l1]; exact hi), if_pos rfl]
  have i2 : bucket_index (hash_map_insert (hash_map_insert m key v1).2 key v2).2 key
      = bucket_index m key := by
    rw [e2]; exact i1
  have l2 : (hash_map_insert (hash_map_insert m key v1).2 key v2).2.slots.length
      = m.slots.length := by
    rw [hash_map_insert_slots, l1]
  unfold hash_map_find hash_map_delete
  simp only
  rw [i2, r2]
  have i3 : bucket_index (set_bucket (hash_map_insert (hash_map_insert m key v1).2 key v2).2
      (bucket_index m key)
      (binarytree_delete_node (binarytree_insert_node
        (binarytree_insert_node (bucket_root m (bucket_index m key)) key v1).2 key v2).2
        key).2) key = bucket_index m key := i2
  rw [i3, bucket_root_set _ _ _ _ (by rw [l2]; exact hi), if_pos rfl]
  exact find_after_reinsert_delete _ key v1 v2 hn

/-- The function `h2incn_parse_undef` at `#undef NAME` followed by a line
terminator, whatever the defines table holds: it returns 1, writes
`%undef NAME`, leaves the cursor on the terminator, and the table is the
result of `hash_map_delete` on NAME. -/
theorem parse_undef_core (p : parser_t) (w : World) (pre name rest : List Nat) (t : Nat)
    (hbuf : p.pFileBuffer = pre ++ (bytes "#undef " ++ (name ++ t :: rest)))
    (hpos : p.pNextToken = pre.length)
    (hname : isIdentifier name = true) (ht : isTerminator t = true) :
    (h2incn_parse_undef p w).1 = true ∧
    (h2incn_parse_undef p w).2.2.out = w.out ++ (bytes "%undef " ++ name) ∧
    (h2incn_parse_undef p w).2.1.pNextToken = pre.length + 7 + name.length ∧
    (h2incn_parse_undef p w).2.1.pFileBuffer = p.pFileBuffer ∧
    (h2incn_parse_undef p w).2.2.pDefinesMap = (hash_map_delete w.pDefinesMap name).2 := by
  obtain ⟨hn0, hnc⟩ := identifier_facts name hname
  have ht' : t = 13 ∨ t = 10 := by simpa [isTerminator] using ht
  have d0 : p.pFileBuffer.drop pre.length = bytes "#undef " ++ (name ++ t :: rest) := by
    rw [hbuf]; exact drop_append_length _ _
  have d1 : p.pFileBuffer.drop (pre.length + 7) = name ++ t :: rest := by
    have := drop_add_of_drop d0
    rwa [bytes_undef_length] at this
  have d2 : p.pFileBuffer.drop (pre.length + 7 + name.length) = t :: rest :=
    drop_add_of_drop d1
  obtain ⟨c, cs, rfl⟩ : ∃ c cs, name = c :: cs := by
    cases name with
    | nil => exact absurd rfl hn0
    | cons c cs => exact ⟨c, cs, rfl⟩
  have hc := identChar_facts c (hnc c (by simp))
  have s1 : scan (fun c => c != 0 && (c == 32 || c == 9)) p.pFileBuffer (pre.length + 7)
      = pre.length + 7 := by
    rw [scan_of_drop _ d1]
    have : (c != 0 && (c == 32 || c == 9)) = false := by
      simp only [Bool.and_eq_false_imp, bne_iff_ne, ne_eq, Bool.or_eq_false_iff,
        beq_eq_false_iff_ne]
      omega
    show pre.length + 7 + scanList _ (c :: (cs ++ t :: rest)) = _
    rw [scanList_stop _ _ _ this]
  have s2 : scan (fun c => c != 0 && c != 32 && c != 9 && c != 47 && c != 40 && c != 13 && c != 10)
      p.pFileBuffer (pre.length + 7) = pre.length + 7 + (c :: cs).length := by
    have hM : ∀ x ∈ c :: cs,
        (fun c => c != 0 && c != 32 && c != 9 && c != 47 && c != 40 && c != 13 && c != 10) x
          = true := by
      intro x hx
      have := identChar_facts x (hnc x hx)
      simp only [Bool.and_eq_true, bne_iff_ne, ne_eq]
      omega
    have hstop : (fun c => c != 0 && c != 32 && c != 9 && c != 47 && c != 40 && c != 13 && c != 10)
        t = false := by
      rcases ht' with rfl | rfl <;> rfl
    rw [scan_of_drop _ d1, scanList_append _ _ _ hM, scanList_stop _ _ _ hstop]
    rfl
  have s3 : scan (fun c => c != 0 && (c == 32 || c == 9)) p.pFileBuffer
      (pre.length + 7 + (c :: cs).length) = pre.length + 7 + (c :: cs).length := by
    have hstop : (fun c => c != 0 && (c == 32 || c == 9)) t = false := by
      rcases ht' with rfl | rfl <;> rfl
    rw [scan_of_drop _ d2, scanList_stop _ _ _ hstop]
    rfl
  have b1 : byteAt p.pFileBuffer (pre.length + 7 + (c :: cs).length) = t := by
    rw [byteAt_of_drop_zero d2]; rfl
  have l1 : slice p.pFileBuffer (pre.length + 7) (c :: cs).length = c :: cs := by
    rw [slice_of_drop d1]; exact slice_append_left _ _
  have n1 : pre.length + 7 + (c :: cs).length - (pre.length + 7) = (c :: cs).length := by omega
  have g1 : (byteAt p.pFileBuffer (pre.length + 7 + (c :: cs).length) != 13 &&
      byteAt p.pFileBuffer (pre.length + 7 + (c :: cs).length) != 10) = false := by
    rw [b1]; rcases ht' with rfl | rfl <;> rfl
  have hmap : (h2incn_parse_undef p w).2.2.pDefinesMap
      = (hash_map_delete w.pDefinesMap (c :: cs)).2 := by
    simp only [h2incn_parse_undef, hpos, s1, s2, s3, n1, l1, g1]
    rfl
  refine ⟨rfl, ?_, ?_, rfl, hmap⟩
  · simp only [h2incn_parse_undef, hpos, s1, s2, s3, n1, l1, g1]
    simp [World.fwrite]
  · simp only [h2incn_parse_undef, hpos, s1, s2, s3]

/-- A round of the loop of `h2incn_parse` on a directive `#undef NAME`
followed by a line terminator: the handler's effects, after which the loop
goes on at the terminator. -/
theorem undef_round (fs : List Nat → Option (List Nat)) (n : Nat) (p : parser_t)
    (w : World) (pre name rest : List Nat) (t : Nat)
    (hbuf : p.pFileBuffer = pre ++ (bytes "#undef " ++ (name ++ t :: rest)))
    (hpos : p.pNextToken = pre.length)
    (hname : isIdentifier name = true) (ht : isTerminator t = true) :
    ∃ p' w', parse_loop fs (n + 1) p w = parse_loop fs n p' w' ∧
      p'.pFileBuffer = p.pFileBuffer ∧
      p'.pNextToken = pre.length + 7 + name.length ∧
      w'.pDefinesMap = (hash_map_delete w.pDefinesMap name).2 ∧
      w'.out = w.out ++ (bytes "%undef " ++ name) := by
  obtain ⟨-, h2, h3, h4, h5⟩ := parse_undef_core p w pre name rest t hbuf hpos hname ht
  have hd : p.pFileBuffer.drop p.pNextToken = bytes "#undef " ++ (name ++ t :: rest) := by
    rw [hbuf, hpos]; exact drop_append_length _ _
  have b0 : byteAt p.pFileBuffer p.pNextToken = 35 := by
    rw [byteAt_of_drop_zero hd]; rfl
  have s0 : scan isBlank p.pFileBuffer p.pNextToken = p.pNextToken :=
    scan_stay _ _ _ (by rw [b0]; rfl)
  refine ⟨(h2incn_parse_undef p w).2.1, (h2incn_parse_undef p w).2.2, ?_, h4, h3, h5, h2⟩
  rw [parse_loop_token fs n p w _ s0 (by rw [b0]; decide) (by rw [b0]; decide)
    (by rw [b0]; decide)]
  have hp : ({ p with pNextToken := p.pNextToken } : parser_t) = p := rfl
  rw [hp, dispatch_undef _ n p.pNextToken p w _ hd]
  rfl

/-- C2 (failing input): on the buffer `#define X 1`, `#define X 2`, `#undef X`,
each line ended by a line feed, scanned from a well-formed defines table that
does not hold `X` (such as the table `main` allocates), `h2incn_parse`
succeeds and writes the three translated lines, and after the `#undef X` a
lookup of `X` does not fail: `hash_map_find` returns the node `X -> 2`. The
table at the end is the result of the two inserts made by the two `#define`
lines and of the one delete made by `#undef`, which removes one of the two
nodes. -/
theorem undef_leaves_redefined_name (fs : List Nat → Option (List Nat)) (n : Nat) (w : World)
    (hw : map_wf w.pDefinesMap) (hn : ∀ v, ¬ map_has w.pDefinesMap (bytes "X") v) :
    ∃ r, h2incn_parse fs (n + 6)
        (parser_at (bytes "#define X 1\n#define X 2\n#undef X\n") 0) w = some r ∧
      r.1 = true ∧
      r.2.2.out = w.out ++ bytes "%define X 1\n%define X 2\n%undef X\n" ∧
      r.2.2.pDefinesMap =
        (hash_map_delete (hash_map_insert (hash_map_insert w.pDefinesMap (bytes "X")
          (bytes "1")).2 (bytes "X") (bytes "2")).2 (bytes "X")).2 ∧
      hash_map_find r.2.2.pDefinesMap (bytes "X") = .node .nil (bytes "X") (bytes "2") .nil ∧
      (hash_map_find r.2.2.pDefinesMap (bytes "X")).isNode = true := by
  obtain ⟨w0, hw0⟩ : ∃ w0, w0 = (if w.options.fVerbose then
      w.printf (parser_at (bytes "#define X 1\n#define X 2\n#undef X\n") 0) "processing file"
      else w) := ⟨_, rfl⟩
  have hw0d : w0.pDefinesMap = w.pDefinesMap := by
    rw [hw0]; split <;> rfl
  have hw0o : w0.out = w.out := by
    rw [hw0]; split <;> rfl
  obtain ⟨p1, w1, e1, b1, c1, m1, o1, -, -⟩ := define_plain_round fs (n + 5)
    (parser_at (bytes "#define X 1\n#define X 2\n#undef X\n") 0) w0 [] (bytes "X") (bytes "1")
    (bytes "#define X 2\n#undef X\n") 10 rfl rfl (by decide) (by decide) (by decide)
    (by decide)
  have d1 : p1.pFileBuffer.drop p1.pNextToken
      = [] ++ ([10] ++ bytes "#define X 2\n#undef X\n") := by
    rw [b1, c1]; rfl
  have e2 := blank_line_round fs (n + 4) p1 w1 [] [10] _ d1 (by simp) (Or.inl rfl)
  obtain ⟨p3, w3, e3, b3, c3, m3, o3, -, -⟩ := define_plain_round fs (n + 3)
    { p1 with iLineNum := p1.iLineNum + 1,
              pNextToken := p1.pNextToken + ([] : List Nat).length + [10].length,
              pLine := p1.pNextToken + ([] : List Nat).length + [10].length }
    (w1.fwrite [10]) (bytes "#define X 1\n") (bytes "X") (bytes "2") (bytes "#undef X\n") 10
    (by rw [b1]; rfl) (by rw [c1]; rfl) (by decide) (by decide) (by decide) (by decide)
  have b3' : p3.pFileBuffer = bytes "#define X 1\n#define X 2\n#undef X\n" := by
    rw [b3]; exact b1
  have d3 : p3.pFileBuffer.drop p3.pNextToken = [] ++ ([10] ++ bytes "#undef X\n") := by
    rw [b3', c3]; rfl
  have e4 := blank_line_round fs (n + 2) p3 w3 [] [10] _ d3 (by simp) (Or.inl rfl)
  obtain ⟨p5, w5, e5, b5, c5, m5, o5⟩ := undef_round fs (n + 1)
    { p3 with iLineNum := p3.iLineNum + 1,
              pNextToken := p3.pNextToken + ([] : List Nat).length + [10].length,
              pLine := p3.pNextToken + ([] : List Nat).length + [10].length }
    (w3.fwrite [10]) (bytes "#define X 1\n#define X 2\n") (bytes "X") [] 10
    (by rw [b3']; rfl) (by rw [c3]; rfl) (by decide) (by decide)
  have b5' : p5.pFileBuffer = bytes "#define X 1\n#define X 2\n#undef X\n" := by
    rw [b5]; exact b3'
  have d5 : p5.pFileBuffer.drop p5.pNextToken = [] ++ ([10] ++ []) := by
    rw [b5', c5]; rfl
  have e6 := blank_line_round fs n p5 w5 [] [10] _ d5 (by simp) (Or.inl rfl)
  have z : byteAt p5.pFileBuffer (p5.pNextToken + ([] : List Nat).length + [10].length) = 0 := by
    rw [b5', c5]; rfl
  have e7 := parse_loop_end fs n
    { p5 with iLineNum := p5.iLineNum + 1,
              pNextToken := p5.pNextToken + ([] : List Nat).length + [10].length,
              pLine := p5.pNextToken + ([] : List Nat).length + [10].length }
    (w5.fwrite [10]) z
  have hm : (w5.fwrite [10]).pDefinesMap =
      (hash_map_delete (hash_map_insert (hash_map_insert w.pDefinesMap (bytes "X")
        (bytes "1")).2 (bytes "X") (bytes "2")).2 (bytes "X")).2 := by
    show w5.pDefinesMap = _
    rw [m5]
    show (hash_map_delete w3.pDefinesMap _).2 = _
    rw [m3]
    show (hash_map_delete (hash_map_insert w1.pDefinesMap _ _).2 _).2 = _
    rw [m1, hw0d]
  have ho : (w5.fwrite [10]).out = w.out ++ bytes "%define X 1\n%define X 2\n%undef X\n" := by
    show w5.out ++ [10] = _
    rw [o5]
    show w3.out ++ [10] ++ _ ++ [10] = _
    rw [o3]
    show w1.out ++ [10] ++ _ ++ [10] ++ _ ++ [10] = _
    rw [o1, hw0o]
    simp only [List.append_assoc]
    rfl
  have hf := find_after_redefine_undef w.pDefinesMap hw (bytes "X") (bytes "1") (bytes "2") hn
  refine ⟨(true,
    { p5 with iLineNum := p5.iLineNum + 1,
              pNextToken := p5.pNextToken + ([] : List Nat).length + [10].length,
              pLine := p5.pNextToken + ([] : List Nat).length + [10].length },
    w5.fwrite [10]), ?_, rfl, ho, hm, ?_, ?_⟩
  · show parse_loop fs (n + 5 + 1) _ _ = _
    rw [← hw0, e1, e2, e3, e4, e5, e6, e7]
  · show hash_map_find (w5.fwrite [10]).pDefinesMap _ = _
    rw [hm]; exact hf
  · show (hash_map_find (w5.fwrite [10]).pDefinesMap _).isNode = true
    rw [hm, hf]; rfl

theorem undef_leaves_redefined_name_witness :
    ∃ r, h2incn_parse (fun _ => none) (0 + 6)
        (parser_at (bytes "#define X 1\n#define X 2\n#undef X\n") 0) (initial_world {})
        = some r ∧
      r.1 = true ∧
      r.2.2.out = (initial_world {}).out ++ bytes "%define X 1\n%define X 2\n%undef X\n" ∧
      r.2.2.pDefinesMap =
        (hash_map_delete (hash_map_insert (hash_map_insert (initial_world {}).pDefinesMap
          (bytes "X") (bytes "1")).2 (bytes "X") (bytes "2")).2 (bytes "X")).2 ∧
      hash_map_find r.2.2.pDefinesMap (bytes "X") = .node .nil (bytes "X") (bytes "2") .nil ∧
      (hash_map_find r.2.2.pDefinesMap (bytes "X")).isNode = true :=
  undef_leaves_redefined_name (fun _ => none) 0 (initial_world {})
    (map_wf_alloc 0x8000 _ hash_map_alloc_defines)
    (fun v => map_has_alloc 0x8000 _ hash_map_alloc_defines _ v)

/-! ## Unknown directives and code lines -/

theorem other_line_facts (l : other_line) (h : l.ok = true) (rest : List Nat) :
    (∀ c ∈ l.indent, isBlank c = true) ∧ (∀ c ∈ l.body, notEol c = true) ∧ l.body ≠ [] ∧
    isBlank (byteAt l.body 0) = false ∧
    ((byteAt l.body 0 = 35 ∧
        ∀ pat ∈ directive_prefixes, startsWith (l.body ++ (l.term ++ rest)) 0 pat = false) ∨
      (byteAt l.body 0 ≠ 35 ∧ isCommentOpener (l.body ++ (l.term ++ rest)) 0 = false)) ∧
    (l.term = [10] ∨ l.term = [13, 10]) := by
  simp only [other_line.ok, Bool.and_eq_true, List.all_eq_true, bne_iff_ne, ne_eq,
    Bool.not_eq_true', Bool.not_eq_eq_eq_not, Bool.not_true] at h
  obtain ⟨⟨⟨⟨⟨h1, h2⟩, h3⟩, h4⟩, h5⟩, h6⟩ := h
  have ht := line_end_cases l.term h6
  obtain ⟨t, rest', et, ht'⟩ := line_end_head l.term rest h6
  have hterm : isTerminator t = true := by
    rcases ht' with h | h <;> subst h <;> rfl
  refine ⟨h1, h3, h2, h4, ?_, ht⟩
  by_cases h35 : byteAt l.body 0 = 35
  · left
    refine ⟨h35, ?_⟩
    intro pat hpat
    have hp : (byteAt l.body 0 == 35) = true := by simp [h35]
    rw [hp, if_pos rfl, List.all_eq_true] at h5
    have hb := h5 pat hpat
    simp only [Bool.not_eq_true', Bool.not_eq_eq_eq_not, Bool.not_true] at hb
    have hpe : ∀ pat ∈ directive_prefixes, ∀ c ∈ pat, c ≠ 13 ∧ c ≠ 10 := by decide
    by_contra hs
    rw [Bool.not_eq_false] at hs
    rw [et] at hs
    obtain ⟨X, hX⟩ := startsWith_prefix pat (hpe pat hpat) t ht' rest' l.body hs
    have : startsWith l.body 0 pat = true := by
      rw [hX]
      simp only [startsWith, slice_eq_of_prefix, beq_self_eq_true]
    rw [this] at hb
    cases hb
  · right
    refine ⟨h35, ?_⟩
    have hp : (byteAt l.body 0 == 35) = false := by simp [h35]
    rw [hp] at h5
    simp only [Bool.false_eq_true, if_false, Bool.not_eq_true', Bool.not_eq_eq_eq_not,
      Bool.not_true] at h5
    rw [et]
    exact isCommentOpener_append l.body rest' t h2 h5 hterm

/-- A round of the loop of `h2incn_parse` at a line of the kind `other_line`,
whatever follows it in the buffer. -/
theorem other_line_step (fs : List Nat → Option (List Nat)) (n : Nat) (p : parser_t) (w : World)
    (l : other_line) (rest : List Nat) (hok : l.ok = true)
    (hd : p.pFileBuffer.drop p.pNextToken = l.text ++ rest) :
    parse_loop fs (n + 1) p w =
      parse_loop fs n
        { p with iLineNum := p.iLineNum + 1,
                 pLine := p.pNextToken + l.text.length,
                 pNextToken := p.pNextToken + l.text.length }
        (if w.options.fCode then w.fwrite (59 :: (l.body ++ l.term)) else w) := by
  obtain ⟨h1, h2, h3, h4, h5, h6⟩ := other_line_facts l hok rest
  have hd' : p.pFileBuffer.drop p.pNextToken = l.indent ++ (l.body ++ (l.term ++ rest)) := by
    rw [hd, other_line.text]; simp
  have hl : p.pNextToken + l.text.length
      = p.pNextToken + l.indent.length + l.body.length + l.term.length := by
    simp only [other_line.text, List.length_append]; omega
  rw [other_line_round fs n p w l.indent l.body l.term rest hd' h1 h2 h3 h4 h5 h6, hl]

theorem other_lines_loop (fs : List Nat → Option (List Nat)) :
    ∀ (lines : List other_line) (fuel : Nat) (p : parser_t) (w : World),
      lines.length ≤ fuel → (∀ l ∈ lines, l.ok = true) →
      p.pFileBuffer.drop p.pNextToken = other_text lines →
      ∃ r, parse_loop fs fuel p w = some r ∧ r.1 = true ∧
        r.2.2.out = w.out ++ other_emitted w.options.fCode lines ∧
        r.2.1.pNextToken = p.pNextToken + (other_text lines).length ∧
        r.2.1.iLineNum = p.iLineNum + lines.length ∧
        r.2.1.pFileBuffer = p.pFileBuffer ∧
        r.2.2.options = w.options ∧ r.2.2.pDefinesMap = w.pDefinesMap ∧
        r.2.2.pHeadersMap = w.pHeadersMap ∧ r.2.2.log = w.log := by
  intro lines
  induction lines with
  | nil =>
    intro fuel p w _ _ hd
    have b0 : byteAt p.pFileBuffer p.pNextToken = 0 := by
      rw [byteAt_of_drop_zero hd]; rfl
    exact ⟨(true, p, w), parse_loop_end fs fuel p w b0, rfl, by simp [other_emitted],
      by simp [other_text], rfl, rfl, rfl, rfl, rfl, rfl⟩
  | cons l ls ih =>
    intro fuel p w hfuel hok hd
    obtain ⟨n, rfl⟩ : ∃ n, fuel = n + 1 := ⟨fuel - 1, by
      simp only [List.length_cons] at hfuel; omega⟩
    have hd' : p.pFileBuffer.drop p.pNextToken = l.text ++ other_text ls := hd
    have hstep := other_line_step fs n p w l (other_text ls) (hok l (List.mem_cons_self _ _)) hd'
    obtain ⟨r, e, r1, r2, r3, r4, r5, r6, r7, r8, r9⟩ := ih n
      { p with iLineNum := p.iLineNum + 1,
               pLine := p.pNextToken + l.text.length,
               pNextToken := p.pNextToken + l.text.length }
      (if w.options.fCode then w.fwrite (59 :: (l.body ++ l.term)) else w)
      (by simp only [List.length_cons] at hfuel; omega)
      (fun l' hl' => hok l' (List.mem_cons_of_mem _ hl'))
      (drop_add_of_drop hd')
    have ho : (if w.options.fCode then w.fwrite (59 :: (l.body ++ l.term)) else w).options
        = w.options := by split <;> rfl
    refine ⟨r, by rw [hstep, e], r1, ?_, ?_, ?_, r5, ?_, ?_, ?_, ?_⟩
    · rw [r2, ho]
      simp only [other_emitted, other_line.emitted]
      cases w.options.fCode <;> simp [World.fwrite]
    · rw [r3]
      simp only [other_text, List.length_append]
      omega
    · rw [r4]
      simp only [List.length_cons]
      omega
    · rw [r6, ho]
    · rw [r7]; split <;> rfl
    · rw [r8]; split <;> rfl
    · rw [r9]; split <;> rfl

theorem other_emitted_false (lines : List other_line) : other_emitted false lines = [] := by
  induction lines with
  | nil => rfl
  | cons l ls ih =>
    simp only [other_emitted, other_line.emitted, Bool.false_eq_true, if_false,
      List.nil_append]
    exact ih

/-- C17: for every buffer that from the cursor on is made of lines which start,
after leading blanks, with `#` but with none of the nine directive prefixes,
or with a byte that is neither `#` nor the start of a comment opener, each
ended by LF or CR LF, `h2incn_parse` returns 1 once it has a unit of fuel per
line: for each line, in order, it has written `;` followed by the line from
its first non-blank byte through its terminator when `options.fCode` is set,
and nothing when it is not; the cursor has moved over all the lines, their
terminators included, and the line counter has grown by one per line. And
wherever such a line stands in a buffer, whatever follows it, the loop of
`h2incn_parse` spends one round on it with these effects. -/
theorem other_lines_written (fs : List Nat → Option (List Nat)) (lines : List other_line)
    (fuel : Nat) (p : parser_t) (w : World) (hfuel : lines.length ≤ fuel)
    (hok : ∀ l ∈ lines, l.ok = true)
    (hd : p.pFileBuffer.drop p.pNextToken = other_text lines) :
    (∃ r, h2incn_parse fs fuel p w = some r ∧ r.1 = true ∧
      r.2.2.out = w.out ++ other_emitted w.options.fCode lines ∧
      (w.options.fCode = false → r.2.2.out = w.out) ∧
      r.2.1.pNextToken = p.pNextToken + (other_text lines).length ∧
      r.2.1.iLineNum = p.iLineNum + lines.length) ∧
    (∀ (n : Nat) (q : parser_t) (v : World) (l : other_line) (rest : List Nat),
      l.ok = true → q.pFileBuffer.drop q.pNextToken = l.text ++ rest →
      parse_loop fs (n + 1) q v =
        parse_loop fs n
          { q with iLineNum := q.iLineNum + 1,
                   pLine := q.pNextToken + l.text.length,
                   pNextToken := q.pNextToken + l.text.length }
          (if v.options.fCode then v.fwrite (59 :: (l.body ++ l.term)) else v)) := by
  refine ⟨?_, fun n q v l rest hl hq => other_line_step fs n q v l rest hl hq⟩
  obtain ⟨r, e, r1, r2, r3, r4, -⟩ := other_lines_loop fs lines fuel p
    (if w.options.fVerbose then w.printf p "processing file" else w) hfuel hok hd
  have ho : (if w.options.fVerbose then w.printf p "processing file" else w).options
      = w.options := by split <;> rfl
  have hout : (if w.options.fVerbose then w.printf p "processing file" else w).out
      = w.out := by split <;> rfl
  have hemp := other_emitted_false lines
  rw [ho, hout] at r2
  refine ⟨r, e, r1, r2, ?_, r3, r4⟩
  intro hc
  rw [r2, hc, hemp, List.append_nil]

theorem other_lines_written_witness :
    (∃ r, h2incn_parse (fun _ => none) 2 (parser_at (bytes "  #pragma once\r\nint x;\n") 0)
        (initial_world { fCode := true }) = some r ∧ r.1 = true ∧
      r.2.2.out = bytes ";#pragma once\r\n;int x;\n" ∧
      r.2.1.pNextToken = 23 ∧ r.2.1.iLineNum = 3) ∧
    (∃ r, h2incn_parse (fun _ => none) 2 (parser_at (bytes "  #pragma once\r\nint x;\n") 0)
        (initial_world {}) = some r ∧ r.1 = true ∧ r.2.2.out = [] ∧
      r.2.1.pNextToken = 23 ∧ r.2.1.iLineNum = 3) := by
  obtain ⟨r, h1, h2, h3, -, h5, h6⟩ := (other_lines_written (fun _ => none)
    [⟨bytes "  ", bytes "#pragma once", [13, 10]⟩, ⟨[], bytes "int x;", [10]⟩] 2
    (parser_at (bytes "  #pragma once\r\nint x;\n") 0) (initial_world { fCode := true })
    (by decide) (by decide) (by decide)).1
  obtain ⟨r', k1, k2, -, k4, k5, k6⟩ := (other_lines_written (fun _ => none)
    [⟨bytes "  ", bytes "#pragma once", [13, 10]⟩, ⟨[], bytes "int x;", [10]⟩] 2
    (parser_at (bytes "  #pragma once\r\nint x;\n") 0) (initial_world {})
    (by decide) (by decide) (by decide)).1
  exact ⟨⟨r, h1, h2, h3, h5, h6⟩, ⟨r', k1, k2, k4 rfl, k5, k6⟩⟩

/-! ## Reading a buffer that is extended at its end -/

theorem byteAt_ge (A : List Nat) : ∀ i, A.length ≤ i → byteAt A i = 0 := by
  induction A with
  | nil => intro i _; rfl
  | cons a as ih =>
    intro i hi
    cases i with
    | zero => simp at hi
    | succ i =>
      simp only [List.length_cons, Nat.add_le_add_iff_right] at hi
      exact ih i hi

theorem lt_of_byteAt_ne_zero (A : List Nat) (i : Nat) (h : byteAt A i ≠ 0) : i < A.length := by
  by_contra hc
  exact h (byteAt_ge A i (by omega))

theorem succ_lt_of_byte (A : List Nat) (i : Nat) (hc : line_closed A) (h0 : byteAt A i ≠ 0)
    (h10 : byteAt A i ≠ 10) : i + 1 < A.length := by
  have hi := lt_of_byteAt_ne_zero A i h0
  by_contra hn
  have : i = A.length - 1 := by omega
  unfold line_closed at hc
  rw [← this] at hc
  rcases hc with h | h
  · exact h10 h
  · exact h0 h

theorem scanList_le_of_stop (q : Nat → Bool) (S : List Nat) :
    ∀ k, k < S.length → q (byteAt S k) = false → scanList q S ≤ k := by
  induction S with
  | nil => intro k hk; simp at hk
  | cons c cs ih =>
    intro k hk h
    cases k with
    | zero =>
      have hc : q c = false := h
      simp [scanList, hc]
    | succ k =>
      simp only [List.length_cons, Nat.add_lt_add_iff_right] at hk
      have := ih k hk h
      simp only [scanList]
      split <;> omega

theorem scanList_app_lt (q : Nat → Bool) (S T : List Nat) (h : scanList q S < S.length) :
    scanList q (S ++ T) = scanList q S := by
  induction S with
  | nil => simp at h
  | cons c cs ih =>
    simp only [List.cons_append, scanList]
    by_cases hc : q c = true
    · simp only [hc, if_true]
      simp only [scanList, hc, if_true, List.length_cons, Nat.add_lt_add_iff_right] at h
      exact congrArg (· + 1) (ih h)
    · simp [hc]

theorem le_scan (q : Nat → Bool) (buf : List Nat) (i : Nat) : i ≤ scan q buf i :=
  Nat.le_add_right _ _

theorem scan_app_of_lt (q : Nat → Bool) (A T : List Nat) (i : Nat)
    (h : scan q A i < A.length) : scan q (A ++ T) i = scan q A i := by
  have hi : i ≤ A.length := by have := le_scan q A i; omega
  unfold scan at h ⊢
  rw [List.drop_append_of_le_length hi, scanList_app_lt]
  rw [List.length_drop]
  omega

theorem scan_lt (q : Nat → Bool) (A : List Nat) (i : Nat) (hc : line_closed A)
    (hi : i < A.length) (h0 : q 0 = false) (h10 : q 10 = false) : scan q A i < A.length := by
  have hq : q (byteAt (A.drop i) (A.length - 1 - i)) = false := by
    rw [byteAt_drop, show i + (A.length - 1 - i) = A.length - 1 by omega]
    rcases hc with h | h <;> rw [h] <;> assumption
  have := scanList_le_of_stop q (A.drop i) (A.length - 1 - i)
    (by rw [List.length_drop]; omega) hq
  unfold scan
  omega

theorem scan_app (q : Nat → Bool) (A T : List Nat) (i : Nat) (hc : line_closed A)
    (hi : i < A.length) (h0 : q 0 = false) (h10 : q 10 = false) :
    scan q (A ++ T) i = scan q A i :=
  scan_app_of_lt q A T i (scan_lt q A i hc hi h0 h10)

theorem slice_app (A T : List Nat) (n : Nat) :
    ∀ i, i + n ≤ A.length → slice (A ++ T) i n = slice A i n := by
  induction n with
  | zero => intro i _; rfl
  | succ n ih =>
    intro i h
    simp only [slice]
    rw [byteAt_append_left A T i (by omega), ih (i + 1) (by omega)]

theorem startsWith_step (buf : List Nat) (i c : Nat) (cs : List Nat) :
    startsWith buf i (c :: cs) = (byteAt buf i == c && startsWith buf (i + 1) cs) := by
  simp only [startsWith, List.length_cons, slice]
  by_cases h : byteAt buf i = c
  · subst h
    simp
  · simp [h]

theorem startsWith_app (A T : List Nat) (hc : line_closed A) (pat : List Nat)
    (hp : ∀ c ∈ pat, c ≠ 0 ∧ c ≠ 10) :
    ∀ i, i < A.length → startsWith (A ++ T) i pat = startsWith A i pat := by
  induction pat with
  | nil => intro i _; rfl
  | cons c cs ih =>
    intro i hi
    rw [startsWith_step, startsWith_step, byteAt_append_left A T i hi]
    by_cases h : byteAt A i = c
    · have hc' := hp c (List.mem_cons_self _ _)
      have h1 : i + 1 < A.length :=
        succ_lt_of_byte A i hc (by rw [h]; exact hc'.1) (by rw [h]; exact hc'.2)
      rw [ih (fun x hx => hp x (List.mem_cons_of_mem _ hx)) (i + 1) h1]
    · rw [beq_eq_false_iff_ne.mpr h, Bool.false_and, Bool.false_and]

theorem startsWith_lt (A : List Nat) (hc : line_closed A) (pat : List Nat)
    (hp : ∀ c ∈ pat, c ≠ 0 ∧ c ≠ 10) :
    ∀ i, i < A.length → startsWith A i pat = true → i + pat.length < A.length := by
  induction pat with
  | nil => intro i hi _; simpa using hi
  | cons c cs ih =>
    intro i hi h
    rw [startsWith_step, Bool.and_eq_true, beq_iff_eq] at h
    have hc' := hp c (List.mem_cons_self _ _)
    have h1 : i + 1 < A.length :=
      succ_lt_of_byte A i hc (by rw [h.1]; exact hc'.1) (by rw [h.1]; exact hc'.2)
    have := ih (fun x hx => hp x (List.mem_cons_of_mem _ hx)) (i + 1) h1 h.2
    simp only [List.length_cons]
    omega

theorem isCommentOpener_app (A T : List Nat) (i : Nat) (hc : line_closed A)
    (hi : i < A.length) : isCommentOpener (A ++ T) i = isCommentOpener A i := by
  unfold isCommentOpener
  rw [byteAt_append_left A T i hi]
  by_cases h : byteAt A i = 47
  · have h1 : i + 1 < A.length :=
      succ_lt_of_byte A i hc (by rw [h]; decide) (by rw [h]; decide)
    rw [byteAt_append_left A T (i + 1) h1]
  · rw [beq_eq_false_iff_ne.mpr h, Bool.false_and, Bool.false_and]

theorem byteAt_set (A : List Nat) (v : Nat) : ∀ (te i : Nat), i < A.length →
    byteAt (A.set te v) i = if i = te then v else byteAt A i := by
  induction A with
  | nil => intro te i hi; simp at hi
  | cons a as ih =>
    intro te i hi
    cases te with
    | zero =>
      cases i with
      | zero => rfl
      | succ i => simp [byteAt]
    | succ te =>
      cases i with
      | zero => simp [byteAt]
      | succ i =>
        simp only [List.length_cons, Nat.add_lt_add_iff_right] at hi
        simp only [List.set_cons_succ, byteAt, Nat.add_right_cancel_iff]
        exact ih te i hi

theorem line_closed_set (A : List Nat) (te : Nat) (hc : line_closed A) :
    line_closed (A.set te 0) := by
  unfold line_closed at hc ⊢
  rw [List.length_set]
  by_cases hl : A.length = 0
  · have : A = [] := List.length_eq_zero.1 hl
    subst this
    right; rfl
  · rw [byteAt_set A 0 te (A.length - 1) (by omega)]
    split
    · right; rfl
    · exact hc

theorem set_ge (A : List Nat) : ∀ te, A.length ≤ te → A.set te 0 = A := by
  induction A with
  | nil => intro te _; rfl
  | cons a as ih =>
    intro te h
    cases te with
    | zero => simp at h
    | succ te =>
      simp only [List.length_cons, Nat.add_le_add_iff_right] at h
      simp only [List.set_cons_succ, ih te h]

theorem set_app_left (A T : List Nat) : ∀ te, te < A.length →
    (A ++ T).set te 0 = A.set te 0 ++ T := by
  induction A with
  | nil => intro te h; simp at h
  | cons a as ih =>
    intro te h
    cases te with
    | zero => rfl
    | succ te =>
      simp only [List.length_cons, Nat.add_lt_add_iff_right] at h
      simp only [List.cons_append, List.set_cons_succ, ih te h]

theorem set_app_right (A T : List Nat) : ∀ te, A.length ≤ te →
    (A ++ T).set te 0 = A ++ T.set (te - A.length) 0 := by
  induction A with
  | nil => intro te _; rfl
  | cons a as ih =>
    intro te h
    cases te with
    | zero => simp at h
    | succ te =>
      simp only [List.length_cons, Nat.add_le_add_iff_right] at h
      simp only [List.cons_append, List.set_cons_succ, ih te h, List.length_cons,
        Nat.add_sub_add_right]

theorem set_app (A T : List Nat) (te : Nat) :
    ∃ T', (A ++ T).set te 0 = A.set te 0 ++ T' := by
  by_cases h : te < A.length
  · exact ⟨T, set_app_left A T te h⟩
  · refine ⟨T.set (te - A.length) 0, ?_⟩
    rw [set_app_right A T te (by omega), set_ge A te (by omega)]

theorem slice_app_le (A T : List Nat) (i j : Nat) (h : j ≤ A.length) :
    slice (A ++ T) i (j - i) = slice A i (j - i) := by
  by_cases hij : i ≤ j
  · exact slice_app A T (j - i) i (by omega)
  · rw [show j - i = 0 by omega]
    rfl

theorem extend_buffer_buf (T : List Nat) (p : parser_t) :
    (extend_buffer T p).pFileBuffer = p.pFileBuffer ++ T := rfl

theorem print_err_app (T : List Nat) (p : parser_t) (w : World) (msg : String)
    (hc : line_closed p.pFileBuffer) :
    ∃ T', h2incn_print_err (extend_buffer T p) w msg
        = (extend_buffer T' (h2incn_print_err p w msg).1, (h2incn_print_err p w msg).2) ∧
      line_closed (h2incn_print_err p w msg).1.pFileBuffer ∧
      (h2incn_print_err p w msg).1.pFileBuffer.length = p.pFileBuffer.length := by
  obtain ⟨T', hT⟩ : ∃ T', (p.pFileBuffer ++ T).set (scan notEol (p.pFileBuffer ++ T) p.pLine) 0
      = p.pFileBuffer.set (scan notEol p.pFileBuffer p.pLine) 0 ++ T' := by
    by_cases hl : p.pLine < p.pFileBuffer.length
    · rw [scan_app notEol _ T _ hc hl rfl rfl]
      exact set_app _ _ _
    · have e1 : scan notEol p.pFileBuffer p.pLine = p.pLine := by
        apply scan_stay
        rw [byteAt_ge _ _ (by omega)]
        rfl
      have e2 := le_scan notEol (p.pFileBuffer ++ T) p.pLine
      refine ⟨T.set (scan notEol (p.pFileBuffer ++ T) p.pLine - p.pFileBuffer.length) 0, ?_⟩
      rw [e1, set_ge p.pFileBuffer p.pLine (by omega),
        set_app_right p.pFileBuffer T (scan notEol (p.pFileBuffer ++ T) p.pLine) (by omega)]
  refine ⟨T', ?_, line_closed_set _ _ hc, by simp [h2incn_print_err]⟩
  simp only [h2incn_print_err, extend_buffer, hT]
  rfl

theorem fail_with_app (T : List Nat) (p : parser_t) (w : World) (msg : String)
    (hc : line_closed p.pFileBuffer) :
    ∃ T', fail_with (extend_buffer T p) w msg
        = (false, extend_buffer T' (fail_with p w msg).2.1, (fail_with p w msg).2.2) ∧
      line_closed (fail_with p w msg).2.1.pFileBuffer ∧
      (fail_with p w msg).2.1.pFileBuffer.length = p.pFileBuffer.length := by
  obtain ⟨T', e, h1, h2⟩ := print_err_app T p w msg hc
  refine ⟨T', ?_, h1, h2⟩
  simp only [fail_with, e]

theorem comment_block_mono (S : List Nat) :
    ∀ (head tail : Nat) (p : parser_t) (w : World), head ≤ tail →
      tail ≤ (comment_block S head tail p w).2.1 ∧
      (comment_block S head tail p w).1 ≤ (comment_block S head tail p w).2.1 ∧
      (comment_block S head tail p w).2.1 ≤ tail + S.length ∧
      (comment_block S head tail p w).2.2.1.pFileBuffer = p.pFileBuffer := by
  induction S with
  | nil => intro head tail p w h; exact ⟨Nat.le_refl _, h, Nat.le_refl _, rfl⟩
  | cons c rest ih =>
    intro head tail p w h
    simp only [comment_block, List.length_cons]
    split
    · exact ⟨Nat.le_refl _, h, by simp only; omega, rfl⟩
    · split
      · obtain ⟨a, b, c', d⟩ := ih (tail + 1) (tail + 1)
          { p with pLine := tail + 1, iLineNum := p.iLineNum + 1 }
          (if w.options.fComments then
            w.fwrite ([59] ++ slice p.pFileBuffer head (tail + 1 - head)) else w)
          (Nat.le_refl _)
        exact ⟨by omega, b, by omega, d⟩
      · split
        · split
          · exact ⟨by simp, by simp only; omega, by simp only; omega, rfl⟩
          · obtain ⟨a, b, c', d⟩ := ih head (tail + 1) p w (by omega)
            exact ⟨by omega, b, by omega, d⟩
        · obtain ⟨a, b, c', d⟩ := ih head (tail + 1) p w (by omega)
          exact ⟨by omega, b, by omega, d⟩

/-- The loop of the block comment on the extended buffer: when it stops on a
`/` inside the buffer itself, it does what it does on the buffer. -/
theorem comment_block_app (T : List Nat) (S : List Nat) :
    ∀ (head tail : Nat) (p : parser_t) (w : World), head ≤ tail →
      tail + S.length ≤ p.pFileBuffer.length →
      (comment_block S head tail p w).2.1 < tail + S.length →
      byteAt p.pFileBuffer (comment_block S head tail p w).2.1 = 47 →
      (∀ k, byteAt S k = byteAt p.pFileBuffer (tail + k)) →
      comment_block (S ++ T) head tail (extend_buffer T p) w
        = ((comment_block S head tail p w).1, (comment_block S head tail p w).2.1,
            extend_buffer T (comment_block S head tail p w).2.2.1,
            (comment_block S head tail p w).2.2.2) := by
  induction S with
  | nil =>
    intro head tail p w _ _ hb
    simp [comment_block] at hb
  | cons c rest ih =>
    intro head tail p w hle hlen hb h47 hS
    have hS' : ∀ k, byteAt rest k = byteAt p.pFileBuffer (tail + 1 + k) := by
      intro k
      have := hS (k + 1)
      rw [show tail + (k + 1) = tail + 1 + k by omega] at this
      exact this
    have hc : byteAt p.pFileBuffer tail = c := by
      have := hS 0
      simpa [byteAt] using this.symm
    simp only [List.length_cons] at hlen hb
    cases h0 : (c == 0) with
    | true =>
      simp only [comment_block, h0, if_true] at h47
      rw [hc] at h47
      simp only [beq_iff_eq] at h0
      omega
    | false =>
      cases h10 : (c == 10) with
      | true =>
        rw [List.cons_append]
        simp only [comment_block, h0, h10, Bool.false_eq_true, if_false, if_true] at hb h47 ⊢
        have hsl : slice (p.pFileBuffer ++ T) head (tail + 1 - head)
            = slice p.pFileBuffer head (tail + 1 - head) :=
          slice_app_le _ T head (tail + 1) (by omega)
        have := ih (tail + 1) (tail + 1)
          { p with pLine := tail + 1, iLineNum := p.iLineNum + 1 }
          (if w.options.fComments then
            w.fwrite ([59] ++ slice p.pFileBuffer head (tail + 1 - head)) else w)
          (Nat.le_refl _) (by simp only; omega) (Nat.lt_of_lt_of_eq hb (by omega)) h47 hS'
        simp only [extend_buffer, hsl] at this ⊢
        exact this
      | false =>
        cases rest with
        | nil =>
          exfalso
          simp only [comment_block, h0, h10, Bool.false_eq_true, if_false] at hb
          split at hb
          · split at hb <;> simp at hb
          · simp at hb
        | cons d rest' =>
          have hd : byteAt ((d :: rest') ++ T) 0 = byteAt (d :: rest') 0 := rfl
          cases h42 : (c == 42) with
          | true =>
            cases h47' : (byteAt (d :: rest') 0 == 47) with
            | true =>
              have e1 : comment_block (c :: d :: rest') head tail p w = (head, tail + 1, p, w) := by
                rw [comment_block]
                simp only [h0, h10, h42, h47', Bool.false_eq_true, if_false, if_true]
              have e2 : comment_block ((c :: d :: rest') ++ T) head tail (extend_buffer T p) w
                  = (head, tail + 1, extend_buffer T p, w) := by
                rw [List.cons_append, comment_block, hd]
                simp only [h0, h10, h42, h47', Bool.false_eq_true, if_false, if_true]
              rw [e1, e2]
            | false =>
              have e1 : comment_block (c :: d :: rest') head tail p w
                  = comment_block (d :: rest') head (tail + 1) p w := by
                rw [comment_block]
                simp only [h0, h10, h42, h47', Bool.false_eq_true, if_false, if_true]
              have e2 : comment_block ((c :: d :: rest') ++ T) head tail (extend_buffer T p) w
                  = comment_block ((d :: rest') ++ T) head (tail + 1) (extend_buffer T p) w := by
                rw [List.cons_append, comment_block, hd]
                simp only [h0, h10, h42, h47', Bool.false_eq_true, if_false, if_true]
              rw [e1] at hb h47 ⊢
              rw [e2]
              exact ih head (tail + 1) p w (by omega) (by omega) (by omega) h47 hS'
          | false =>
            have e1 : comment_block (c :: d :: rest') head tail p w
                = comment_block (d :: rest') head (tail + 1) p w := by
              rw [comment_block]
              simp only [h0, h10, h42, Bool.false_eq_true, if_false]
            have e2 : comment_block ((c :: d :: rest') ++ T) head tail (extend_buffer T p) w
                = comment_block ((d :: rest') ++ T) head (tail + 1) (extend_buffer T p) w := by
              rw [List.cons_append, comment_block]
              simp only [h0, h10, h42, Bool.false_eq_true, if_false]
            rw [e1] at hb h47 ⊢
            rw [e2]
            exact ih head (tail + 1) p w (by omega) (by omega) (by omega) h47 hS'

theorem comment_continuation_step (n head tail : Nat) (p : parser_t) (w : World)
    (h92 : byteAt p.pFileBuffer (tail - 1) = 92) (t1 t2 : Nat)
    (ht1 : t1 = if byteAt p.pFileBuffer tail == 13 then tail + 1 else tail)
    (ht2 : t2 = if byteAt p.pFileBuffer t1 == 10 then t1 + 1 else t1) :
    comment_continuation (n + 1) head tail p w =
      comment_continuation n t2 (scan notEol p.pFileBuffer t2)
        (if byteAt p.pFileBuffer t1 == 10 then
          { p with pLine := t1 + 1, pNextToken := t1 + 1, iLineNum := p.iLineNum + 1 } else p)
        (if w.options.fComments then
          (w.printf p "h2incn_parse_comment: warning: continuation character found in single-line comment").fwrite
            ([59] ++ slice p.pFileBuffer head (tail - head) ++ [10])
          else w.printf p "h2incn_parse_comment: warning: continuation character found in single-line comment") := by
  subst ht1 ht2
  rw [comment_continuation]
  simp only [h92, beq_self_eq_true, if_true, printf_options]
  have e : (if byteAt p.pFileBuffer (if byteAt p.pFileBuffer tail == 13 then tail + 1 else tail)
      == 10 then
    ({ p with pLine := (if byteAt p.pFileBuffer tail == 13 then tail + 1 else tail) + 1,
              pNextToken := (if byteAt p.pFileBuffer tail == 13 then tail + 1 else tail) + 1,
              iLineNum := p.iLineNum + 1 } : parser_t) else p).pFileBuffer = p.pFileBuffer :=
    ite_buffer _ _ _ _ rfl rfl
  simp only [e]

theorem comment_continuation_done (fuel head tail : Nat) (p : parser_t) (w : World)
    (h92 : byteAt p.pFileBuffer (tail - 1) ≠ 92) :
    comment_continuation fuel head tail p w = some (head, tail, p, w) := by
  unfold comment_continuation
  simp [h92]

theorem comment_continuation_zero (head tail : Nat) (p : parser_t) (w : World)
    (h92 : byteAt p.pFileBuffer (tail - 1) = 92) :
    comment_continuation 0 head tail p w = none := by
  unfold comment_continuation
  simp [h92]

theorem comment_continuation_mono (fuel : Nat) :
    ∀ (head tail : Nat) (p : parser_t) (w : World) (r : Nat × Nat × parser_t × World),
      comment_continuation fuel head tail p w = some r → head ≤ tail →
      tail ≤ r.2.1 ∧ r.1 ≤ r.2.1 ∧ r.2.2.1.pFileBuffer = p.pFileBuffer := by
  induction fuel with
  | zero =>
    intro head tail p w r h hle
    by_cases h92 : byteAt p.pFileBuffer (tail - 1) = 92
    · rw [comment_continuation_zero head tail p w h92] at h; cases h
    · rw [comment_continuation_done 0 head tail p w h92] at h
      cases h; exact ⟨Nat.le_refl _, hle, rfl⟩
  | succ n ih =>
    intro head tail p w r h hle
    by_cases h92 : byteAt p.pFileBuffer (tail - 1) = 92
    · obtain ⟨t1, ht1⟩ : ∃ t1, t1 = if byteAt p.pFileBuffer tail == 13 then tail + 1 else tail :=
        ⟨_, rfl⟩
      obtain ⟨t2, ht2⟩ : ∃ t2, t2 = if byteAt p.pFileBuffer t1 == 10 then t1 + 1 else t1 :=
        ⟨_, rfl⟩
      rw [comment_continuation_step n head tail p w h92 t1 t2 ht1 ht2] at h
      obtain ⟨a, b, c⟩ := ih _ _ _ _ r h (le_scan _ _ _)
      have h1 : tail ≤ t1 := by rw [ht1]; split <;> omega
      have h2 : t1 ≤ t2 := by rw [ht2]; split <;> omega
      have h3 := le_scan notEol p.pFileBuffer t2
      refine ⟨by omega, b, ?_⟩
      rw [c]
      exact ite_buffer _ _ _ _ rfl rfl
    · rw [comment_continuation_done _ head tail p w h92] at h
      cases h; exact ⟨Nat.le_refl _, hle, rfl⟩

/-- The continuation loop of a `//` comment on the extended buffer: when it
stops inside the buffer itself, it does what it does on the buffer. -/
theorem comment_continuation_app (T : List Nat) (fuel : Nat) :
    ∀ (head tail : Nat) (p : parser_t) (w : World) (r : Nat × Nat × parser_t × World),
      comment_continuation fuel head tail p w = some r → head ≤ tail →
      r.2.1 < p.pFileBuffer.length →
      comment_continuation fuel head tail (extend_buffer T p) w
        = some (r.1, r.2.1, extend_buffer T r.2.2.1, r.2.2.2) := by
  induction fuel with
  | zero =>
    intro head tail p w r h hle hb
    by_cases h92 : byteAt p.pFileBuffer (tail - 1) = 92
    · rw [comment_continuation_zero head tail p w h92] at h; cases h
    · rw [comment_continuation_done 0 head tail p w h92] at h
      cases h
      simp only at hb
      have e : byteAt (extend_buffer T p).pFileBuffer (tail - 1) ≠ 92 := by
        rw [extend_buffer_buf, byteAt_append_left _ _ _ (by omega)]; exact h92
      rw [comment_continuation_done 0 head tail _ w e]
  | succ n ih =>
    intro head tail p w r h hle hb
    obtain ⟨m1, -, -⟩ := comment_continuation_mono _ head tail p w r h hle
    by_cases h92 : byteAt p.pFileBuffer (tail - 1) = 92
    · have e : byteAt (extend_buffer T p).pFileBuffer (tail - 1) = 92 := by
        rw [extend_buffer_buf, byteAt_append_left _ _ _ (by omega)]; exact h92
      obtain ⟨t1, ht1⟩ : ∃ t1, t1 = if byteAt p.pFileBuffer tail == 13 then tail + 1 else tail :=
        ⟨_, rfl⟩
      obtain ⟨t2, ht2⟩ : ∃ t2, t2 = if byteAt p.pFileBuffer t1 == 10 then t1 + 1 else t1 :=
        ⟨_, rfl⟩
      rw [comment_continuation_step n head tail p w h92 t1 t2 ht1 ht2] at h
      obtain ⟨m2, -, -⟩ := comment_continuation_mono _ _ _ _ _ r h (le_scan _ _ _)
      have := le_scan notEol p.pFileBuffer t2
      have l1 : tail ≤ t1 := by rw [ht1]; split <;> omega
      have l2 : t1 ≤ t2 := by rw [ht2]; split <;> omega
      have ht1' : t1 = if byteAt (extend_buffer T p).pFileBuffer tail == 13 then tail + 1
          else tail := by
        rw [extend_buffer_buf, byteAt_append_left _ _ _ (by omega)]; exact ht1
      have ht2' : t2 = if byteAt (extend_buffer T p).pFileBuffer t1 == 10 then t1 + 1
          else t1 := by
        rw [extend_buffer_buf, byteAt_append_left _ _ _ (by omega)]; exact ht2
      rw [comment_continuation_step n head tail _ w e t1 t2 ht1' ht2']
      have hsc : scan notEol (extend_buffer T p).pFileBuffer t2 = scan notEol p.pFileBuffer t2 :=
        scan_app_of_lt _ _ _ _ (by omega)
      have hsl : slice (extend_buffer T p).pFileBuffer head (tail - head)
          = slice p.pFileBuffer head (tail - head) :=
        slice_app_le _ T head tail (by omega)
      have hb1 : byteAt (extend_buffer T p).pFileBuffer t1 = byteAt p.pFileBuffer t1 := by
        rw [extend_buffer_buf, byteAt_append_left _ _ _ (by omega)]
      rw [hsc, hsl, hb1]
      have hbuf : (if byteAt p.pFileBuffer t1 == 10 then
            ({ p with pLine := t1 + 1, pNextToken := t1 + 1, iLineNum := p.iLineNum + 1 }
              : parser_t) else p).pFileBuffer = p.pFileBuffer :=
        ite_buffer _ _ _ _ rfl rfl
      have key := ih _ _ _ _ r h (le_scan _ _ _) (by rw [hbuf]; exact hb)
      rw [← key]
      by_cases hc : (byteAt p.pFileBuffer t1 == 10) = true
      · rw [if_pos hc, if_pos hc]; rfl
      · rw [if_neg hc, if_neg hc]; rfl
    · rw [comment_continuation_done _ head tail p w h92] at h
      cases h
      simp only at hb
      have e : byteAt (extend_buffer T p).pFileBuffer (tail - 1) ≠ 92 := by
        rw [extend_buffer_buf, byteAt_append_left _ _ _ (by omega)]; exact h92
      rw [comment_continuation_done _ head tail _ w e]

theorem extend_buffer_next (T : List Nat) (p : parser_t) :
    (extend_buffer T p).pNextToken = p.pNextToken := rfl

theorem byteAt_ext (T : List Nat) (p : parser_t) (i : Nat) (h : i < p.pFileBuffer.length) :
    byteAt (extend_buffer T p).pFileBuffer i = byteAt p.pFileBuffer i :=
  byteAt_append_left _ _ _ h

theorem slice_ext (T : List Nat) (p : parser_t) (i j : Nat) (h : j ≤ p.pFileBuffer.length) :
    slice (extend_buffer T p).pFileBuffer i (j - i) = slice p.pFileBuffer i (j - i) :=
  slice_app_le _ T i j h

theorem scan_ext_lt (q : Nat → Bool) (T : List Nat) (p : parser_t) (i : Nat)
    (h : scan q p.pFileBuffer i < p.pFileBuffer.length) :
    scan q (extend_buffer T p).pFileBuffer i = scan q p.pFileBuffer i :=
  scan_app_of_lt q _ T i h

theorem scan_ext (q : Nat → Bool) (T : List Nat) (p : parser_t) (i : Nat)
    (hc : line_closed p.pFileBuffer) (hi : i < p.pFileBuffer.length)
    (h0 : q 0 = false) (h10 : q 10 = false) :
    scan q (extend_buffer T p).pFileBuffer i = scan q p.pFileBuffer i :=
  scan_app q _ T i hc hi h0 h10

theorem unterminated_print_err (p : parser_t) (w : World) :
    unterminated_reported (fail_with p w "h2incn_parse_comment: unterminated comment").2.2
      = true := by
  simp [unterminated_reported, fail_with, h2incn_print_err, World.printf]

theorem parse_comment_line_eq (fuel : Nat) (p : parser_t) (w : World)
    (h1 : byteAt p.pFileBuffer p.pNextToken = 47)
    (h2 : byteAt p.pFileBuffer (p.pNextToken + 1) = 47)
    (r : Nat × Nat × parser_t × World)
    (hcc : comment_continuation fuel p.pNextToken
      (scan notEol p.pFileBuffer (p.pNextToken + 1)) p w = some r)
    (t1 t2 : Nat)
    (ht1 : t1 = if byteAt p.pFileBuffer r.2.1 == 13 then r.2.1 + 1 else r.2.1)
    (ht2 : t2 = if byteAt p.pFileBuffer t1 == 10 then t1 + 1 else t1) :
    h2incn_parse_comment fuel p w = some (true,
      { (if byteAt p.pFileBuffer t1 == 10 then
          { r.2.2.1 with iLineNum := r.2.2.1.iLineNum + 1, pLine := t1 + 1 } else r.2.2.1)
        with pNextToken := scan isBlank p.pFileBuffer t2 },
      if r.2.2.2.options.fComments then
        r.2.2.2.fwrite ([59] ++ slice p.pFileBuffer r.1 (t2 - r.1)) else r.2.2.2) := by
  subst ht1 ht2
  obtain ⟨a, b, c, d⟩ := r
  simp only [h2incn_parse_comment, h1, h2, hcc, bne_self_eq_false, Bool.false_eq_true, if_false,
    beq_self_eq_true, if_true]

theorem parse_comment_block_eq (fuel : Nat) (p : parser_t) (w : World)
    (h1 : byteAt p.pFileBuffer p.pNextToken = 47)
    (h2 : byteAt p.pFileBuffer (p.pNextToken + 1) = 42)
    (r : Nat × Nat × parser_t × World)
    (hr : r = comment_block (p.pFileBuffer.drop (p.pNextToken + 1 + 1)) p.pNextToken
      (p.pNextToken + 1 + 1) p w)
    (s1 t1 t2 : Nat)
    (hs1 : s1 = scan isBlank p.pFileBuffer (r.2.1 + 1))
    (ht1 : t1 = if byteAt p.pFileBuffer s1 == 13 then s1 + 1 else s1)
    (ht2 : t2 = if byteAt p.pFileBuffer t1 == 10 then t1 + 1 else t1) :
    h2incn_parse_comment fuel p w =
      if byteAt p.pFileBuffer r.2.1 != 47 then
        some (fail_with r.2.2.1 r.2.2.2 "h2incn_parse_comment: unterminated comment")
      else if r.2.2.2.options.fComments then
        some (true, { r.2.2.1 with pNextToken := s1 },
          r.2.2.2.fwrite ([59] ++ slice p.pFileBuffer r.1 (r.2.1 + 1 - r.1) ++ [10]))
      else
        some (true,
          { (if byteAt p.pFileBuffer t1 == 10 then
              { r.2.2.1 with iLineNum := r.2.2.1.iLineNum + 1, pLine := t1 + 1 } else r.2.2.1)
            with pNextToken := scan isBlank p.pFileBuffer t2 }, r.2.2.2) := by
  subst hs1 ht1 ht2 hr
  have e : ((47 : Nat) == 42) = false := rfl
  have e2 : ((42 : Nat) == 47) = false := rfl
  simp only [h2incn_parse_comment, h1, h2, bne_self_eq_false, Bool.false_eq_true, if_false,
    beq_self_eq_true, if_true, e, e2]

theorem parse_comment_other_eq (fuel : Nat) (p : parser_t) (w : World)
    (h : byteAt p.pFileBuffer p.pNextToken ≠ 47 ∨
      (byteAt p.pFileBuffer (p.pNextToken + 1) ≠ 47 ∧
        byteAt p.pFileBuffer (p.pNextToken + 1) ≠ 42)) :
    h2incn_parse_comment fuel p w
      = some (fail_with p w "h2incn_parse_comment: comment expected") := by
  unfold h2incn_parse_comment
  rcases h with h | ⟨h, h'⟩
  · simp [h]
  · simp [h, h']

/-- The comment handler on the extended buffer: a call that starts inside the
buffer, and that ends inside it when it succeeds and does not report an
unterminated comment when it fails, does what it does on the buffer. -/
theorem parse_comment_app (T : List Nat) (fuel : Nat) (p : parser_t) (w : World) (x : Result)
    (hc : line_closed p.pFileBuffer) (hp : p.pNextToken < p.pFileBuffer.length)
    (h : h2incn_parse_comment fuel p w = some x)
    (hs : x.1 = true → x.2.1.pNextToken < p.pFileBuffer.length)
    (hu : x.1 = false → unterminated_reported x.2.2 = false) :
    ∃ T', h2incn_parse_comment fuel (extend_buffer T p) w
        = some (x.1, extend_buffer T' x.2.1, x.2.2) ∧
      (x.1 = true → T' = T ∧ x.2.1.pFileBuffer = p.pFileBuffer) := by
  have b0 : byteAt (extend_buffer T p).pFileBuffer (extend_buffer T p).pNextToken
      = byteAt p.pFileBuffer p.pNextToken := byteAt_append_left _ _ _ hp
  by_cases h1 : byteAt p.pFileBuffer p.pNextToken = 47
  · have hp1 : p.pNextToken + 1 < p.pFileBuffer.length :=
      succ_lt_of_byte _ _ hc (by rw [h1]; decide) (by rw [h1]; decide)
    have b1 : byteAt (extend_buffer T p).pFileBuffer ((extend_buffer T p).pNextToken + 1)
        = byteAt p.pFileBuffer (p.pNextToken + 1) := byteAt_append_left _ _ _ hp1
    by_cases h2 : byteAt p.pFileBuffer (p.pNextToken + 1) = 47
    · cases hcc : comment_continuation fuel p.pNextToken
          (scan notEol p.pFileBuffer (p.pNextToken + 1)) p w with
      | none =>
        unfold h2incn_parse_comment at h
        simp [h1, h2, hcc] at h
      | some r =>
        obtain ⟨t1, ht1⟩ : ∃ t1, t1 = if byteAt p.pFileBuffer r.2.1 == 13 then r.2.1 + 1
            else r.2.1 := ⟨_, rfl⟩
        obtain ⟨t2, ht2⟩ : ∃ t2, t2 = if byteAt p.pFileBuffer t1 == 10 then t1 + 1 else t1 :=
          ⟨_, rfl⟩
        rw [parse_comment_line_eq fuel p w h1 h2 r hcc t1 t2 ht1 ht2] at h
        simp only [Option.some.injEq] at h
        subst h
        have hpos := hs rfl
        simp only at hpos
        have l0 := le_scan notEol p.pFileBuffer (p.pNextToken + 1)
        obtain ⟨m1, m2, m3⟩ := comment_continuation_mono fuel _ _ p w r hcc (by omega)
        have l1 : r.2.1 ≤ t1 := by rw [ht1]; split <;> omega
        have l2 : t1 ≤ t2 := by rw [ht2]; split <;> omega
        have l3 := le_scan isBlank p.pFileBuffer t2
        have hcc' := comment_continuation_app T fuel _ _ p w r hcc (by omega) (by omega)
        have sc0 : scan notEol (extend_buffer T p).pFileBuffer ((extend_buffer T p).pNextToken + 1)
            = scan notEol p.pFileBuffer (p.pNextToken + 1) :=
          scan_app notEol _ T _ hc hp1 rfl rfl
        refine ⟨T, ?_, fun _ => ⟨rfl, ?_⟩⟩
        · rw [parse_comment_line_eq fuel (extend_buffer T p) w (b0.trans h1) (b1.trans h2)
            (r.1, r.2.1, extend_buffer T r.2.2.1, r.2.2.2) (by rw [sc0]; exact hcc') t1 t2
            (by
              simp only
              rw [extend_buffer_buf, byteAt_append_left _ _ _ (by omega)]; exact ht1)
            (by rw [extend_buffer_buf, byteAt_append_left _ _ _ (by omega)]; exact ht2)]
          rw [byteAt_ext T p t1 (by omega), scan_ext_lt isBlank T p t2 hpos,
            slice_ext T p r.1 t2 (by omega)]
          by_cases c : (byteAt p.pFileBuffer t1 == 10) = true
          · rw [if_pos c, if_pos c]; rfl
          · rw [if_neg c, if_neg c]; rfl
        · simp only
          rw [← m3]
          exact ite_buffer _ _ _ _ rfl rfl
    · by_cases h3 : byteAt p.pFileBuffer (p.pNextToken + 1) = 42
      · obtain ⟨r, hr⟩ : ∃ r, r = comment_block (p.pFileBuffer.drop (p.pNextToken + 1 + 1))
            p.pNextToken (p.pNextToken + 1 + 1) p w := ⟨_, rfl⟩
        obtain ⟨s1, hs1⟩ : ∃ s1, s1 = scan isBlank p.pFileBuffer (r.2.1 + 1) := ⟨_, rfl⟩
        obtain ⟨t1, ht1⟩ : ∃ t1, t1 = if byteAt p.pFileBuffer s1 == 13 then s1 + 1
            else s1 := ⟨_, rfl⟩
        obtain ⟨t2, ht2⟩ : ∃ t2, t2 = if byteAt p.pFileBuffer t1 == 10 then t1 + 1 else t1 :=
          ⟨_, rfl⟩
        rw [parse_comment_block_eq fuel p w h1 h3 r hr s1 t1 t2 hs1 ht1 ht2] at h
        by_cases h47 : byteAt p.pFileBuffer r.2.1 = 47
        · have hr1 : r.2.1 + 1 < p.pFileBuffer.length :=
            succ_lt_of_byte _ _ hc (by rw [h47]; decide) (by rw [h47]; decide)
          obtain ⟨m1, m2, m3, m4⟩ := comment_block_mono (p.pFileBuffer.drop (p.pNextToken + 1 + 1))
            p.pNextToken (p.pNextToken + 1 + 1) p w (by omega)
          rw [← hr] at m1 m2 m3 m4
          have hA := comment_block_app T (p.pFileBuffer.drop (p.pNextToken + 1 + 1))
            p.pNextToken (p.pNextToken + 1 + 1) p w (by omega)
            (by rw [List.length_drop]; omega)
            (by rw [← hr, List.length_drop]; omega)
            (by rw [← hr]; exact h47)
            (fun k => byteAt_drop _ _ _)
          rw [← hr] at hA
          have hr' : (r.1, r.2.1, extend_buffer T r.2.2.1, r.2.2.2)
              = comment_block ((extend_buffer T p).pFileBuffer.drop
                  ((extend_buffer T p).pNextToken + 1 + 1))
                (extend_buffer T p).pNextToken ((extend_buffer T p).pNextToken + 1 + 1)
                (extend_buffer T p) w := by
            show _ = comment_block ((p.pFileBuffer ++ T).drop (p.pNextToken + 1 + 1))
              p.pNextToken (p.pNextToken + 1 + 1) (extend_buffer T p) w
            rw [List.drop_append_of_le_length (by omega)]
            exact hA.symm
          have hs1l : s1 < p.pFileBuffer.length := by
            rw [hs1]; exact scan_lt isBlank _ _ hc hr1 rfl rfl
          have l0 := le_scan isBlank p.pFileBuffer (r.2.1 + 1)
          have l1 : s1 ≤ t1 := by rw [ht1]; split <;> omega
          have l2 : t1 ≤ t2 := by rw [ht2]; split <;> omega
          have l3 := le_scan isBlank p.pFileBuffer t2
          have e47 : (byteAt p.pFileBuffer r.2.1 != 47) = false := by rw [h47]; rfl
          rw [e47] at h
          simp only [Bool.false_eq_true, if_false] at h
          have hs1' : s1 = scan isBlank (extend_buffer T p).pFileBuffer (r.2.1 + 1) := by
            rw [extend_buffer_buf, scan_app isBlank _ T _ hc hr1 rfl rfl]; exact hs1
          have e47' : (byteAt (extend_buffer T p).pFileBuffer r.2.1 != 47) = false := by
            rw [extend_buffer_buf, byteAt_append_left _ _ _ (by omega), h47]; rfl
          by_cases hf : r.2.2.2.options.fComments = true
          · rw [if_pos hf] at h
            simp only [Option.some.injEq] at h
            subst h
            refine ⟨T, ?_, fun _ => ⟨rfl, m4⟩⟩
            rw [parse_comment_block_eq fuel (extend_buffer T p) w (b0.trans h1)
              (b1.trans h3) _ hr' s1 _ _ hs1' rfl rfl]
            simp only [e47', Bool.false_eq_true, if_false, hf, if_true]
            rw [slice_ext T p r.1 (r.2.1 + 1) (by omega)]
            rfl
          · rw [if_neg hf] at h
            simp only [Option.some.injEq] at h
            subst h
            have hpos := hs rfl
            simp only at hpos
            refine ⟨T, ?_, fun _ => ⟨rfl, ?_⟩⟩
            · rw [parse_comment_block_eq fuel (extend_buffer T p) w (b0.trans h1)
                (b1.trans h3) _ hr' s1 t1 t2 hs1'
                (by rw [extend_buffer_buf, byteAt_append_left _ _ _ (by omega)]; exact ht1)
                (by rw [extend_buffer_buf, byteAt_append_left _ _ _ (by omega)]; exact ht2)]
              simp only [e47', Bool.false_eq_true, if_false, hf]
              rw [byteAt_ext T p t1 (by omega), scan_ext_lt isBlank T p t2 hpos]
              by_cases c : (byteAt p.pFileBuffer t1 == 10) = true
              · rw [if_pos c, if_pos c]; rfl
              · rw [if_neg c, if_neg c]; rfl
            · simp only
              rw [← m4]
              exact ite_buffer _ _ _ _ rfl rfl
        · have e47 : (byteAt p.pFileBuffer r.2.1 != 47) = true := by
            simp only [bne_iff_ne, ne_eq]; exact h47
          rw [e47, if_pos rfl] at h
          simp only [Option.some.injEq] at h
          subst h
          have := hu rfl
          rw [unterminated_print_err] at this
          cases this
      · rw [parse_comment_other_eq fuel p w (Or.inr ⟨h2, h3⟩)] at h
        simp only [Option.some.injEq] at h
        subst h
        obtain ⟨T', e, -, -⟩ := fail_with_app T p w "h2incn_parse_comment: comment expected" hc
        refine ⟨T', ?_, fun c => by cases c⟩
        rw [parse_comment_other_eq fuel _ w (Or.inr ⟨by rw [b1]; exact h2, by rw [b1]; exact h3⟩),
          e]
        rfl
  · rw [parse_comment_other_eq fuel p w (Or.inl h1)] at h
    simp only [Option.some.injEq] at h
    subst h
    obtain ⟨T', e, -, -⟩ := fail_with_app T p w "h2incn_parse_comment: comment expected" hc
    refine ⟨T', ?_, fun c => by cases c⟩
    rw [parse_comment_other_eq fuel _ w (Or.inl (by rw [b0]; exact h1)), e]
    rfl

theorem out_related_self (w : World) : out_related [] [] w w := ⟨rfl, w.out, rfl, rfl⟩

theorem parse_comment_silently_buf (fuel head : Nat) (p : parser_t) (w : World) (x : Result)
    (h : parse_comment_silently fuel head p w = some x) (hx : x.1 = true) :
    x.2.1.pFileBuffer = p.pFileBuffer := by
  obtain ⟨_, _, _, _, hb⟩ := parse_comment_silently_transfer [] [] fuel fuel head p w w x
    (Nat.le_refl _) (out_related_self w) h
  exact hb hx

theorem parse_comment_silently_app (T : List Nat) (fuel head : Nat) (p : parser_t) (w : World)
    (x : Result) (hc : line_closed p.pFileBuffer) (hp : head < p.pFileBuffer.length)
    (h : parse_comment_silently fuel head p w = some x)
    (hs : x.1 = true → x.2.1.pNextToken < p.pFileBuffer.length)
    (hu : x.1 = false → unterminated_reported x.2.2 = false) :
    ∃ T', parse_comment_silently fuel head (extend_buffer T p) w
        = some (x.1, extend_buffer T' x.2.1, x.2.2) ∧ (x.1 = true → T' = T) := by
  unfold parse_comment_silently at h ⊢
  simp only at h ⊢
  cases hcm : h2incn_parse_comment fuel { p with pNextToken := head }
      { w with options := { w.options with fComments := false } } with
  | none => rw [hcm] at h; cases h
  | some x0 =>
    obtain ⟨b, q, u⟩ := x0
    rw [hcm] at h
    simp only [Option.some.injEq] at h
    subst h
    obtain ⟨T', e, e2⟩ := parse_comment_app T fuel { p with pNextToken := head } _ _ hc hp hcm
      hs hu
    have e' : h2incn_parse_comment fuel { extend_buffer T p with pNextToken := head }
        { w with options := { w.options with fComments := false } }
        = some (b, extend_buffer T' q, u) := e
    rw [e']
    exact ⟨T', rfl, fun hb => (e2 hb).1⟩

theorem define_skip_to_name_end (fuel head : Nat) (p : parser_t) (w : World)
    (h0 : byteAt p.pFileBuffer head = 0) :
    define_skip_to_name fuel head p w = some (.inr (head, p, w)) := by
  unfold define_skip_to_name
  simp [h0]

theorem opener_ext (T : List Nat) (p : parser_t) (i : Nat) (hc : line_closed p.pFileBuffer)
    (hi : i < p.pFileBuffer.length) :
    isCommentOpener (extend_buffer T p).pFileBuffer i = isCommentOpener p.pFileBuffer i :=
  isCommentOpener_app _ T i hc hi

theorem opener_lt (A : List Nat) (i : Nat) (h : isCommentOpener A i = true) : i < A.length := by
  apply lt_of_byteAt_ne_zero
  intro h0
  simp [isCommentOpener, h0] at h

theorem define_skip_to_name_app (T : List Nat) (fuel : Nat) :
    ∀ (head : Nat) (p : parser_t) (w : World) (y : Result ⊕ (Nat × parser_t × World)),
      line_closed p.pFileBuffer → head < p.pFileBuffer.length →
      define_skip_to_name fuel head p w = some y →
      Sum.elim (fun r => unterminated_reported r.2.2 = false)
        (fun z => z.1 < p.pFileBuffer.length) y →
      ∃ T', define_skip_to_name fuel head (extend_buffer T p) w =
        some (Sum.elim (fun r => Sum.inl (r.1, extend_buffer T' r.2.1, r.2.2))
          (fun z => Sum.inr (z.1, extend_buffer T z.2.1, z.2.2)) y) := by
  induction fuel using Nat.strong_induction_on with
  | _ fuel ih =>
    intro head p w y hc hh h hin
    have hh1 : scan isBlank p.pFileBuffer head < p.pFileBuffer.length :=
      scan_lt isBlank _ _ hc hh rfl rfl
    have e0 := byteAt_ext T p head hh
    have e1 := scan_ext isBlank T p head hc hh rfl rfl
    have e2 := opener_ext T p _ hc hh1
    have e3 := byteAt_ext T p _ hh1
    have e4 : (byteAt p.pFileBuffer (scan isBlank p.pFileBuffer head) == 47 &&
          byteAt (extend_buffer T p).pFileBuffer (scan isBlank p.pFileBuffer head + 1) == 47)
        = (byteAt p.pFileBuffer (scan isBlank p.pFileBuffer head) == 47 &&
          byteAt p.pFileBuffer (scan isBlank p.pFileBuffer head + 1) == 47) := by
      by_cases c : byteAt p.pFileBuffer (scan isBlank p.pFileBuffer head) = 47
      · rw [byteAt_ext T p _ (succ_lt_of_byte _ _ hc (by rw [c]; decide) (by rw [c]; decide))]
      · rw [beq_eq_false_iff_ne.mpr c, Bool.false_and, Bool.false_and]
    unfold define_skip_to_name at h ⊢
    simp only [e0, e1, e2, e3, e4] at h ⊢
    split at h
    · next hc1 =>
      rw [if_pos hc1]
      split at h
      · next hc2 =>
        rw [if_pos hc2]
        split at h
        · next hc3 =>
          rw [if_pos hc3]
          simp only [Option.some.injEq] at h
          subst h
          obtain ⟨T', e, -, -⟩ := fail_with_app T p w "h2incn_parse_define: error: define syntax" hc
          exact ⟨T', by rw [e]; rfl⟩
        · next hc3 =>
          rw [if_neg hc3]
          split at h
          · cases h
          · next q u heq =>
            simp only [Option.some.injEq] at h
            subst h
            obtain ⟨T', e, -⟩ := parse_comment_silently_app T fuel _ p w _ hc hh1 heq
              (fun c => by cases c) (fun _ => hin)
            rw [e]
            exact ⟨T', rfl⟩
          · next q u heq =>
            have hb := parse_comment_silently_buf fuel _ p w _ heq rfl
            simp only at hb
            cases fuel with
            | zero => cases h
            | succ n =>
              simp only at h
              have hq : q.pNextToken < p.pFileBuffer.length := by
                by_contra hn
                rw [define_skip_to_name_end n _ q u
                  (by rw [hb]; exact byteAt_ge _ _ (by omega))] at h
                simp only [Option.some.injEq] at h
                subst h
                exact hn hin
              obtain ⟨T', e, eT⟩ := parse_comment_silently_app T (n + 1) _ p w _ hc hh1 heq
                (fun _ => hq) (fun c => by cases c)
              rw [e]
              simp only
              rw [eT rfl]
              rw [← hb] at hc hin
              exact ih n (Nat.lt_succ_self n) _ q u y hc (by rw [hb]; exact hq) h
                (by
                  cases y with
                  | inl r => exact hin
                  | inr z => simp only [Sum.elim_inr] at hin ⊢; exact hin)
      · next hc2 =>
        rw [if_neg hc2]
        simp only [Option.some.injEq] at h
        subst h
        exact ⟨T, rfl⟩
    · next hc1 =>
      rw [if_neg hc1]
      simp only [Option.some.injEq] at h
      subst h
      exact ⟨T, rfl⟩

theorem sum_related_facts (w : World) (p : parser_t) (y y' : Result ⊕ (Nat × parser_t × World))
    (h : sum_related [] [] w p y y') :
    Sum.elim (fun r => r.1 = false) (fun z => z.2.1.pFileBuffer = p.pFileBuffer) y := by
  cases y with
  | inl r => obtain ⟨_, _, _, _, h5⟩ := sum_related_inl [] [] w p r y' h; exact h5
  | inr z => obtain ⟨_, _, _, _, h5⟩ := sum_related_inr [] [] w p z y' h; exact h5

theorem define_skip_to_name_facts (fuel head : Nat) (p : parser_t) (w : World)
    (y : Result ⊕ (Nat × parser_t × World)) (h : define_skip_to_name fuel head p w = some y) :
    Sum.elim (fun r => r.1 = false) (fun z => z.2.1.pFileBuffer = p.pFileBuffer) y := by
  obtain ⟨y', _, hs⟩ := define_skip_to_name_transfer [] [] fuel fuel head p w w y (Nat.le_refl _)
    (out_related_self w) h
  exact sum_related_facts w p y y' hs

theorem define_skip_to_value_facts (fuel head : Nat) (p : parser_t) (w : World)
    (y : Result ⊕ (Nat × parser_t × World)) (h : define_skip_to_value fuel head p w = some y) :
    Sum.elim (fun r => r.1 = false) (fun z => z.2.1.pFileBuffer = p.pFileBuffer) y := by
  obtain ⟨y', _, hs⟩ := define_skip_to_value_transfer [] [] fuel fuel head p w w y (Nat.le_refl _)
    (out_related_self w) h
  exact sum_related_facts w p y y' hs

theorem define_continued_line_facts (fuel vhead vtail : Nat) (p : parser_t) (w : World)
    (y : Result ⊕ (Nat × parser_t × World))
    (h : define_continued_line fuel vhead vtail p w = some y) :
    Sum.elim (fun r => r.1 = false) (fun z => z.2.1.pFileBuffer = p.pFileBuffer) y := by
  obtain ⟨y', _, hs⟩ := define_continued_line_transfer [] [] fuel fuel vhead vtail p w w y
    (Nat.le_refl _) (out_related_self w) h
  exact sum_related_facts w p y y' hs

theorem define_continuation_facts (fuel vhead vtail : Nat) (p : parser_t) (w : World)
    (y : Result ⊕ (Nat × parser_t × World))
    (h : define_continuation fuel vhead vtail p w = some y) :
    Sum.elim (fun r => r.1 = false) (fun z => z.2.1.pFileBuffer = p.pFileBuffer) y := by
  obtain ⟨y', _, hs⟩ := define_continuation_transfer [] [] fuel fuel vhead vtail p w w y
    (Nat.le_refl _) (out_related_self w) h
  exact sum_related_facts w p y y' hs

theorem conditional_loop_facts (fuel head : Nat) (p : parser_t) (w : World)
    (y : Result ⊕ (Nat × parser_t × World)) (h : conditional_loop fuel head p w = some y) :
    Sum.elim (fun r => r.1 = false) (fun z => z.2.1.pFileBuffer = p.pFileBuffer) y := by
  obtain ⟨y', _, hs⟩ := conditional_loop_transfer [] [] (parse_comment_transfer [] []) fuel fuel
    head p w w y (Nat.le_refl _) (out_related_self w) h
  exact sum_related_facts w p y y' hs

theorem define_skip_to_value_end (fuel head : Nat) (p : parser_t) (w : World)
    (h0 : byteAt p.pFileBuffer head = 0) :
    define_skip_to_value fuel head p w = some (.inr (head, p, w)) := by
  unfold define_skip_to_value
  simp [h0]

theorem define_continued_line_end (fuel vhead vtail : Nat) (p : parser_t) (w : World)
    (h0 : byteAt p.pFileBuffer vtail = 0) :
    define_continued_line fuel vhead vtail p w = some (.inr (vtail, p, w)) := by
  unfold define_continued_line
  simp [h0]

theorem define_continuation_end (fuel vhead vtail : Nat) (p : parser_t) (w : World)
    (h0 : byteAt p.pFileBuffer (vtail - 1) ≠ 92) :
    define_continuation fuel vhead vtail p w = some (.inr (vtail, p, w)) := by
  unfold define_continuation
  simp [h0]

theorem byteAt_last (A : List Nat) (hc : line_closed A) (i : Nat) (hi : A.length ≤ i + 1) :
    byteAt A i = 10 ∨ byteAt A i = 0 := by
  by_cases h : A.length ≤ i
  · exact Or.inr (byteAt_ge A i h)
  · have : i = A.length - 1 := by omega
    rw [this]
    exact hc

theorem byteAt_pred_ne (A : List Nat) (hc : line_closed A) (i : Nat) (hi : A.length ≤ i) :
    byteAt A (i - 1) ≠ 92 := by
  rcases byteAt_last A hc (i - 1) (by omega) with h | h <;> rw [h] <;> decide

theorem define_skip_to_value_app (T : List Nat) (fuel : Nat) :
    ∀ (head : Nat) (p : parser_t) (w : World) (y : Result ⊕ (Nat × parser_t × World)),
      line_closed p.pFileBuffer → head < p.pFileBuffer.length →
      define_skip_to_value fuel head p w = some y →
      Sum.elim (fun r => unterminated_reported r.2.2 = false)
        (fun z => z.1 < p.pFileBuffer.length) y →
      ∃ T', define_skip_to_value fuel head (extend_buffer T p) w =
        some (Sum.elim (fun r => Sum.inl (r.1, extend_buffer T' r.2.1, r.2.2))
          (fun z => Sum.inr (z.1, extend_buffer T z.2.1, z.2.2)) y) := by
  induction fuel using Nat.strong_induction_on with
  | _ fuel ih =>
    intro head p w y hc hh h hin
    have hh1 : scan isBlank p.pFileBuffer head < p.pFileBuffer.length :=
      scan_lt isBlank _ _ hc hh rfl rfl
    have e0 := byteAt_ext T p head hh
    have e1 := scan_ext isBlank T p head hc hh rfl rfl
    have e2 := opener_ext T p _ hc hh1
    unfold define_skip_to_value at h ⊢
    simp only [e0, e1, e2] at h ⊢
    split at h
    · next hc1 =>
      rw [if_pos hc1]
      split at h
      · next hc2 =>
        rw [if_pos hc2]
        split at h
        · cases h
        · next q u heq =>
          simp only [Option.some.injEq] at h
          subst h
          obtain ⟨T', e, -⟩ := parse_comment_silently_app T fuel _ p w _ hc hh1 heq
            (fun c => by cases c) (fun _ => hin)
          rw [e]
          exact ⟨T', rfl⟩
        · next q u heq =>
          have hb := parse_comment_silently_buf fuel _ p w _ heq rfl
          simp only at hb
          cases fuel with
          | zero => cases h
          | succ n =>
            simp only at h
            have hq : q.pNextToken < p.pFileBuffer.length := by
              by_contra hn
              rw [define_skip_to_value_end n _ q u
                (by rw [hb]; exact byteAt_ge _ _ (by omega))] at h
              simp only [Option.some.injEq] at h
              subst h
              exact hn hin
            obtain ⟨T', e, eT⟩ := parse_comment_silently_app T (n + 1) _ p w _ hc hh1 heq
              (fun _ => hq) (fun c => by cases c)
            rw [e]
            simp only
            rw [eT rfl]
            rw [← hb] at hc hin
            exact ih n (Nat.lt_succ_self n) _ q u y hc (by rw [hb]; exact hq) h
              (by
                cases y with
                | inl r => exact hin
                | inr z => simp only [Sum.elim_inr] at hin ⊢; exact hin)
      · next hc2 =>
        rw [if_neg hc2]
        simp only [Option.some.injEq] at h
        subst h
        exact ⟨T, rfl⟩
    · next hc1 =>
      rw [if_neg hc1]
      simp only [Option.some.injEq] at h
      subst h
      exact ⟨T, rfl⟩

theorem define_continued_line_app (T : List Nat) (fuel : Nat) :
    ∀ (vhead vtail : Nat) (p : parser_t) (w : World) (y : Result ⊕ (Nat × parser_t × World)),
      line_closed p.pFileBuffer → vhead + 1 < p.pFileBuffer.length →
      vtail < p.pFileBuffer.length →
      define_continued_line fuel vhead vtail p w = some y →
      Sum.elim (fun r => unterminated_reported r.2.2 = false)
        (fun z => z.1 < p.pFileBuffer.length) y →
      ∃ T', define_continued_line fuel vhead vtail (extend_buffer T p) w =
        some (Sum.elim (fun r => Sum.inl (r.1, extend_buffer T' r.2.1, r.2.2))
          (fun z => Sum.inr (z.1, extend_buffer T z.2.1, z.2.2)) y) := by
  induction fuel using Nat.strong_induction_on with
  | _ fuel ih =>
    intro vhead vtail p w y hc hv hh h hin
    have hh1 : scan (fun c => c != 0 && c != 47 && c != 13 && c != 10) p.pFileBuffer vtail
        < p.pFileBuffer.length := scan_lt _ _ _ hc hh rfl rfl
    have e0 := byteAt_ext T p vtail hh
    have e1 := scan_ext (fun c => c != 0 && c != 47 && c != 13 && c != 10) T p vtail hc hh
      rfl rfl
    have e2 := byteAt_ext T p _ hh1
    have e3 := byteAt_ext T p _ hv
    unfold define_continued_line at h ⊢
    simp only [e0, e1, e2, e3] at h ⊢
    split at h
    · next hc1 =>
      rw [if_pos hc1]
      split at h
      · next hc2 =>
        rw [if_pos hc2]
        split at h
        · cases h
        · next q u heq =>
          simp only [Option.some.injEq] at h
          subst h
          obtain ⟨T', e, -⟩ := parse_comment_silently_app T fuel _ p w _ hc hh1 heq
            (fun c => by cases c) (fun _ => hin)
          rw [e]
          exact ⟨T', rfl⟩
        · next q u heq =>
          have hb := parse_comment_silently_buf fuel _ p w _ heq rfl
          simp only at hb
          cases fuel with
          | zero => cases h
          | succ n =>
            simp only at h
            have hq : q.pNextToken < p.pFileBuffer.length := by
              by_contra hn
              rw [define_continued_line_end n _ _ q u
                (by rw [hb]; exact byteAt_ge _ _ (by omega))] at h
              simp only [Option.some.injEq] at h
              subst h
              exact hn hin
            obtain ⟨T', e, eT⟩ := parse_comment_silently_app T (n + 1) _ p w _ hc hh1 heq
              (fun _ => hq) (fun c => by cases c)
            rw [e]
            simp only
            rw [eT rfl]
            rw [← hb] at hc hin hv
            exact ih n (Nat.lt_succ_self n) _ _ q u y hc hv (by rw [hb]; exact hq) h
              (by
                cases y with
                | inl r => exact hin
                | inr z => simp only [Sum.elim_inr] at hin ⊢; exact hin)
      · next hc2 =>
        rw [if_neg hc2]
        cases fuel with
        | zero => cases h
        | succ n =>
          simp only at h ⊢
          have hq : scan (fun c => c != 0 && c != 47 && c != 13 && c != 10) p.pFileBuffer vtail + 1
              < p.pFileBuffer.length := by
            by_contra hn
            rw [define_continued_line_end n _ _ p w (byteAt_ge _ _ (by omega))] at h
            simp only [Option.some.injEq] at h
            subst h
            exact hn hin
          exact ih n (Nat.lt_succ_self n) _ _ p w y hc hv hq h hin
    · next hc1 =>
      rw [if_neg hc1]
      simp only [Option.some.injEq] at h
      subst h
      exact ⟨T, rfl⟩

theorem define_continuation_app (T : List Nat) (fuel : Nat) :
    ∀ (vhead vtail : Nat) (p : parser_t) (w : World) (y : Result ⊕ (Nat × parser_t × World)),
      line_closed p.pFileBuffer → vhead + 1 < p.pFileBuffer.length →
      vtail < p.pFileBuffer.length →
      define_continuation fuel vhead vtail p w = some y →
      Sum.elim (fun r => unterminated_reported r.2.2 = false)
        (fun z => z.1 < p.pFileBuffer.length) y →
      ∃ T', define_continuation fuel vhead vtail (extend_buffer T p) w =
        some (Sum.elim (fun r => Sum.inl (r.1, extend_buffer T' r.2.1, r.2.2))
          (fun z => Sum.inr (z.1, extend_buffer T z.2.1, z.2.2)) y) := by
  induction fuel using Nat.strong_induction_on with
  | _ fuel ih =>
    intro vhead vtail p w y hc hv hh h hin
    have e0 := byteAt_ext T p (vtail - 1) (by omega)
    have e1 := byteAt_ext T p vtail hh
    obtain ⟨t1, ht1⟩ : ∃ t1, t1 = if byteAt p.pFileBuffer vtail == 13 then vtail + 1 else vtail :=
      ⟨_, rfl⟩
    have hl1 : t1 < p.pFileBuffer.length := by
      rw [ht1]
      split
      · next c =>
        have c' : byteAt p.pFileBuffer vtail = 13 := by simpa using c
        exact succ_lt_of_byte _ _ hc (by rw [c']; decide) (by rw [c']; decide)
      · exact hh
    have e2 := byteAt_ext T p t1 hl1
    unfold define_continuation at h ⊢
    simp only [e0, e1, ← ht1, e2] at h ⊢
    obtain ⟨p1, hp1⟩ : ∃ p1 : parser_t, p1 = if byteAt p.pFileBuffer t1 == 10 then
        { p with iLineNum := p.iLineNum + 1 } else p := ⟨_, rfl⟩
    have hbuf : p1.pFileBuffer = p.pFileBuffer := by
      rw [hp1]; exact ite_buffer _ _ _ _ rfl rfl
    have hpe : (if byteAt p.pFileBuffer t1 == 10 then
        ({ extend_buffer T p with iLineNum := (extend_buffer T p).iLineNum + 1 } : parser_t)
          else extend_buffer T p)
        = extend_buffer T p1 := by
      rw [hp1]
      by_cases c : (byteAt p.pFileBuffer t1 == 10) = true
      · rw [if_pos c, if_pos c]; rfl
      · rw [if_neg c, if_neg c]
    have e3 : byteAt (extend_buffer T p1).pFileBuffer t1 = byteAt p.pFileBuffer t1 := by
      rw [byteAt_ext T p1 t1 (by rw [hbuf]; exact hl1), hbuf]
    rw [hpe]
    simp only [← hp1] at h
    simp only [hbuf, e3] at h ⊢
    split at h
    · next hc1 =>
      rw [if_pos hc1]
      obtain ⟨t2, ht2⟩ : ∃ t2, t2 = if byteAt p.pFileBuffer t1 == 10 then t1 + 1 else t1 :=
        ⟨_, rfl⟩
      simp only [← ht2] at h ⊢
      have hl2 : t2 < p.pFileBuffer.length := by
        by_contra hn
        rw [define_continued_line_end fuel vhead t2 p1 w
          (by rw [hbuf]; exact byteAt_ge _ _ (by omega))] at h
        simp only at h
        cases fuel with
        | zero => cases h
        | succ n =>
          simp only at h
          rw [define_continuation_end n vhead t2 p1 w
            (by rw [hbuf]; exact byteAt_pred_ne _ hc _ (by omega))] at h
          simp only [Option.some.injEq] at h
          subst h
          exact hn hin
      split at h
      · cases h
      · next r heq =>
        simp only [Option.some.injEq] at h
        subst h
        obtain ⟨T', e⟩ := define_continued_line_app T fuel vhead t2 p1 w _
          (by rw [hbuf]; exact hc) (by rw [hbuf]; exact hv) (by rw [hbuf]; exact hl2) heq hin
        rw [e]
        exact ⟨T', rfl⟩
      · next k q u heq =>
        have hb := define_continued_line_facts fuel vhead t2 p1 w _ heq
        simp only [Sum.elim_inr, hbuf] at hb
        cases fuel with
        | zero => cases h
        | succ n =>
          simp only at h
          have hk : k < p.pFileBuffer.length := by
            by_contra hn
            rw [define_continuation_end n vhead k q u
              (by rw [hb]; exact byteAt_pred_ne _ hc _ (by omega))] at h
            simp only [Option.some.injEq] at h
            subst h
            exact hn hin
          obtain ⟨T', e⟩ := define_continued_line_app T (n + 1) vhead t2 p1 w _
            (by rw [hbuf]; exact hc) (by rw [hbuf]; exact hv) (by rw [hbuf]; exact hl2) heq
            (by simp only [Sum.elim_inr, hbuf]; exact hk)
          rw [e]
          simp only [Sum.elim_inr]
          rw [← hb] at hc hin hv
          exact ih n (Nat.lt_succ_self n) _ _ q u y hc hv (by rw [hb]; exact hk) h
            (by
              cases y with
              | inl r => exact hin
              | inr z => simp only [Sum.elim_inr] at hin ⊢; exact hin)
    · next hc1 =>
      rw [if_neg hc1]
      simp only [Option.some.injEq] at h
      subst h
      exact ⟨T, rfl⟩

theorem define_continuation_stuck (fuel : Nat) (vhead vtail : Nat) (p : parser_t) (w : World)
    (h92 : byteAt p.pFileBuffer (vtail - 1) = 92) (h0 : byteAt p.pFileBuffer vtail = 0) :
    define_continuation fuel vhead vtail p w = none := by
  induction fuel with
  | zero =>
    unfold define_continuation
    simp [h92, h0, define_continued_line_end]
  | succ n ih =>
    unfold define_continuation
    simp [h92, h0, define_continued_line_end, ih]

/-- The continuation loop of the define handler, entered as the handler
enters it, with `vtail` at the end of the line that holds `vhead`. -/
theorem define_continuation_entry_app (T : List Nat) (fuel : Nat) (vhead vtail : Nat)
    (p : parser_t) (w : World) (y : Result ⊕ (Nat × parser_t × World))
    (hc : line_closed p.pFileBuffer) (hle : vhead ≤ vtail) (hh : vtail < p.pFileBuffer.length)
    (h : define_continuation fuel vhead vtail p w = some y)
    (hin : Sum.elim (fun r => unterminated_reported r.2.2 = false)
        (fun z => z.1 < p.pFileBuffer.length) y) :
    ∃ T', define_continuation fuel vhead vtail (extend_buffer T p) w =
      some (Sum.elim (fun r => Sum.inl (r.1, extend_buffer T' r.2.1, r.2.2))
        (fun z => Sum.inr (z.1, extend_buffer T z.2.1, z.2.2)) y) := by
  by_cases c92 : byteAt p.pFileBuffer (vtail - 1) = 92
  · by_cases hv : vhead + 1 < p.pFileBuffer.length
    · exact define_continuation_app T fuel vhead vtail p w y hc hv hh h hin
    · exfalso
      have hvt : vtail = p.pFileBuffer.length - 1 := by omega
      rcases byteAt_last _ hc vtail (by omega) with c10 | c0
      · unfold define_continuation at h
        have e13 : ((10 : Nat) == 13) = false := rfl
        simp only [c92, beq_self_eq_true, if_true, e13, Bool.false_eq_true, if_false, c10] at h
        rw [define_continued_line_end fuel vhead (vtail + 1) _ w
          (byteAt_ge _ _ (by simp only; omega))] at h
        simp only at h
        cases fuel with
        | zero => cases h
        | succ n =>
          simp only at h
          rw [define_continuation_end n vhead (vtail + 1) _ w
            (by
              simp only [Nat.add_sub_cancel]
              rw [c10]; decide)] at h
          simp only [Option.some.injEq] at h
          subst h
          simp only [Sum.elim_inr] at hin
          omega
      · rw [define_continuation_stuck fuel vhead vtail p w c92 c0] at h
        cases h
  · rw [define_continuation_end fuel vhead vtail p w c92] at h
    simp only [Option.some.injEq] at h
    subst h
    refine ⟨T, ?_⟩
    rw [define_continuation_end fuel vhead vtail _ w
      (by rw [byteAt_ext T p _ (by omega)]; exact c92)]
    rfl

theorem printf_ext (T : List Nat) (p : parser_t) (w : World) (s : String) :
    w.printf (extend_buffer T p) s = w.printf p s := rfl

theorem parse_define_app (T : List Nat) (fuel : Nat) (p : parser_t) (w : World) (x : Result)
    (hc : line_closed p.pFileBuffer) (hp : p.pNextToken + 8 < p.pFileBuffer.length)
    (h : h2incn_parse_define fuel p w = some x)
    (hs : x.1 = true → x.2.1.pNextToken < p.pFileBuffer.length)
    (hu : x.1 = false → unterminated_reported x.2.2 = false) :
    ∃ T', h2incn_parse_define fuel (extend_buffer T p) w
        = some (x.1, extend_buffer T' x.2.1, x.2.2) ∧ (x.1 = true → T' = T) := by
  unfold h2incn_parse_define at h ⊢
  simp only [extend_buffer_next] at h ⊢
  split at h
  · cases h
  · next r heq =>
    have hf := define_skip_to_name_facts fuel _ p _ _ heq
    simp only [Sum.elim_inl] at hf
    simp only [Option.some.injEq] at h
    subst h
    obtain ⟨T', e⟩ := define_skip_to_name_app T fuel _ p _ _ hc hp heq (hu hf)
    rw [e]
    exact ⟨T', rfl, fun c => by rw [hf] at c; cases c⟩
  · next k1 q1 u1 heq1 =>
    have hb1 := define_skip_to_name_facts fuel _ p _ _ heq1
    simp only [Sum.elim_inr] at hb1
    rw [← hb1] at hc hs
    have hk1 : k1 < q1.pFileBuffer.length := by
      by_contra hn
      have z := byteAt_ge q1.pFileBuffer k1 (by omega)
      have s1 : scan (fun c => c != 0 && c != 32 && c != 9 && c != 40 && c != 13 && c != 10)
          q1.pFileBuffer k1 = k1 := scan_stay _ _ _ (by rw [z]; rfl)
      have s2 : scan notEol q1.pFileBuffer k1 = k1 := scan_stay _ _ _ (by rw [z]; rfl)
      simp only [s1] at h
      rw [define_skip_to_value_end fuel k1 q1 _ z] at h
      simp only [s2] at h
      rw [define_continuation_end fuel k1 k1 q1 _ (byteAt_pred_ne _ hc _ (by omega))] at h
      simp only [Option.some.injEq] at h
      subst h
      exact hn (hs (by simp only [hash_map_insert_fst]; rfl))
    obtain ⟨T1, e1⟩ := define_skip_to_name_app T fuel _ p _ _ (by rw [← hb1]; exact hc) hp heq1
      (by simp only [Sum.elim_inr]; rw [← hb1]; exact hk1)
    rw [e1]
    simp only [Sum.elim_inr]
    obtain ⟨tl, htl⟩ : ∃ tl, tl = scan
        (fun c => c != 0 && c != 32 && c != 9 && c != 40 && c != 13 && c != 10)
        q1.pFileBuffer k1 := ⟨_, rfl⟩
    have htl1 : tl < q1.pFileBuffer.length := by
      rw [htl]; exact scan_lt _ _ _ hc hk1 rfl rfl
    have es1 := scan_ext (fun c => c != 0 && c != 32 && c != 9 && c != 40 && c != 13 && c != 10)
      T q1 k1 hc hk1 rfl rfl
    simp only [es1, ← htl, printf_ext] at h ⊢
    rw [slice_ext T q1 k1 tl (by omega)]
    split at h
    · cases h
    · next r2 heq2 =>
      have hf := define_skip_to_value_facts fuel _ q1 _ _ heq2
      simp only [Sum.elim_inl] at hf
      simp only [Option.some.injEq] at h
      subst h
      obtain ⟨T', e⟩ := define_skip_to_value_app T fuel _ q1 _ _ hc htl1 heq2 (hu hf)
      rw [e]
      exact ⟨T', rfl, fun c => by rw [hf] at c; cases c⟩
    · next k2 q2 u2 heq2 =>
      have hb2 := define_skip_to_value_facts fuel _ q1 _ _ heq2
      simp only [Sum.elim_inr] at hb2
      have hk2 : k2 < q1.pFileBuffer.length := by
        by_contra hn
        have z := byteAt_ge q1.pFileBuffer k2 (by omega)
        have s2 : scan notEol q1.pFileBuffer k2 = k2 := scan_stay _ _ _ (by rw [z]; rfl)
        simp only [s2] at h
        rw [define_continuation_end fuel k2 k2 q2 _
          (by rw [hb2]; exact byteAt_pred_ne _ hc _ (by omega))] at h
        simp only [Option.some.injEq] at h
        subst h
        exact hn (hs (by simp only [hash_map_insert_fst]; rfl))
      obtain ⟨T2, e2⟩ := define_skip_to_value_app T fuel _ q1 _ _ hc htl1 heq2
        (by simp only [Sum.elim_inr]; exact hk2)
      rw [e2]
      simp only [Sum.elim_inr]
      obtain ⟨vt, hvt⟩ : ∃ vt, vt = scan notEol q1.pFileBuffer k2 := ⟨_, rfl⟩
      have hvt1 : vt < q1.pFileBuffer.length := by
        rw [hvt]; exact scan_lt _ _ _ hc hk2 rfl rfl
      have hvt2 : k2 ≤ vt := by rw [hvt]; exact le_scan _ _ _
      have es2 := scan_ext notEol T q1 k2 hc hk2 rfl rfl
      simp only [es2, ← hvt] at h ⊢
      rw [← hb2] at hc hs hvt1 hk2
      split at h
      · cases h
      · next r3 heq3 =>
        have hf := define_continuation_facts fuel _ _ q2 _ _ heq3
        simp only [Sum.elim_inl] at hf
        simp only [Option.some.injEq] at h
        subst h
        obtain ⟨T', e⟩ := define_continuation_entry_app T fuel _ _ q2 _ _ hc hvt2 hvt1 heq3
          (hu hf)
        rw [e]
        exact ⟨T', rfl, fun c => by rw [hf] at c; cases c⟩
      · next k3 q3 u3 heq3 =>
        have hb3 := define_continuation_facts fuel _ _ q2 _ _ heq3
        simp only [Sum.elim_inr] at hb3
        simp only [Option.some.injEq] at h
        subst h
        have hk3 := hs (by simp only [hash_map_insert_fst]; rfl)
        simp only at hk3
        obtain ⟨T3, e3⟩ := define_continuation_entry_app T fuel _ _ q2 _ _ hc hvt2 hvt1 heq3
          (by simp only [Sum.elim_inr]; exact hk3)
        rw [e3]
        simp only [Sum.elim_inr]
        rw [hb2] at hk3 hk2
        rw [byteAt_ext T q1 k2 hk2, slice_ext T q1 k2 k3 (by omega)]
        exact ⟨T, rfl, fun _ => rfl⟩

theorem parse_comment_buf (fuel : Nat) (p : parser_t) (w : World) (x : Result)
    (h : h2incn_parse_comment fuel p w = some x) (hx : x.1 = true) :
    x.2.1.pFileBuffer = p.pFileBuffer := by
  obtain ⟨_, _, _, _, hb⟩ := parse_comment_transfer [] [] fuel fuel p w w x
    (Nat.le_refl _) (out_related_self w) h
  exact hb hx

theorem conditional_loop_nul_stuck (fuel head : Nat) (p : parser_t) (w : World)
    (h : byteAt p.pFileBuffer head = 0) : conditional_loop fuel head p w = none := by
  have s : scan (fun c => c != 0 && c != 47 && c != 13 && c != 10) p.pFileBuffer head = head :=
    scan_stay _ _ _ (by rw [h]; rfl)
  have o : isCommentOpener p.pFileBuffer head = false := by
    simp [isCommentOpener, h]
  induction fuel with
  | zero =>
    unfold conditional_loop
    simp [h, s, o]
  | succ n ih =>
    unfold conditional_loop
    simp [h, s, o, ih]

theorem conditional_loop_app (T : List Nat) (fuel : Nat) :
    ∀ (head : Nat) (p : parser_t) (w : World) (y : Result ⊕ (Nat × parser_t × World)),
      line_closed p.pFileBuffer → head < p.pFileBuffer.length →
      conditional_loop fuel head p w = some y →
      Sum.elim (fun r => unterminated_reported r.2.2 = false)
        (fun z => z.1 < p.pFileBuffer.length) y →
      ∃ T', conditional_loop fuel head (extend_buffer T p) w =
        some (Sum.elim (fun r => Sum.inl (r.1, extend_buffer T' r.2.1, r.2.2))
          (fun z => Sum.inr (z.1, extend_buffer T z.2.1, z.2.2)) y) := by
  induction fuel using Nat.strong_induction_on with
  | _ fuel ih =>
    intro head p w y hc hh h hin
    obtain ⟨tl, htl⟩ : ∃ tl, tl = scan (fun c => c != 0 && c != 47 && c != 13 && c != 10)
        p.pFileBuffer head := ⟨_, rfl⟩
    have hh1 : tl < p.pFileBuffer.length := by
      rw [htl]; exact scan_lt _ _ _ hc hh rfl rfl
    have e0 := byteAt_ext T p head hh
    have e1 := scan_ext (fun c => c != 0 && c != 47 && c != 13 && c != 10) T p head hc hh
      rfl rfl
    have e2 := opener_ext T p tl hc hh1
    have e3 := slice_ext T p head tl (by omega)
    unfold conditional_loop at h ⊢
    simp only [e0, e1, ← htl, e2, e3] at h ⊢
    split at h
    · next hc1 =>
      rw [if_pos hc1]
      split at h
      · next hc2 =>
        rw [if_pos hc2]
        split at h
        · cases h
        · next q u heq =>
          simp only [Option.some.injEq] at h
          subst h
          obtain ⟨T', e, -⟩ := parse_comment_app T fuel { p with pNextToken := tl } _ _ hc hh1 heq
            (fun c => by cases c) (fun _ => hin)
          have e' : h2incn_parse_comment fuel { extend_buffer T p with pNextToken := tl } _
              = _ := e
          rw [e']
          exact ⟨T', rfl⟩
        · next q u heq =>
          have hb := parse_comment_buf fuel _ _ _ heq rfl
          simp only at hb
          cases fuel with
          | zero => cases h
          | succ n =>
            simp only at h
            have hq : q.pNextToken < p.pFileBuffer.length := by
              by_contra hn
              rw [conditional_loop_nul_stuck n _ q u
                (by rw [hb]; exact byteAt_ge _ _ (by omega))] at h
              cases h
            obtain ⟨T', e, eT⟩ := parse_comment_app T (n + 1) { p with pNextToken := tl } _ _ hc hh1 heq
              (fun _ => hq) (fun c => by cases c)
            have e' : h2incn_parse_comment (n + 1) { extend_buffer T p with pNextToken := tl } _
                = _ := e
            rw [e']
            simp only
            rw [(eT rfl).1]
            rw [← hb] at hc hin
            exact ih n (Nat.lt_succ_self n) _ q u y hc (by rw [hb]; exact hq) h
              (by
                cases y with
                | inl r => exact hin
                | inr z => simp only [Sum.elim_inr] at hin ⊢; exact hin)
      · next hc2 =>
        rw [if_neg hc2]
        cases fuel with
        | zero => cases h
        | succ n =>
          simp only at h ⊢
          exact ih n (Nat.lt_succ_self n) _ p _ y hc hh1 h hin
    · next hc1 =>
      rw [if_neg hc1]
      simp only [Option.some.injEq] at h
      subst h
      exact ⟨T, rfl⟩

theorem parse_conditional_app (T : List Nat) (keyword : List Nat) (skip fuel : Nat)
    (p : parser_t) (w : World) (x : Result)
    (hc : line_closed p.pFileBuffer) (hp : p.pNextToken + skip < p.pFileBuffer.length)
    (h : parse_conditional keyword skip fuel p w = some x)
    (hs : x.1 = true → x.2.1.pNextToken < p.pFileBuffer.length)
    (hu : x.1 = false → unterminated_reported x.2.2 = false) :
    ∃ T', parse_conditional keyword skip fuel (extend_buffer T p) w
        = some (x.1, extend_buffer T' x.2.1, x.2.2) ∧ (x.1 = true → T' = T) := by
  have hh1 : scan (fun c => c != 0 && (c == 32 || c == 9)) p.pFileBuffer (p.pNextToken + skip)
      < p.pFileBuffer.length := scan_lt _ _ _ hc hp rfl rfl
  have e1 := scan_ext (fun c => c != 0 && (c == 32 || c == 9)) T p _ hc hp rfl rfl
  unfold parse_conditional at h ⊢
  simp only [extend_buffer_next, e1] at h ⊢
  split at h
  · cases h
  · next r heq =>
    have hf := conditional_loop_facts fuel _ p _ _ heq
    simp only [Sum.elim_inl] at hf
    simp only [Option.some.injEq] at h
    subst h
    obtain ⟨T', e⟩ := conditional_loop_app T fuel _ p _ _ hc hh1 heq (hu hf)
    rw [e]
    exact ⟨T', rfl, fun c => by rw [hf] at c; cases c⟩
  · next k q u heq =>
    simp only [Option.some.injEq] at h
    subst h
    obtain ⟨T', e⟩ := conditional_loop_app T fuel _ p _ _ hc hh1 heq (hs rfl)
    rw [e]
    exact ⟨T, rfl, fun _ => rfl⟩

theorem parse_else_endif_app (T : List Nat) (keyword : List Nat) (skip fuel : Nat)
    (p : parser_t) (w : World) (x : Result)
    (hc : line_closed p.pFileBuffer) (hp : p.pNextToken + skip < p.pFileBuffer.length)
    (h : parse_else_endif keyword skip fuel p w = some x)
    (hs : x.1 = true → x.2.1.pNextToken < p.pFileBuffer.length)
    (hu : x.1 = false → unterminated_reported x.2.2 = false) :
    ∃ T', parse_else_endif keyword skip fuel (extend_buffer T p) w
        = some (x.1, extend_buffer T' x.2.1, x.2.2) ∧ (x.1 = true → T' = T) := by
  obtain ⟨hd, hhd⟩ : ∃ hd, hd = scan (fun c => c != 0 && (c == 32 || c == 9)) p.pFileBuffer
      (p.pNextToken + skip) := ⟨_, rfl⟩
  have hh1 : hd < p.pFileBuffer.length := by
    rw [hhd]; exact scan_lt _ _ _ hc hp rfl rfl
  have e1 := scan_ext (fun c => c != 0 && (c == 32 || c == 9)) T p _ hc hp rfl rfl
  have e2 := opener_ext T p hd hc hh1
  have e3 := scan_ext notEol T p hd hc hh1 rfl rfl
  unfold parse_else_endif at h ⊢
  simp only [extend_buffer_next, e1, ← hhd, e2, e3] at h ⊢
  split at h
  · next hc1 =>
    rw [if_pos hc1]
    obtain ⟨T', e, eT⟩ := parse_comment_app T fuel { p with pNextToken := hd } _ _ hc hh1 h hs hu
    exact ⟨T', e, fun c => (eT c).1⟩
  · next hc1 =>
    rw [if_neg hc1]
    simp only [Option.some.injEq] at h
    subst h
    exact ⟨T, rfl, fun _ => rfl⟩

theorem parse_undef_app (T : List Nat) (p : parser_t) (w : World)
    (hc : line_closed p.pFileBuffer) (hp : p.pNextToken + 7 < p.pFileBuffer.length) :
    h2incn_parse_undef (extend_buffer T p) w
      = (true, extend_buffer T (h2incn_parse_undef p w).2.1, (h2incn_parse_undef p w).2.2) := by
  obtain ⟨hd, hhd⟩ : ∃ hd, hd = scan (fun c => c != 0 && (c == 32 || c == 9)) p.pFileBuffer
      (p.pNextToken + 7) := ⟨_, rfl⟩
  have hh1 : hd < p.pFileBuffer.length := by
    rw [hhd]; exact scan_lt _ _ _ hc hp rfl rfl
  obtain ⟨tl, htl⟩ : ∃ tl, tl = scan
      (fun c => c != 0 && c != 32 && c != 9 && c != 47 && c != 40 && c != 13 && c != 10)
      p.pFileBuffer hd := ⟨_, rfl⟩
  have hh2 : tl < p.pFileBuffer.length := by
    rw [htl]; exact scan_lt _ _ _ hc hh1 rfl rfl
  obtain ⟨t2, ht2⟩ : ∃ t2, t2 = scan (fun c => c != 0 && (c == 32 || c == 9)) p.pFileBuffer
      tl := ⟨_, rfl⟩
  have hh3 : t2 < p.pFileBuffer.length := by
    rw [ht2]; exact scan_lt _ _ _ hc hh2 rfl rfl
  have e1 := scan_ext (fun c => c != 0 && (c == 32 || c == 9)) T p _ hc hp rfl rfl
  have e2 := scan_ext
    (fun c => c != 0 && c != 32 && c != 9 && c != 47 && c != 40 && c != 13 && c != 10) T p hd
    hc hh1 rfl rfl
  have e3 := scan_ext (fun c => c != 0 && (c == 32 || c == 9)) T p tl hc hh2 rfl rfl
  have e4 := slice_ext T p hd tl (by omega)
  have e5 := byteAt_ext T p t2 hh3
  unfold h2incn_parse_undef
  simp only [extend_buffer_next, e1, ← hhd, e2, ← htl, e3, ← ht2, e4, e5]
  rfl

theorem parse_other_line_app (T : List Nat) (head : Nat) (p : parser_t) (w : World)
    (hc : line_closed p.pFileBuffer) (hp : head < p.pFileBuffer.length) :
    parse_other_line head (extend_buffer T p) w
      = (extend_buffer T (parse_other_line head p w).1, (parse_other_line head p w).2) := by
  obtain ⟨tl, htl⟩ : ∃ tl, tl = scan notEol p.pFileBuffer head := ⟨_, rfl⟩
  have hh1 : tl < p.pFileBuffer.length := by
    rw [htl]; exact scan_lt _ _ _ hc hp rfl rfl
  obtain ⟨t1, ht1⟩ : ∃ t1, t1 = if byteAt p.pFileBuffer tl == 13 then tl + 1 else tl :=
    ⟨_, rfl⟩
  have hl1 : t1 < p.pFileBuffer.length := by
    rw [ht1]
    split
    · next c =>
      have c' : byteAt p.pFileBuffer tl = 13 := by simpa using c
      exact succ_lt_of_byte _ _ hc (by rw [c']; decide) (by rw [c']; decide)
    · exact hh1
  obtain ⟨t2, ht2⟩ : ∃ t2, t2 = if byteAt p.pFileBuffer t1 == 10 then t1 + 1 else t1 :=
    ⟨_, rfl⟩
  have hl2 : t2 ≤ p.pFileBuffer.length := by
    rw [ht2]; split <;> omega
  have e1 := scan_ext notEol T p head hc hp rfl rfl
  have e2 := byteAt_ext T p tl hh1
  have e3 := byteAt_ext T p t1 hl1
  have e4 := slice_ext T p head t2 hl2
  unfold parse_other_line
  simp only [e1, ← htl, e2, ← ht1, e3, ← ht2, e4]
  by_cases c : (byteAt p.pFileBuffer t1 == 10) = true
  · simp only [c, if_true]; rfl
  · simp only [c, if_false]; rfl

theorem read_included_app (T : List Nat) (parse : parser_t → World → Option Result)
    (fs : List Nat → Option (List Nat)) (p : parser_t) (name : List Nat) (w : World) (x : Result)
    (hc : line_closed p.pFileBuffer) (h : read_included parse fs p name w = some x) :
    ∃ T', read_included parse fs (extend_buffer T p) name w
        = some (x.1, extend_buffer T' x.2.1, x.2.2) ∧
      line_closed x.2.1.pFileBuffer ∧ x.2.1.pFileBuffer.length = p.pFileBuffer.length ∧
      (x.1 = true → T' = T ∧ x.2.1 = p) := by
  unfold read_included h2incn_read_with at h ⊢
  simp only at h ⊢
  cases hfs : fs name with
  | none =>
    rw [hfs] at h
    simp only [Option.getD_some, Option.some.injEq] at h ⊢
    subst h
    obtain ⟨T', e, h1, h2⟩ := print_err_app T p w "h2incn_read: error opening file" hc
    refine ⟨T', ?_, h1, h2, fun c => by cases c⟩
    rw [e]
  | some content =>
    rw [hfs] at h
    simp only at h ⊢
    by_cases hl : content.length < 1
    · simp only [hl, if_true, Option.getD_some, Option.some.injEq] at h ⊢
      subst h
      exact ⟨T, rfl, hc, rfl, fun c => by cases c⟩
    · simp only [hl, if_false] at h ⊢
      cases hp : parse (⟨name, content, 0, 0, 1⟩ : parser_t) w with
      | none => rw [hp] at h; cases h
      | some y =>
        obtain ⟨b, q, u⟩ := y
        rw [hp] at h
        simp only [Option.getD_some, Option.some.injEq] at h ⊢
        subst h
        exact ⟨T, rfl, hc, rfl, fun _ => ⟨rfl, rfl⟩⟩

theorem include_finish_app (T : List Nat) (b : Bool) (tail : Nat) (p : parser_t) (w : World)
    (hc : line_closed p.pFileBuffer) (ht : tail < p.pFileBuffer.length) :
    include_finish b tail (extend_buffer T p) w
      = (b, extend_buffer T (include_finish b tail p w).2.1, w) := by
  obtain ⟨tl, htl⟩ : ∃ tl, tl = scan (fun c => c != 0 && c != 10) p.pFileBuffer tail := ⟨_, rfl⟩
  have hh1 : tl < p.pFileBuffer.length := by
    rw [htl]; exact scan_lt _ _ _ hc ht rfl rfl
  have e1 := scan_ext (fun c => c != 0 && c != 10) T p tail hc ht rfl rfl
  have e2 := byteAt_ext T p tl hh1
  unfold include_finish
  simp only [e1, ← htl, e2]
  have hbuf : (if byteAt p.pFileBuffer tl == 10 then
      ({ p with iLineNum := p.iLineNum + 1 } : parser_t) else p).pFileBuffer = p.pFileBuffer :=
    ite_buffer _ _ _ _ rfl rfl
  have hbuf' : (if byteAt p.pFileBuffer tl == 10 then
      ({ extend_buffer T p with iLineNum := (extend_buffer T p).iLineNum + 1 } : parser_t)
        else extend_buffer T p).pFileBuffer = (extend_buffer T p).pFileBuffer :=
    ite_buffer _ _ _ _ rfl rfl
  simp only [hbuf, hbuf', e2]
  by_cases c : (byteAt p.pFileBuffer tl == 10) = true
  · simp only [c, if_true]; rfl
  · simp only [c, if_false]; rfl

theorem include_finish_fst (b : Bool) (tail : Nat) (p : parser_t) (w : World) :
    (include_finish b tail p w).1 = b := rfl

theorem include_finish_buf (b : Bool) (tail : Nat) (p : parser_t) (w : World) :
    (include_finish b tail p w).2.1.pFileBuffer = p.pFileBuffer := by
  unfold include_finish
  simp only
  exact ite_buffer _ _ _ _ rfl rfl

theorem include_finish_world (b : Bool) (tail : Nat) (p : parser_t) (w : World) :
    (include_finish b tail p w).2.2 = w := rfl

theorem parse_include_app (T : List Nat) (parse : parser_t → World → Option Result)
    (fs : List Nat → Option (List Nat)) (p : parser_t) (w : World) (x : Result)
    (hc : line_closed p.pFileBuffer) (hp : p.pNextToken < p.pFileBuffer.length)
    (h : h2incn_parse_include (read_included parse fs) p w = some x) :
    ∃ T', h2incn_parse_include (read_included parse fs) (extend_buffer T p) w
        = some (x.1, extend_buffer T' x.2.1, x.2.2) ∧
      (x.1 = true → T' = T ∧ x.2.1.pFileBuffer = p.pFileBuffer) := by
  obtain ⟨hd, hhd⟩ : ∃ hd, hd = scan (fun c => c != 0 && c != 60 && c != 34 && c != 10)
      p.pFileBuffer p.pNextToken := ⟨_, rfl⟩
  have hh1 : hd < p.pFileBuffer.length := by
    rw [hhd]; exact scan_lt _ _ _ hc hp rfl rfl
  have e1 := scan_ext (fun c => c != 0 && c != 60 && c != 34 && c != 10) T p _ hc hp rfl rfl
  have e2 := byteAt_ext T p hd hh1
  unfold h2incn_parse_include at h ⊢
  simp only [extend_buffer_next, e1, ← hhd, e2] at h ⊢
  split at h
  · next hrec =>
    rw [if_pos hrec]
    split at h
    · next hc1 =>
      rw [if_pos hc1]
      simp only [Option.some.injEq] at h
      subst h
      obtain ⟨T', e, -, -⟩ := fail_with_app T p w "h2incn_parse_include: syntax error" hc
      refine ⟨T', ?_, fun c => by cases c⟩
      rw [e]
      rfl
    · next hc1 =>
      rw [if_neg hc1]
      have hh2 : hd + 1 < p.pFileBuffer.length := by
        apply succ_lt_of_byte _ _ hc
        · intro c0; rw [c0] at hc1; exact hc1 (by decide)
        · intro c0; rw [c0] at hc1; exact hc1 (by decide)
      obtain ⟨tl, htl⟩ : ∃ tl, tl = scan (fun c => c != 0 && c != 62 && c != 34 && c != 10)
          p.pFileBuffer (hd + 1) := ⟨_, rfl⟩
      have hh3 : tl < p.pFileBuffer.length := by
        rw [htl]; exact scan_lt _ _ _ hc hh2 rfl rfl
      have e3 := scan_ext (fun c => c != 0 && c != 62 && c != 34 && c != 10) T p _ hc hh2
        rfl rfl
      have e4 := byteAt_ext T p tl hh3
      have e5 := slice_ext T p (hd + 1) tl (by omega)
      simp only [e3, ← htl, e4, e5] at h ⊢
      split at h
      · next hc2 =>
        rw [if_pos hc2]
        simp only [Option.some.injEq] at h
        subst h
        obtain ⟨T', e, -, -⟩ := fail_with_app T p w "h2incn_parse_include: syntax error" hc
        refine ⟨T', ?_, fun c => by cases c⟩
        rw [e]
        rfl
      · next hc2 =>
        rw [if_neg hc2]
        split at h
        · next hc3 =>
          rw [if_pos hc3]
          simp only [Option.some.injEq] at h
          subst h
          exact ⟨T, rfl, fun _ => ⟨rfl, rfl⟩⟩
        · next hc3 =>
          rw [if_neg hc3]
          split at h
          · cases h
          · next b q u heq =>
            simp only [Option.some.injEq] at h
            subst h
            obtain ⟨T', e, h1, h2, h3⟩ := read_included_app T parse fs p _ _ _ hc heq
            rw [e]
            simp only
            refine ⟨T', ?_, ?_⟩
            · rw [include_finish_app T' b tl q u h1 (by rw [h2]; exact hh3)]
              rfl
            · intro hb
              rw [include_finish_fst] at hb
              obtain ⟨g1, g2⟩ := h3 hb
              simp only at g2
              refine ⟨g1, ?_⟩
              rw [include_finish_buf, g2]
  · next hrec =>
    rw [if_neg hrec]
    simp only [Option.some.injEq] at h
    subst h
    refine ⟨T, ?_, fun _ => ⟨rfl, include_finish_buf _ _ _ _⟩⟩
    rw [include_finish_app T true hd p w hc hh1]
    rfl

theorem keyword_ext (T : List Nat) (p : parser_t) (hc : line_closed p.pFileBuffer)
    (pat : List Nat) (hpat : ∀ c ∈ pat, c ≠ 0 ∧ c ≠ 10) (i : Nat)
    (hi : i < p.pFileBuffer.length) :
    startsWith (extend_buffer T p).pFileBuffer i pat = startsWith p.pFileBuffer i pat :=
  startsWith_app _ T hc pat hpat i hi

theorem dispatch_app (T : List Nat) (parse : parser_t → World → Option Result)
    (fs : List Nat → Option (List Nat)) (fuel : Nat) (p : parser_t) (w : World) (x : Result)
    (hc : line_closed p.pFileBuffer) (hp : p.pNextToken < p.pFileBuffer.length)
    (h : dispatch (read_included parse fs) fuel p.pNextToken p w = some x)
    (hs : x.1 = true → x.2.1.pNextToken < p.pFileBuffer.length)
    (hu : x.1 = false → unterminated_reported x.2.2 = false) :
    ∃ T', dispatch (read_included parse fs) fuel p.pNextToken (extend_buffer T p) w
        = some (x.1, extend_buffer T' x.2.1, x.2.2) ∧ (x.1 = true → T' = T) := by
  have eb := byteAt_ext T p _ hp
  have so := opener_ext T p _ hc hp
  have s1 := keyword_ext T p hc (bytes "#include ") (by decide) _ hp
  have s2 := keyword_ext T p hc (bytes "#define ") (by decide) _ hp
  have s3 := keyword_ext T p hc (bytes "#undef ") (by decide) _ hp
  have s4 := keyword_ext T p hc (bytes "#if ") (by decide) _ hp
  have s5 := keyword_ext T p hc (bytes "#ifdef ") (by decide) _ hp
  have s6 := keyword_ext T p hc (bytes "#ifndef ") (by decide) _ hp
  have s7 := keyword_ext T p hc (bytes "#elif") (by decide) _ hp
  have s8 := keyword_ext T p hc (bytes "#else") (by decide) _ hp
  have s9 := keyword_ext T p hc (bytes "#endif") (by decide) _ hp
  unfold dispatch at h ⊢
  simp only [eb, so, s1, s2, s3, s4, s5, s6, s7, s8, s9] at h ⊢
  have other : some (true, (parse_other_line p.pNextToken p w).1,
        (parse_other_line p.pNextToken p w).2) = some x →
      ∃ T', some (true, (parse_other_line p.pNextToken (extend_buffer T p) w).1,
          (parse_other_line p.pNextToken (extend_buffer T p) w).2)
        = some (x.1, extend_buffer T' x.2.1, x.2.2) ∧ (x.1 = true → T' = T) := by
    intro h
    simp only [Option.some.injEq] at h
    subst h
    rw [parse_other_line_app T _ p w hc hp]
    exact ⟨T, rfl, fun _ => rfl⟩
  by_cases c35 : (byteAt p.pFileBuffer p.pNextToken == 35) = true
  · rw [if_pos c35] at h ⊢
    by_cases m : startsWith p.pFileBuffer p.pNextToken (bytes "#include ") = true
    · rw [if_pos m] at h ⊢
      obtain ⟨T', e, eT⟩ := parse_include_app T parse fs p w x hc hp h
      exact ⟨T', e, fun c => (eT c).1⟩
    · rw [if_neg m] at h ⊢
      by_cases m : startsWith p.pFileBuffer p.pNextToken (bytes "#define ") = true
      · rw [if_pos m] at h ⊢
        have l := startsWith_lt _ hc (bytes "#define ") (by decide) _ hp m
        exact parse_define_app T fuel p w x hc l h hs hu
      · rw [if_neg m] at h ⊢
        by_cases m : startsWith p.pFileBuffer p.pNextToken (bytes "#undef ") = true
        · rw [if_pos m] at h ⊢
          have l := startsWith_lt _ hc (bytes "#undef ") (by decide) _ hp m
          simp only [Option.some.injEq] at h
          subst h
          rw [parse_undef_app T p w hc l]
          exact ⟨T, rfl, fun _ => rfl⟩
        · rw [if_neg m] at h ⊢
          by_cases m : startsWith p.pFileBuffer p.pNextToken (bytes "#if ") = true
          · rw [if_pos m] at h ⊢
            have l := startsWith_lt _ hc (bytes "#if ") (by decide) _ hp m
            exact parse_conditional_app T _ 4 fuel p w x hc l h hs hu
          · rw [if_neg m] at h ⊢
            by_cases m : startsWith p.pFileBuffer p.pNextToken (bytes "#ifdef ") = true
            · rw [if_pos m] at h ⊢
              have l := startsWith_lt _ hc (bytes "#ifdef ") (by decide) _ hp m
              exact parse_conditional_app T _ 7 fuel p w x hc l h hs hu
            · rw [if_neg m] at h ⊢
              by_cases m : startsWith p.pFileBuffer p.pNextToken (bytes "#ifndef ") = true
              · rw [if_pos m] at h ⊢
                have l := startsWith_lt _ hc (bytes "#ifndef ") (by decide) _ hp m
                exact parse_conditional_app T _ 8 fuel p w x hc l h hs hu
              · rw [if_neg m] at h ⊢
                by_cases m : startsWith p.pFileBuffer p.pNextToken (bytes "#elif") = true
                · rw [if_pos m] at h ⊢
                  have l := startsWith_lt _ hc (bytes "#elif") (by decide) _ hp m
                  exact parse_conditional_app T _ 5 fuel p w x hc l h hs hu
                · rw [if_neg m] at h ⊢
                  by_cases m : startsWith p.pFileBuffer p.pNextToken (bytes "#else") = true
                  · rw [if_pos m] at h ⊢
                    have l := startsWith_lt _ hc (bytes "#else") (by decide) _ hp m
                    exact parse_else_endif_app T _ 5 fuel p w x hc l h hs hu
                  · rw [if_neg m] at h ⊢
                    by_cases m : startsWith p.pFileBuffer p.pNextToken (bytes "#endif") = true
                    · rw [if_pos m] at h ⊢
                      have l := startsWith_lt _ hc (bytes "#endif") (by decide) _ hp m
                      exact parse_else_endif_app T _ 6 fuel p w x hc l h hs hu
                    · rw [if_neg m] at h ⊢
                      exact other h
  · rw [if_neg c35] at h ⊢
    by_cases o : isCommentOpener p.pFileBuffer p.pNextToken = true
    · rw [if_pos o] at h ⊢
      obtain ⟨T', e, eT⟩ := parse_comment_app T fuel p w x hc hp h hs hu
      exact ⟨T', e, fun c => (eT c).1⟩
    · rw [if_neg o] at h ⊢
      exact other h

theorem dispatch_buf (parse : parser_t → World → Option Result)
    (fs : List Nat → Option (List Nat)) (fuel : Nat) (p : parser_t) (w : World) (x : Result)
    (hc : line_closed p.pFileBuffer) (hp : p.pNextToken < p.pFileBuffer.length)
    (h : dispatch (read_included parse fs) fuel p.pNextToken p w = some x) (hx : x.1 = true) :
    x.2.1.pFileBuffer = p.pFileBuffer := by
  by_cases m : startsWith p.pFileBuffer p.pNextToken (bytes "#include ") = true
  · have c35 : (byteAt p.pFileBuffer p.pNextToken == 35) = true := by
      have e : bytes "#include " = 35 :: bytes "include " := by decide
      rw [e, startsWith_step, Bool.and_eq_true] at m
      exact m.1
    unfold dispatch at h
    simp only at h
    rw [if_pos c35, if_pos m] at h
    obtain ⟨_, _, hb⟩ := parse_include_app [] parse fs p w x hc hp h
    exact (hb hx).2
  · obtain ⟨_, _, _, _, hb⟩ := dispatch_transfer [] [] (read_included parse fs)
      (read_included parse fs) p.pNextToken fuel fuel p w w x (Nat.le_refl _)
      (out_related_self w) (by simpa using m) h
    exact hb hx

/-- The loop of `h2incn_parse` on the extended buffer: a run on the buffer that
fails, and not by an unterminated comment, fails in the same way, with the
same state, whatever text follows the buffer. -/
theorem parse_loop_app (T : List Nat) (fs : List Nat → Option (List Nat)) (fuel : Nat) :
    ∀ (p : parser_t) (w : World) (r : Result), line_closed p.pFileBuffer →
      parse_loop fs fuel p w = some r → r.1 = false → unterminated_reported r.2.2 = false →
      ∃ T', parse_loop fs fuel (extend_buffer T p) w
        = some (false, extend_buffer T' r.2.1, r.2.2) := by
  induction fuel with
  | zero =>
    intro p w r hc h hf hu
    by_cases h0 : byteAt p.pFileBuffer p.pNextToken = 0
    · rw [parse_loop_end fs 0 p w h0] at h
      simp only [Option.some.injEq] at h
      subst h
      cases hf
    · rw [parse_loop_zero fs p w h0] at h
      cases h
  | succ n ih =>
    intro p w r hc h hf hu
    by_cases h0 : byteAt p.pFileBuffer p.pNextToken = 0
    · rw [parse_loop_end fs _ p w h0] at h
      simp only [Option.some.injEq] at h
      subst h
      cases hf
    · have hp := lt_of_byteAt_ne_zero _ _ h0
      obtain ⟨hd, hhd⟩ : ∃ hd, hd = scan isBlank p.pFileBuffer p.pNextToken := ⟨_, rfl⟩
      have hh1 : hd < p.pFileBuffer.length := by
        rw [hhd]; exact scan_lt _ _ _ hc hp rfl rfl
      obtain ⟨t, ht⟩ : ∃ t, t = if byteAt p.pFileBuffer hd == 13 then hd + 1 else hd :=
        ⟨_, rfl⟩
      have hl1 : t < p.pFileBuffer.length := by
        rw [ht]
        split
        · next c =>
          have c' : byteAt p.pFileBuffer hd = 13 := by simpa using c
          exact succ_lt_of_byte _ _ hc (by rw [c']; decide) (by rw [c']; decide)
        · exact hh1
      rw [parse_loop_round fs n p w h0 hd t hhd ht] at h
      rw [parse_loop_round fs n (extend_buffer T p) w
        (by rw [extend_buffer_next, byteAt_ext T p _ hp]; exact h0) hd t
        (by rw [extend_buffer_next, scan_ext isBlank T p _ hc hp rfl rfl]; exact hhd)
        (by rw [byteAt_ext T p _ hh1]; exact ht)]
      rw [byteAt_ext T p t hl1]
      by_cases c10 : (byteAt p.pFileBuffer t == 10) = true
      · rw [if_pos c10] at h ⊢
        rw [slice_ext T p hd (t + 1) (by omega)]
        exact ih { p with iLineNum := p.iLineNum + 1, pNextToken := t + 1, pLine := t + 1 } _ r
          hc h hf hu
      · rw [if_neg c10] at h ⊢
        by_cases c0 : (byteAt p.pFileBuffer t == 0) = true
        · rw [if_pos c0] at h
          simp only [Option.some.injEq] at h
          subst h
          cases hf
        · rw [if_neg c0] at h ⊢
          cases hdp : dispatch (read_included (h2incn_parse fs n) fs) n t
              { p with pNextToken := t } w with
          | none => rw [hdp] at h; cases h
          | some y =>
            obtain ⟨b, q, v⟩ := y
            rw [hdp] at h
            cases b with
            | false =>
              simp only [Option.some.injEq] at h
              subst h
              obtain ⟨T', e, -⟩ := dispatch_app T (h2incn_parse fs n) fs n
                { p with pNextToken := t } w _ hc hl1 hdp (fun c => by cases c) (fun _ => hu)
              have e' : dispatch (read_included (h2incn_parse fs n) fs) n t
                  { extend_buffer T p with pNextToken := t } w = _ := e
              rw [e']
              exact ⟨T', rfl⟩
            | true =>
              simp only at h
              have hb := dispatch_buf (h2incn_parse fs n) fs n { p with pNextToken := t } w _
                hc hl1 hdp rfl
              simp only at hb
              have hq : q.pNextToken < p.pFileBuffer.length := by
                by_contra hn
                rw [parse_loop_end fs n q v (by rw [hb]; exact byteAt_ge _ _ (by omega))] at h
                simp only [Option.some.injEq] at h
                subst h
                cases hf
              obtain ⟨T', e, eT⟩ := dispatch_app T (h2incn_parse fs n) fs n
                { p with pNextToken := t } w _ hc hl1 hdp (fun _ => hq) (fun c => by cases c)
              have e' : dispatch (read_included (h2incn_parse fs n) fs) n t
                  { extend_buffer T p with pNextToken := t } w = _ := e
              rw [e']
              simp only
              rw [eT rfl]
              exact ih q v r (by rw [hb]; exact hc) h hf hu

/-- The function `h2incn_parse` on the extended buffer, for a run that fails. -/
theorem parse_app (T : List Nat) (fs : List Nat → Option (List Nat)) (fuel : Nat)
    (p : parser_t) (w : World) (r : Result) (hc : line_closed p.pFileBuffer)
    (h : h2incn_parse fs fuel p w = some r) (hf : r.1 = false)
    (hu : unterminated_reported r.2.2 = false) :
    ∃ T', h2incn_parse fs fuel (extend_buffer T p) w
      = some (false, extend_buffer T' r.2.1, r.2.2) :=
  parse_loop_app T fs fuel p _ r hc h hf hu

theorem read_included_same (parse : parser_t → World → Option Result)
    (fs : List Nat → Option (List Nat)) (p : parser_t) (name : List Nat) (w : World) (x : Result)
    (h : read_included parse fs p name w = some x) (hx : x.1 = true) : x.2.1 = p := by
  unfold read_included h2incn_read_with at h
  simp only at h
  cases hfs : fs name with
  | none =>
    rw [hfs] at h
    simp only [Option.getD_some, Option.some.injEq] at h
    subst h
    cases hx
  | some content =>
    rw [hfs] at h
    simp only at h
    by_cases hl : content.length < 1
    · simp only [hl, if_true, Option.getD_some, Option.some.injEq] at h
      subst h
      cases hx
    · simp only [hl, if_false] at h
      cases hp : parse (⟨name, content, 0, 0, 1⟩ : parser_t) w with
      | none => rw [hp] at h; cases h
      | some y =>
        obtain ⟨b, q, u⟩ := y
        rw [hp] at h
        simp only [Option.getD_some, Option.some.injEq] at h
        subst h
        rfl

theorem parse_include_keeps (parse : parser_t → World → Option Result)
    (fs : List Nat → Option (List Nat)) (p : parser_t) (w : World) (x : Result)
    (h : h2incn_parse_include (read_included parse fs) p w = some x) (hx : x.1 = true) :
    x.2.1.pFileBuffer = p.pFileBuffer := by
  unfold h2incn_parse_include at h
  simp only at h
  split at h
  · split at h
    · simp only [Option.some.injEq] at h
      subst h
      cases hx
    · split at h
      · simp only [Option.some.injEq] at h
        subst h
        cases hx
      · split at h
        · simp only [Option.some.injEq] at h
          subst h
          rfl
        · split at h
          · cases h
          · next b q u heq =>
            simp only [Option.some.injEq] at h
            subst h
            rw [include_finish_fst] at hx
            subst hx
            have := read_included_same parse fs p _ _ _ heq rfl
            simp only at this
            rw [include_finish_buf, this]
  · simp only [Option.some.injEq] at h
    subst h
    exact include_finish_buf _ _ _ _

theorem dispatch_keeps (parse : parser_t → World → Option Result)
    (fs : List Nat → Option (List Nat)) (fuel head : Nat) (p : parser_t) (w : World) (x : Result)
    (h : dispatch (read_included parse fs) fuel head p w = some x) (hx : x.1 = true) :
    x.2.1.pFileBuffer = p.pFileBuffer := by
  by_cases m : startsWith p.pFileBuffer head (bytes "#include ") = true
  · have c35 : (byteAt p.pFileBuffer head == 35) = true := by
      have e : bytes "#include " = 35 :: bytes "include " := by decide
      rw [e, startsWith_step, Bool.and_eq_true] at m
      exact m.1
    unfold dispatch at h
    simp only at h
    rw [if_pos c35, if_pos m] at h
    exact parse_include_keeps parse fs p w x h hx
  · obtain ⟨_, _, _, _, hb⟩ := dispatch_transfer [] [] (read_included parse fs)
      (read_included parse fs) head fuel fuel p w w x (Nat.le_refl _)
      (out_related_self w) (by simpa using m) h
    exact hb hx

/-- A failure returned by the loop of `h2incn_parse` is the return of one
handler call made by that loop, on the buffer the loop was given. -/
theorem parse_loop_failure_at (fs : List Nat → Option (List Nat)) (fuel : Nat) :
    ∀ (p : parser_t) (w : World) (r : Result), parse_loop fs fuel p w = some r → r.1 = false →
      ∃ n q v, n < fuel ∧ q.pFileBuffer = p.pFileBuffer ∧
        dispatch (read_included (h2incn_parse fs n) fs) n q.pNextToken q v = some r := by
  induction fuel with
  | zero =>
    intro p w r hr hf
    by_cases h0 : byteAt p.pFileBuffer p.pNextToken = 0
    · rw [parse_loop_end fs 0 p w h0] at hr
      simp only [Option.some.injEq] at hr
      subst hr
      cases hf
    · rw [parse_loop_zero fs p w h0] at hr
      cases hr
  | succ n ih =>
    intro p w r hr hf
    by_cases h0 : byteAt p.pFileBuffer p.pNextToken = 0
    · rw [parse_loop_end fs _ p w h0] at hr
      simp only [Option.some.injEq] at hr
      subst hr
      cases hf
    · obtain ⟨t, ht⟩ : ∃ t, t = if byteAt p.pFileBuffer (scan isBlank p.pFileBuffer p.pNextToken)
          == 13 then scan isBlank p.pFileBuffer p.pNextToken + 1
          else scan isBlank p.pFileBuffer p.pNextToken := ⟨_, rfl⟩
      rw [parse_loop_round fs n p w h0 _ t rfl ht] at hr
      by_cases c10 : (byteAt p.pFileBuffer t == 10) = true
      · rw [if_pos c10] at hr
        obtain ⟨m, q, v, h1, h2, h3⟩ := ih _ _ r hr hf
        exact ⟨m, q, v, by omega, h2, h3⟩
      · rw [if_neg c10] at hr
        by_cases c0 : (byteAt p.pFileBuffer t == 0) = true
        · rw [if_pos c0] at hr
          simp only [Option.some.injEq] at hr
          subst hr
          cases hf
        · rw [if_neg c0] at hr
          cases hdp : dispatch (read_included (h2incn_parse fs n) fs) n t
              { p with pNextToken := t } w with
          | none => rw [hdp] at hr; cases hr
          | some y =>
            obtain ⟨b, q, v⟩ := y
            rw [hdp] at hr
            cases b with
            | false =>
              simp only [Option.some.injEq] at hr
              subst hr
              exact ⟨n, { p with pNextToken := t }, w, by omega, rfl, hdp⟩
            | true =>
              simp only at hr
              have hb := dispatch_keeps (h2incn_parse fs n) fs n t { p with pNextToken := t } w _
                hdp rfl
              simp only at hb
              obtain ⟨m, q', v', h1, h2, h3⟩ := ih _ _ r hr hf
              exact ⟨m, q', v', by omega, h2.trans hb, h3⟩

/-- C14: a failure returned by `h2incn_parse` is, state included, the return
of one handler call of its loop on the same buffer: nothing is written and no
handler runs after the failing one. A round in which the dispatched handler
returns failure makes the loop return that very result at once. When the
failing handler is the include handler, its failure is a syntax error of its
own or the failure of the loader it called, whose state it returns unchanged.
And the result does not depend on the input that follows the failing
construct: when the buffer ends with its last line (a line feed or a NUL is
its last byte) and the failure is not the report of an unterminated comment,
which runs to the end of the input, then with any text `T` appended to the
buffer `h2incn_parse` fails again and leaves the same state, the bytes written
included; the parser returned differs by the appended text only. -/
theorem parse_stops_at_first_failure (fs : List Nat → Option (List Nat)) (fuel : Nat)
    (p : parser_t) (w : World) (r : Result)
    (hr : h2incn_parse fs fuel p w = some r) (hf : r.1 = false) :
    (∃ n q v, n < fuel ∧ q.pFileBuffer = p.pFileBuffer ∧
      dispatch (read_included (h2incn_parse fs n) fs) n q.pNextToken q v = some r) ∧
    (∀ (n : Nat) (p : parser_t) (w : World) (t : Nat) (r : Result),
      byteAt p.pFileBuffer p.pNextToken ≠ 0 →
      t = (if byteAt p.pFileBuffer (scan isBlank p.pFileBuffer p.pNextToken) == 13
        then scan isBlank p.pFileBuffer p.pNextToken + 1
        else scan isBlank p.pFileBuffer p.pNextToken) →
      byteAt p.pFileBuffer t ≠ 10 → byteAt p.pFileBuffer t ≠ 0 →
      dispatch (read_included (h2incn_parse fs n) fs) n t { p with pNextToken := t } w = some r →
      r.1 = false → parse_loop fs (n + 1) p w = some r) ∧
    (∀ (read : parser_t → List Nat → World → Option Result) (p : parser_t) (w : World)
      (r : Result), h2incn_parse_include read p w = some r → r.1 = false →
      r = fail_with p w "h2incn_parse_include: syntax error" ∨
        ∃ name v q, read p name v = some (false, q, r.2.2)) ∧
    (line_closed p.pFileBuffer → unterminated_reported r.2.2 = false →
      ∀ T : List Nat, ∃ r', h2incn_parse fs fuel (extend_buffer T p) w = some r' ∧
        r'.1 = false ∧ r'.2.2 = r.2.2 ∧ r'.2.2.out = r.2.2.out ∧
        ∃ T', r'.2.1 = extend_buffer T' r.2.1) := by
  refine ⟨parse_loop_failure_at fs fuel p _ r hr hf, ?_, ?_, ?_⟩
  · intro n p w t r h0 ht c10 c0 hd hf
    rw [parse_loop_round fs n p w h0 _ t rfl ht]
    obtain ⟨b, q, v⟩ := r
    simp only at hf
    subst hf
    simp [c10, c0, hd]
  · intro read p w r hr hf
    exact parse_include_failure read p w r hr hf
  · intro hc hu T
    obtain ⟨T', e⟩ := parse_app T fs fuel p w r hc hr hf hu
    exact ⟨_, e, rfl, rfl, rfl, T', rfl⟩

theorem parse_stops_at_first_failure_witness :
    ∃ r', h2incn_parse (fun _ => none) 1
        (extend_buffer (bytes "int x;\n") (parser_at (bytes "#include foo\n") 0))
        ⟨{ fRecurse := true }, empty_map 1, empty_map 1, [], []⟩ = some r' ∧
      r'.1 = false ∧
      r'.2.2 = (fail_with (parser_at (bytes "#include foo\n") 0)
        ⟨{ fRecurse := true }, empty_map 1, empty_map 1, [], []⟩
        "h2incn_parse_include: syntax error").2.2 ∧
      r'.2.2.out = [] ∧
      ∃ T', r'.2.1 = extend_buffer T' (fail_with (parser_at (bytes "#include foo\n") 0)
        ⟨{ fRecurse := true }, empty_map 1, empty_map 1, [], []⟩
        "h2incn_parse_include: syntax error").2.1 :=
  (parse_stops_at_first_failure (fun _ => none) 1 (parser_at (bytes "#include foo\n") 0)
    ⟨{ fRecurse := true }, empty_map 1, empty_map 1, [], []⟩
    (fail_with (parser_at (bytes "#include foo\n") 0)
        ⟨{ fRecurse := true }, empty_map 1, empty_map 1, [], []⟩
        "h2incn_parse_include: syntax error") (by decide) (by decide)).2.2.2
    (Or.inl (by decide)) (by decide) (bytes "int x;\n")

end H2incn
